import Mathlib

/-!
# Morphological erosion and dilation with N-dimensional structuring elements,
# labelling of connected components, and spatial filtering

A shallow embedding of `imerode.cc`, `strel.cc` and `strel.h`, of `union-find.h++`
and the function `bwlabel_nd` of `bwlabeln.cc`, and of the functions `compare`, `selnth`,
`min_filt`, `max_filt` and `do_filtering` of `__spatial_filtering__.cc`.

* Host arrays (`Array<T>`, `dim_vector`) are a list of extents together with the
  elements in column-major order.  Only the host operations the sources call are
  modelled (`numel`, `cumulative`, `redim`, `insert`, `index`, `find`, `ind2sub`,
  `increment_index`); removal of trailing singleton dimensions is not modelled.
* The element type `P` of an image is any linearly ordered type; what else the
  engine needs from it (the images of `octave_Inf`, `-octave_Inf` and `false`, the
  arithmetic, the conversion of a height, and whether `P` is `bool`) is an `ElemType`.
* `octave_idx_type` values that may become negative (origins, padding amounts,
  `out_size`) are integers; extents and linear indices are natural numbers.
* `error (...)` followed by `return octave_value ()` is `Except.error`;
  a failing `assert` is `none`.
* The constructor of `strel` from an `octave_value` calls the `@strel` class, which is not
  part of these sources; an SE is built here by the two constructors from arrays, or by
  `strel.ctor_value`, which takes the answers of the `@strel` methods as parameters, and
  `imerode` and `imdilate` receive the SE already built.
* The vector of pointers of `union_find` is a list of optional voxels, a null pointer being
  `none`; the recursion of `find` is bounded by the number of voxels.  The `std::set` of
  linear offsets of `populate_neighbours` is an increasing list without repetition, and
  the map `ids_to_label` a list of pairs.  An access outside `L_vec` is `none`.
* The array `vals` of `selnth`, `min_filt` and `max_filt` is a list over a linearly ordered
  type (`compare` for `Complex` is not modelled), and the `int` variables of `selnth` are
  integers without wrap-around.  An access outside an array is `none`; the loops of `selnth`
  and of `do_filtering` without a bound of their own are given one, and reaching it is
  `none` as well.
-/

namespace Machinel

deriving instance DecidableEq for Except

/-! ## Host arrays -/

/-- Dense N-dimensional array: extents (`dims ()`) and elements in column-major order. -/
structure NDArray (α : Type) where
  dims : List Nat
  data : List α
deriving DecidableEq, Repr

namespace NDArray

variable {α : Type}

/-- Number of elements announced by the extents (`numel ()`). -/
def numel (a : NDArray α) : Nat := a.dims.prod

/-- Number of dimensions (`ndims ()`). -/
def ndims (a : NDArray α) : Nat := a.dims.length

/-- Test `is_empty ()`: some extent is zero. -/
def is_empty (a : NDArray α) : Bool := a.numel == 0

/-- Constructor `T (dv, val)`: every element is `val`. -/
def filled (dv : List Nat) (val : α) : NDArray α := ⟨dv, List.replicate dv.prod val⟩

/-- Host invariant of an array: at least two dimensions, and as many elements as
the extents announce. -/
def wf (a : NDArray α) : Prop := 2 ≤ a.dims.length ∧ a.data.length = a.dims.prod

instance (a : NDArray α) : Decidable a.wf := by unfold wf; infer_instance

end NDArray

/-- Running products of the extents (`dim_vector::cumulative`), e.g. `[10, 200, 800, 4000]`
for `10x20x4x5`. -/
def cumulative : List Nat → List Nat
  | [] => []
  | d :: ds => d :: (cumulative ds).map (fun c => d * c)

/-- Change the number of dimensions to `n` (`dim_vector::redim`): pad with ones, or
fold the trailing extents into the last one kept. -/
def redim (dv : List Nat) (n : Nat) : List Nat :=
  if dv.length ≤ n then dv ++ List.replicate (n - dv.length) 1
  else dv.take (n - 1) ++ [(dv.drop (n - 1)).prod]

/-- Column-major linear index of a multi-index (`compute_index`). -/
def sub2ind : List Nat → List Nat → Nat
  | d :: ds, s :: ss => s + d * sub2ind ds ss
  | _, _ => 0

/-- Multi-index of a linear index (`ind2sub`), first index fastest. -/
def ind2sub : List Nat → Nat → List Nat
  | [], _ => []
  | d :: ds, i => (i % d) :: ind2sub ds (i / d)

/-- The multi-index `sub` lies inside an array of extents `dv`. -/
def inBox : List Nat → List Nat → Bool
  | [], [] => true
  | d :: ds, s :: ss => decide (s < d) && inBox ds ss
  | _, _ => false

/-- Step a multi-index to the next cell in column-major order (`increment_index`);
the last coordinate is never wrapped. -/
def increment_index : List Nat → List Nat → List Nat
  | [], _ => []
  | [a], _ => [a + 1]
  | a :: b :: rest, dv =>
    if a + 1 < dv.headD 1 then (a + 1) :: b :: rest
    else 0 :: increment_index (b :: rest) dv.tail

namespace NDArray

variable {α : Type}

/-- Element at a multi-index inside the array, `none` outside. -/
def get? (a : NDArray α) (sub : List Nat) : Option α :=
  if inBox a.dims sub then a.data[sub2ind a.dims sub]? else none

/-- Method `insert (b, ra_idx)`: the array `a` with `b` written into the block that starts
at the multi-index `ra_idx`. -/
def insert (a b : NDArray α) (ra_idx : List Int) : NDArray α :=
  ⟨a.dims, a.data.mapIdx (fun i x =>
    let sub := ind2sub a.dims i
    let rel := List.zipWith (fun (s : Nat) (r : Int) => ((s : Int) - r).toNat) sub ra_idx
    if (List.zipWith (fun (s : Nat) (r : Int) => decide (r ≤ (s : Int))) sub ra_idx).all id
        && inBox b.dims rel
    then b.data.getD (sub2ind b.dims rel) x else x)⟩

/-- Method `index (ranges)` for contiguous ranges `idx_vector (start, limit)`, each given as
its start and its length: the block of `a` that starts at the multi-index of the starts. -/
def index (a : NDArray α) (ranges : List (Nat × Nat)) (dflt : α) : NDArray α :=
  let od := ranges.map Prod.snd
  ⟨od, (List.range od.prod).map (fun j =>
    a.data.getD (sub2ind a.dims (List.zipWith (fun p r => r.1 + p) (ind2sub od j) ranges)) dflt)⟩

/-- Linear index of the first true element (`find (1)(0)`); it is read only when the SE
has exactly one true element. -/
def find_first (a : NDArray Bool) : Nat := a.data.indexOf true

end NDArray

/-! ## Structuring elements (`strel.h`, `strel.cc`) -/

/-- The class `strel`: the private members in the order of the header. -/
structure strel (H : Type) where
  nhood : NDArray Bool
  height : NDArray H
  nnz : Nat
  origin : List Int
  size : List Nat
  ndims : Nat
  decomposition : List (strel H)

namespace strel

variable {H : Type}

/-- Member `ini_ctor`, applied to the members set by the initialiser list. -/
def ini_ctor (nhood : NDArray Bool) (height : NDArray H) (origin : List Int) : strel H :=
  { nhood := nhood, height := height, origin := origin,
    size := nhood.dims, ndims := nhood.ndims, nnz := nhood.data.count true,
    decomposition := [] }

/-- Member `default_origin`: `floor ((size (dim) + 1) / 2) - 1` in every dimension. -/
def default_origin (se : strel H) : List Int :=
  (List.range se.ndims).map (fun dim => (((se.size.getD dim 0 + 1) / 2 : Nat) : Int) - 1)

/-- Member `end_ctor`: an empty decomposition becomes the SE itself. -/
def end_ctor (se : strel H) : strel H :=
  if se.decomposition.isEmpty then { se with decomposition := [se] } else se

/-- The assertions of `validate_origin`. -/
def validate_origin (se : strel H) : Bool :=
  decide (se.ndims = se.origin.length) &&
  (List.range se.ndims).all (fun dim =>
    decide (0 ≤ se.origin.getD dim 0) && decide (se.origin.getD dim 0 < (se.size.getD dim 0 : Int)))

/-- Constructor `strel (nhood, height)`. -/
def ctor (nhood : NDArray Bool) (height : NDArray H) : strel H :=
  let se := ini_ctor nhood height []
  end_ctor { se with origin := default_origin se }

/-- Constructor `strel (nhood, height, origin)`; `none` when an assertion of
`validate_origin` fails. -/
def ctor_origin (nhood : NDArray Bool) (height : NDArray H) (origin : List Int) :
    Option (strel H) :=
  let se := ini_ctor nhood height origin
  if validate_origin se then some (end_ctor se) else none

def get_nhood (se : strel H) : NDArray Bool := se.nhood

def get_nnz (se : strel H) : Nat := se.nnz

def get_origin (se : strel H) : List Int := se.origin

/-- Number of strel objects after decomposition (`numel`). -/
def numel (se : strel H) : Nat := se.decomposition.length

/-- Member `set_origin`; `none` when an assertion of `validate_origin` fails. -/
def set_origin (se : strel H) (sub : List Int) : Option (strel H) :=
  let se1 := { se with origin := sub }
  if validate_origin se1 then some se1 else none

/-- Member `reflect`: elements reversed in linear order, origin moved to
`size (dim) - origin (dim) - 1`; built by the three-argument constructor. -/
def reflect [Zero H] (se : strel H) : Option (strel H) :=
  let numel := se.nhood.numel
  let ref_nhood : NDArray Bool :=
    ⟨se.size, (List.range numel).map (fun ind => se.nhood.data.getD (numel - ind - 1) false)⟩
  let ref_height : NDArray H :=
    ⟨se.size, (List.range numel).map (fun ind => se.height.data.getD (numel - ind - 1) 0)⟩
  let ref_origin : List Int := se.origin.mapIdx (fun dim o =>
    if dim < se.ndims then (se.size.getD dim 0 : Int) - o - 1 else o)
  ctor_origin ref_nhood ref_height ref_origin

/-- Member `flat`. -/
def flat [Zero H] [DecidableEq H] (se : strel H) : Bool :=
  if se.height.data.all (fun h => decide (h = 0)) then true
  else !((List.range se.height.numel).any (fun ind => decide (se.height.data.getD ind 0 ≠ 0)))

/-- The value stored by `offsets` for the cell `sub`:
`sub (0) + sum over dim >= 1 of cum_size (dim-1) * sub (dim)`. -/
def offset_of (cum_size : List Nat) : List Nat → Nat
  | [] => 0
  | s0 :: rest => s0 + (List.zipWith (fun c s => c * s) cum_size rest).sum

/-- The loop of `offsets`: `sub` steps through the cells with `increment_index` until `nnz`
true cells have been found; `fuel` bounds the number of cells visited. -/
def offsets_loop (se : strel H) (cum_size : List Nat) : Nat → List Nat → Nat → List Nat
  | 0, _, _ => []
  | fuel + 1, sub, found =>
    if found < se.nnz then
      if se.nhood.data.getD (sub2ind se.nhood.dims sub) false then
        offset_of cum_size sub :: offsets_loop se cum_size fuel (increment_index sub se.size) (found + 1)
      else offsets_loop se cum_size fuel (increment_index sub se.size) found
    else []

/-- Member `offsets (cum_size)`. -/
def offsets (se : strel H) (cum_size : List Nat) : List Nat :=
  offsets_loop se cum_size se.nhood.numel (List.replicate se.ndims 0) 0

/-- The loop of `true_heights`: `ind` runs over the linear indices until `nnz` true cells
have been found. -/
def true_heights_loop {P : Type} (se : strel H) (conv : H → P) (dflt : H) :
    Nat → Nat → Nat → List P
  | 0, _, _ => []
  | fuel + 1, ind, found =>
    if found < se.nnz then
      if se.nhood.data.getD ind false then
        conv (se.height.data.getD ind dflt) :: true_heights_loop se conv dflt fuel (ind + 1) (found + 1)
      else true_heights_loop se conv dflt fuel (ind + 1) found
    else []

/-- Member `true_heights<P>`; `conv` is the conversion from a height to `P`. -/
def true_heights {P : Type} [Zero H] (se : strel H) (conv : H → P) : List P :=
  true_heights_loop se conv 0 se.nhood.numel 0 0

/-- Method `resize (dim_vector (n, 1), 0)` of an index array that is a column, as
`default_origin` builds the origin. -/
def resize_idx (l : List Int) (n : Nat) : List Int :=
  l.take n ++ List.replicate (n - l.length) 0

/-- Method `resize (n, 1)` of a `dim_vector`. -/
def resize_dv (l : List Nat) (n : Nat) : List Nat :=
  l.take n ++ List.replicate (n - l.length) 1

/-- Member `pre_pad (mt_ndims, shape)`. -/
def pre_pad (se : strel H) (mt_ndims : Nat) (shape : String) : Except String (List Int) :=
  let pad : List Int := List.replicate mt_ndims 0
  if shape = "valid" then .ok pad
  else
    let body (pad_times : Int) : List Int :=
      let resized_origin := if se.ndims < mt_ndims then resize_idx se.origin mt_ndims else se.origin
      (List.range mt_ndims).map (fun dim => resized_origin.getD dim 0 * pad_times)
    if shape = "same" then .ok (body 1)
    else if shape = "full" then .ok (body 2)
    else .error "invalid SHAPE"

/-- Member `post_pad (mt_ndims, shape)`. -/
def post_pad (se : strel H) (mt_ndims : Nat) (shape : String) : Except String (List Int) :=
  let pad : List Int := List.replicate mt_ndims 0
  if shape = "valid" then .ok pad
  else
    let body (pad_times : Int) : List Int :=
      let resized_origin := if se.ndims < mt_ndims then resize_idx se.origin mt_ndims else se.origin
      let resized_size := if se.ndims < mt_ndims then resize_dv se.size mt_ndims else se.size
      (List.range mt_ndims).map (fun dim =>
        ((resized_size.getD dim 0 : Int) - resized_origin.getD dim 0 - 1) * pad_times)
    if shape = "same" then .ok (body 1)
    else if shape = "full" then .ok (body 2)
    else .error "invalid SHAPE"

end strel

/-! ## The engine (`imerode.cc`) -/

/-- What the engine uses of the element type `P` of an image besides its order: whether
`P` is `bool` (`typeid (P) == typeid (bool)`), the conversions `P (octave_Inf)`,
`P (-octave_Inf)` and `P (false)`, the operators `+` and `-` of `P`, and the conversion of
a height. -/
structure ElemType (P H : Type) where
  isBool : Bool
  ofInf : P
  ofNegInf : P
  ofFalse : P
  add : P → P → P
  sub : P → P → P
  ofHeight : H → P

section Engine

variable {P H : Type} [LinearOrder P]

/-- The properties of the element types the engine is instantiated with: `P (octave_Inf)`
is the largest value, the value padded for dilation is the smallest, and `bool` has
no other value than these two. -/
def ElemType.lawful (E : ElemType P H) : Prop :=
  (∀ x : P, x ≤ E.ofInf) ∧
  (∀ x : P, (if E.isBool then E.ofFalse else E.ofNegInf) ≤ x) ∧
  (E.isBool = true → ∀ x : P, x = E.ofFalse ∨ x = E.ofInf)

/-- Value the image is padded with, and the output initialised with: `octave_Inf` for
erosion; for dilation `false` when `P` is `bool` and `-octave_Inf` otherwise. -/
def ElemType.padval (E : ElemType P H) (erosion : Bool) : P :=
  if erosion then E.ofInf else if E.isBool then E.ofFalse else E.ofNegInf

/-- Function `pad_matrix`. -/
def pad_matrix (mt : NDArray P) (se : strel H) (padval : P) (shape : String) :
    Except String (NDArray P) :=
  if shape = "valid" then .ok mt
  else
    let ndims := mt.ndims
    match se.pre_pad ndims shape, se.post_pad ndims shape with
    | .ok pre_pad, .ok post_pad =>
      let padded_size : List Int := (List.range ndims).map (fun dim =>
        (mt.dims.getD dim 0 : Int) + (pre_pad.getD dim 0 + post_pad.getD dim 0))
      let padded : NDArray P := NDArray.filled (padded_size.map Int.toNat) padval
      .ok (padded.insert mt pre_pad)
    | .error e, _ => .error e
    | _, .error e => .error e

/-- The loop over `nnz_idx` in `erode_line` for one `line_idx`: `inp` is the whole padded
buffer, `pos` the position the pointer `in` has reached, `o` the current `out[line_idx]`,
and the list holds the values `nnz_idx` still has to take.  A read past the buffer
yields `P (octave_Inf)`. -/
def erode_cell (E : ElemType P H) (erosion flat : Bool) (inp : List P) (pos : Nat)
    (offsets : List Nat) (height : List P) : List Nat → P → P
  | [], o => o
  | nnz_idx :: rest, o =>
    let x := inp.getD (pos + offsets.getD nnz_idx 0) E.ofInf
    if flat then
      if erosion then
        if x < o then
          if E.isBool then x else erode_cell E erosion flat inp pos offsets height rest x
        else erode_cell E erosion flat inp pos offsets height rest o
      else
        if x > o then
          if E.isBool then x else erode_cell E erosion flat inp pos offsets height rest x
        else erode_cell E erosion flat inp pos offsets height rest o
    else
      if erosion then
        let val := E.sub x (height.getD nnz_idx E.ofInf)
        erode_cell E erosion flat inp pos offsets height rest (if val < o then val else o)
      else
        let val := E.add x (height.getD nnz_idx E.ofInf)
        erode_cell E erosion flat inp pos offsets height rest (if val > o then val else o)

/-- Function `erode_line`: `in_pos` and `out_pos` are the positions of the pointers `in`
and `out` in their buffers; the result is the output buffer after the loop. -/
def erode_line (E : ElemType P H) (erosion flat : Bool) (inp : List P) (in_pos : Nat)
    (out : List P) (out_pos : Nat) (offsets : List Nat) (height : List P) (nnz : Nat)
    (line_length : Nat) : List P :=
  (List.range line_length).foldl (fun out line_idx =>
    out.set (out_pos + line_idx)
      (erode_cell E erosion flat inp (in_pos + line_idx) offsets height (List.range nnz)
        (out.getD (out_pos + line_idx) E.ofInf))) out

/-- Function `erode_nd`. -/
def erode_nd (E : ElemType P H) (erosion flat : Bool) (inp : List P) (in_cd : List Nat)
    (out_cd out_d : List Nat) (offsets : List Nat) (height : List P) (nnz : Nat) :
    Nat → Nat → Nat → List P → List P
  | 0, in_pos, out_pos, out =>
    erode_line E erosion flat inp in_pos out out_pos offsets height nnz (out_d.getD 0 0)
  | dim + 1, in_pos, out_pos, out =>
    (List.range (out_d.getD (dim + 1) 0)).foldl (fun out elem =>
      erode_nd E erosion flat inp in_cd out_cd out_d offsets height nnz dim
        (in_pos + in_cd.getD dim 0 * elem) (out_pos + out_cd.getD dim 0 * elem) out) out

/-- The branch of `erode` taken when the SE has a single neighbour: the padded matrix is
indexed with the ranges that start at the subscripts of that neighbour.  A range
`idx_vector (start, limit)` with `limit < start` is empty. -/
def erode_shift (E : ElemType P H) (padded : NDArray P) (se : strel H)
    (nhood_size : List Nat) (out_size : List Int) : NDArray P :=
  let ind := se.get_nhood.find_first
  let sub := ind2sub nhood_size ind
  let ranges : List (Nat × Nat) := (List.range padded.ndims).map (fun dim =>
    (sub.getD dim 0, (out_size.getD dim 0).toNat))
  padded.index ranges E.ofInf

/-- The branch of `erode` for several neighbours (or none): the output is created with
the value `padval` and swept by `erode_nd`.  Creating an array with a negative extent
fails in the host. -/
def erode_sweep (E : ElemType P H) (padded : NDArray P) (erosion : Bool)
    (out_size : List Int) (cum_size offsets : List Nat) (heights : List P) (flat : Bool) :
    Except String (NDArray P) :=
  if out_size.any (fun n => decide (n < 0)) then .error "out of memory or dimension too large"
  else
    let out_d := out_size.map Int.toNat
    let out : NDArray P := NDArray.filled out_d (E.padval erosion)
    .ok ⟨out_d, erode_nd E erosion flat padded.data cum_size (cumulative out_d) out_d
      offsets heights offsets.length (padded.ndims - 1) 0 0 out.data⟩

/-- The part of `erode` that follows the padding. -/
def erode_padded [Zero H] [DecidableEq H] (E : ElemType P H) (padded : NDArray P)
    (se : strel H) (erosion : Bool) : Except String (NDArray P) :=
  let nhood := se.get_nhood
  let ndims := padded.ndims
  let nhood_size := redim nhood.dims ndims
  let padded_size := padded.dims
  let cum_size := cumulative padded_size
  let offsets := se.offsets cum_size
  let heights := se.true_heights E.ofHeight
  let flat := se.flat
  if E.isBool && !flat then .error "only non flat structuring elements for binary images"
  else
    let out_size : List Int := (List.range ndims).map (fun i =>
      (padded_size.getD i 0 : Int) - ((nhood_size.getD i 0 : Int) - 1))
    if se.get_nnz = 1 then .ok (erode_shift E padded se nhood_size out_size)
    else erode_sweep E padded erosion out_size cum_size offsets heights flat

/-- Function `erode`. -/
def erode [Zero H] [DecidableEq H] (E : ElemType P H) (im : NDArray P) (se : strel H)
    (shape : String) (erosion : Bool) : Except String (NDArray P) :=
  let nhood := se.get_nhood
  if im.is_empty || nhood.is_empty then .ok im
  else
    match pad_matrix im se (E.padval erosion) shape with
    | .error e => .error e
    | .ok padded => erode_padded E padded se erosion

/-- The loop of `base_action` over the elements of the decomposition. -/
def base_action_loop [Zero H] [DecidableEq H] (E : ElemType P H) (shape : String)
    (erosion : Bool) : List (strel H) → NDArray P → Except String (NDArray P)
  | [], im => .ok im
  | se_elem :: rest, im =>
    match erode E im se_elem shape erosion with
    | .error e => .error e
    | .ok im1 => base_action_loop E shape erosion rest im1

/-- Function `base_action` from the point where the SE has been built; for dilation the
SE is reflected first, and a failed assertion there aborts. -/
def base_action [Zero H] [DecidableEq H] (E : ElemType P H) (erosion : Bool) (im : NDArray P)
    (se : strel H) (shape : String) : Option (Except String (NDArray P)) :=
  match (if erosion then some se else se.reflect) with
  | none => none
  | some se1 => some (base_action_loop E shape erosion se1.decomposition im)

/-- Function `imerode (im, se, shape)`. -/
def imerode [Zero H] [DecidableEq H] (E : ElemType P H) (im : NDArray P) (se : strel H)
    (shape : String) : Option (Except String (NDArray P)) :=
  base_action E true im se shape

/-- Function `imdilate (im, se, shape)`. -/
def imdilate [Zero H] [DecidableEq H] (E : ElemType P H) (im : NDArray P) (se : strel H)
    (shape : String) : Option (Except String (NDArray P)) :=
  base_action E false im se shape

end Engine

/-! ## Element types used in the examples -/

/-- The element type `bool`: `octave_Inf` and `-octave_Inf` both convert to `true`. -/
def boolElem : ElemType Bool Int :=
  { isBool := true, ofInf := true, ofNegInf := true, ofFalse := false,
    add := fun a b => a || b, sub := fun a b => a && !b, ofHeight := fun h => decide (h ≠ 0) }

/-- The element type `uint8` with the saturating arithmetic of `octave_int`. -/
def uint8Elem : ElemType (Fin 256) Int :=
  { isBool := false, ofInf := 255, ofNegInf := 0, ofFalse := 0,
    add := fun a b => if h : a.val + b.val < 256 then ⟨a.val + b.val, h⟩ else 255,
    sub := fun a b => ⟨a.val - b.val, by omega⟩,
    ofHeight := fun h => if h256 : h.toNat < 256 then ⟨h.toNat, h256⟩ else 255 }

/-! ## Notions used to state the properties -/

/-- Linear indices, counted from `ind`, of the true entries of a list of cells. -/
def active_from : Nat → List Bool → List Nat
  | _, [] => []
  | ind, b :: bs => if b then ind :: active_from (ind + 1) bs else active_from (ind + 1) bs

/-- Multi-indices of the active (true) cells of the neighbourhood, in column-major order. -/
def strel.active {H : Type} (se : strel H) : List (List Nat) :=
  (active_from 0 se.nhood.data).map (ind2sub se.nhood.dims)

/-- Height stored at the cell `s` of the neighbourhood. -/
def strel.height_at {H : Type} [Zero H] (se : strel H) (s : List Nat) : H :=
  se.height.data.getD (sub2ind se.nhood.dims s) 0

/-- The members computed by `ini_ctor` agree with the neighbourhood, which has as many
cells as its extents announce. -/
structure strel.consistent {H : Type} (se : strel H) : Prop where
  size_eq : se.size = se.nhood.dims
  ndims_eq : se.ndims = se.nhood.dims.length
  nnz_eq : se.nnz = se.nhood.data.count true
  nhood_len : se.nhood.data.length = se.nhood.dims.prod

/-- Sum `p + s` of a position and a cell; the coordinates the cell lacks are 0. -/
def sub_add : List Nat → List Nat → List Nat
  | p :: ps, s :: ss => (p + s) :: sub_add ps ss
  | ps, [] => ps
  | [], _ :: _ => []

/-- Extents `padded_size (i) - (nhood_size (i) - 1)`, the neighbourhood having extent 1
in the dimensions it lacks. -/
def out_dims : List Nat → List Nat → List Nat
  | a :: as, b :: bs => ((a : Int) - ((b : Int) - 1)).toNat :: out_dims as bs
  | as, [] => as
  | [], _ :: _ => []

/-- Position in the input buffer that `erode_nd` pairs with the `k`-th element of an
output block of `dim + 1` dimensions. -/
def reidx (in_cd out_d : List Nat) : Nat → Nat → Nat
  | 0, k => k
  | dim + 1, k => in_cd.getD dim 0 * (k / (out_d.take (dim + 1)).prod)
      + reidx in_cd out_d dim (k % (out_d.take (dim + 1)).prod)

section SpecValues

variable {P H : Type} [LinearOrder P]

/-- The value `erode_line` compares `out[line_idx]` with at step `k` of its inner loop. -/
def cand (E : ElemType P H) (erosion flat : Bool) (inp : List P) (pos : Nat)
    (offsets : List Nat) (height : List P) (k : Nat) : P :=
  let x := inp.getD (pos + offsets.getD k 0) E.ofInf
  if flat then x
  else if erosion then E.sub x (height.getD k E.ofInf) else E.add x (height.getD k E.ofInf)

/-- The values over which the min or max is taken for the output position `p`: for
each active cell `s` the element of the padded array at `p + s`, less the height of `s`
for a non-flat erosion, plus that height for a non-flat dilation. -/
def cell_values [Zero H] (E : ElemType P H) (erosion flat : Bool) (padded : NDArray P)
    (se : strel H) (p : List Nat) : List P :=
  se.active.map (fun s =>
    let x := (padded.get? (sub_add p s)).getD E.ofInf
    if flat then x
    else if erosion then E.sub x (E.ofHeight (se.height_at s))
    else E.add x (E.ofHeight (se.height_at s)))

/-- The min (erosion) or max (dilation) of `cell_values`, started from the padding value. -/
def sweep_value [Zero H] (E : ElemType P H) (erosion flat : Bool) (padded : NDArray P)
    (se : strel H) (p : List Nat) : P :=
  if erosion then (cell_values E erosion flat padded se p).foldl min (E.padval erosion)
  else (cell_values E erosion flat padded se p).foldl max (E.padval erosion)

end SpecValues

/-- The neighbourhood is at most one cell larger than the array in every dimension, so that
no extent of the output is negative. -/
def fits : List Nat → List Nat → Bool
  | a :: as, b :: bs => decide (b ≤ a + 1) && fits as bs
  | _, [] => true
  | [], _ :: _ => false

/-- The position `p + s - o`; the coordinates that `s` or `o` lack are 0. -/
def pos_add_sub : List Nat → List Nat → List Int → List Int
  | [], _, _ => []
  | x :: p, s, o => ((x : Int) + (s.headD 0 : Nat) - o.headD 0) :: pos_add_sub p s.tail o.tail

/-- The image extended outside its bounds with the value `pad`. -/
def im_ext {P : Type} (im : NDArray P) (pad : P) (z : List Int) : P :=
  if z.all (fun x => decide (0 ≤ x)) then (im.get? (z.map Int.toNat)).getD pad else pad

/-- The origin lies inside the neighbourhood: what `validate_origin` asserts. -/
def strel.origin_ok {H : Type} (se : strel H) : Prop :=
  se.origin.length = se.ndims ∧
  ∀ d, d < se.ndims → 0 ≤ se.origin.getD d 0 ∧ se.origin.getD d 0 < (se.size.getD d 0 : Int)

/-- Extents of the padded matrix: `k` times `nhood_size (i) - 1` more than the image. -/
def pad_dims (k : Nat) : List Nat → List Nat → List Nat
  | a :: as, b :: bs => (a + k * (b - 1)) :: pad_dims k as bs
  | as, [] => as
  | [], _ :: _ => []

/-- The values over which the min or max is taken for the output position `p`, read from
the image extended with the padding value: for each active cell `s` the element at
`p + s - pre`, less the height of `s` for a non-flat erosion, plus it for a non-flat
dilation. -/
def ext_values {P H : Type} [Zero H] (E : ElemType P H) (erosion flat : Bool) (im : NDArray P) (pv : P)
    (se : strel H) (pre : List Int) (p : List Nat) : List P :=
  se.active.map (fun s =>
    let x := im_ext im pv (pos_add_sub p s pre)
    if flat then x
    else if erosion then E.sub x (E.ofHeight (se.height_at s))
    else E.add x (E.ofHeight (se.height_at s)))

/-- The SE stored as the only element of the decomposition by the two-argument
constructor. -/
def strel.ctor_elem {H : Type} (nhood : NDArray Bool) (height : NDArray H) : strel H :=
  { strel.ini_ctor nhood height [] with
    origin := strel.default_origin (strel.ini_ctor nhood height []) }

def im1 : NDArray Bool := ⟨[3, 3], [false, true, false, true, true, true, false, true, false]⟩
def nh1 : NDArray Bool := ⟨[3, 3], [true, false, false, false, true, true, false, false, true]⟩
def ht1 : NDArray Int := ⟨[3, 3], [0, 0, 0, 0, 0, 0, 0, 0, 0]⟩

/-- The 3x3 identity matrix as `uint8`. -/
def eye3 : NDArray (Fin 256) := ⟨[3, 3], [1, 0, 0, 0, 1, 0, 0, 0, 1]⟩

/-- The 3x3 neighbourhood whose only true cell is the centre. -/
def nh_centre : NDArray Bool :=
  ⟨[3, 3], [false, false, false, false, true, false, false, false, false]⟩

/-- Heights `zeros (3)`. -/
def ht_zeros3 : NDArray Int := ⟨[3, 3], [0, 0, 0, 0, 0, 0, 0, 0, 0]⟩

/-- The 1x1 neighbourhood `[1]`. -/
def nh_one : NDArray Bool := ⟨[1, 1], [true]⟩

/-- Heights `[0]`. -/
def ht_zero1 : NDArray Int := ⟨[1, 1], [0]⟩

/-- The multi-index `size - 1 - s`: the cell `s` after a rotation by 180 degrees. -/
def rev_sub (dv s : List Nat) : List Nat := List.zipWith (fun d x => d - 1 - x) dv s

/-- The SE that `reflect` hands to the three-argument constructor, as `ini_ctor` leaves it;
it is the only element of the decomposition of the reflected SE. -/
def strel.reflect_elem {H : Type} [Zero H] (se : strel H) : strel H :=
  strel.ini_ctor
    ⟨se.size, (List.range se.nhood.numel).map
      (fun ind => se.nhood.data.getD (se.nhood.numel - ind - 1) false)⟩
    ⟨se.size, (List.range se.nhood.numel).map
      (fun ind => se.height.data.getD (se.nhood.numel - ind - 1) 0)⟩
    (se.origin.mapIdx (fun dim o =>
      if dim < se.ndims then (se.size.getD dim 0 : Int) - o - 1 else o))

/-- The position `p - s + o`; the coordinates that `s` or `o` lack are 0. -/
def pos_sub_add : List Nat → List Nat → List Int → List Int
  | [], _, _ => []
  | x :: p, s, o => ((x : Int) - (s.headD 0 : Nat) + o.headD 0) :: pos_sub_add p s.tail o.tail

/-- The 1x1x2 neighbourhood whose first cell is true. -/
def nh112 : NDArray Bool := ⟨[1, 1, 2], [true, false]⟩

/-- Heights `zeros (1, 1, 2)`. -/
def ht112 : NDArray Int := ⟨[1, 1, 2], [0, 0]⟩

/-- Height `[1]` for the 1x1 neighbourhood. -/
def ht_one1 : NDArray Int := ⟨[1, 1], [1]⟩

/-- The 1x1 boolean image `[true]`. -/
def im_true : NDArray Bool := ⟨[1, 1], [true]⟩

/-- The 1x2 image `[1 2]` as `uint8`. -/
def im12 : NDArray (Fin 256) := ⟨[1, 2], [1, 2]⟩

/-- The empty 0x0 neighbourhood `[]`. -/
def nh_empty : NDArray Bool := ⟨[0, 0], []⟩

/-- The empty 0x0 heights. -/
def ht_empty : NDArray Int := ⟨[0, 0], []⟩

/-- The 5x7 image of the test with an even-size SE, as `uint8`. -/
def im57 : NDArray (Fin 256) :=
  ⟨[5, 7], [0, 0, 0, 0, 0, 0, 0, 0, 0, 0, 0, 1, 1, 1, 0, 0, 0, 1, 1, 0, 0, 1, 0, 1, 0,
    0, 0, 1, 0, 0, 0, 0, 0, 0, 0]⟩

/-- The 3x4 SE `[0 0 0 1; 0 1 0 0; 0 1 1 1]` of that test. -/
def nh34 : NDArray Bool :=
  ⟨[3, 4], [false, false, false, false, true, true, false, false, true, true, false, true]⟩

/-- Heights `zeros (3, 4)`. -/
def ht34 : NDArray Int := ⟨[3, 4], [0, 0, 0, 0, 0, 0, 0, 0, 0, 0, 0, 0]⟩

/-- The 10x10 matrix `a` of the tests for grayscale images, as `uint8`. -/
def a10 : NDArray (Fin 256) :=
  ⟨[10, 10], [
    82, 60, 32, 43, 63, 12, 38, 54, 38, 88, 2, 65, 68, 90, 64, 46, 98, 37, 76, 96, 97, 21, 78,
    82, 2, 90, 11, 9, 82, 41, 43, 56, 1, 41, 48, 79, 10, 4, 50, 62, 79, 94, 16, 36, 18, 3, 40,
    33, 14, 84, 43, 77, 75, 1, 43, 92, 90, 98, 74, 89, 41, 36, 76, 87, 38, 39, 88, 36, 64, 97,
    65, 38, 90, 19, 25, 79, 38, 47, 99, 23, 51, 75, 81, 18, 22, 10, 4, 53, 7, 41, 11, 39, 56,
    63, 99, 22, 76, 57, 33, 3]⟩

/-- The neighbourhood `ones (3)`. -/
def nh_ones3 : NDArray Bool :=
  ⟨[3, 3], [true, true, true, true, true, true, true, true, true]⟩

/-- Heights `ones (3)`. -/
def ht_ones3 : NDArray Int := ⟨[3, 3], [1, 1, 1, 1, 1, 1, 1, 1, 1]⟩

/-- The 1x1 image `[5]` as `uint8`. -/
def im5 : NDArray (Fin 256) := ⟨[1, 1], [5]⟩

/-- A 10x10 boolean image without a true element, as `rand (10) > 10`. -/
def im_false10 : NDArray Bool := ⟨[10, 10], List.replicate 100 false⟩

/-- The 1x4 neighbourhood `[1 1 0 1]`. -/
def nh14 : NDArray Bool := ⟨[1, 4], [true, true, false, true]⟩

/-- Heights `[0 1 2 3]` for the 1x4 neighbourhood. -/
def ht14 : NDArray Int := ⟨[1, 4], [0, 1, 2, 3]⟩

/-- The SE of width 4 with its origin at index 2, as the three-argument constructor
builds it. -/
def se14 : strel Int := strel.end_ctor (strel.ini_ctor nh14 ht14 [0, 2])

/-- The 1x4 neighbourhood `[1 0 0 0]`. -/
def nh1000 : NDArray Bool := ⟨[1, 4], [true, false, false, false]⟩

/-- Heights `zeros (1, 4)`. -/
def ht_zeros14 : NDArray Int := ⟨[1, 4], [0, 0, 0, 0]⟩

/-- The 1x5 image `[1 2 3 4 5]` as `uint8`. -/
def im15 : NDArray (Fin 256) := ⟨[1, 5], [1, 2, 3, 4, 5]⟩

/-- The 1x2 neighbourhood `[1 0]`. -/
def nh10 : NDArray Bool := ⟨[1, 2], [true, false]⟩

/-- Heights `[0 5]`: zero at the true cell, 5 at the false cell. -/
def ht05 : NDArray Int := ⟨[1, 2], [0, 5]⟩

/-- Heights `[0 0]`. -/
def ht00 : NDArray Int := ⟨[1, 2], [0, 0]⟩

/-- The 1x2 boolean image `[true false]`. -/
def im_tf : NDArray Bool := ⟨[1, 2], [true, false]⟩

/-- The 3x3 neighbourhood `[1 0 0; 1 1 1; 0 0 1]` of the comment on `offsets`. -/
def nh_doc : NDArray Bool :=
  ⟨[3, 3], [true, true, false, false, true, false, false, true, true]⟩

/-- The linear displacement `sum over d of stride (d) * c (d)` of a coordinate vector. -/
def lin_disp (stride : List Nat) (c : List Int) : Int :=
  (List.zipWith (fun (s : Nat) (x : Int) => (s : Int) * x) stride c).sum

/-- The strides that go with a cumulative-size vector: `stride (0) = 1` and
`stride (d) = cum_size (d-1)`. -/
def strides_of (cum_size : List Nat) : List Nat := 1 :: cum_size

/-- The displacement `sum over d of (sub (d) - origin (d)) * stride (d)` of the cell `sub`
from the origin cell. -/
def origin_relative (stride : List Nat) (origin : List Int) (sub : List Nat) : Int :=
  lin_disp stride (List.zipWith (fun (s : Nat) (o : Int) => (s : Int) - o) sub origin)

/-- Constructor `strel (const octave_value&)` from the point where the `@strel` class has
answered: `nhood` and `height` are what `getnhood` and `getheight` return for the SE, and
`seq` holds what they return for every element of `getsequence`. -/
def strel.ctor_value {H : Type} (nhood : NDArray Bool) (height : NDArray H)
    (seq : List (NDArray Bool × NDArray H)) : strel H :=
  let se := strel.ini_ctor nhood height []
  let se1 : strel H := { se with origin := strel.default_origin se }
  strel.end_ctor
    (if seq.length > 1 then
      { se1 with decomposition := seq.map (fun e => strel.ctor e.1 e.2) }
    else se1)

/-- The 1x3 neighbourhood `[0 0 1]`. -/
def nh001 : NDArray Bool := ⟨[1, 3], [false, false, true]⟩

/-- The 1x3 neighbourhood `[1 0 0]`. -/
def nh100 : NDArray Bool := ⟨[1, 3], [true, false, false]⟩

/-- The 1x5 neighbourhood `[0 0 1 0 0]`, the dilation of `[0 0 1]` by `[1 0 0]`. -/
def nh00100 : NDArray Bool := ⟨[1, 5], [false, false, true, false, false]⟩

/-- Heights `zeros (1, 3)`. -/
def ht_zeros13 : NDArray Int := ⟨[1, 3], [0, 0, 0]⟩

/-- Heights `zeros (1, 5)`. -/
def ht_zeros15 : NDArray Int := ⟨[1, 5], [0, 0, 0, 0, 0]⟩

/-- The SE `[0 0 1 0 0]` with the sequence `[0 0 1]`, `[1 0 0]` as its decomposition. -/
def se_seq2 : strel Int :=
  strel.ctor_value nh00100 ht_zeros15 [(nh001, ht_zeros13), (nh100, ht_zeros13)]

/-- The 1x3 image `[5 6 7]` as `uint8`. -/
def im567 : NDArray (Fin 256) := ⟨[1, 3], [5, 6, 7]⟩

/-! ## Disjoint sets (`union-find.h++`) -/

/-- The struct `voxel` of `union-find.h++`. -/
structure voxel where
  rank : Nat
  parent : Nat
deriving DecidableEq, Repr

/-- The class `union_find`: the vector `voxels` of pointers, a null pointer being `none`. -/
structure union_find where
  voxels : List (Option voxel)
deriving DecidableEq, Repr

/-- Constructor `union_find (s)`: a vector of `s` null pointers. -/
def union_find.ctor (s : Nat) : union_find := ⟨List.replicate s none⟩

/-- The assignment `voxels[idx]->parent = p`; nothing is modelled for a null pointer. -/
def union_find.set_parent (uf : union_find) (idx p : Nat) : union_find :=
  match uf.voxels[idx]? with
  | some (some v) => ⟨uf.voxels.set idx (some { v with parent := p })⟩
  | _ => uf

/-- The increment `voxels[idx]->rank++`. -/
def union_find.incr_rank (uf : union_find) (idx : Nat) : union_find :=
  match uf.voxels[idx]? with
  | some (some v) => ⟨uf.voxels.set idx (some { v with rank := v.rank + 1 })⟩
  | _ => uf

/-- Member `find (idx)`, the recursion bounded by `fuel`; `none` when the fuel runs out or
`idx` lies outside the vector. -/
def union_find.find_loop : Nat → union_find → Nat → Option (union_find × Nat)
  | 0, _, _ => none
  | fuel + 1, uf, idx =>
    match uf.voxels[idx]? with
    | none => none
    | some none => some (⟨uf.voxels.set idx (some ⟨0, idx⟩)⟩, idx)
    | some (some elt) =>
      if elt.parent ≠ idx then
        match find_loop fuel uf elt.parent with
        | none => none
        | some (uf1, r) => some (uf1.set_parent idx r, r)
      else some (uf, elt.parent)

/-- Member `find (idx)`: the new state and the value returned.  A chain of parents without
a cycle visits a voxel at most once, so as many steps as there are voxels are allowed. -/
def union_find.find (uf : union_find) (idx : Nat) : Option (union_find × Nat) :=
  union_find.find_loop uf.voxels.length uf idx

/-- Member `unite (idx1, idx2)`. -/
def union_find.unite (uf : union_find) (idx1 idx2 : Nat) : Option union_find :=
  match uf.find idx1 with
  | none => none
  | some (uf1, root1) =>
    match uf1.find idx2 with
    | none => none
    | some (uf2, root2) =>
      if root1 ≠ root2 then
        match uf2.voxels[root1]?, uf2.voxels[root2]? with
        | some (some v1), some (some v2) =>
          if v1.rank > v2.rank then some (uf2.set_parent root1 root2)
          else if v1.rank < v2.rank then some (uf2.set_parent root2 root1)
          else some ((uf2.set_parent root2 root1).incr_rank root1)
        | _, _ => none
      else some uf2

/-- Member `get_ids`: the indices whose pointer is not null, in increasing order. -/
def union_find.get_ids (uf : union_find) : List Nat :=
  (List.range uf.voxels.length).filter (fun i => (uf.voxels.getD i none).isSome)

/-- Parent stored for the index `x`, when it has an entry. -/
def union_find.par (uf : union_find) (x : Nat) : Option Nat :=
  match uf.voxels[x]? with
  | some (some v) => some v.parent
  | _ => none

/-- Rank stored for the index `x`, when it has an entry. -/
def union_find.rnk (uf : union_find) (x : Nat) : Option Nat :=
  match uf.voxels[x]? with
  | some (some v) => some v.rank
  | _ => none

/-- The index `x` has an entry. -/
def union_find.entry (uf : union_find) (x : Nat) : Prop := ∃ p, uf.par x = some p

/-- `path x l r`: following the parents from the entry `x` visits the entries `l`, first `x`
and last the root `r`, the entry that is its own parent. -/
inductive union_find.path (uf : union_find) : Nat → List Nat → Nat → Prop
  | root (r : Nat) : uf.par r = some r → union_find.path uf r [r] r
  | step (x p : Nat) (l : List Nat) (r : Nat) : uf.par x = some p → p ≠ x →
      union_find.path uf p l r → union_find.path uf x (x :: l) r

/-- Well-formed state: from every entry the parents lead to a root. -/
def union_find.wf (uf : union_find) : Prop := ∀ x, uf.entry x → ∃ l r, uf.path x l r

/-- The state in which every entry of `l` has the parent `r`. -/
def union_find.compress (uf : union_find) (l : List Nat) (r : Nat) : union_find :=
  l.foldr (fun y acc => acc.set_parent y r) uf

/-- The map `rt` gives the root of every entry and fixes every index without an entry. -/
def union_find.inv (uf : union_find) (rt : Nat → Nat) : Prop :=
  (∀ x, uf.entry x → ∃ l, uf.path x l (rt x)) ∧ (∀ x, ¬ uf.entry x → rt x = x)

/-- A call of a member of `union_find`. -/
inductive uf_call where
  | find (idx : Nat)
  | unite (idx1 idx2 : Nat)
deriving DecidableEq, Repr

/-- The indices passed by a call. -/
def uf_call.args : uf_call → List Nat
  | .find idx => [idx]
  | .unite idx1 idx2 => [idx1, idx2]

/-- The pair united by a call, if it is a call of `unite`. -/
def uf_call.pairs : uf_call → List (Nat × Nat)
  | .find _ => []
  | .unite idx1 idx2 => [(idx1, idx2)]

/-- The state after a sequence of calls; `none` as soon as a call has no result. -/
def union_find.run : union_find → List uf_call → Option union_find
  | uf, [] => some uf
  | uf, .find idx :: cs =>
    match uf.find idx with
    | none => none
    | some (uf1, _) => union_find.run uf1 cs
  | uf, .unite idx1 idx2 :: cs =>
    match uf.unite idx1 idx2 with
    | none => none
    | some uf1 => union_find.run uf1 cs

/-- The state `1 -> 0 -> 2` with root 2: `find (1)` returns 2 and makes 2 the parent of 1. -/
def uf_chain : union_find := ⟨[some ⟨1, 2⟩, some ⟨0, 0⟩, some ⟨0, 2⟩, none]⟩

/-! ## Labelling (`bwlabeln.cc`) -/

/-- Function `to_coord (dv, k)`: the coordinates of the linear index `k`. -/
def to_coord (dv : List Nat) (k : Nat) : List Int :=
  (ind2sub dv k).map (fun (x : Nat) => (x : Int))

/-- The loop of `coord_to_pad_idx`; `mul` is the running stride. -/
def coord_to_pad_idx_loop : List Nat → List Int → Int → Int
  | [], _, _ => 0
  | d :: ds, c, mul => mul * c.headD 0 + coord_to_pad_idx_loop ds c.tail (mul * ((d : Int) + 2))

/-- Function `coord_to_pad_idx (dv, c)`: the linear displacement of the coordinates `c` in
the array of extents `dv` padded by one element on every side. -/
def coord_to_pad_idx (dv : List Nat) (c : List Int) : Int := coord_to_pad_idx_loop dv c 1

/-- The difference `a - b` of two coordinate vectors (`operator-`). -/
def coord_sub (a b : List Int) : List Int := List.zipWith (fun x y => x - y) a b

/-- The opposite `-a` of a coordinate vector (unary `operator-`). -/
def coord_neg (a : List Int) : List Int := a.map (fun x => -x)

/-- Insertion into a `std::set` of integers, kept in increasing order without repetition. -/
def set_insert (x : Int) : List Int → List Int
  | [] => [x]
  | y :: ys => if x < y then x :: y :: ys else if x = y then y :: ys else y :: set_insert x ys

/-- One turn of the loop of `populate_neighbours`; the state holds the sets `neighbours`
and `neighbours_idx`. -/
def populate_step (conn_mask : NDArray Bool) (size_vec : List Nat)
    (st : List (List Int) × List Int) (idx : Nat) : List (List Int) × List Int :=
  if conn_mask.data.getD idx false then
    let aidx := coord_sub (to_coord conn_mask.dims idx) (List.replicate conn_mask.dims.length 1)
    if aidx = List.replicate conn_mask.dims.length 0 ∨ coord_neg aidx ∈ st.1 then st
    else (aidx :: st.1, set_insert (coord_to_pad_idx size_vec aidx) st.2)
  else st

/-- Function `populate_neighbours (conn_mask, size_vec)`. -/
def populate_neighbours (conn_mask : NDArray Bool) (size_vec : List Nat) : List Int :=
  ((List.range conn_mask.numel).foldl (populate_step conn_mask size_vec) ([], [])).2

/-- The loop of `get_padded_index`; `mult` is the running stride. -/
def get_padded_index_loop : List Nat → Nat → Nat → Nat
  | [], _, _ => 0
  | d :: ds, r, mult => mult * (r % d + 1) + get_padded_index_loop ds (r / d) (mult * (d + 2))

/-- Function `get_padded_index (r, dv)`: the linear index, in the array padded by one
element on every side, of the element with linear index `r`. -/
def get_padded_index (r : Nat) (dv : List Nat) : Nat := get_padded_index_loop dv r 1

/-- The loop of `bwlabel_nd` over the neighbours of the element at `Lidx`; `none` when an
element outside `L_vec` is addressed. -/
def bwlabel_nbrs (L_vec : List Nat) (Lidx : Nat) : List Int → union_find → Option union_find
  | [], u_f => some u_f
  | nbr :: rest, u_f =>
    if 0 ≤ nbr + (Lidx : Int) ∧ (nbr + (Lidx : Int)).toNat < L_vec.length then
      if L_vec.getD (nbr + (Lidx : Int)).toNat 0 ≠ 0 then
        match u_f.unite (nbr + (Lidx : Int)).toNat Lidx with
        | none => none
        | some u_f1 => bwlabel_nbrs L_vec Lidx rest u_f1
      else bwlabel_nbrs L_vec Lidx rest u_f
    else none

/-- The first loop of `bwlabel_nd`, over the linear indices `BWidx` of the image. -/
def bwlabel_scan (L_vec : List Nat) (size_vec : List Nat) (neighbours : List Int) :
    List Nat → union_find → Option union_find
  | [], u_f => some u_f
  | BWidx :: rest, u_f =>
    if get_padded_index BWidx size_vec < L_vec.length then
      if L_vec.getD (get_padded_index BWidx size_vec) 0 ≠ 0 then
        match u_f.find (get_padded_index BWidx size_vec) with
        | none => none
        | some (u_f1, _) =>
          match bwlabel_nbrs L_vec (get_padded_index BWidx size_vec) neighbours u_f1 with
          | none => none
          | some u_f2 => bwlabel_scan L_vec size_vec neighbours rest u_f2
      else bwlabel_scan L_vec size_vec neighbours rest u_f
    else none

/-- The variables of the second loop of `bwlabel_nd`. -/
structure label_state where
  u_f : union_find
  ids_to_label : List (Nat × Nat)
  next_label : Nat
  L_vec : List Nat

/-- The second loop of `bwlabel_nd`, over the indices returned by `get_ids`; the map
`ids_to_label` is a list of pairs. -/
def bwlabel_assign : List Nat → label_state → Option label_state
  | [], st => some st
  | idx :: rest, st =>
    match st.u_f.find idx with
    | none => none
    | some (u_f1, id) =>
      match st.ids_to_label.lookup id with
      | none =>
        bwlabel_assign rest
          ⟨u_f1, (id, st.next_label) :: st.ids_to_label, st.next_label + 1,
            st.L_vec.set idx st.next_label⟩
      | some label => bwlabel_assign rest ⟨u_f1, st.ids_to_label, st.next_label,
          st.L_vec.set idx label⟩

/-- The array `L` of `bwlabel_nd` before the first loop: zeros with the image inserted at
`(1, ..., 1)`. -/
def bwlabel_padded (BW : NDArray Bool) : NDArray Nat :=
  (NDArray.filled (BW.dims.map (fun d => d + 2)) 0).insert
    ⟨BW.dims, BW.data.map (fun b => if b then 1 else 0)⟩ (List.replicate BW.dims.length 1)

/-- Function `bwlabel_nd (BW, conn_mask)`: the array of labels and the number of objects. -/
def bwlabel_nd (BW : NDArray Bool) (conn_mask : NDArray Bool) : Option (NDArray Nat × Nat) :=
  let L := bwlabel_padded BW
  match bwlabel_scan L.data BW.dims (populate_neighbours conn_mask BW.dims)
      (List.range BW.numel) (union_find.ctor L.numel) with
  | none => none
  | some u_f =>
    match bwlabel_assign u_f.get_ids ⟨u_f, [], 1, L.data⟩ with
    | none => none
    | some st =>
      some ((⟨L.dims, st.L_vec⟩ : NDArray Nat).index (BW.dims.map (fun d => (1, d))) 0,
        st.ids_to_label.length)

/-! ## Notions used to state the properties of the labelling -/

/-- The sum `p + a` of a position and an offset. -/
def coord_add (p : List Nat) (a : List Int) : List Int :=
  List.zipWith (fun (x : Nat) (c : Int) => (x : Int) + c) p a

/-- Linear index, in the array padded by one element on every side, of the position `p` of
the array of extents `dv`. -/
def pad_index (dv p : List Nat) : Nat :=
  sub2ind (dv.map (fun d => d + 2)) (p.map (fun x => x + 1))

/-- The element of the image at `p` is true. -/
def bw_fg (BW : NDArray Bool) (p : List Nat) : Prop := BW.get? p = some true

instance (BW : NDArray Bool) (p : List Nat) : Decidable (bw_fg BW p) := by
  unfold bw_fg; infer_instance

/-- An offset between neighbours: one coordinate in `{-1, 0, 1}` per dimension, not all 0. -/
def is_offset (n : Nat) (a : List Int) : Prop :=
  a.length = n ∧ (∀ c ∈ a, -1 ≤ c ∧ c ≤ 1) ∧ a ≠ List.replicate n 0

/-- The connectivity mask is true at `centre + a`, the centre being `(1, ..., 1)`. -/
def mask_at (conn_mask : NDArray Bool) (a : List Int) : Prop :=
  conn_mask.get? (a.map (fun c => (c + 1).toNat)) = some true

/-- The true elements `p` and `q` of the image are neighbours: they differ by an offset `a`
such that the mask is true at `centre + a` or at `centre - a`. -/
def bw_step (BW conn_mask : NDArray Bool) (p q : List Nat) : Prop :=
  bw_fg BW p ∧ bw_fg BW q ∧ ∃ a, is_offset BW.dims.length a
    ∧ q.map (fun (x : Nat) => (x : Int)) = coord_add p a
    ∧ (mask_at conn_mask a ∨ mask_at conn_mask (coord_neg a))

/-- The true elements `p` and `q` are joined by a chain of neighbouring true elements. -/
def bw_connected (BW conn_mask : NDArray Bool) (p q : List Nat) : Prop :=
  Relation.ReflTransGen (bw_step BW conn_mask) p q

/-- The offset `to_coord (conn_size, idx) - centre` that `populate_neighbours` computes. -/
def mask_offset (dims : List Nat) (idx : Nat) : List Int :=
  coord_sub (to_coord dims idx) (List.replicate dims.length 1)

/-- The set `neighbours` of offsets at the end of `populate_neighbours`. -/
def populate_coords (conn_mask : NDArray Bool) (size_vec : List Nat) : List (List Int) :=
  ((List.range conn_mask.numel).foldl (populate_step conn_mask size_vec) ([], [])).1

/-- The calls of `unite` made by the loop over the neighbours of the element at `Lidx`. -/
def bwlabel_nbr_calls (L_vec : List Nat) (Lidx : Nat) : List Int → List uf_call
  | [] => []
  | nbr :: rest =>
    if L_vec.getD (nbr + (Lidx : Int)).toNat 0 ≠ 0 then
      uf_call.unite (nbr + (Lidx : Int)).toNat Lidx :: bwlabel_nbr_calls L_vec Lidx rest
    else bwlabel_nbr_calls L_vec Lidx rest

/-- The calls of `find` and `unite` made by the first loop of `bwlabel_nd`. -/
def bwlabel_scan_calls (L_vec : List Nat) (size_vec : List Nat) (neighbours : List Int) :
    List Nat → List uf_call
  | [] => []
  | BWidx :: rest =>
    if L_vec.getD (get_padded_index BWidx size_vec) 0 ≠ 0 then
      uf_call.find (get_padded_index BWidx size_vec)
        :: (bwlabel_nbr_calls L_vec (get_padded_index BWidx size_vec) neighbours
          ++ bwlabel_scan_calls L_vec size_vec neighbours rest)
    else bwlabel_scan_calls L_vec size_vec neighbours rest

/-- Invariant of the second loop of `bwlabel_nd` once the indices `done` are labelled; `fs`
lists, in the order of their labels, the indices that received a new label. -/
structure bwlabel_assign_inv (rt : Nat → Nat) (L0 : List Nat) (done : List Nat)
    (st : label_state) (fs : List Nat) : Prop where
  inv : st.u_f.inv rt
  len_uf : st.u_f.voxels.length = L0.length
  len_L : st.L_vec.length = L0.length
  next : st.next_label = fs.length + 1
  len_ids : st.ids_to_label.length = fs.length
  lookup_some : ∀ (id l : Nat), st.ids_to_label.lookup id = some l →
    ∃ (k f : Nat), fs[k]? = some f ∧ rt f = id ∧ l = k + 1
  lookup_first : ∀ (k f : Nat), fs[k]? = some f → st.ids_to_label.lookup (rt f) = some (k + 1)
  first_mem : ∀ (k f : Nat), fs[k]? = some f → f ∈ done ∧ ∀ x ∈ done, rt x = rt f → f ≤ x
  sorted : fs.Pairwise (fun a b => a < b)
  labelled : ∀ x ∈ done, ∃ (k f : Nat), fs[k]? = some f ∧ rt f = rt x ∧ st.L_vec.getD x 0 = k + 1
  others : ∀ x, x ∉ done → st.L_vec.getD x 0 = L0.getD x 0

/-- Position, in the array of extents `dv`, of the element at the linear index `i` of the
array padded by one element on every side. -/
def pad_position (dv : List Nat) (i : Nat) : List Nat :=
  (ind2sub (dv.map (fun d => d + 2)) i).map (fun x => x - 1)

/-- The image `[0 1 0; 0 0 0; 1 0 1]` of the tests of `bwlabeln`. -/
def bw_three : NDArray Bool :=
  ⟨[3, 3], [false, false, true, true, false, false, false, false, true]⟩

/-- The image `[1 1 0; 0 1 0; 0 0 1]`: two objects for the mask `mask4`, one for `mask8`. -/
def bw_diag : NDArray Bool :=
  ⟨[3, 3], [true, false, false, true, true, false, false, false, true]⟩

/-- The mask `get_mask (8)`. -/
def mask8 : NDArray Bool :=
  ⟨[3, 3], [true, true, true, true, false, true, true, true, true]⟩

/-- The mask `get_mask (4)`. -/
def mask4 : NDArray Bool :=
  ⟨[3, 3], [false, true, false, true, false, true, false, true, false]⟩

/-- The scan over all offsets, without the early exit: every addressed cell is compared with
the running result and replaces it when it is smaller (erosion) or greater (dilation). -/
def scan_all_offsets (erosion : Bool) (inp : List Bool) (pos : Nat) (offsets : List Nat)
    (dflt : Bool) : List Nat → Bool → Bool
  | [], o => o
  | nnz_idx :: rest, o =>
    let x := inp.getD (pos + offsets.getD nnz_idx 0) dflt
    if erosion then
      scan_all_offsets erosion inp pos offsets dflt rest (if x < o then x else o)
    else scan_all_offsets erosion inp pos offsets dflt rest (if x > o then x else o)

/-- A sequence of calls on a structure of capacity 6 that leaves a chain of two steps. -/
def uf_calls_chain : List uf_call :=
  [uf_call.unite 0 1, uf_call.unite 2 3, uf_call.unite 1 3, uf_call.find 5]

/-- The image values at the positions `p + s - 2 * origin`, `s` an active cell, that fall
inside the image: what the output of mode "full" at `p` draws on. -/
def full_inside {P H : Type} (im : NDArray P) (se : strel H) (p : List Nat) : Set P :=
  {x | ∃ s ∈ se.active, ∃ q : List Nat,
    q.map (fun (n : Nat) => (n : Int)) = pos_add_sub p s (se.origin.map (fun o => 2 * o))
    ∧ im.get? q = some x}

/-- The boolean result of the test of `imerode` with shape "full". -/
def im1_full : NDArray Bool :=
  ⟨[5, 5], [false, true, false, true, true, false, false, false, false, true, false, true,
    false, true, false, false, false, false, false, true, true, true, false, true, false]⟩

/-- Sum `a + b` of two cells; the coordinates a cell lacks are 0. -/
def cell_sum : List Nat → List Nat → List Nat
  | a :: as, b :: bs => (a + b) :: cell_sum as bs
  | as, [] => as
  | [], bs => bs

/-- Extents `shape (A) + shape (B) - 1`; an SE has extent 1 in the dimensions it lacks. -/
def dims_minkowski : List Nat → List Nat → List Nat
  | a :: as, b :: bs => (a + b - 1) :: dims_minkowski as bs
  | as, [] => as
  | [], bs => bs

/-- The sums `a + b` of a cell of the first list and a cell of the second. -/
def cell_sums (A B : List (List Nat)) : List (List Nat) :=
  A.flatMap (fun a => B.map (cell_sum a))

/-- The neighbourhood `ones (5, 1)`. -/
def nh_ones51 : NDArray Bool := ⟨[5, 1], [true, true, true, true, true]⟩

/-- The neighbourhood `ones (1, 5)`. -/
def nh_ones15 : NDArray Bool := ⟨[1, 5], [true, true, true, true, true]⟩

/-- The neighbourhood `ones (5)`. -/
def nh_ones5 : NDArray Bool := ⟨[5, 5], List.replicate 25 true⟩

/-- Heights `zeros (5, 1)`. -/
def ht_zeros51 : NDArray Int := ⟨[5, 1], [0, 0, 0, 0, 0]⟩

/-- Heights `zeros (5)`. -/
def ht_zeros5 : NDArray Int := ⟨[5, 5], List.replicate 25 0⟩

/-- The 1x3 neighbourhood `[0 1 0]`. -/
def nh010 : NDArray Bool := ⟨[1, 3], [false, true, false]⟩

/-- The SE `[0 1 0]` with the sequence `[0 1 0]`, `[1]`: every element has its origin as
only active cell. -/
def se_one_seq : strel Int :=
  strel.ctor_value nh010 ht_zeros13 [(nh010, ht_zeros13), (nh_one, ht_zero1)]

/-! ## Spatial filtering (`__spatial_filtering__.cc`) -/

/-- Function `compare (a, b)`: whether `a > b`. -/
def compare {P : Type} [LinearOrder P] (a b : P) : Bool := decide (a > b)

/-- The statement `std::swap (vals (a), vals (b))`; `none` when an index is outside the
array. -/
def swap_vals {P : Type} (vals : List P) (a b : Nat) : Option (List P) :=
  match vals[a]?, vals[b]? with
  | some x, some y => some ((vals.set a y).set b x)
  | _, _ => none

/-- The statement `if (compare<ET> (vals (a), vals (b))) std::swap (vals (a), vals (b))`. -/
def swap_if_greater {P : Type} [LinearOrder P] (vals : List P) (a b : Nat) : Option (List P) :=
  match vals[a]?, vals[b]? with
  | some x, some y => if compare x y then some ((vals.set a y).set b x) else some vals
  | _, _ => none

/-- The loop `do i++; while (compare<ET> (hinge, vals (i)))` of `selnth`; the fuel bounds
the number of increments. -/
def selnth_scan_i {P : Type} [LinearOrder P] (hinge : P) (vals : List P) :
    Nat → Nat → Option Nat
  | 0, _ => none
  | fuel + 1, i =>
    match vals[i + 1]? with
    | none => none
    | some x => if compare hinge x then selnth_scan_i hinge vals fuel (i + 1) else some (i + 1)

/-- The loop `do j--; while (compare<ET> (vals (j), hinge))` of `selnth`, started with `j`
one more than the argument; `none` when `j` falls below 0. -/
def selnth_scan_j {P : Type} [LinearOrder P] (hinge : P) (vals : List P) : Nat → Option Nat
  | 0 => none
  | j + 1 =>
    match vals[j]? with
    | none => none
    | some x => if compare x hinge then selnth_scan_j hinge vals j else some j

/-- The inner loop `for (;;)` of `selnth`: the two scans, the test `i > j` and the swap. -/
def selnth_partition {P : Type} [LinearOrder P] (hinge : P) :
    Nat → List P → Nat → Nat → Option (List P × Nat × Nat)
  | 0, _, _, _ => none
  | fuel + 1, vals, i, j =>
    match selnth_scan_i hinge vals vals.length i with
    | none => none
    | some i1 =>
      match selnth_scan_j hinge vals j with
      | none => none
      | some j1 =>
        if i1 > j1 then some (vals, i1, j1)
        else
          match swap_vals vals i1 j1 with
          | none => none
          | some vals1 => selnth_partition hinge fuel vals1 i1 j1

/-- The assignment `vals (k) = x`; `none` when `k` is outside the array. -/
def put_val {P : Type} (vals : List P) (k : Nat) (x : P) : Option (List P) :=
  if k < vals.length then some (vals.set k x) else none

/-- The outer loop `for (;;)` of `selnth`: the state is `vals`, `l` and `r`; the result is
the array as the function leaves it and the value returned. -/
def selnth_loop {P : Type} [LinearOrder P] (nth : Nat) :
    Nat → List P → Nat → Int → Option (List P × P)
  | 0, _, _, _ => none
  | fuel + 1, vals, l, r =>
    if r ≤ (l : Int) + 1 then
      match (if r = (l : Int) + 1 then swap_if_greater vals l r.toNat else some vals) with
      | none => none
      | some vals1 => (vals1[nth]?).map (fun v => (vals1, v))
    else
      let mid := (((l : Int) + r) / 2).toNat
      match swap_vals vals mid (l + 1) with
      | none => none
      | some v1 =>
        match swap_if_greater v1 l r.toNat with
        | none => none
        | some v2 =>
          match swap_if_greater v2 (l + 1) r.toNat with
          | none => none
          | some v3 =>
            match swap_if_greater v3 l (l + 1) with
            | none => none
            | some v4 =>
              match v4[l + 1]? with
              | none => none
              | some hinge =>
                match selnth_partition hinge v4.length v4 (l + 1) r.toNat with
                | none => none
                | some (v5, i, j) =>
                  match v5[j]? with
                  | none => none
                  | some y =>
                    match put_val v5 (l + 1) y with
                    | none => none
                    | some v6 =>
                      match put_val v6 j hinge with
                      | none => none
                      | some v7 =>
                        selnth_loop nth fuel v7 (if j ≤ nth then i else l)
                          (if j ≥ nth then (j : Int) - 1 else r)

/-- Function `selnth (vals, len, nth)`: the array as it is left and the value returned. -/
def selnth {P : Type} [LinearOrder P] (vals : List P) (len : Nat) (nth : Nat) :
    Option (List P × P) :=
  selnth_loop nth len vals 0 ((len : Int) - 1)

/-- Function `min_filt (vals, len, not_used)`. -/
def min_filt {P : Type} [LinearOrder P] (vals : List P) (len : Nat) (_not_used : Int) :
    Option P :=
  (List.range' 1 (len - 1)).foldl (fun acc i =>
    match acc, vals[i]? with
    | some min_val, some x => some (if compare min_val x then x else min_val)
    | _, _ => none) vals[0]?

/-- Function `max_filt (vals, len, not_used)`. -/
def max_filt {P : Type} [LinearOrder P] (vals : List P) (len : Nat) (_not_used : Int) :
    Option P :=
  (List.range' 1 (len - 1)).foldl (fun acc i =>
    match acc, vals[i]? with
    | some max_val, some x => some (if compare max_val x then max_val else x)
    | _, _ => none) vals[0]?

/-! ## Notions used to state the properties of the selection -/

/-- The transposition of the indices `a` and `b`. -/
def swap_idx (a b k : Nat) : Nat := if k = b then a else if k = a then b else k

/-- `vals1` holds the elements of `vals` moved inside the window `l..r`: the index map `σ`
keeps the window and fixes every index outside. -/
def rearranged {P : Type} (l r : Nat) (vals vals1 : List P) : Prop :=
  vals1.length = vals.length ∧ vals1.Perm vals
    ∧ ∃ σ : Nat → Nat, (∀ k, vals1[k]? = vals[σ k]?)
      ∧ (∀ k, l ≤ k → k ≤ r → l ≤ σ k ∧ σ k ≤ r)
      ∧ (∀ k, k < l ∨ r < k → σ k = k)

/-- The element at `a` is at most the element at `b`. -/
def le_at {P : Type} [LinearOrder P] (vals : List P) (a b : Nat) : Prop :=
  ∀ x y, vals[a]? = some x → vals[b]? = some y → x ≤ y

/-- The element at `nth` is in its sorted place: no element before it is greater, none after
it is smaller. -/
def settled {P : Type} [LinearOrder P] (vals : List P) (nth : Nat) : Prop :=
  (∀ a, a < nth → le_at vals a nth) ∧ (∀ b, nth < b → le_at vals nth b)

/-- The invariant of the outer loop of `selnth` for the window `l..r`: what lies before the
window is at most what lies from `l` on, what lies up to `r` is at most what lies after the
window, and `nth` is in the window or settled. -/
def selnth_inv {P : Type} [LinearOrder P] (vals : List P) (l : Nat) (r : Int) (nth : Nat) :
    Prop :=
  (∀ a b, a < l → l ≤ b → le_at vals a b)
    ∧ (∀ a b : Nat, (a : Int) ≤ r → r < (b : Int) → le_at vals a b)
    ∧ ((l ≤ nth ∧ (nth : Int) ≤ r) ∨ settled vals nth)

/-! ## The general filtering function (`do_filtering`) -/

/-- The loop of `do_filtering` over the cells of `se`: the subscripts of the true cells,
each with the element of `S` at that cell, until `se_nnz` of them have been found.  A read
outside an array is `none`; `fuel` bounds the number of cells visited. -/
def filtering_cells {P : Type} (se : NDArray Bool) (S : NDArray P) (se_size : List Nat)
    (se_nnz : Nat) : Nat → List Nat → Nat → Option (List (List Nat × P))
  | 0, _, found => if found < se_nnz then none else some []
  | fuel + 1, se_sub, found =>
    if found < se_nnz then
      match se.data[sub2ind se.dims se_sub]? with
      | none => none
      | some true =>
        match S.data[sub2ind S.dims se_sub]? with
        | none => none
        | some h =>
          (filtering_cells se S se_size se_nnz fuel (increment_index se_sub se_size)
            (found + 1)).map (fun cells => (se_sub, h) :: cells)
      | some false =>
        filtering_cells se S se_size se_nnz fuel (increment_index se_sub se_size) found
    else some []

/-- The loop of `do_filtering` over the true cells for the output position `out_sub`: the
element of `inp` at `out_sub + nnz_sub`, plus the height of the cell. -/
def filtering_values {P : Type} (add : P → P → P) (inp : NDArray P) (out_sub : List Nat) :
    List (List Nat × P) → Option (List P)
  | [] => some []
  | (nnz_sub, h) :: rest =>
    match inp.data[sub2ind inp.dims (List.zipWith (fun a b => a + b) out_sub nnz_sub)]? with
    | none => none
    | some x =>
      (filtering_values add inp out_sub rest).map (fun values => add x h :: values)

/-- The loop of `do_filtering` over the elements of the output, `n` of them from the
position `out_sub` on. -/
def filtering_loop {P : Type} (add : P → P → P) (inp : NDArray P)
    (cells : List (List Nat × P)) (filter_function : List P → Nat → Int → Option P)
    (se_nnz : Nat) (arg4 : Int) (out_size : List Nat) : Nat → List Nat → Option (List P)
  | 0, _ => some []
  | n + 1, out_sub =>
    match filtering_values add inp out_sub cells with
    | none => none
    | some values =>
      match filter_function values se_nnz arg4 with
      | none => none
      | some v =>
        (filtering_loop add inp cells filter_function se_nnz arg4 out_size n
          (increment_index out_sub out_size)).map (fun out => v :: out)

/-- Function `do_filtering (in, se, filter_function, S, arg4)`; `add` is the operator `+`
of the element type.  Creating the output with a negative extent fails in the host. -/
def do_filtering {P : Type} (add : P → P → P) (inp : NDArray P) (se : NDArray Bool)
    (filter_function : List P → Nat → Int → Option P) (S : NDArray P) (arg4 : Int) :
    Option (NDArray P) :=
  let ndims := inp.ndims
  let se_nnz := se.data.count true
  let se_size := redim se.dims ndims
  let in_size := inp.dims
  let out_size : List Int := (List.range ndims).map (fun i =>
    (in_size.getD i 0 : Int) - (se_size.getD i 0 : Int) + 1)
  if out_size.any (fun n => decide (n < 0)) then none
  else
    let out_d := out_size.map Int.toNat
    match filtering_cells se S se_size se_nnz se.numel (List.replicate ndims 0) 0 with
    | none => none
    | some cells =>
      (filtering_loop add inp cells filter_function se_nnz arg4 out_d out_d.prod
        (List.replicate ndims 0)).map (fun data => ⟨out_d, data⟩)

/-- The mask has as many dimensions as the array and no extent larger than the array. -/
def fits_inside : List Nat → List Nat → Bool
  | a :: as, b :: bs => decide (b ≤ a) && fits_inside as bs
  | [], [] => true
  | _, _ => false

/-- The result `out` that both test suites expect for the minimum of `a` under `ones (3)`,
as `uint8`. -/
def a10_min3 : NDArray (Fin 256) :=
  ⟨[8, 8], [
    2, 21, 2, 2, 2, 9, 9, 9, 1, 1, 1, 2, 2, 4, 4, 4, 1, 1, 1, 2, 2, 3, 4, 4, 1, 1, 1, 1, 3, 3,
    4, 4, 16, 1, 1, 1, 3, 3, 14, 14, 36, 1, 1, 1, 25, 36, 36, 23, 36, 18, 18, 10, 4, 4, 4, 7,
    11, 18, 18, 10, 4, 4, 4, 3]⟩

/-- The result `out` that both test suites expect for the maximum of `a` under `ones (3)`,
as `uint8`. -/
def a10_max3 : NDArray (Fin 256) :=
  ⟨[8, 8], [
    97, 90, 90, 90, 98, 98, 98, 96, 97, 90, 90, 90, 98, 98, 98, 96, 97, 94, 82, 90, 90, 90,
    82, 84, 94, 94, 75, 92, 92, 98, 98, 98, 94, 94, 87, 92, 92, 98, 98, 98, 90, 90, 90, 92,
    92, 98, 99, 99, 90, 90, 90, 87, 88, 88, 99, 99, 90, 90, 99, 99, 99, 79, 99, 99]⟩

/-! ## Index arithmetic -/

theorem sub2ind_lt : ∀ (dv p : List Nat), inBox dv p = true → sub2ind dv p < dv.prod
  | [], [], _ => by simp [sub2ind]
  | [], _ :: _, h => by simp [inBox] at h
  | _ :: _, [], h => by simp [inBox] at h
  | d :: ds, s :: ss, h => by
    simp only [inBox, Bool.and_eq_true, decide_eq_true_eq] at h
    have ih := sub2ind_lt ds ss h.2
    simp only [sub2ind, List.prod_cons]
    calc s + d * sub2ind ds ss < d + d * sub2ind ds ss := by omega
      _ = d * (sub2ind ds ss + 1) := by ring
      _ ≤ d * ds.prod := Nat.mul_le_mul_left d ih

theorem inBox_length : ∀ (dv p : List Nat), inBox dv p = true → p.length = dv.length
  | [], [], _ => rfl
  | [], _ :: _, h => by simp [inBox] at h
  | _ :: _, [], h => by simp [inBox] at h
  | d :: ds, s :: ss, h => by
    simp only [inBox, Bool.and_eq_true, decide_eq_true_eq] at h
    simp [inBox_length ds ss h.2]

theorem ind2sub_length (dv : List Nat) : ∀ i, (ind2sub dv i).length = dv.length := by
  induction dv with
  | nil => intro i; rfl
  | cons d ds ih => intro i; simp [ind2sub, ih]

theorem inBox_ind2sub : ∀ (dv : List Nat) (i : Nat), i < dv.prod → inBox dv (ind2sub dv i) = true
  | [], _, _ => rfl
  | d :: ds, i, h => by
    simp only [List.prod_cons] at h
    have hd : 0 < d := by
      rcases Nat.eq_zero_or_pos d with h0 | h0
      · subst h0; simp at h
      · exact h0
    have h2 : i / d < ds.prod := by
      rw [Nat.div_lt_iff_lt_mul hd]; rw [Nat.mul_comm]; exact h
    simp only [ind2sub, inBox, Bool.and_eq_true, decide_eq_true_eq]
    exact ⟨Nat.mod_lt _ hd, inBox_ind2sub ds (i / d) h2⟩

theorem sub2ind_ind2sub : ∀ (dv : List Nat) (i : Nat), i < dv.prod → sub2ind dv (ind2sub dv i) = i
  | [], i, h => by simp at h; simp [ind2sub, sub2ind, h]
  | d :: ds, i, h => by
    simp only [List.prod_cons] at h
    have hd : 0 < d := by
      rcases Nat.eq_zero_or_pos d with h0 | h0
      · subst h0; simp at h
      · exact h0
    have h2 : i / d < ds.prod := by
      rw [Nat.div_lt_iff_lt_mul hd]; rw [Nat.mul_comm]; exact h
    simp only [ind2sub, sub2ind, sub2ind_ind2sub ds (i / d) h2]
    exact Nat.mod_add_div i d

theorem ind2sub_sub2ind : ∀ (dv p : List Nat), inBox dv p = true → ind2sub dv (sub2ind dv p) = p
  | [], [], _ => rfl
  | [], _ :: _, h => by simp [inBox] at h
  | _ :: _, [], h => by simp [inBox] at h
  | d :: ds, s :: ss, h => by
    simp only [inBox, Bool.and_eq_true, decide_eq_true_eq] at h
    have ih := ind2sub_sub2ind ds ss h.2
    have hd : 0 < d := by omega
    simp only [sub2ind, ind2sub]
    rw [Nat.add_mul_mod_self_left, Nat.mod_eq_of_lt h.1, Nat.add_mul_div_left _ _ hd,
      Nat.div_eq_of_lt h.1, Nat.zero_add, ih]

theorem cumulative_length (l : List Nat) : (cumulative l).length = l.length := by
  induction l with
  | nil => rfl
  | cons d ds ih => simp [cumulative, ih]

theorem cumulative_getD : ∀ (l : List Nat) (k : Nat), k < l.length →
    (cumulative l).getD k 0 = (l.take (k + 1)).prod
  | [], k, h => by simp at h
  | d :: ds, 0, _ => by simp [cumulative]
  | d :: ds, k + 1, h => by
    have h2 : k < ds.length := by simpa using h
    have ih := cumulative_getD ds k h2
    have hl : k < (cumulative ds).length := by rw [cumulative_length]; exact h2
    simp only [cumulative, List.getD_cons_succ, List.take_succ_cons, List.prod_cons]
    rw [List.getD_eq_getElem?_getD, List.getElem?_map, List.getElem?_eq_getElem hl] at *
    simp only [Option.map_some', Option.getD_some] at *
    rw [ih]

theorem sub2ind_snoc : ∀ (ds ps : List Nat) (d q : Nat), ps.length = ds.length →
    sub2ind (ds ++ [d]) (ps ++ [q]) = sub2ind ds ps + ds.prod * q
  | [], [], d, q, _ => by simp [sub2ind]
  | [], _ :: _, _, _, h => by simp at h
  | _ :: _, [], _, _, h => by simp at h
  | a :: ds, p :: ps, d, q, h => by
    have h2 : ps.length = ds.length := by simpa using h
    show p + a * sub2ind (ds ++ [d]) (ps ++ [q]) = sub2ind (a :: ds) (p :: ps) + (a :: ds).prod * q
    rw [sub2ind_snoc ds ps d q h2]
    simp only [sub2ind, List.prod_cons]
    ring

theorem ind2sub_snoc : ∀ (ds : List Nat) (d k : Nat),
    ind2sub (ds ++ [d]) k = ind2sub ds k ++ [(k / ds.prod) % d]
  | [], d, k => by simp [ind2sub]
  | a :: ds, d, k => by
    show (k % a) :: ind2sub (ds ++ [d]) (k / a) = ind2sub (a :: ds) k ++ [(k / (a :: ds).prod) % d]
    rw [ind2sub_snoc ds d (k / a)]
    simp only [ind2sub, List.prod_cons, Nat.div_div_eq_div_mul, List.cons_append]

theorem ind2sub_mod : ∀ (ds : List Nat) (k : Nat), ind2sub ds (k % ds.prod) = ind2sub ds k
  | [], k => rfl
  | a :: ds, k => by
    simp only [ind2sub, List.prod_cons]
    rw [Nat.mod_mul_right_mod, Nat.mod_mul_right_div_self, ind2sub_mod ds (k / a)]

theorem reidx_eq_sub2ind (in_d out_d : List Nat) :
    ∀ (dim : Nat), dim < out_d.length → dim < in_d.length →
    ∀ k, k < (out_d.take (dim + 1)).prod →
    reidx (cumulative in_d) out_d dim k
      = sub2ind (in_d.take (dim + 1)) (ind2sub (out_d.take (dim + 1)) k) := by
  intro dim
  induction dim with
  | zero =>
    intro ho hi k hk
    cases out_d with
    | nil => simp at ho
    | cons d ds =>
      cases in_d with
      | nil => simp at hi
      | cons e es =>
        simp only [Nat.zero_add, List.take_succ_cons, List.take_zero, List.prod_cons,
          List.prod_nil, Nat.mul_one] at hk
        simp [reidx, ind2sub, sub2ind, Nat.mod_eq_of_lt hk]
  | succ dim ih =>
    intro ho hi k hk
    have ho1 : dim < out_d.length := by omega
    have hi1 : dim < in_d.length := by omega
    have hto : out_d.take (dim + 1 + 1) = out_d.take (dim + 1) ++ [out_d[dim + 1]] := by
      rw [List.take_succ, List.getElem?_eq_getElem ho]; rfl
    have hti : in_d.take (dim + 1 + 1) = in_d.take (dim + 1) ++ [in_d[dim + 1]] := by
      rw [List.take_succ, List.getElem?_eq_getElem hi]; rfl
    rw [hto, List.prod_append] at hk
    simp only [List.prod_cons, List.prod_nil, Nat.mul_one] at hk
    have hc : 0 < (out_d.take (dim + 1)).prod := by
      rcases Nat.eq_zero_or_pos (out_d.take (dim + 1)).prod with h0 | h0
      · rw [h0] at hk; simp at hk
      · exact h0
    have hq : k / (out_d.take (dim + 1)).prod < out_d[dim + 1] := by
      rw [Nat.div_lt_iff_lt_mul hc, Nat.mul_comm]; exact hk
    rw [hto, hti, ind2sub_snoc, sub2ind_snoc _ _ _ _ (by simp only [ind2sub_length, List.length_take]; omega),
      Nat.mod_eq_of_lt hq]
    simp only [reidx]
    rw [ih ho1 hi1 _ (Nat.mod_lt _ hc), ind2sub_mod, cumulative_getD in_d dim hi1]
    ring

theorem active_from_length : ∀ (l : List Bool) (ind : Nat),
    (active_from ind l).length = l.count true
  | [], _ => rfl
  | b :: bs, ind => by
    cases b <;> simp [active_from, active_from_length bs (ind + 1)]

theorem mem_active_from : ∀ (l : List Bool) (ind i : Nat),
    i ∈ active_from ind l ↔ ind ≤ i ∧ l[i - ind]? = some true
  | [], ind, i => by simp [active_from]
  | b :: bs, ind, i => by
    have ih := mem_active_from bs (ind + 1) i
    by_cases hi : i = ind
    · subst hi
      cases b
      · simp only [active_from, Bool.false_eq_true, if_false, ih]
        simp
      · simp [active_from]
    · have h1 : ∀ (hle : ind ≤ i), (b :: bs)[i - ind]? = bs[i - (ind + 1)]? := by
        intro hle
        have : i - ind = (i - (ind + 1)) + 1 := by omega
        rw [this, List.getElem?_cons_succ]
      cases b
      · simp only [active_from, Bool.false_eq_true, if_false, ih]
        constructor
        · rintro ⟨h2, h3⟩; exact ⟨by omega, by rw [h1 (by omega)]; exact h3⟩
        · rintro ⟨h2, h3⟩; exact ⟨by omega, by rw [← h1 h2]; exact h3⟩
      · simp only [active_from, if_true, List.mem_cons, ih]
        constructor
        · rintro (h2 | ⟨h2, h3⟩)
          · exact absurd h2 hi
          · exact ⟨by omega, by rw [h1 (by omega)]; exact h3⟩
        · rintro ⟨h2, h3⟩; exact Or.inr ⟨by omega, by rw [← h1 h2]; exact h3⟩

theorem ind2sub_zero : ∀ (dv : List Nat), ind2sub dv 0 = List.replicate dv.length 0
  | [] => rfl
  | d :: ds => by simp [ind2sub, ind2sub_zero ds, List.replicate_succ]

theorem increment_index_ind2sub : ∀ (dv : List Nat) (i : Nat), i + 1 < dv.prod →
    increment_index (ind2sub dv i) dv = ind2sub dv (i + 1)
  | [], i, h => by simp at h
  | [d], i, h => by
    simp only [List.prod_cons, List.prod_nil, Nat.mul_one] at h
    simp [ind2sub, increment_index, Nat.mod_eq_of_lt h, Nat.mod_eq_of_lt (Nat.lt_of_succ_lt h)]
  | d :: e :: ds, i, h => by
    simp only [List.prod_cons] at h
    have hd : 0 < d := by
      rcases Nat.eq_zero_or_pos d with h0 | h0
      · subst h0; simp at h
      · exact h0
    have hmod := Nat.mod_add_div i d
    have hlt := Nat.mod_lt i hd
    simp only [ind2sub, increment_index, List.headD_cons, List.tail_cons]
    by_cases hc : i % d + 1 < d
    · rw [if_pos hc]
      have h1 : (i + 1) % d = i % d + 1 := by
        rw [Nat.add_mod, Nat.mod_eq_of_lt (show i % d + 1 % d < d by
          rcases Nat.lt_or_ge 1 d with h1 | h1
          · rw [Nat.mod_eq_of_lt h1]; exact hc
          · omega)]
        rcases Nat.lt_or_ge 1 d with h1 | h1
        · rw [Nat.mod_eq_of_lt h1]
        · omega
      have h2 : (i + 1) / d = i / d := by
        apply Nat.div_eq_of_lt_le
        · calc i / d * d ≤ i := Nat.div_mul_le_self i d
            _ ≤ i + 1 := Nat.le_succ i
        · calc i + 1 = i % d + 1 + d * (i / d) := by omega
            _ < d + d * (i / d) := by omega
            _ = (i / d + 1) * d := by ring
      rw [h1, h2]
    · rw [if_neg hc]
      have hm : i % d = d - 1 := by omega
      have h3 : i + 1 = d * (i / d + 1) := by
        have : d * (i / d + 1) = d * (i / d) + d := by ring
        omega
      have h1 : (i + 1) % d = 0 := by rw [h3]; exact Nat.mul_mod_right d _
      have h2 : (i + 1) / d = i / d + 1 := by rw [h3]; exact Nat.mul_div_cancel_left _ hd
      have h4 : i / d + 1 < (e :: ds).prod := by
        rw [h3] at h
        simp only [List.prod_cons]
        exact Nat.lt_of_mul_lt_mul_left h
      have ih := increment_index_ind2sub (e :: ds) (i / d) h4
      simp only [ind2sub] at ih
      rw [h1, h2, ih]

theorem zipWith_mul_map_sum (d : Nat) : ∀ (c r : List Nat),
    (List.zipWith (fun c s => c * s) (c.map (fun x => d * x)) r).sum
      = d * (List.zipWith (fun c s => c * s) c r).sum
  | [], _ => by simp
  | _ :: _, [] => by simp
  | a :: c, b :: r => by
    simp only [List.map_cons, List.zipWith_cons_cons, List.sum_cons, zipWith_mul_map_sum d c r]
    ring

theorem offset_of_cumulative_cons (d : Nat) (ds : List Nat) (s0 : Nat) (ss : List Nat) :
    strel.offset_of (cumulative (d :: ds)) (s0 :: ss)
      = s0 + d * strel.offset_of (cumulative ds) ss := by
  cases ss with
  | nil => simp [strel.offset_of]
  | cons s1 rest =>
    simp only [strel.offset_of, cumulative, List.zipWith_cons_cons, List.sum_cons,
      zipWith_mul_map_sum]
    ring

theorem sub2ind_add_offset : ∀ (dv p s : List Nat), p.length = dv.length →
    s.length ≤ dv.length →
    sub2ind dv p + strel.offset_of (cumulative dv) s = sub2ind dv (sub_add p s)
  | [], [], [], _, _ => by simp [sub2ind, strel.offset_of, sub_add]
  | [], [], _ :: _, _, h => by simp at h
  | [], _ :: _, _, h, _ => by simp at h
  | _ :: _, [], _, h, _ => by simp at h
  | d :: ds, p0 :: ps, [], _, _ => by simp [strel.offset_of, sub_add]
  | d :: ds, p0 :: ps, s0 :: ss, hp, hs => by
    have hp1 : ps.length = ds.length := by simpa using hp
    have hs1 : ss.length ≤ ds.length := by simpa using hs
    have ih := sub2ind_add_offset ds ps ss hp1 hs1
    rw [offset_of_cumulative_cons]
    simp only [sub2ind, sub_add]
    rw [← ih]
    ring

theorem inBox_sub_add : ∀ (in_d nh p s : List Nat), inBox nh s = true →
    inBox (out_dims in_d nh) p = true → nh.length ≤ in_d.length →
    inBox in_d (sub_add p s) = true
  | in_d, [], p, [], _, hp, _ => by
    cases in_d <;> cases p <;> simpa [out_dims, sub_add] using hp
  | _, [], _, _ :: _, hs, _, _ => by simp [inBox] at hs
  | _, _ :: _, _, [], hs, _, _ => by simp [inBox] at hs
  | [], _ :: _, _, _, _, _, hl => by simp at hl
  | a :: as, b :: bs, [], s0 :: ss, _, hp, _ => by simp [out_dims, inBox] at hp
  | a :: as, b :: bs, p0 :: ps, s0 :: ss, hs, hp, hl => by
    simp only [inBox, out_dims, Bool.and_eq_true, decide_eq_true_eq] at hs hp
    have hl1 : bs.length ≤ as.length := by simpa using hl
    have ih := inBox_sub_add as bs ps ss hs.2 hp.2 hl1
    simp only [sub_add, inBox, Bool.and_eq_true, decide_eq_true_eq]
    refine ⟨?_, ih⟩
    have h1 := hs.1
    have h2 := hp.1
    omega

theorem range_map_getD_eq_zipWith {α β γ : Type} (f : α → β → γ) (da : α) (db : β) :
    ∀ (n : Nat) (a : List α) (b : List β), a.length = n → b.length = n →
    (List.range n).map (fun i => f (a.getD i da) (b.getD i db)) = List.zipWith f a b := by
  intro n a b ha hb
  apply List.ext_getElem
  · simp [ha, hb]
  · intro i h1 h2
    simp only [List.length_map, List.length_range] at h1
    simp [List.getD_eq_getElem?_getD, List.getElem?_eq_getElem (ha ▸ h1),
      List.getElem?_eq_getElem (hb ▸ h1)]

theorem redim_of_le (dv : List Nat) (n : Nat) (h : dv.length ≤ n) :
    redim dv n = dv ++ List.replicate (n - dv.length) 1 := by
  simp [redim, h]

theorem zipWith_out_dims : ∀ (in_d nh : List Nat), nh.length ≤ in_d.length →
    List.zipWith (fun (a b : Nat) => ((a : Int) - ((b : Int) - 1)).toNat) in_d
      (nh ++ List.replicate (in_d.length - nh.length) 1) = out_dims in_d nh
  | [], [], _ => rfl
  | [], _ :: _, h => by simp at h
  | a :: as, [], _ => by
    have ih := zipWith_out_dims as [] (by simp)
    simp only [List.length_nil, Nat.sub_zero, List.nil_append] at ih
    simp only [List.length_cons, List.length_nil, Nat.sub_zero, List.nil_append,
      List.replicate_succ, List.zipWith_cons_cons, ih]
    cases as <;> simp [out_dims]
  | a :: as, b :: bs, h => by
    have h1 : bs.length ≤ as.length := by simpa using h
    have ih := zipWith_out_dims as bs h1
    simp only [List.length_cons, Nat.add_sub_add_right, List.cons_append,
      List.zipWith_cons_cons, ih, out_dims]

/-! ## The structuring element tables -/

section Tables

variable {H : Type}

theorem offsets_loop_eq (se : strel H) (hse : se.consistent) (cum_size : List Nat) :
    ∀ (l : List Bool) (ind found : Nat) (sub : List Nat),
    l = se.nhood.data.drop ind →
    found + l.count true = se.nnz →
    (0 < l.length → sub = ind2sub se.nhood.dims ind) →
    se.offsets_loop cum_size l.length sub found
      = (active_from ind l).map (fun i => strel.offset_of cum_size (ind2sub se.nhood.dims i)) := by
  intro l
  induction l with
  | nil => intro ind found sub _ _ _; rfl
  | cons b bs ih =>
    intro ind found sub hl hcount hsub
    have hsub1 := hsub (by simp)
    have hind : ind < se.nhood.data.length := by
      by_contra hcon
      rw [List.drop_eq_nil_of_le (by omega)] at hl
      exact absurd hl (by simp)
    have hb : se.nhood.data[ind] = b ∧ se.nhood.data.drop (ind + 1) = bs := by
      rw [List.drop_eq_getElem_cons hind] at hl
      injection hl with h1 h2
      exact ⟨h1.symm, h2.symm⟩
    have hprod : ind < se.nhood.dims.prod := by rw [← hse.nhood_len]; exact hind
    have hrd : se.nhood.data.getD (sub2ind se.nhood.dims sub) false = b := by
      rw [hsub1, sub2ind_ind2sub _ _ hprod, List.getD_eq_getElem?_getD,
        List.getElem?_eq_getElem hind, hb.1]
      rfl
    have hnext : 0 < bs.length → increment_index sub se.size = ind2sub se.nhood.dims (ind + 1) := by
      intro hpos
      have : ind + 1 < se.nhood.dims.prod := by
        rw [← hse.nhood_len]
        have h3 := congrArg List.length hb.2
        rw [List.length_drop] at h3
        omega
      rw [hsub1, hse.size_eq, increment_index_ind2sub _ _ this]
    simp only [List.length_cons, strel.offsets_loop, hrd]
    cases b with
    | false =>
      simp only [List.count_cons, Bool.false_eq_true, if_false, active_from] at hcount ⊢
      have hc : found + bs.count true = se.nnz := by simpa using hcount
      by_cases hf : found < se.nnz
      · rw [if_pos hf]
        exact ih (ind + 1) found _ hb.2.symm hc hnext
      · rw [if_neg hf]
        have h0 : bs.count true = 0 := by omega
        have : ∀ (l : List Bool) (k : Nat), l.count true = 0 → active_from k l = [] := by
          intro l
          induction l with
          | nil => intro k _; rfl
          | cons c cs ihc =>
            intro k hk
            cases c
            · simp only [active_from, Bool.false_eq_true, if_false]
              exact ihc (k + 1) (by simpa using hk)
            · simp at hk
        rw [this bs (ind + 1) h0]; rfl
    | true =>
      have hc : found + 1 + bs.count true = se.nnz := by
        simp only [List.count_cons, beq_self_eq_true, if_true] at hcount
        omega
      have hf : found < se.nnz := by omega
      rw [if_pos hf]
      simp only [if_true, active_from, List.map_cons]
      rw [hsub1]
      congr 1
      have := ih (ind + 1) (found + 1) (increment_index sub se.size) hb.2.symm hc hnext
      rw [hsub1] at this
      exact this

theorem offsets_eq (se : strel H) (hse : se.consistent) (cum_size : List Nat) :
    se.offsets cum_size
      = (active_from 0 se.nhood.data).map
          (fun i => strel.offset_of cum_size (ind2sub se.nhood.dims i)) := by
  unfold strel.offsets
  have := offsets_loop_eq se hse cum_size se.nhood.data 0 0 (List.replicate se.ndims 0)
    (by simp) (by simpa using hse.nnz_eq.symm)
    (by intro _; rw [ind2sub_zero, hse.ndims_eq])
  unfold NDArray.numel; rw [← hse.nhood_len]
  exact this

theorem true_heights_loop_eq {P : Type} (se : strel H) (conv : H → P)
    (dflt : H) :
    ∀ (l : List Bool) (ind found : Nat),
    l = se.nhood.data.drop ind →
    found + l.count true = se.nnz →
    se.true_heights_loop conv dflt l.length ind found
      = (active_from ind l).map (fun i => conv (se.height.data.getD i dflt)) := by
  intro l
  induction l with
  | nil => intro ind found _ _; rfl
  | cons b bs ih =>
    intro ind found hl hcount
    have hind : ind < se.nhood.data.length := by
      by_contra hcon
      rw [List.drop_eq_nil_of_le (by omega)] at hl
      exact absurd hl (by simp)
    have hb : se.nhood.data[ind] = b ∧ se.nhood.data.drop (ind + 1) = bs := by
      rw [List.drop_eq_getElem_cons hind] at hl
      injection hl with h1 h2
      exact ⟨h1.symm, h2.symm⟩
    have hrd : se.nhood.data.getD ind false = b := by
      rw [List.getD_eq_getElem?_getD, List.getElem?_eq_getElem hind, hb.1]
      rfl
    simp only [List.length_cons, strel.true_heights_loop, hrd]
    cases b with
    | false =>
      simp only [List.count_cons, Bool.false_eq_true, if_false, active_from] at hcount ⊢
      have hc : found + bs.count true = se.nnz := by simpa using hcount
      by_cases hf : found < se.nnz
      · rw [if_pos hf]
        exact ih (ind + 1) found hb.2.symm hc
      · rw [if_neg hf]
        have h0 : bs.count true = 0 := by omega
        have : ∀ (l : List Bool) (k : Nat), l.count true = 0 → active_from k l = [] := by
          intro l
          induction l with
          | nil => intro k _; rfl
          | cons c cs ihc =>
            intro k hk
            cases c
            · simp only [active_from, Bool.false_eq_true, if_false]
              exact ihc (k + 1) (by simpa using hk)
            · simp at hk
        rw [this bs (ind + 1) h0]; rfl
    | true =>
      have hc : found + 1 + bs.count true = se.nnz := by
        simp only [List.count_cons, beq_self_eq_true, if_true] at hcount
        omega
      have hf : found < se.nnz := by omega
      rw [if_pos hf]
      simp only [if_true, active_from, List.map_cons]
      congr 1
      exact ih (ind + 1) (found + 1) hb.2.symm hc

theorem true_heights_eq {P : Type} [Zero H] (se : strel H) (hse : se.consistent) (conv : H → P) :
    se.true_heights conv
      = (active_from 0 se.nhood.data).map (fun i => conv (se.height.data.getD i 0)) := by
  unfold strel.true_heights
  have := true_heights_loop_eq se conv 0 se.nhood.data 0 0
    (by simp) (by simpa using hse.nnz_eq.symm)
  unfold NDArray.numel; rw [← hse.nhood_len]
  exact this

end Tables

/-! ## The sweep -/

theorem foldl_set_getElem? {α : Type} (f : Nat → α → α) (d : α) (op : Nat) :
    ∀ (n : Nat) (out : List α) (j : Nat),
    ((List.range n).foldl (fun out k => out.set (op + k) (f k (out.getD (op + k) d))) out)[j]?
      = if op ≤ j ∧ j < op + n then (out[j]?).map (f (j - op)) else out[j]? := by
  intro n
  induction n with
  | zero =>
    intro out j
    rw [if_neg (by omega)]; rfl
  | succ n ih =>
    intro out j
    rw [List.range_succ, List.foldl_append]
    simp only [List.foldl_cons, List.foldl_nil]
    rw [List.getElem?_set']
    by_cases hj : op + n = j
    · subst hj
      have h1 := ih out (op + n)
      simp only [Nat.lt_irrefl, and_false, if_false] at h1
      rw [if_pos rfl, if_pos ⟨by omega, by omega⟩, List.getD_eq_getElem?_getD, h1]
      cases out[op + n]? with
      | none => rfl
      | some v => simp
    · rw [if_neg hj, ih]
      by_cases h2 : op ≤ j ∧ j < op + n
      · rw [if_pos h2, if_pos ⟨h2.1, by omega⟩]
      · rw [if_neg h2, if_neg (by omega)]

section

variable {P H : Type} [LinearOrder P]

theorem foldl_min_bot (b : P) (hb : ∀ x : P, b ≤ x) (l : List P) : l.foldl min b = b := by
  induction l with
  | nil => rfl
  | cons a l ih => simp only [List.foldl_cons, min_eq_left (hb a), ih]

theorem foldl_max_top (t : P) (ht : ∀ x : P, x ≤ t) (l : List P) : l.foldl max t = t := by
  induction l with
  | nil => rfl
  | cons a l ih => simp only [List.foldl_cons, max_eq_left (ht a), ih]

theorem erode_cell_erosion (E : ElemType P H) (hE : E.lawful) (flat : Bool) (inp : List P)
    (pos : Nat) (offsets : List Nat) (height : List P) (idxs : List Nat) (o : P) :
    erode_cell E true flat inp pos offsets height idxs o
      = (idxs.map (cand E true flat inp pos offsets height)).foldl min o := by
  induction idxs generalizing o with
  | nil => rfl
  | cons k rest ih =>
    obtain ⟨hTop, hBot, hTwo⟩ := hE
    cases flat with
    | true =>
      simp only [erode_cell, cand, if_true, List.map_cons, List.foldl_cons]
      by_cases hlt : inp.getD (pos + offsets.getD k 0) E.ofInf < o
      · rw [if_pos hlt, min_eq_right (le_of_lt hlt)]
        by_cases hb : E.isBool = true
        · rw [if_pos hb]
          have hx : ∀ y : P, inp.getD (pos + offsets.getD k 0) E.ofInf ≤ y := by
            intro y
            rcases hTwo hb (inp.getD (pos + offsets.getD k 0) E.ofInf) with h1 | h1
            · rw [h1]; have := hBot y; rwa [if_pos hb] at this
            · exfalso
              have := hTop o
              rw [h1] at hlt
              exact absurd hlt (not_lt_of_le this)
          have := foldl_min_bot _ hx (rest.map (cand E true true inp pos offsets height))
          simp only [cand, if_true] at this
          exact this.symm
        · rw [if_neg hb]
          have := ih (inp.getD (pos + offsets.getD k 0) E.ofInf)
          simp only [cand, if_true] at this
          exact this
      · rw [if_neg hlt, min_eq_left (le_of_not_lt hlt)]
        have := ih o
        simp only [cand, if_true] at this
        exact this
    | false =>
      simp only [erode_cell, cand, if_true, List.map_cons, List.foldl_cons, Bool.false_eq_true,
        if_false]
      rw [ih]
      congr 1
      by_cases hlt : E.sub (inp.getD (pos + offsets.getD k 0) E.ofInf) (height.getD k E.ofInf) < o
      · rw [if_pos hlt, min_eq_right (le_of_lt hlt)]
      · rw [if_neg hlt, min_eq_left (le_of_not_lt hlt)]

theorem erode_cell_dilation (E : ElemType P H) (hE : E.lawful) (flat : Bool) (inp : List P)
    (pos : Nat) (offsets : List Nat) (height : List P) (idxs : List Nat) (o : P) :
    erode_cell E false flat inp pos offsets height idxs o
      = (idxs.map (cand E false flat inp pos offsets height)).foldl max o := by
  induction idxs generalizing o with
  | nil => rfl
  | cons k rest ih =>
    obtain ⟨hTop, hBot, hTwo⟩ := hE
    cases flat with
    | true =>
      simp only [erode_cell, cand, if_true, List.map_cons, List.foldl_cons, Bool.false_eq_true,
        if_false, gt_iff_lt]
      by_cases hlt : o < inp.getD (pos + offsets.getD k 0) E.ofInf
      · rw [if_pos hlt, max_eq_right (le_of_lt hlt)]
        by_cases hb : E.isBool = true
        · rw [if_pos hb]
          have hx : ∀ y : P, y ≤ inp.getD (pos + offsets.getD k 0) E.ofInf := by
            intro y
            rcases hTwo hb (inp.getD (pos + offsets.getD k 0) E.ofInf) with h1 | h1
            · exfalso
              have := hBot o
              rw [if_pos hb] at this
              rw [h1] at hlt
              exact absurd hlt (not_lt_of_le this)
            · rw [h1]; exact hTop y
          have := foldl_max_top _ hx (rest.map (cand E false true inp pos offsets height))
          simp only [cand, if_true] at this
          exact this.symm
        · rw [if_neg hb]
          have := ih (inp.getD (pos + offsets.getD k 0) E.ofInf)
          simp only [cand, if_true] at this
          exact this
      · rw [if_neg hlt, max_eq_left (le_of_not_lt hlt)]
        have := ih o
        simp only [cand, if_true] at this
        exact this
    | false =>
      simp only [erode_cell, cand, if_true, List.map_cons, List.foldl_cons, Bool.false_eq_true,
        if_false, gt_iff_lt]
      rw [ih]
      congr 1
      by_cases hlt : o < E.add (inp.getD (pos + offsets.getD k 0) E.ofInf) (height.getD k E.ofInf)
      · rw [if_pos hlt, max_eq_right (le_of_lt hlt)]
      · rw [if_neg hlt, max_eq_left (le_of_not_lt hlt)]

end

theorem foldl_blocks_getElem? {α : Type} (G : Nat → List α → List α) (g : Nat → Nat → α → α)
    (op c : Nat)
    (hG : ∀ (elem : Nat) (out : List α) (j : Nat), (G elem out)[j]?
      = if op + c * elem ≤ j ∧ j < op + c * elem + c
        then (out[j]?).map (g elem (j - (op + c * elem))) else out[j]?) :
    ∀ (m : Nat) (out : List α) (j : Nat),
    ((List.range m).foldl (fun out elem => G elem out) out)[j]?
      = if op ≤ j ∧ j < op + c * m
        then (out[j]?).map (g ((j - op) / c) ((j - op) % c)) else out[j]? := by
  intro m
  induction m with
  | zero =>
    intro out j
    rw [if_neg (by omega)]; rfl
  | succ m ih =>
    intro out j
    rw [List.range_succ, List.foldl_append]
    simp only [List.foldl_cons, List.foldl_nil]
    rw [hG, ih]
    have hmul : c * (m + 1) = c * m + c := by ring
    by_cases h1 : op + c * m ≤ j ∧ j < op + c * m + c
    · have hc : 0 < c := by omega
      have hq : (j - op) / c = m := by
        apply Nat.div_eq_of_lt_le
        · rw [Nat.mul_comm]; omega
        · rw [Nat.mul_comm, hmul]; omega
      have hr : (j - op) % c = j - (op + c * m) := by
        have := Nat.mod_add_div (j - op) c
        rw [hq] at this
        omega
      rw [if_pos h1, if_neg (by omega), if_pos ⟨by omega, by omega⟩, hq, hr]
    · rw [if_neg h1]
      by_cases h2 : op ≤ j ∧ j < op + c * m
      · rw [if_pos h2, if_pos ⟨h2.1, by omega⟩]
      · rw [if_neg h2, if_neg (by omega)]

section

variable {P H : Type} [LinearOrder P]

theorem erode_line_getElem? (E : ElemType P H) (erosion flat : Bool) (inp : List P)
    (offsets : List Nat) (height : List P) (nnz : Nat) (in_pos out_pos n : Nat) (out : List P)
    (j : Nat) :
    (erode_line E erosion flat inp in_pos out out_pos offsets height nnz n)[j]?
      = if out_pos ≤ j ∧ j < out_pos + n
        then (out[j]?).map (erode_cell E erosion flat inp (in_pos + (j - out_pos)) offsets height
          (List.range nnz))
        else out[j]? := by
  unfold erode_line
  exact foldl_set_getElem?
    (fun k o => erode_cell E erosion flat inp (in_pos + k) offsets height (List.range nnz) o)
    E.ofInf out_pos n out j

theorem erode_nd_getElem? (E : ElemType P H) (erosion flat : Bool) (inp : List P)
    (in_cd out_d : List Nat) (offsets : List Nat) (height : List P) (nnz : Nat) :
    ∀ (dim : Nat), dim < out_d.length → ∀ (in_pos out_pos : Nat) (out : List P) (j : Nat),
    (erode_nd E erosion flat inp in_cd (cumulative out_d) out_d offsets height nnz dim
        in_pos out_pos out)[j]?
      = if out_pos ≤ j ∧ j < out_pos + (out_d.take (dim + 1)).prod
        then (out[j]?).map (erode_cell E erosion flat inp
          (in_pos + reidx in_cd out_d dim (j - out_pos)) offsets height (List.range nnz))
        else out[j]? := by
  intro dim
  induction dim with
  | zero =>
    intro hd in_pos out_pos out j
    simp only [erode_nd, reidx]
    rw [erode_line_getElem?]
    have : (out_d.take 1).prod = out_d.getD 0 0 := by
      cases out_d with
      | nil => simp at hd
      | cons d ds => simp
    rw [Nat.zero_add, this]
  | succ dim ih =>
    intro hd in_pos out_pos out j
    have hd1 : dim < out_d.length := by omega
    simp only [erode_nd]
    have hc := cumulative_getD out_d dim hd1
    rw [hc]
    have key := foldl_blocks_getElem?
      (fun elem out => erode_nd E erosion flat inp in_cd (cumulative out_d) out_d offsets height nnz
        dim (in_pos + in_cd.getD dim 0 * elem) (out_pos + (out_d.take (dim + 1)).prod * elem) out)
      (fun elem k => erode_cell E erosion flat inp
          (in_pos + in_cd.getD dim 0 * elem + reidx in_cd out_d dim k) offsets height
          (List.range nnz))
      out_pos (out_d.take (dim + 1)).prod
      (by
        intro elem out j
        exact ih hd1 _ _ out j)
      (out_d.getD (dim + 1) 0) out j
    rw [key]
    have hprod : (out_d.take (dim + 1 + 1)).prod
        = (out_d.take (dim + 1)).prod * out_d.getD (dim + 1) 0 := by
      rw [List.take_succ, List.prod_append]
      rw [List.getD_eq_getElem?_getD, List.getElem?_eq_getElem hd]
      simp
    rw [hprod]
    simp only [reidx, Nat.add_assoc]

end


theorem out_dims_length : ∀ (in_d nh : List Nat), (out_dims in_d nh).length = in_d.length
  | [], [] => rfl
  | [], _ :: _ => rfl
  | _ :: _, [] => rfl
  | a :: as, b :: bs => by simp [out_dims, out_dims_length as bs]

theorem range_map_getD_map {ι α β γ : Type} (f1 : ι → α) (f2 : ι → β) (G : α → β → γ)
    (d1 : α) (d2 : β) : ∀ (A : List ι),
    (List.range A.length).map (fun k => G ((A.map f1).getD k d1) ((A.map f2).getD k d2))
      = A.map (fun a => G (f1 a) (f2 a))
  | [] => rfl
  | a :: A => by
    have ih := range_map_getD_map f1 f2 G d1 d2 A
    rw [List.length_cons, List.range_succ_eq_map, List.map_cons, List.map_map]
    simp only [List.map_cons, List.getD_cons_zero]
    congr 1

section
variable {P H : Type} [LinearOrder P] [Zero H]

omit [LinearOrder P] in
theorem cands_eq_cell_values (E : ElemType P H) (erosion flat : Bool) (padded : NDArray P)
    (se : strel H) (hse : se.consistent)
    (hdim : se.nhood.dims.length ≤ padded.dims.length) (p : List Nat)
    (hp : inBox (out_dims padded.dims se.nhood.dims) p = true) :
    (List.range (se.offsets (cumulative padded.dims)).length).map
        (cand E erosion flat padded.data (sub2ind padded.dims p)
          (se.offsets (cumulative padded.dims)) (se.true_heights E.ofHeight))
      = cell_values E erosion flat padded se p := by
  rw [offsets_eq se hse, true_heights_eq se hse]
  have h1 := range_map_getD_map
    (fun i => strel.offset_of (cumulative padded.dims) (ind2sub se.nhood.dims i))
    (fun i => E.ofHeight (se.height.data.getD i 0))
    (fun (o : Nat) (h : P) =>
      if flat then padded.data.getD (sub2ind padded.dims p + o) E.ofInf
      else if erosion then E.sub (padded.data.getD (sub2ind padded.dims p + o) E.ofInf) h
      else E.add (padded.data.getD (sub2ind padded.dims p + o) E.ofInf) h)
    0 E.ofInf (active_from 0 se.nhood.data)
  rw [List.length_map]
  unfold cand
  rw [h1]
  unfold cell_values strel.active
  rw [List.map_map]
  apply List.map_congr_left
  intro ind hind
  have hlt : ind < se.nhood.dims.prod := by
    rw [mem_active_from] at hind
    rw [← hse.nhood_len]
    by_contra hcon
    rw [List.getElem?_eq_none (by omega)] at hind
    exact absurd hind.2 (by simp)
  have hplen : p.length = padded.dims.length := by
    rw [inBox_length _ _ hp, out_dims_length]
  have hidx := sub2ind_add_offset padded.dims p (ind2sub se.nhood.dims ind) hplen
    (by rw [ind2sub_length]; exact hdim)
  have hbox := inBox_sub_add padded.dims se.nhood.dims p (ind2sub se.nhood.dims ind)
    (inBox_ind2sub _ _ hlt) hp hdim
  have hx : padded.data.getD (sub2ind padded.dims p
        + strel.offset_of (cumulative padded.dims) (ind2sub se.nhood.dims ind)) E.ofInf
      = (padded.get? (sub_add p (ind2sub se.nhood.dims ind))).getD E.ofInf := by
    rw [hidx, NDArray.get?, if_pos hbox, List.getD_eq_getElem?_getD]
  have hh : se.height.data.getD ind 0 = se.height_at (ind2sub se.nhood.dims ind) := by
    rw [strel.height_at, sub2ind_ind2sub _ _ hlt]
  simp only [Function.comp, hx, hh]

theorem erode_sweep_get? (E : ElemType P H) (hE : E.lawful) (padded : NDArray P)
    (hnd : 1 ≤ padded.dims.length)
    (se : strel H) (hse : se.consistent)
    (hdim : se.nhood.dims.length ≤ padded.dims.length) (erosion flat : Bool)
    (out_size : List Int) (hos : out_size.map Int.toNat = out_dims padded.dims se.nhood.dims)
    (hnn : ∀ n ∈ out_size, (0 : Int) ≤ n) :
    ∃ out, erode_sweep E padded erosion out_size (cumulative padded.dims)
        (se.offsets (cumulative padded.dims)) (se.true_heights E.ofHeight) flat = .ok out
      ∧ out.dims = out_dims padded.dims se.nhood.dims
      ∧ ∀ p, inBox out.dims p = true →
          out.get? p = some (sweep_value E erosion flat padded se p) := by
  have hany : out_size.any (fun n => decide (n < 0)) = false := by
    rw [List.any_eq_false]
    intro n hn
    have := hnn n hn
    simp only [decide_eq_true_eq]
    omega
  unfold erode_sweep
  rw [hany, hos]
  simp only [Bool.false_eq_true, if_false]
  refine ⟨_, rfl, rfl, ?_⟩
  intro p hp
  simp only at hp
  have hol : (out_dims padded.dims se.nhood.dims).length = padded.dims.length :=
    out_dims_length _ _
  have hj := sub2ind_lt _ _ hp
  have hdimlt : padded.ndims - 1 < (out_dims padded.dims se.nhood.dims).length := by
    rw [hol]; unfold NDArray.ndims; omega
  have htake : padded.ndims - 1 + 1 = padded.dims.length := by unfold NDArray.ndims; omega
  rw [NDArray.get?, if_pos hp]
  simp only
  rw [erode_nd_getElem? E erosion flat padded.data (cumulative padded.dims)
    (out_dims padded.dims se.nhood.dims) _ _ _ _ hdimlt]
  have ht1 : (out_dims padded.dims se.nhood.dims).take (padded.ndims - 1 + 1)
      = out_dims padded.dims se.nhood.dims := by
    rw [htake, ← hol]; exact List.take_length _
  rw [ht1, if_pos ⟨Nat.zero_le _, by omega⟩]
  have hre := reidx_eq_sub2ind padded.dims (out_dims padded.dims se.nhood.dims)
    (padded.ndims - 1) hdimlt (by unfold NDArray.ndims; omega) (sub2ind _ p)
    (by rw [ht1]; exact hj)
  rw [ht1, ind2sub_sub2ind _ _ hp, htake, List.take_length] at hre
  rw [Nat.sub_zero, Nat.zero_add, hre]
  unfold NDArray.filled
  simp only
  rw [List.getElem?_replicate, if_pos hj, Option.map_some']
  congr 1
  unfold sweep_value
  cases erosion with
  | true =>
    rw [erode_cell_erosion E hE, cands_eq_cell_values E true flat padded se hse hdim p hp]
    simp
  | false =>
    rw [erode_cell_dilation E hE, cands_eq_cell_values E false flat padded se hse hdim p hp]
    simp
end

theorem ind2sub_append : ∀ (l1 l2 : List Nat) (i : Nat),
    ind2sub (l1 ++ l2) i = ind2sub l1 i ++ ind2sub l2 (i / l1.prod)
  | [], l2, i => by simp [ind2sub]
  | a :: l1, l2, i => by
    show (i % a) :: ind2sub (l1 ++ l2) (i / a) = _
    rw [ind2sub_append l1 l2 (i / a)]
    simp only [ind2sub, List.prod_cons, Nat.div_div_eq_div_mul, List.cons_append]

theorem ind2sub_replicate_one : ∀ (k m : Nat), ind2sub (List.replicate k 1) m = List.replicate k 0
  | 0, _ => rfl
  | k + 1, m => by
    simp only [List.replicate_succ, ind2sub, Nat.mod_one, Nat.div_one, ind2sub_replicate_one k m]

theorem zipWith_add_zeros : ∀ (p s : List Nat) (k : Nat), p.length = s.length + k →
    List.zipWith (fun (x : Nat) (y : Nat) => y + x) p (s ++ List.replicate k 0) = sub_add p s
  | [], [], k, h => by simp [sub_add]
  | [], _ :: _, _, h => by simp [sub_add]
  | x :: p, [], k, h => by
    have hk : k = p.length + 1 := by simpa using h.symm
    subst hk
    have ih := zipWith_add_zeros p [] p.length (by simp)
    simp only [List.nil_append] at ih
    simp only [List.nil_append, List.replicate_succ, List.zipWith_cons_cons, Nat.zero_add, ih]
    cases p <;> simp [sub_add]
  | x :: p, y :: s, k, h => by
    have h1 : p.length = s.length + k := by simp at h; omega
    simp only [List.cons_append, List.zipWith_cons_cons, zipWith_add_zeros p s k h1, sub_add]
    rw [Nat.add_comm]

theorem zipWith_pair_fst {α β : Type} (g : β → Nat) : ∀ (p sub : List Nat) (o : List β),
    sub.length = o.length →
    List.zipWith (fun (x : Nat) (r : Nat × Nat) => r.1 + x) p
        (List.zipWith (fun s b => (s, g b)) sub o)
      = List.zipWith (fun (x : Nat) (y : Nat) => y + x) p sub
  | [], _, _, _ => by simp
  | _ :: _, [], [], _ => by simp
  | _ :: _, [], _ :: _, h => by simp at h
  | _ :: _, _ :: _, [], h => by simp at h
  | x :: p, s :: sub, b :: o, h => by
    have h1 : sub.length = o.length := by simpa using h
    simp only [List.zipWith_cons_cons, zipWith_pair_fst (α := α) g p sub o h1]

theorem map_snd_zipWith_pair {β : Type} (g : β → Nat) : ∀ (sub : List Nat) (o : List β),
    sub.length = o.length →
    (List.zipWith (fun s b => (s, g b)) sub o).map Prod.snd = o.map g
  | [], [], _ => rfl
  | [], _ :: _, h => by simp at h
  | _ :: _, [], h => by simp at h
  | s :: sub, b :: o, h => by
    have h1 : sub.length = o.length := by simpa using h
    simp only [List.zipWith_cons_cons, List.map_cons, map_snd_zipWith_pair g sub o h1]

theorem active_from_of_count_one : ∀ (l : List Bool) (k : Nat), l.count true = 1 →
    active_from k l = [k + l.indexOf true]
  | [], _, h => by simp at h
  | false :: bs, k, h => by
    have h1 : bs.count true = 1 := by simpa using h
    have ih := active_from_of_count_one bs (k + 1) h1
    simp only [active_from, Bool.false_eq_true, if_false, ih]
    rw [List.indexOf_cons_ne _ (by simp)]
    congr 1
    omega
  | true :: bs, k, h => by
    have h1 : bs.count true = 0 := by simpa using h
    have : ∀ (l : List Bool) (j : Nat), l.count true = 0 → active_from j l = [] := by
      intro l
      induction l with
      | nil => intro j _; rfl
      | cons c cs ihc =>
        intro j hj
        cases c
        · simp only [active_from, Bool.false_eq_true, if_false]
          exact ihc (j + 1) (by simpa using hj)
        · simp at hj
    simp [active_from, this bs (k + 1) h1]

theorem zipWith_nonneg_of_fits : ∀ (in_d nh : List Nat) (k : Nat), fits in_d nh = true →
    ∀ n ∈ List.zipWith (fun (a b : Nat) => (a : Int) - ((b : Int) - 1)) in_d
      (nh ++ List.replicate k 1), (0 : Int) ≤ n
  | [], _, _, _ => by simp
  | a :: as, [], 0, _ => by simp
  | a :: as, [], k + 1, _ => by
    have ih := zipWith_nonneg_of_fits as [] k (by cases as <;> rfl)
    simp only [List.nil_append] at ih
    simp only [List.nil_append, List.replicate_succ, List.zipWith_cons_cons, List.mem_cons]
    rintro n (h | h)
    · subst h; simp
    · exact ih n h
  | a :: as, b :: bs, k, h => by
    simp only [fits, Bool.and_eq_true, decide_eq_true_eq] at h
    have ih := zipWith_nonneg_of_fits as bs k h.2
    simp only [List.cons_append, List.zipWith_cons_cons, List.mem_cons]
    rintro n (h1 | h1)
    · subst h1; have := h.1; omega
    · exact ih n h1

/-- out_size of erode_padded -/
theorem out_size_eq (in_d nh : List Nat) (hdim : nh.length ≤ in_d.length)
    (hfit : fits in_d nh = true) :
    let out_size : List Int := (List.range in_d.length).map (fun i =>
      (in_d.getD i 0 : Int) - (((redim nh in_d.length).getD i 0 : Nat) - 1))
    out_size.map Int.toNat = out_dims in_d nh ∧ (∀ n ∈ out_size, (0 : Int) ≤ n)
      ∧ out_size.length = in_d.length := by
  have hr : (redim nh in_d.length).length = in_d.length := by
    rw [redim_of_le _ _ hdim]; simp; omega
  have hz := range_map_getD_eq_zipWith (fun (a b : Nat) => (a : Int) - ((b : Int) - 1)) 0 0
    in_d.length in_d (redim nh in_d.length) rfl hr
  simp only
  rw [hz, redim_of_le _ _ hdim]
  refine ⟨?_, ?_, ?_⟩
  · rw [List.map_zipWith]
    exact zipWith_out_dims in_d nh hdim
  · exact zipWith_nonneg_of_fits in_d nh _ hfit
  · simp; omega



section
variable {P H : Type} [LinearOrder P] [Zero H]

omit [LinearOrder P] in
theorem erode_shift_get? (E : ElemType P H) (padded : NDArray P) (se : strel H)
    (hse : se.consistent) (hnnz : se.nnz = 1)
    (hdim : se.nhood.dims.length ≤ padded.dims.length) (out_size : List Int)
    (hos : out_size.map Int.toNat = out_dims padded.dims se.nhood.dims)
    (hol : out_size.length = padded.dims.length) :
    (erode_shift E padded se (redim se.nhood.dims padded.ndims) out_size).dims
        = out_dims padded.dims se.nhood.dims
      ∧ ∀ p, inBox (out_dims padded.dims se.nhood.dims) p = true →
          (erode_shift E padded se (redim se.nhood.dims padded.ndims) out_size).get? p
            = some ((cell_values E true true padded se p).headD E.ofInf) := by
  have hcount : se.nhood.data.count true = 1 := by rw [← hse.nnz_eq]; exact hnnz
  have hact := active_from_of_count_one se.nhood.data 0 hcount
  rw [Nat.zero_add] at hact
  have hfirst : se.get_nhood.find_first = se.nhood.data.indexOf true := rfl
  have hmem : se.nhood.data.indexOf true ∈ active_from 0 se.nhood.data := by rw [hact]; simp
  have hlt : se.nhood.data.indexOf true < se.nhood.dims.prod := by
    rw [mem_active_from] at hmem
    rw [← hse.nhood_len]
    by_contra hcon
    rw [List.getElem?_eq_none (by omega)] at hmem
    exact absurd hmem.2 (by simp)
  have hsub : ind2sub (redim se.nhood.dims padded.ndims) (se.nhood.data.indexOf true)
      = ind2sub se.nhood.dims (se.nhood.data.indexOf true)
        ++ List.replicate (padded.dims.length - se.nhood.dims.length) 0 := by
    unfold NDArray.ndims
    rw [redim_of_le _ _ hdim, ind2sub_append, ind2sub_replicate_one]
  have hsl : (ind2sub (redim se.nhood.dims padded.ndims) (se.nhood.data.indexOf true)).length
      = padded.dims.length := by
    rw [hsub]; simp [ind2sub_length]; omega
  have hranges : (List.range padded.ndims).map (fun dim =>
        ((ind2sub (redim se.nhood.dims padded.ndims) (se.nhood.data.indexOf true)).getD dim 0,
          (out_size.getD dim 0).toNat))
      = List.zipWith (fun s (b : Int) => (s, b.toNat))
          (ind2sub (redim se.nhood.dims padded.ndims) (se.nhood.data.indexOf true)) out_size :=
    range_map_getD_eq_zipWith (fun s (b : Int) => (s, b.toNat)) 0 0 padded.ndims _ _ hsl hol
  have hdims : (erode_shift E padded se (redim se.nhood.dims padded.ndims) out_size).dims
      = out_dims padded.dims se.nhood.dims := by
    unfold erode_shift NDArray.index
    simp only [hfirst]
    rw [hranges, map_snd_zipWith_pair _ _ _ (by rw [hsl, hol]), hos]
  refine ⟨hdims, ?_⟩
  intro p hp
  have hplen : p.length = padded.dims.length := by
    rw [inBox_length _ _ hp, out_dims_length]
  rw [NDArray.get?, hdims, if_pos hp]
  have hj := sub2ind_lt _ _ hp
  unfold erode_shift NDArray.index
  simp only [hfirst]
  rw [hranges, map_snd_zipWith_pair _ _ _ (by rw [hsl, hol]), hos]
  rw [List.getElem?_map, List.getElem?_range hj, Option.map_some', ind2sub_sub2ind _ _ hp,
    zipWith_pair_fst (α := Int) _ _ _ _ (by rw [hsl, hol]), hsub,
    zipWith_add_zeros _ _ _ (by rw [ind2sub_length, hplen]; omega)]
  congr 1
  unfold cell_values strel.active
  rw [hact]
  simp only [List.map_cons, List.map_nil, List.headD_cons, if_true]
  have hbox := inBox_sub_add padded.dims se.nhood.dims p
    (ind2sub se.nhood.dims (se.nhood.data.indexOf true)) (inBox_ind2sub _ _ hlt) hp hdim
  rw [NDArray.get?, if_pos hbox, List.getD_eq_getElem?_getD]

/-- What `erode_padded` returns when the SE has one active cell. -/
theorem erode_padded_shift [DecidableEq H] (E : ElemType P H) (padded : NDArray P)
    (se : strel H) (hse : se.consistent) (hnnz : se.nnz = 1)
    (hdim : se.nhood.dims.length ≤ padded.dims.length)
    (hfit : fits padded.dims se.nhood.dims = true) (erosion : Bool)
    (hbool : E.isBool = true → se.flat = true) :
    ∃ out, erode_padded E padded se erosion = .ok out
      ∧ out.dims = out_dims padded.dims se.nhood.dims
      ∧ ∀ p, inBox out.dims p = true →
          out.get? p = some ((cell_values E true true padded se p).headD E.ofInf) := by
  obtain ⟨h1, h2, h3⟩ := out_size_eq padded.dims se.nhood.dims hdim hfit
  have hb : (E.isBool && !se.flat) = false := by
    cases hE : E.isBool
    · rfl
    · simp [hbool hE]
  have key := erode_shift_get? E padded se hse hnnz hdim _ h1 h3
  unfold erode_padded
  simp only [hb, Bool.false_eq_true, if_false, strel.get_nnz, hnnz, if_true, strel.get_nhood]
  refine ⟨_, rfl, key.1, ?_⟩
  intro p hp
  exact key.2 p (by rw [← key.1]; exact hp)

/-- What `erode_padded` returns when the SE does not have exactly one active cell. -/
theorem erode_padded_sweep [DecidableEq H] (E : ElemType P H) (hE : E.lawful)
    (padded : NDArray P) (hnd : 1 ≤ padded.dims.length)
    (se : strel H) (hse : se.consistent) (hnnz : se.nnz ≠ 1)
    (hdim : se.nhood.dims.length ≤ padded.dims.length)
    (hfit : fits padded.dims se.nhood.dims = true) (erosion : Bool)
    (hbool : E.isBool = true → se.flat = true) :
    ∃ out, erode_padded E padded se erosion = .ok out
      ∧ out.dims = out_dims padded.dims se.nhood.dims
      ∧ ∀ p, inBox out.dims p = true →
          out.get? p = some (sweep_value E erosion se.flat padded se p) := by
  obtain ⟨h1, h2, _⟩ := out_size_eq padded.dims se.nhood.dims hdim hfit
  have hb : (E.isBool && !se.flat) = false := by
    cases hE : E.isBool
    · rfl
    · simp [hbool hE]
  have key := erode_sweep_get? E hE padded hnd se hse hdim erosion se.flat _ h1 h2
  unfold erode_padded
  simp only [hb, Bool.false_eq_true, if_false, strel.get_nnz, hnnz, strel.get_nhood]
  exact key
end

theorem zipWith_sub_sub_add : ∀ (p s : List Nat) (pre : List Int), pre.length = p.length →
    List.zipWith (fun (x : Nat) (r : Int) => (x : Int) - r) (sub_add p s) pre
      = pos_add_sub p s pre
  | [], [], pre, _ => by simp [sub_add, pos_add_sub]
  | [], _ :: _, pre, _ => by simp [sub_add, pos_add_sub]
  | _ :: _, _, [], h => by simp at h
  | x :: p, [], r :: pre, h => by
    have h1 : pre.length = p.length := by simpa using h
    have ih := zipWith_sub_sub_add p [] pre h1
    have hp : sub_add p [] = p := by cases p <;> rfl
    rw [hp] at ih
    simp [sub_add, pos_add_sub, ih]
  | x :: p, y :: s, r :: pre, h => by
    have h1 : pre.length = p.length := by simpa using h
    have ih := zipWith_sub_sub_add p s pre h1
    simp [sub_add, pos_add_sub, ih]

theorem getD_tail {α : Type} (l : List α) (d : Nat) (x : α) :
    l.tail.getD d x = l.getD (d + 1) x := by
  cases l <;> simp

theorem headD_eq_getD {α : Type} (l : List α) (x : α) : l.headD x = l.getD 0 x := by
  cases l <;> rfl

theorem pos_add_sub_congr : ∀ (p s : List Nat) (o o1 : List Int),
    (∀ d, d < p.length → o.getD d 0 = o1.getD d 0) → pos_add_sub p s o = pos_add_sub p s o1
  | [], _, _, _, _ => rfl
  | x :: p, s, o, o1, h => by
    have h0 : o.headD 0 = o1.headD 0 := by
      rw [headD_eq_getD, headD_eq_getD]
      exact h 0 (by simp)
    have ht : ∀ d, d < p.length → o.tail.getD d 0 = o1.tail.getD d 0 := by
      intro d hd
      rw [getD_tail, getD_tail]
      exact h (d + 1) (by simpa using hd)
    simp only [pos_add_sub, h0, pos_add_sub_congr p s.tail o.tail o1.tail ht]

section
variable {P : Type}

theorem insert_get? (pd : List Nat) (pv : P) (im : NDArray P) (pre : List Int)
    (q : List Nat) (hq : inBox pd q = true) :
    ((NDArray.filled pd pv).insert im pre).get? q
      = some (im_ext im pv (List.zipWith (fun (x : Nat) (r : Int) => (x : Int) - r) q pre)) := by
  have hj := sub2ind_lt _ _ hq
  unfold NDArray.insert NDArray.filled NDArray.get?
  simp only
  rw [if_pos hq, List.getElem?_mapIdx, List.getElem?_replicate, if_pos hj, Option.map_some',
    ind2sub_sub2ind _ _ hq]
  congr 1
  unfold im_ext NDArray.get?
  have h1 : ∀ (q : List Nat) (pre : List Int),
      (List.zipWith (fun (s : Nat) (r : Int) => decide (r ≤ (s : Int))) q pre).all id
        = (List.zipWith (fun (x : Nat) (r : Int) => (x : Int) - r) q pre).all
            (fun x => decide (0 ≤ x)) := by
    intro q
    induction q with
    | nil => intro pre; simp
    | cons x q ih =>
      intro pre
      cases pre with
      | nil => simp
      | cons r pre =>
        simp only [List.zipWith_cons_cons, List.all_cons, ih pre, id]
        congr 1
        simp
  have h2 : (List.zipWith (fun (x : Nat) (r : Int) => (x : Int) - r) q pre).map Int.toNat
      = List.zipWith (fun (s : Nat) (r : Int) => ((s : Int) - r).toNat) q pre := by
    rw [List.map_zipWith]
  rw [h1, h2]
  cases hc : (List.zipWith (fun (x : Nat) (r : Int) => (x : Int) - r) q pre).all
      (fun x => decide (0 ≤ x))
  · simp
  · simp only [Bool.true_and, if_true]
    cases hb : inBox im.dims (List.zipWith (fun (s : Nat) (r : Int) => ((s : Int) - r).toNat) q pre)
    · simp
    · simp [List.getD_eq_getElem?_getD]
end

theorem pad_dims_length (k : Nat) : ∀ (a b : List Nat), (pad_dims k a b).length = a.length
  | [], [] => rfl
  | [], _ :: _ => rfl
  | _ :: _, [] => rfl
  | a :: as, b :: bs => by simp [pad_dims, pad_dims_length k as bs]

theorem pad_dims_getD (k : Nat) : ∀ (a b : List Nat) (d : Nat), d < a.length →
    (pad_dims k a b).getD d 0 = a.getD d 0 + k * (b.getD d 1 - 1)
  | [], _, _, h => by simp at h
  | a :: as, [], d, _ => by simp [pad_dims]
  | a :: as, b :: bs, 0, _ => by simp [pad_dims]
  | a :: as, b :: bs, d + 1, h => by
    have h1 : d < as.length := by simpa using h
    simpa [pad_dims] using pad_dims_getD k as bs d h1

section
variable {H : Type}

theorem resized_origin_getD (se : strel H) (n : Nat) (hlen : se.origin.length = se.ndims)
    (d : Nat) :
    (if se.ndims < n then strel.resize_idx se.origin n else se.origin).getD d 0
      = se.origin.getD d 0 := by
  split
  · unfold strel.resize_idx
    rw [List.take_of_length_le (by omega)]
    simp only [List.getD_eq_getElem?_getD, List.getElem?_append, List.getElem?_replicate]
    by_cases h1 : d < se.origin.length
    · simp [h1]
    · rw [if_neg h1, List.getElem?_eq_none (by omega)]
      split <;> rfl
  · rfl

theorem resized_size_getD (se : strel H) (n : Nat) (hn : se.size.length ≤ n)
    (hnd : se.ndims = se.size.length) (d : Nat) (hd : d < n) :
    (if se.ndims < n then strel.resize_dv se.size n else se.size).getD d 0
      = se.size.getD d 1 := by
  split
  · unfold strel.resize_dv
    rw [List.take_of_length_le (by omega)]
    simp only [List.getD_eq_getElem?_getD, List.getElem?_append, List.getElem?_replicate]
    by_cases h1 : d < se.size.length
    · simp [h1, List.getElem?_eq_getElem h1]
    · rw [if_neg h1, List.getElem?_eq_none (by omega), if_pos (by omega)]
      rfl
  · have h1 : d < se.size.length := by omega
    simp [List.getD_eq_getElem?_getD, List.getElem?_eq_getElem h1]

theorem pre_pad_eq (se : strel H) (n : Nat) (hlen : se.origin.length = se.ndims)
    (shape : String) (k : Int)
    (hk : (shape = "same" ∧ k = 1) ∨ (shape = "full" ∧ k = 2)) :
    se.pre_pad n shape = .ok ((List.range n).map (fun d => se.origin.getD d 0 * k)) := by
  unfold strel.pre_pad
  simp only [resized_origin_getD se n hlen]
  rcases hk with ⟨h1, h2⟩ | ⟨h1, h2⟩
  · subst h1; subst h2
    rw [if_neg (by decide), if_pos rfl]
  · subst h1; subst h2
    rw [if_neg (by decide), if_neg (by decide), if_pos rfl]

theorem post_pad_eq (se : strel H) (n : Nat) (hlen : se.origin.length = se.ndims)
    (hnd : se.ndims = se.size.length)
    (hn : se.ndims ≤ n) (shape : String) (k : Int)
    (hk : (shape = "same" ∧ k = 1) ∨ (shape = "full" ∧ k = 2)) :
    se.post_pad n shape = .ok ((List.range n).map (fun d =>
      ((se.size.getD d 1 : Int) - se.origin.getD d 0 - 1) * k)) := by
  unfold strel.post_pad
  simp only [resized_origin_getD se n hlen]
  rcases hk with ⟨h1, h2⟩ | ⟨h1, h2⟩
  · subst h1; subst h2
    rw [if_neg (by decide), if_pos rfl]
    congr 1
    apply List.map_congr_left
    intro d hd
    rw [resized_size_getD se n (by omega) hnd d (by simpa using hd)]
  · subst h1; subst h2
    rw [if_neg (by decide), if_neg (by decide), if_pos rfl]
    congr 1
    apply List.map_congr_left
    intro d hd
    rw [resized_size_getD se n (by omega) hnd d (by simpa using hd)]

theorem getD_map_range {α : Type} (f : Nat → α) (n d : Nat) (x : α) (hd : d < n) :
    ((List.range n).map f).getD d x = f d := by
  rw [List.getD_eq_getElem?_getD, List.getElem?_map, List.getElem?_range hd]
  rfl

theorem size_pos_of_origin_ok (se : strel H) (hor : se.origin_ok)
    (hnd : se.ndims = se.size.length) (d : Nat) :
    1 ≤ se.size.getD d 1 := by
  by_cases hd : d < se.ndims
  · have := hor.2 d hd
    have h1 : (0 : Int) < (se.size.getD d 0 : Int) := by omega
    have h2 : 0 < se.size.getD d 0 := by exact_mod_cast h1
    by_cases h3 : d < se.size.length
    · simp only [List.getD_eq_getElem?_getD, List.getElem?_eq_getElem h3, Option.getD_some] at h2 ⊢
      exact h2
    · simp only [List.getD_eq_getElem?_getD, List.getElem?_eq_none (Nat.le_of_not_lt h3),
        Option.getD_none] at h2
      omega
  · have h3 : se.size.length ≤ d := by omega
    simp [List.getD_eq_getElem?_getD, List.getElem?_eq_none h3]

theorem pad_matrix_spec {P : Type} (im : NDArray P) (se : strel H) (hse : se.consistent)
    (hor : se.origin_ok) (hdim : se.nhood.dims.length ≤ im.dims.length) (pv : P)
    (shape : String) (k : Nat)
    (hk : (shape = "same" ∧ k = 1) ∨ (shape = "full" ∧ k = 2)) :
    ∃ padded, pad_matrix im se pv shape = .ok padded
      ∧ padded.dims = pad_dims k im.dims se.nhood.dims
      ∧ ∀ q, inBox padded.dims q = true →
          padded.get? q = some (im_ext im pv
            (List.zipWith (fun (x : Nat) (r : Int) => (x : Int) - r) q
              ((List.range im.dims.length).map (fun d => se.origin.getD d 0 * (k : Int))))) := by
  have hnv : shape ≠ "valid" := by
    rcases hk with ⟨h1, _⟩ | ⟨h1, _⟩ <;> subst h1 <;> decide
  have hki : (shape = "same" ∧ (k : Int) = 1) ∨ (shape = "full" ∧ (k : Int) = 2) := by
    rcases hk with ⟨h1, h2⟩ | ⟨h1, h2⟩
    · exact Or.inl ⟨h1, by exact_mod_cast h2⟩
    · exact Or.inr ⟨h1, by exact_mod_cast h2⟩
  have hnd : se.ndims = se.size.length := by rw [hse.ndims_eq, hse.size_eq]
  have hpre := pre_pad_eq se im.ndims hor.1 shape k hki
  have hpost := post_pad_eq se im.ndims hor.1 hnd
    (by rw [hse.ndims_eq]; exact hdim) shape k hki
  have hdims : ((List.range im.ndims).map (fun dim =>
        (im.dims.getD dim 0 : Int)
          + (((List.range im.ndims).map (fun d => se.origin.getD d 0 * (k : Int))).getD dim 0
            + ((List.range im.ndims).map (fun d =>
                ((se.size.getD d 1 : Int) - se.origin.getD d 0 - 1) * (k : Int))).getD dim 0))).map
        Int.toNat = pad_dims k im.dims se.nhood.dims := by
    apply List.ext_getElem
    · simp [pad_dims_length, NDArray.ndims]
    · intro d h1 h2
      have hd : d < im.ndims := by simpa using h1
      have hsz := size_pos_of_origin_ok se hor hnd d
      have hg := pad_dims_getD k im.dims se.nhood.dims d hd
      rw [List.getD_eq_getElem?_getD, List.getElem?_eq_getElem h2, Option.getD_some] at hg
      rw [hg, ← hse.size_eq]
      simp only [List.getElem_map, List.getElem_range, getD_map_range _ _ _ _ hd]
      have : (im.dims.getD d 0 : Int)
          + (se.origin.getD d 0 * (k : Int)
            + ((se.size.getD d 1 : Int) - se.origin.getD d 0 - 1) * (k : Int))
          = ((im.dims.getD d 0 + k * (se.size.getD d 1 - 1) : Nat) : Int) := by
        push_cast [Nat.cast_sub hsz]
        ring
      rw [this, Int.toNat_ofNat]
  unfold pad_matrix
  rw [if_neg hnv]
  simp only [hpre, hpost, hdims]
  refine ⟨_, rfl, rfl, ?_⟩
  intro q hq
  exact insert_get? _ pv im _ q hq
end

theorem pad_dims_zero : ∀ (a b : List Nat), pad_dims 0 a b = a
  | [], [] => rfl
  | [], _ :: _ => rfl
  | _ :: _, [] => rfl
  | a :: as, b :: bs => by simp [pad_dims, pad_dims_zero as bs]

theorem out_dims_pad_dims (k : Nat) : ∀ (a nh : List Nat), (∀ b ∈ nh, 1 ≤ b) →
    out_dims (pad_dims (k + 1) a nh) nh = pad_dims k a nh
  | [], [], _ => rfl
  | [], _ :: _, _ => rfl
  | _ :: _, [], _ => rfl
  | a :: as, b :: bs, h => by
    have hb : 1 ≤ b := h b (by simp)
    have ih := out_dims_pad_dims k as bs (fun x hx => h x (by simp [hx]))
    simp only [pad_dims, out_dims, ih, List.cons.injEq, and_true]
    have : (((a + (k + 1) * (b - 1) : Nat) : Int) - ((b : Int) - 1))
        = ((a + k * (b - 1) : Nat) : Int) := by
      push_cast [Nat.cast_sub hb]
      ring
    rw [this, Int.toNat_ofNat]

theorem fits_pad_dims (k : Nat) : ∀ (a nh : List Nat), (∀ b ∈ nh, 1 ≤ b) →
    nh.length ≤ a.length → fits (pad_dims (k + 1) a nh) nh = true
  | [], [], _, _ => rfl
  | [], _ :: _, _, h => by simp at h
  | a :: as, [], _, _ => by simp [pad_dims, fits]
  | a :: as, b :: bs, h, hl => by
    have hb : 1 ≤ b := h b (by simp)
    have ih := fits_pad_dims k as bs (fun x hx => h x (by simp [hx])) (by simpa using hl)
    simp only [pad_dims, fits, ih, Bool.and_true, decide_eq_true_eq]
    have : b - 1 ≤ (k + 1) * (b - 1) := Nat.le_mul_of_pos_left _ (by omega)
    omega

theorem fits_self_of_le : ∀ (a nh : List Nat), nh.length ≤ a.length →
    (∀ d, d < nh.length → nh.getD d 1 ≤ a.getD d 0 + 1) → fits a nh = true
  | [], [], _, _ => rfl
  | [], _ :: _, h, _ => by simp at h
  | a :: as, [], _, _ => by simp [fits]
  | a :: as, b :: bs, hl, h => by
    have h0 := h 0 (by simp)
    have ih := fits_self_of_le as bs (by simpa using hl) (by
      intro d hd
      have := h (d + 1) (by simpa using hd)
      simpa using this)
    simp only [fits, ih, Bool.and_true, decide_eq_true_eq]
    simpa using h0

section
variable {H : Type}

theorem nhood_dims_pos (se : strel H) (hse : se.consistent) (hor : se.origin_ok) :
    ∀ b ∈ se.nhood.dims, 1 ≤ b := by
  intro b hb
  obtain ⟨d, hd, rfl⟩ := List.getElem_of_mem hb
  have hnd : se.ndims = se.size.length := by rw [hse.ndims_eq, hse.size_eq]
  have := size_pos_of_origin_ok se hor hnd d
  rw [hse.size_eq, List.getD_eq_getElem?_getD, List.getElem?_eq_getElem hd] at this
  exact this

theorem mem_active_inBox (se : strel H) (hse : se.consistent) (s : List Nat)
    (hs : s ∈ se.active) : inBox se.nhood.dims s = true := by
  unfold strel.active at hs
  rw [List.mem_map] at hs
  obtain ⟨ind, hind, rfl⟩ := hs
  rw [mem_active_from] at hind
  apply inBox_ind2sub
  rw [← hse.nhood_len]
  by_contra hcon
  rw [List.getElem?_eq_none (by omega)] at hind
  exact absurd hind.2 (by simp)

variable {P : Type} [Zero H]

theorem cell_values_eq_ext_values (E : ElemType P H) (erosion flat : Bool) (im : NDArray P)
    (pv : P) (padded : NDArray P) (se : strel H) (hse : se.consistent) (pre : List Int)
    (hpre : pre.length = padded.dims.length)
    (hdim : se.nhood.dims.length ≤ padded.dims.length)
    (hget : ∀ q, inBox padded.dims q = true → padded.get? q = some (im_ext im pv
      (List.zipWith (fun (x : Nat) (r : Int) => (x : Int) - r) q pre)))
    (p : List Nat) (hp : inBox (out_dims padded.dims se.nhood.dims) p = true) :
    cell_values E erosion flat padded se p = ext_values E erosion flat im pv se pre p := by
  unfold cell_values ext_values
  apply List.map_congr_left
  intro s hs
  have hbox := inBox_sub_add padded.dims se.nhood.dims p s (mem_active_inBox se hse s hs) hp hdim
  have hplen : p.length = padded.dims.length := by
    rw [inBox_length _ _ hp, out_dims_length]
  rw [hget _ hbox, zipWith_sub_sub_add _ _ _ (by rw [hpre, hplen])]
  rfl
end

section
variable {P H : Type} [LinearOrder P] [Zero H] [DecidableEq H]

omit [Zero H] [DecidableEq H] in
theorem nhood_not_empty (se : strel H) (hse : se.consistent) (hor : se.origin_ok) :
    se.get_nhood.is_empty = false := by
  unfold strel.get_nhood NDArray.is_empty NDArray.numel
  have h := nhood_dims_pos se hse hor
  have : 0 < se.nhood.dims.prod := List.prod_pos (fun a ha => h a ha)
  simp only [beq_eq_false_iff_ne, ne_eq]
  omega

/-- What `erode` returns with shape "same" (`k = 1`) or "full" (`k = 2`). -/
theorem erode_mode (E : ElemType P H) (hE : E.lawful) (im : NDArray P)
    (hnd : 1 ≤ im.dims.length) (hne : im.is_empty = false) (se : strel H)
    (hse : se.consistent) (hor : se.origin_ok)
    (hdim : se.nhood.dims.length ≤ im.dims.length) (erosion : Bool)
    (hbool : E.isBool = true → se.flat = true) (shape : String) (k : Nat)
    (hk : (shape = "same" ∧ k = 1) ∨ (shape = "full" ∧ k = 2)) :
    ∃ out, erode E im se shape erosion = .ok out
      ∧ out.dims = pad_dims (k - 1) im.dims se.nhood.dims
      ∧ ∀ p, inBox out.dims p = true → out.get? p = some (
          if se.nnz = 1 then
            (ext_values E true true im (E.padval erosion) se
              ((List.range im.dims.length).map (fun d => se.origin.getD d 0 * (k : Int))) p).headD
              E.ofInf
          else if erosion then
            (ext_values E erosion se.flat im (E.padval erosion) se
              ((List.range im.dims.length).map (fun d => se.origin.getD d 0 * (k : Int))) p).foldl
              min (E.padval erosion)
          else
            (ext_values E erosion se.flat im (E.padval erosion) se
              ((List.range im.dims.length).map (fun d => se.origin.getD d 0 * (k : Int))) p).foldl
              max (E.padval erosion)) := by
  obtain ⟨padded, hpad, hpd, hget⟩ :=
    pad_matrix_spec im se hse hor hdim (E.padval erosion) shape k hk
  have hpos := nhood_dims_pos se hse hor
  have hk1 : k = (k - 1) + 1 := by rcases hk with ⟨_, h⟩ | ⟨_, h⟩ <;> omega
  have hpl : padded.dims.length = im.dims.length := by rw [hpd, pad_dims_length]
  have hod : out_dims padded.dims se.nhood.dims = pad_dims (k - 1) im.dims se.nhood.dims := by
    rw [hpd, hk1, out_dims_pad_dims _ _ _ hpos]; rfl
  have hfit : fits padded.dims se.nhood.dims = true := by
    rw [hpd, hk1]; exact fits_pad_dims _ _ _ hpos hdim
  have hdim1 : se.nhood.dims.length ≤ padded.dims.length := by rw [hpl]; exact hdim
  have hprel : ((List.range im.dims.length).map
      (fun d => se.origin.getD d 0 * (k : Int))).length = padded.dims.length := by
    rw [hpl]; simp
  unfold erode
  simp only [hne, nhood_not_empty se hse hor, Bool.or_self, Bool.false_eq_true, if_false, hpad]
  by_cases hnnz : se.nnz = 1
  · obtain ⟨out, ho, hd, hv⟩ := erode_padded_shift E padded se hse hnnz hdim1 hfit erosion hbool
    refine ⟨out, ho, by rw [hd, hod], ?_⟩
    intro p hp
    rw [hv p hp, if_pos hnnz]
    rw [cell_values_eq_ext_values E true true im (E.padval erosion) padded se hse _ hprel hdim1
      hget p (by rw [← hd]; exact hp)]
  · obtain ⟨out, ho, hd, hv⟩ := erode_padded_sweep E hE padded (by rw [hpl]; exact hnd) se hse
      hnnz hdim1 hfit erosion hbool
    refine ⟨out, ho, by rw [hd, hod], ?_⟩
    intro p hp
    rw [hv p hp, if_neg hnnz]
    unfold sweep_value
    rw [cell_values_eq_ext_values E erosion se.flat im (E.padval erosion) padded se hse _ hprel
      hdim1 hget p (by rw [← hd]; exact hp)]
end

section
variable {P : Type} [LinearOrder P]

theorem foldl_min_le (l : List P) : ∀ (o : P),
    l.foldl min o ≤ o ∧ (∀ x ∈ l, l.foldl min o ≤ x) ∧ (l.foldl min o = o ∨ l.foldl min o ∈ l) := by
  induction l with
  | nil => intro o; simp
  | cons a l ih =>
    intro o
    obtain ⟨h1, h2, h3⟩ := ih (min o a)
    simp only [List.foldl_cons, List.mem_cons, forall_eq_or_imp]
    refine ⟨le_trans h1 (min_le_left _ _), ⟨le_trans h1 (min_le_right _ _), h2⟩, ?_⟩
    rcases h3 with h | h
    · rcases min_choice o a with hc | hc
      · left; rw [h, hc]
      · right; left; rw [h, hc]
    · right; right; exact h

theorem foldl_max_ge (l : List P) : ∀ (o : P),
    o ≤ l.foldl max o ∧ (∀ x ∈ l, x ≤ l.foldl max o) ∧ (l.foldl max o = o ∨ l.foldl max o ∈ l) := by
  induction l with
  | nil => intro o; simp
  | cons a l ih =>
    intro o
    obtain ⟨h1, h2, h3⟩ := ih (max o a)
    simp only [List.foldl_cons, List.mem_cons, forall_eq_or_imp]
    refine ⟨le_trans (le_max_left _ _) h1, ⟨le_trans (le_max_right _ _) h1, h2⟩, ?_⟩
    rcases h3 with h | h
    · rcases max_choice o a with hc | hc
      · left; rw [h, hc]
      · right; left; rw [h, hc]
    · right; right; exact h

theorem foldl_min_isLeast (t : P) (ht : ∀ x : P, x ≤ t) (l : List P) (hl : l ≠ []) :
    IsLeast {x | x ∈ l} (l.foldl min t) := by
  obtain ⟨_, h2, h3⟩ := foldl_min_le l t
  refine ⟨?_, fun x hx => h2 x hx⟩
  rcases h3 with h | h
  · obtain ⟨a, ha⟩ := List.exists_mem_of_ne_nil l hl
    have : a = l.foldl min t := le_antisymm (by rw [h]; exact ht a) (h2 a ha)
    rw [← this]; exact ha
  · exact h

theorem foldl_max_isGreatest (b : P) (hb : ∀ x : P, b ≤ x) (l : List P) (hl : l ≠ []) :
    IsGreatest {x | x ∈ l} (l.foldl max b) := by
  obtain ⟨_, h2, h3⟩ := foldl_max_ge l b
  refine ⟨?_, fun x hx => h2 x hx⟩
  rcases h3 with h | h
  · obtain ⟨a, ha⟩ := List.exists_mem_of_ne_nil l hl
    have : a = l.foldl max b := le_antisymm (h2 a ha) (by rw [h]; exact hb a)
    rw [← this]; exact ha
  · exact h

theorem foldl_max_isLUB (b : P) (hb : ∀ x : P, b ≤ x) (l : List P) :
    IsLUB {x | x ∈ l} (l.foldl max b) := by
  obtain ⟨_, h2, h3⟩ := foldl_max_ge l b
  refine ⟨fun x hx => h2 x hx, fun u hu => ?_⟩
  rcases h3 with h | h
  · rw [h]; exact hb u
  · exact hu h

theorem foldl_min_isGLB (t : P) (ht : ∀ x : P, x ≤ t) (l : List P) :
    IsGLB {x | x ∈ l} (l.foldl min t) := by
  obtain ⟨_, h2, h3⟩ := foldl_min_le l t
  refine ⟨fun x hx => h2 x hx, fun u hu => ?_⟩
  rcases h3 with h | h
  · rw [h]; exact ht u
  · exact hu h
end

section
variable {H : Type}

theorem ctor_decomposition (nhood : NDArray Bool) (height : NDArray H) :
    (strel.ctor nhood height).decomposition = [strel.ctor_elem nhood height] := rfl

theorem ctor_consistent (nhood : NDArray Bool) (height : NDArray H)
    (hn : nhood.data.length = nhood.dims.prod) : (strel.ctor nhood height).consistent :=
  ⟨rfl, rfl, rfl, hn⟩

theorem ctor_elem_consistent (nhood : NDArray Bool) (height : NDArray H)
    (hn : nhood.data.length = nhood.dims.prod) : (strel.ctor_elem nhood height).consistent :=
  ⟨rfl, rfl, rfl, hn⟩

theorem default_origin_ok (se : strel H) (hnd : se.ndims = se.size.length)
    (hpos : ∀ b ∈ se.size, 1 ≤ b) (o : List Int) (ho : o = se.default_origin) :
    o.length = se.ndims ∧
      ∀ d, d < se.ndims → 0 ≤ o.getD d 0 ∧ o.getD d 0 < (se.size.getD d 0 : Int) := by
  subst ho
  unfold strel.default_origin
  refine ⟨by simp, ?_⟩
  intro d hd
  rw [getD_map_range _ _ _ _ hd]
  have hd1 : d < se.size.length := by omega
  have hb := hpos (se.size[d]) (List.getElem_mem hd1)
  have hg : se.size.getD d 0 = se.size[d] := by
    rw [List.getD_eq_getElem?_getD, List.getElem?_eq_getElem hd1]; rfl
  rw [hg]
  omega

theorem ctor_origin_ok (nhood : NDArray Bool) (height : NDArray H)
    (hpos : ∀ b ∈ nhood.dims, 1 ≤ b) : (strel.ctor nhood height).origin_ok :=
  default_origin_ok (strel.ini_ctor nhood height []) rfl hpos _ rfl

theorem ctor_elem_origin_ok (nhood : NDArray Bool) (height : NDArray H)
    (hpos : ∀ b ∈ nhood.dims, 1 ≤ b) : (strel.ctor_elem nhood height).origin_ok :=
  default_origin_ok (strel.ini_ctor nhood height []) rfl hpos _ rfl

theorem dims_pos_of_count (nhood : NDArray Bool) (hn : nhood.data.length = nhood.dims.prod)
    (hc : 1 ≤ nhood.data.count true) : ∀ b ∈ nhood.dims, 1 ≤ b := by
  intro b hb
  by_contra hcon
  have hb0 : b = 0 := by omega
  subst hb0
  have : nhood.dims.prod = 0 := List.prod_eq_zero hb
  have h2 := List.count_le_length true nhood.data
  omega
end

section
variable {P H : Type} [LinearOrder P] [Zero H] [DecidableEq H]

omit [LinearOrder P] [DecidableEq H] in
theorem ext_values_flat (E : ElemType P H) (erosion : Bool) (im : NDArray P) (pv : P)
    (se : strel H) (pre : List Int) (p : List Nat)
    (hpre : ∀ d, d < p.length → pre.getD d 0 = se.origin.getD d 0) :
    ext_values E erosion true im pv se pre p
      = se.active.map (fun s => im_ext im pv (pos_add_sub p s se.origin)) := by
  unfold ext_values
  apply List.map_congr_left
  intro s _
  simp only [if_true]
  rw [pos_add_sub_congr p s pre se.origin hpre]

omit [Zero H] [DecidableEq H] [LinearOrder P] in
theorem active_length (se : strel H) (hse : se.consistent) : se.active.length = se.nnz := by
  unfold strel.active
  rw [List.length_map, active_from_length, hse.nnz_eq]

omit [Zero H] [DecidableEq H] in
theorem padval_le (E : ElemType P H) (hE : E.lawful) (x : P) : E.padval false ≤ x := by
  have := hE.2.1 x
  unfold ElemType.padval
  simpa using this

omit [Zero H] [DecidableEq H] in
theorem le_padval (E : ElemType P H) (hE : E.lawful) (x : P) : x ≤ E.padval true := by
  have := hE.1 x
  unfold ElemType.padval
  simpa using this

/-- Flat erosion or dilation by the SE handed to `erode`, shape "same". -/
theorem erode_flat_same (E : ElemType P H) (hE : E.lawful) (im : NDArray P)
    (hnd : 1 ≤ im.dims.length) (hne : im.is_empty = false) (se : strel H)
    (hse : se.consistent) (hor : se.origin_ok)
    (hdim : se.nhood.dims.length ≤ im.dims.length) (hflat : se.flat = true)
    (erosion : Bool) :
    ∃ out, erode E im se "same" erosion = .ok out ∧ out.dims = im.dims
      ∧ ∀ p, inBox im.dims p = true → ∃ v, out.get? p = some v
        ∧ (1 ≤ se.nnz → erosion = true → IsLeast {x | ∃ s ∈ se.active,
            x = im_ext im (E.padval erosion) (pos_add_sub p s se.origin)} v)
        ∧ (1 ≤ se.nnz → erosion = false → IsGreatest {x | ∃ s ∈ se.active,
            x = im_ext im (E.padval erosion) (pos_add_sub p s se.origin)} v)
        ∧ (erosion = true → IsGLB {x | ∃ s ∈ se.active,
            x = im_ext im (E.padval erosion) (pos_add_sub p s se.origin)} v)
        ∧ (erosion = false → IsLUB {x | ∃ s ∈ se.active,
            x = im_ext im (E.padval erosion) (pos_add_sub p s se.origin)} v) := by
  obtain ⟨out, ho, hd, hv⟩ := erode_mode E hE im hnd hne se hse hor hdim erosion
    (fun _ => hflat) "same" 1 (Or.inl ⟨rfl, rfl⟩)
  rw [Nat.sub_self, pad_dims_zero] at hd
  refine ⟨out, ho, hd, ?_⟩
  intro p hp
  have hplen : p.length = im.dims.length := inBox_length _ _ hp
  have hpre : ∀ d, d < p.length →
      ((List.range im.dims.length).map (fun d => se.origin.getD d 0 * ((1 : Nat) : Int))).getD d 0
        = se.origin.getD d 0 := by
    intro d hdlt
    rw [getD_map_range _ _ _ _ (by omega)]
    simp
  have hset : {x | ∃ s ∈ se.active, x = im_ext im (E.padval erosion) (pos_add_sub p s se.origin)}
      = {x | x ∈ se.active.map (fun s => im_ext im (E.padval erosion) (pos_add_sub p s se.origin))} := by
    ext x
    simp only [Set.mem_setOf_eq, List.mem_map]
    constructor
    · rintro ⟨s, hs, rfl⟩; exact ⟨s, hs, rfl⟩
    · rintro ⟨s, hs, rfl⟩; exact ⟨s, hs, rfl⟩
  have hlen : (se.active.map (fun s =>
      im_ext im (E.padval erosion) (pos_add_sub p s se.origin))).length = se.nnz := by
    rw [List.length_map, active_length se hse]
  refine ⟨_, hv p (by rw [hd]; exact hp), ?_⟩
  rw [hset, hflat, ext_values_flat E true im _ se _ p hpre,
    ext_values_flat E erosion im _ se _ p hpre]
  by_cases hnnz : se.nnz = 1
  · rw [if_pos hnnz]
    obtain ⟨x0, hx0⟩ : ∃ x0, se.active.map (fun s =>
        im_ext im (E.padval erosion) (pos_add_sub p s se.origin)) = [x0] := by
      rw [hnnz] at hlen
      exact List.length_eq_one.mp hlen
    rw [hx0]
    simp only [List.headD_cons, List.mem_singleton]
    refine ⟨fun _ _ => ⟨rfl, ?_⟩, fun _ _ => ⟨rfl, ?_⟩, fun _ => ⟨?_, ?_⟩, fun _ => ⟨?_, ?_⟩⟩
    · intro y hy; exact le_of_eq hy.symm
    · intro y hy; exact le_of_eq hy
    · intro y hy; exact le_of_eq hy.symm
    · intro u hu; exact hu rfl
    · intro y hy; exact le_of_eq hy
    · intro u hu; exact hu rfl
  · rw [if_neg hnnz]
    cases erosion with
    | true =>
      simp only [if_true]
      refine ⟨fun h1 _ => ?_, fun _ h => absurd h (by simp), fun _ => ?_,
        fun h => absurd h (by simp)⟩
      · apply foldl_min_isLeast _ (le_padval E hE)
        intro hnil
        rw [hnil] at hlen
        simp at hlen
        omega
      · exact foldl_min_isGLB _ (le_padval E hE) _
    | false =>
      simp only [Bool.false_eq_true, if_false]
      refine ⟨fun _ h => absurd h (by simp), fun h1 _ => ?_, fun h => absurd h (by simp),
        fun _ => ?_⟩
      · apply foldl_max_isGreatest _ (padval_le E hE)
        intro hnil
        rw [hnil] at hlen
        simp at hlen
        omega
      · exact foldl_max_isLUB _ (padval_le E hE) _
end

theorem boolElem_lawful : boolElem.lawful := by
  unfold ElemType.lawful boolElem
  decide

theorem uint8Elem_lawful : uint8Elem.lawful := by
  unfold ElemType.lawful uint8Elem
  refine ⟨?_, ?_, ?_⟩
  · intro x; exact Fin.le_last x
  · intro x; exact Fin.zero_le x
  · intro h; simp at h

section
variable {P H : Type} [LinearOrder P] [Zero H] [DecidableEq H]

theorem base_action_loop_single (E : ElemType P H) (shape : String) (erosion : Bool)
    (se : strel H) (im : NDArray P) :
    base_action_loop E shape erosion [se] im = erode E im se shape erosion := by
  unfold base_action_loop
  cases erode E im se shape erosion <;> rfl

theorem imerode_ctor (E : ElemType P H) (im : NDArray P) (nhood : NDArray Bool)
    (height : NDArray H) (shape : String) :
    imerode E im (strel.ctor nhood height) shape
      = some (erode E im (strel.ctor_elem nhood height) shape true) := by
  unfold imerode base_action
  simp only [if_true, ctor_decomposition, base_action_loop_single]

/-- **C1** Flat erosion with shape "same": for a non-empty image and a flat SE built without
an explicit origin, with at least one active cell and no more dimensions than the image,
`imerode` succeeds, the result has the extents of the image, and its element at every
position `p` is the least of the values `im_ext[p + s - origin]` over the active cells `s`,
where `im_ext` is the image extended with `P (octave_Inf)`. -/
theorem imerode_same_flat_min (E : ElemType P H) (hE : E.lawful) (im : NDArray P)
    (him : im.wf) (hne : im.is_empty = false) (nhood : NDArray Bool) (height : NDArray H)
    (hn : nhood.wf) (hflat : (strel.ctor nhood height).flat = true)
    (hnnz : 1 ≤ (strel.ctor nhood height).get_nnz) (hdim : nhood.ndims ≤ im.ndims) :
    ∃ out, imerode E im (strel.ctor nhood height) "same" = some (.ok out)
      ∧ out.dims = im.dims
      ∧ ∀ p, inBox im.dims p = true → ∃ v, out.get? p = some v
        ∧ IsLeast {x | ∃ s ∈ (strel.ctor nhood height).active,
            x = im_ext im E.ofInf (pos_add_sub p s (strel.ctor nhood height).get_origin)} v := by
  have hpos := dims_pos_of_count nhood hn.2 hnnz
  obtain ⟨out, ho, hd, hv⟩ := erode_flat_same E hE im (by have := him.1; omega) hne
    (strel.ctor_elem nhood height) (ctor_elem_consistent nhood height hn.2)
    (ctor_elem_origin_ok nhood height hpos) hdim hflat true
  refine ⟨out, by rw [imerode_ctor, ho], hd, ?_⟩
  intro p hp
  obtain ⟨v, h1, h2, _⟩ := hv p hp
  exact ⟨v, h1, h2 hnnz rfl⟩

theorem imerode_same_flat_min_witness :
    imerode boolElem im1 (strel.ctor nh1 ht1) "same"
        = some (.ok ⟨[3, 3], [false, false, false, true, false, true, false, false, false]⟩)
      ∧ ∃ out, imerode boolElem im1 (strel.ctor nh1 ht1) "same" = some (.ok out)
        ∧ out.dims = im1.dims
        ∧ ∀ p, inBox im1.dims p = true → ∃ v, out.get? p = some v
          ∧ IsLeast {x | ∃ s ∈ (strel.ctor nh1 ht1).active,
              x = im_ext im1 boolElem.ofInf
                (pos_add_sub p s (strel.ctor nh1 ht1).get_origin)} v :=
  ⟨by decide, imerode_same_flat_min boolElem boolElem_lawful im1 (by decide) (by decide) nh1 ht1
    (by decide) (by decide) (by decide) (by decide)⟩
end

/-- **C10** Padding amounts: for an SE whose origin has one coordinate per dimension and a
target with at least as many dimensions, `pre_pad` and `post_pad` succeed for the shapes
"valid" (`k = 0`), "same" (`k = 1`) and "full" (`k = 2`), return one amount per target
dimension, and in every dimension `d` of the SE the amounts are `k * origin (d)` and
`k * (size (d) - origin (d) - 1)`. -/
theorem pre_post_pad_amounts {H : Type} (se : strel H) (hlen : se.origin.length = se.ndims)
    (hnd : se.ndims = se.size.length) (n : Nat) (hn : se.ndims ≤ n) (shape : String) (k : Int)
    (hk : (shape = "valid" ∧ k = 0) ∨ (shape = "same" ∧ k = 1) ∨ (shape = "full" ∧ k = 2)) :
    ∃ pre post, se.pre_pad n shape = .ok pre ∧ se.post_pad n shape = .ok post
      ∧ pre.length = n ∧ post.length = n
      ∧ ∀ d, d < se.ndims →
          pre.getD d 0 = k * se.origin.getD d 0
          ∧ post.getD d 0 = k * ((se.size.getD d 0 : Int) - se.origin.getD d 0 - 1) := by
  rcases hk with ⟨h1, h2⟩ | hk
  · subst h1; subst h2
    refine ⟨List.replicate n 0, List.replicate n 0, ?_, ?_, by simp, by simp, ?_⟩
    · unfold strel.pre_pad; rw [if_pos rfl]
    · unfold strel.post_pad; rw [if_pos rfl]
    · intro d hd
      have hdn : d < n := by omega
      simp [List.getD_eq_getElem?_getD, List.getElem?_replicate, hdn]
  · refine ⟨_, _, pre_pad_eq se n hlen shape k hk, post_pad_eq se n hlen hnd hn shape k hk,
      by simp, by simp, ?_⟩
    intro d hd
    have hdn : d < n := by omega
    have hds : d < se.size.length := by omega
    rw [getD_map_range _ _ _ _ hdn, getD_map_range _ _ _ _ hdn]
    have hg : se.size.getD d 1 = se.size.getD d 0 := by
      simp [List.getD_eq_getElem?_getD, List.getElem?_eq_getElem hds]
    rw [hg]
    constructor <;> ring

/-- An empty image or an empty neighbourhood ends `erode` at its first test. -/
theorem erode_of_empty {P H : Type} [LinearOrder P] [Zero H] [DecidableEq H]
    (E : ElemType P H) (im : NDArray P) (se : strel H) (shape : String) (erosion : Bool)
    (h : im.is_empty = true ∨ se.get_nhood.is_empty = true) :
    erode E im se shape erosion = .ok im := by
  unfold erode
  rcases h with h | h <;> simp [h]

/-- **C6** No-op on empty operands: when the image or the neighbourhood of the SE has no
elements, `erode` returns the image unchanged, whatever the shape and the operation. -/
theorem erode_empty_noop {P H : Type} [LinearOrder P] [Zero H] [DecidableEq H]
    (E : ElemType P H) (im : NDArray P) (se : strel H) (shape : String)
    (erosion : Bool) (h : im.is_empty = true ∨ se.get_nhood.is_empty = true) :
    erode E im se shape erosion = .ok im := by
  unfold erode
  rcases h with h | h <;> simp [h]

theorem pad_matrix_ok {P H : Type} (im : NDArray P) (se : strel H) (pv : P) (shape : String)
    (hs : shape = "valid" ∨ shape = "same" ∨ shape = "full") :
    ∃ padded, pad_matrix im se pv shape = .ok padded := by
  unfold pad_matrix strel.pre_pad strel.post_pad
  rcases hs with h | h | h <;> subst h <;> simp

/-- **C9** A non-flat SE on a boolean image is an error: for a non-empty image of element
type `bool`, a non-flat SE with a non-empty neighbourhood, each of the shapes "valid",
"same" and "full" and both operations, `erode` returns the error and no array. -/
theorem erode_bool_nonflat_error {P H : Type} [LinearOrder P] [Zero H] [DecidableEq H]
    (E : ElemType P H) (hb : E.isBool = true) (im : NDArray P)
    (hne : im.is_empty = false) (se : strel H) (hse : se.get_nhood.is_empty = false)
    (hflat : se.flat = false) (shape : String)
    (hs : shape = "valid" ∨ shape = "same" ∨ shape = "full") (erosion : Bool) :
    erode E im se shape erosion
      = .error "only non flat structuring elements for binary images" := by
  obtain ⟨padded, hp⟩ := pad_matrix_ok im se (E.padval erosion) shape hs
  unfold erode
  simp only [hne, hse, Bool.or_self, Bool.false_eq_true, if_false, hp]
  unfold erode_padded
  simp [hb, hflat]

theorem out_dims_getD : ∀ (a b : List Nat) (d : Nat), d < a.length → fits a b = true →
    ((out_dims a b).getD d 0 : Int) = (a.getD d 0 : Int) - (b.getD d 1 : Int) + 1
  | [], _, _, h, _ => by simp at h
  | a :: as, [], d, _, _ => by simp [out_dims]
  | a :: as, b :: bs, 0, _, hf => by
    simp only [fits, Bool.and_eq_true, decide_eq_true_eq] at hf
    simp only [out_dims, List.getD_cons_zero]
    have := hf.1
    omega
  | a :: as, b :: bs, d + 1, h, hf => by
    simp only [fits, Bool.and_eq_true, decide_eq_true_eq] at hf
    have h1 : d < as.length := by simpa using h
    simpa [out_dims] using out_dims_getD as bs d h1 hf.2

theorem redim_getD (dv : List Nat) (n : Nat) (h : dv.length ≤ n) (d : Nat) (hd : d < n) :
    (redim dv n).getD d 0 = dv.getD d 1 := by
  rw [redim_of_le _ _ h]
  simp only [List.getD_eq_getElem?_getD, List.getElem?_append, List.getElem?_replicate]
  by_cases h1 : d < dv.length
  · simp [h1]
  · rw [if_neg h1, if_pos (by omega), List.getElem?_eq_none (by omega)]
    rfl

section
variable {P H : Type} [LinearOrder P] [Zero H] [DecidableEq H]

/-- What `erode` returns with shape "valid". -/
theorem erode_valid (E : ElemType P H) (hE : E.lawful) (im : NDArray P)
    (hnd : 1 ≤ im.dims.length) (hne : im.is_empty = false) (se : strel H)
    (hse : se.consistent) (hnh : se.get_nhood.is_empty = false)
    (hdim : se.nhood.dims.length ≤ im.dims.length)
    (hfit : fits im.dims se.nhood.dims = true) (erosion : Bool)
    (hbool : E.isBool = true → se.flat = true) :
    ∃ out, erode E im se "valid" erosion = .ok out
      ∧ out.dims = out_dims im.dims se.nhood.dims
      ∧ ∀ p, inBox out.dims p = true → out.get? p = some (
          if se.nnz = 1 then (cell_values E true true im se p).headD E.ofInf
          else sweep_value E erosion se.flat im se p) := by
  have hpad : pad_matrix im se (E.padval erosion) "valid" = .ok im := by
    unfold pad_matrix; rw [if_pos rfl]
  unfold erode
  simp only [hne, hnh, Bool.or_self, Bool.false_eq_true, if_false, hpad]
  by_cases hnnz : se.nnz = 1
  · obtain ⟨out, ho, hd, hv⟩ := erode_padded_shift E im se hse hnnz hdim hfit erosion hbool
    refine ⟨out, ho, hd, ?_⟩
    intro p hp
    rw [hv p hp, if_pos hnnz]
  · obtain ⟨out, ho, hd, hv⟩ := erode_padded_sweep E hE im hnd se hse hnnz hdim hfit erosion hbool
    refine ⟨out, ho, hd, ?_⟩
    intro p hp
    rw [hv p hp, if_neg hnnz]
end

/-- **C5** (as amended) Output shape: for a non-empty image and an SE with a non-empty
neighbourhood (origin inside it), no more dimensions than the image, and flat when the
image is boolean, `erode` succeeds with shape "same" and "full", and with shape "valid"
when no extent of the neighbourhood exceeds that of the image by more than one; the
extent of the result in every dimension `d` is that of the image for "same",
`input (d) + nhood (d) - 1` for "full" and `input (d) - nhood (d) + 1` for "valid", the
neighbourhood having extent 1 in the dimensions it lacks.  For every array handed to the
part of `erode` that follows the padding, the extent is
`padded_size (d) - nhood_size (d) + 1`. -/
theorem erode_output_shape {P H : Type} [LinearOrder P] [Zero H] [DecidableEq H]
    (E : ElemType P H) (hE : E.lawful) (im : NDArray P) (him : im.wf)
    (hne : im.is_empty = false) (se : strel H) (hse : se.consistent) (hor : se.origin_ok)
    (hdim : se.get_nhood.ndims ≤ im.ndims) (hbool : E.isBool = true → se.flat = true)
    (erosion : Bool) :
    (∃ out, erode E im se "same" erosion = .ok out ∧ out.dims = im.dims)
    ∧ (∃ out, erode E im se "full" erosion = .ok out ∧ out.dims.length = im.dims.length
        ∧ ∀ d, d < im.ndims → (out.dims.getD d 0 : Int)
            = (im.dims.getD d 0 : Int) + (se.get_nhood.dims.getD d 1 : Int) - 1)
    ∧ (fits im.dims se.get_nhood.dims = true →
        ∃ out, erode E im se "valid" erosion = .ok out ∧ out.dims.length = im.dims.length
        ∧ ∀ d, d < im.ndims → (out.dims.getD d 0 : Int)
            = (im.dims.getD d 0 : Int) - (se.get_nhood.dims.getD d 1 : Int) + 1)
    ∧ (∀ padded : NDArray P, padded.wf → se.get_nhood.ndims ≤ padded.ndims →
        fits padded.dims se.get_nhood.dims = true →
        ∃ out, erode_padded E padded se erosion = .ok out
          ∧ out.dims.length = padded.dims.length
          ∧ ∀ d, d < padded.ndims → (out.dims.getD d 0 : Int)
              = (padded.dims.getD d 0 : Int)
                - ((redim se.get_nhood.dims padded.ndims).getD d 0 : Int) + 1) := by
  have hnd : 1 ≤ im.dims.length := by have := him.1; omega
  have hpos := nhood_dims_pos se hse hor
  refine ⟨?_, ?_, ?_, ?_⟩
  · obtain ⟨out, ho, hd, _⟩ := erode_mode E hE im hnd hne se hse hor hdim erosion hbool
      "same" 1 (Or.inl ⟨rfl, rfl⟩)
    rw [Nat.sub_self, pad_dims_zero] at hd
    exact ⟨out, ho, hd⟩
  · obtain ⟨out, ho, hd, _⟩ := erode_mode E hE im hnd hne se hse hor hdim erosion hbool
      "full" 2 (Or.inr ⟨rfl, rfl⟩)
    refine ⟨out, ho, by rw [hd, pad_dims_length], ?_⟩
    intro d hdlt
    have hg := pad_dims_getD 1 im.dims se.nhood.dims d hdlt
    have hsz : 1 ≤ se.nhood.dims.getD d 1 := by
      have := size_pos_of_origin_ok se hor (by rw [hse.ndims_eq, hse.size_eq]) d
      rwa [hse.size_eq] at this
    rw [hd]
    show (((pad_dims 1 im.dims se.nhood.dims).getD d 0 : Nat) : Int) = _
    rw [hg]
    show _ = (im.dims.getD d 0 : Int) + (se.nhood.dims.getD d 1 : Int) - 1
    push_cast [Nat.cast_sub hsz]
    ring
  · intro hfit
    obtain ⟨out, ho, hd, _⟩ := erode_valid E hE im hnd hne se hse (nhood_not_empty se hse hor)
      hdim hfit erosion hbool
    refine ⟨out, ho, by rw [hd, out_dims_length], ?_⟩
    intro d hdlt
    rw [hd]
    exact out_dims_getD im.dims se.nhood.dims d hdlt hfit
  · intro padded hp hdimp hfit
    have hndp : 1 ≤ padded.dims.length := by have := hp.1; omega
    have hdims : ∀ out : NDArray P, out.dims = out_dims padded.dims se.nhood.dims →
        out.dims.length = padded.dims.length
          ∧ ∀ d, d < padded.ndims → (out.dims.getD d 0 : Int)
              = (padded.dims.getD d 0 : Int)
                - ((redim se.get_nhood.dims padded.ndims).getD d 0 : Int) + 1 := by
      intro out hd
      refine ⟨by rw [hd, out_dims_length], ?_⟩
      intro d hdlt
      rw [hd, redim_getD _ _ hdimp d hdlt]
      exact out_dims_getD padded.dims se.nhood.dims d hdlt hfit
    by_cases hnnz : se.nnz = 1
    · obtain ⟨out, ho, hd, _⟩ := erode_padded_shift E padded se hse hnnz hdimp hfit erosion hbool
      exact ⟨out, ho, hdims out hd⟩
    · obtain ⟨out, ho, hd, _⟩ := erode_padded_sweep E hE padded hndp se hse hnnz hdimp hfit
        erosion hbool
      exact ⟨out, ho, hdims out hd⟩

theorem get?_some_of_inBox {P : Type} (a : NDArray P) (ha : a.data.length = a.dims.prod)
    (q : List Nat) (hq : inBox a.dims q = true) : ∃ y, a.get? q = some y := by
  have hj := sub2ind_lt _ _ hq
  rw [← ha] at hj
  exact ⟨a.data[sub2ind a.dims q], by rw [NDArray.get?, if_pos hq, List.getElem?_eq_getElem hj]⟩

/-- **C3** Non-flat morphology: for an array of a non-boolean element type handed to the
part of `erode` that follows the padding, and a non-flat SE with at least two active cells
that has no more dimensions than the array and fits the array, the result has one element
for every position `p` at which the SE lies inside the array; for erosion that element is
the least of the values `padded[p + s] - height[s]` over the active cells `s`, for dilation
the greatest of the values `padded[p + s] + height[s]`, the subtraction and the addition
being those of the element type. -/
theorem erode_padded_nonflat {P H : Type} [LinearOrder P] [Zero H] [DecidableEq H]
    (E : ElemType P H) (hE : E.lawful) (hnb : E.isBool = false) (padded : NDArray P)
    (hp : padded.wf) (se : strel H) (hse : se.consistent) (hnf : se.flat = false)
    (hnnz : 2 ≤ se.get_nnz) (hdim : se.get_nhood.ndims ≤ padded.ndims)
    (hfit : fits padded.dims se.get_nhood.dims = true) :
    (∃ out, erode_padded E padded se true = .ok out
      ∧ out.dims = out_dims padded.dims se.get_nhood.dims
      ∧ ∀ p, inBox out.dims p = true → ∃ v, out.get? p = some v
        ∧ IsLeast {x | ∃ s ∈ se.active, ∃ y, padded.get? (sub_add p s) = some y
            ∧ x = E.sub y (E.ofHeight (se.height_at s))} v)
    ∧ (∃ out, erode_padded E padded se false = .ok out
      ∧ out.dims = out_dims padded.dims se.get_nhood.dims
      ∧ ∀ p, inBox out.dims p = true → ∃ v, out.get? p = some v
        ∧ IsGreatest {x | ∃ s ∈ se.active, ∃ y, padded.get? (sub_add p s) = some y
            ∧ x = E.add y (E.ofHeight (se.height_at s))} v) := by
  have hnd : 1 ≤ padded.dims.length := by have := hp.1; omega
  have hn1 : se.nnz ≠ 1 := by unfold strel.get_nnz at hnnz; omega
  have hbool : E.isBool = true → se.flat = true := by
    intro h; rw [hnb] at h; exact absurd h (by simp)
  have hne : ∀ (erosion : Bool) (p : List Nat), cell_values E erosion false padded se p ≠ [] := by
    intro erosion p hnil
    have := congrArg List.length hnil
    unfold cell_values at this
    rw [List.length_map, active_length se hse] at this
    unfold strel.get_nnz at hnnz
    simp at this
    omega
  have hset : ∀ (erosion : Bool) (p : List Nat),
      inBox (out_dims padded.dims se.nhood.dims) p = true →
      {x | ∃ s ∈ se.active, ∃ y, padded.get? (sub_add p s) = some y
        ∧ x = (if erosion then E.sub y (E.ofHeight (se.height_at s))
               else E.add y (E.ofHeight (se.height_at s)))}
        = {x | x ∈ cell_values E erosion false padded se p} := by
    intro erosion p hpb
    ext x
    unfold cell_values
    simp only [Set.mem_setOf_eq, List.mem_map, Bool.false_eq_true, if_false]
    constructor
    · rintro ⟨s, hs, y, hy, rfl⟩
      refine ⟨s, hs, ?_⟩
      rw [hy]; rfl
    · rintro ⟨s, hs, rfl⟩
      obtain ⟨y, hy⟩ := get?_some_of_inBox padded hp.2 (sub_add p s)
        (inBox_sub_add padded.dims se.nhood.dims p s (mem_active_inBox se hse s hs) hpb hdim)
      refine ⟨s, hs, y, hy, ?_⟩
      rw [hy]; rfl
  constructor
  · obtain ⟨out, ho, hd, hv⟩ := erode_padded_sweep E hE padded hnd se hse hn1 hdim hfit true hbool
    refine ⟨out, ho, hd, ?_⟩
    intro p hpb
    refine ⟨_, hv p hpb, ?_⟩
    have h1 := hset true p (by rw [← hd]; exact hpb)
    simp only [if_true] at h1
    rw [h1, hnf]
    unfold sweep_value
    simp only [if_true]
    exact foldl_min_isLeast _ (le_padval E hE) _ (hne true p)
  · obtain ⟨out, ho, hd, hv⟩ := erode_padded_sweep E hE padded hnd se hse hn1 hdim hfit false hbool
    refine ⟨out, ho, hd, ?_⟩
    intro p hpb
    refine ⟨_, hv p hpb, ?_⟩
    have h1 := hset false p (by rw [← hd]; exact hpb)
    simp only [Bool.false_eq_true, if_false] at h1
    rw [h1, hnf]
    unfold sweep_value
    simp only [Bool.false_eq_true, if_false]
    exact foldl_max_isGreatest _ (padval_le E hE) _ (hne false p)

theorem NDArray.ext_get? {P : Type} (a b : NDArray P) (hd : a.dims = b.dims)
    (ha : a.data.length = a.dims.prod) (hb : b.data.length = b.dims.prod)
    (h : ∀ p, inBox a.dims p = true → a.get? p = b.get? p) : a = b := by
  cases a with
  | mk ad adata =>
    cases b with
    | mk bd bdata =>
      simp only at hd ha hb h
      subst hd
      congr 1
      apply List.ext_getElem?
      intro j
      by_cases hj : j < ad.prod
      · have hp := inBox_ind2sub ad j hj
        have := h (ind2sub ad j) hp
        simp only [NDArray.get?, if_pos hp, sub2ind_ind2sub ad j hj] at this
        exact this
      · rw [List.getElem?_eq_none (by omega), List.getElem?_eq_none (by omega)]

theorem out_dims_ones : ∀ (a b : List Nat), (∀ x ∈ b, x = 1) → b.length ≤ a.length →
    out_dims a b = a
  | [], [], _, _ => rfl
  | [], _ :: _, _, h => by simp at h
  | _ :: _, [], _, _ => rfl
  | a :: as, b :: bs, h, hl => by
    have hb : b = 1 := h b (by simp)
    subst hb
    simp [out_dims, out_dims_ones as bs (fun x hx => h x (by simp [hx])) (by simpa using hl)]

theorem sub_add_getElem? : ∀ (p s : List Nat) (d : Nat),
    (sub_add p s)[d]? = (p[d]?).map (fun x => x + s.getD d 0)
  | [], [], d => by simp [sub_add]
  | [], _ :: _, d => by simp [sub_add]
  | x :: p, [], d => by simp [sub_add]
  | x :: p, y :: s, 0 => by simp [sub_add]
  | x :: p, y :: s, d + 1 => by simp [sub_add, sub_add_getElem? p s d]

theorem sub_add_zero (p s : List Nat) (hs : ∀ x ∈ s, x = 0) : sub_add p s = p := by
  apply List.ext_getElem?
  intro d
  rw [sub_add_getElem?]
  have : s.getD d 0 = 0 := by
    rw [List.getD_eq_getElem?_getD]
    by_cases hd : d < s.length
    · rw [List.getElem?_eq_getElem hd]
      exact hs _ (List.getElem_mem hd)
    · rw [List.getElem?_eq_none (by omega)]; rfl
  rw [this]
  cases p[d]? <;> simp

section
variable {P H : Type} [LinearOrder P] [Zero H] [DecidableEq H]

theorem erode_padded_shift_length (E : ElemType P H) (padded : NDArray P) (se : strel H)
    (erosion : Bool) (hnnz : se.nnz = 1) (out : NDArray P)
    (ho : erode_padded E padded se erosion = .ok out) : out.data.length = out.dims.prod := by
  unfold erode_padded at ho
  simp only [strel.get_nnz, hnnz, if_true] at ho
  split at ho
  · exact absurd ho (by simp)
  · injection ho with ho
    subst ho
    unfold erode_shift NDArray.index
    simp
end

theorem fits_ones : ∀ (a b : List Nat), (∀ x ∈ b, x = 1) → b.length ≤ a.length →
    fits a b = true
  | [], [], _, _ => rfl
  | [], _ :: _, _, h => by simp at h
  | _ :: _, [], _, _ => rfl
  | a :: as, b :: bs, h, hl => by
    have hb : b = 1 := h b (by simp)
    subst hb
    simp [fits, fits_ones as bs (fun x hx => h x (by simp [hx])) (by simpa using hl)]

section
variable {P H : Type} [LinearOrder P] [Zero H] [DecidableEq H]

omit [Zero H] [DecidableEq H] [LinearOrder P] in
theorem origin_zero_of_ones (se : strel H) (hse : se.consistent) (hor : se.origin_ok)
    (h1 : ∀ b ∈ se.nhood.dims, b = 1) : ∀ x ∈ se.origin.map Int.toNat, x = 0 := by
  intro x hx
  rw [List.mem_map] at hx
  obtain ⟨o, ho, rfl⟩ := hx
  obtain ⟨d, hd, rfl⟩ := List.getElem_of_mem ho
  have hd1 : d < se.ndims := by rw [← hor.1]; exact hd
  have hb := hor.2 d hd1
  have hds : d < se.size.length := by rw [hse.size_eq, ← hse.ndims_eq]; exact hd1
  have hs1 : se.size.getD d 0 = 1 := by
    rw [List.getD_eq_getElem?_getD, List.getElem?_eq_getElem hds]
    have := h1 (se.size[d]) (by rw [← hse.size_eq]; exact List.getElem_mem hds)
    simpa using this
  have hg : se.origin.getD d 0 = se.origin[d] := by
    rw [List.getD_eq_getElem?_getD, List.getElem?_eq_getElem hd]; rfl
  rw [hs1, hg] at hb
  omega

/-- Shape "valid" with an SE whose only active cell is its origin: the crop. -/
theorem erode_valid_crop (E : ElemType P H) (hE : E.lawful) (im : NDArray P) (him : im.wf)
    (hne : im.is_empty = false) (se : strel H) (hse : se.consistent) (hor : se.origin_ok)
    (hact : se.active = [se.origin.map Int.toNat])
    (hdim : se.nhood.dims.length ≤ im.dims.length)
    (hfit : fits im.dims se.nhood.dims = true)
    (hbool : E.isBool = true → se.flat = true) (erosion : Bool) :
    ∃ out, erode E im se "valid" erosion = .ok out
      ∧ out.dims = out_dims im.dims se.nhood.dims
      ∧ out.data.length = out.dims.prod
      ∧ ∀ p, inBox out.dims p = true →
          out.get? p = im.get? (sub_add p (se.origin.map Int.toNat)) := by
  have hnd : 1 ≤ im.dims.length := by have := him.1; omega
  have hnnz : se.nnz = 1 := by rw [← active_length se hse, hact]; rfl
  have hnh := nhood_not_empty se hse hor
  obtain ⟨out, ho, hd, hv⟩ := erode_valid E hE im hnd hne se hse hnh hdim hfit erosion hbool
  have hpe : erode_padded E im se erosion = .ok out := by
    rw [← ho]
    unfold erode pad_matrix
    simp [hne, hnh]
  refine ⟨out, ho, hd, erode_padded_shift_length E im se erosion hnnz out hpe, ?_⟩
  intro p hp
  rw [hv p hp, if_pos hnnz]
  unfold cell_values
  rw [hact]
  simp only [List.map_cons, List.map_nil, List.headD_cons, if_true]
  have hs : se.origin.map Int.toNat ∈ se.active := by rw [hact]; simp
  obtain ⟨y, hy⟩ := get?_some_of_inBox im him.2 (sub_add p (se.origin.map Int.toNat))
    (inBox_sub_add im.dims se.nhood.dims p _ (mem_active_inBox se hse _ hs)
      (by rw [← hd]; exact hp) hdim)
  rw [hy]; rfl
end

/-- **C8** (as amended) Shape "valid" and an SE whose only active cell is its origin (flat
when the array is boolean, no more dimensions than the array): when the neighbourhood is
the single cell, `erode` returns the array itself, for erosion and for dilation; for a
larger neighbourhood that fits a non-empty array it returns the crop
`out[p] = in[p + origin]` whose extents are `out_dims`, that is
`input (d) - nhood (d) + 1`. -/
theorem erode_valid_origin_only {P H : Type} [LinearOrder P] [Zero H] [DecidableEq H]
    (E : ElemType P H) (hE : E.lawful) (im : NDArray P) (him : im.wf) (se : strel H)
    (hse : se.consistent) (hor : se.origin_ok)
    (hact : se.active = [se.get_origin.map Int.toNat])
    (hdim : se.get_nhood.ndims ≤ im.ndims)
    (hbool : E.isBool = true → se.flat = true) (erosion : Bool) :
    ((∀ b ∈ se.get_nhood.dims, b = 1) → erode E im se "valid" erosion = .ok im)
    ∧ (im.is_empty = false → fits im.dims se.get_nhood.dims = true →
        ∃ out, erode E im se "valid" erosion = .ok out
          ∧ out.dims = out_dims im.dims se.get_nhood.dims
          ∧ ∀ p, inBox out.dims p = true →
              out.get? p = im.get? (sub_add p (se.get_origin.map Int.toNat))) := by
  constructor
  · intro h1
    cases hne : im.is_empty
    · obtain ⟨out, ho, hd, hl, hv⟩ := erode_valid_crop E hE im him hne se hse hor hact hdim
        (fits_ones _ _ h1 hdim) hbool erosion
      rw [ho]
      congr 1
      have hd2 : out.dims = im.dims := by rw [hd]; exact out_dims_ones _ _ h1 hdim
      apply NDArray.ext_get? out im hd2 hl him.2
      intro p hp
      rw [hv p hp, sub_add_zero p _ (origin_zero_of_ones se hse hor h1)]
    · exact erode_of_empty E im se "valid" erosion (Or.inl hne)
  · intro hne hfit
    obtain ⟨out, ho, hd, _, hv⟩ := erode_valid_crop E hE im him hne se hse hor hact hdim
      hfit hbool erosion
    exact ⟨out, ho, hd, hv⟩

/-- **C8** (as stated) fails: `eye (3)` eroded with shape "valid" by the 3x3 SE whose only
active cell is its origin, the centre, is the 1x1 array holding the centre of the image,
not the image. -/
theorem erode_valid_origin_only_counterexample :
    (strel.ctor nh_centre ht_zeros3).active
        = [(strel.ctor nh_centre ht_zeros3).get_origin.map Int.toNat]
      ∧ erode uint8Elem eye3 (strel.ctor nh_centre ht_zeros3) "valid" true = .ok ⟨[1, 1], [1]⟩
      ∧ erode uint8Elem eye3 (strel.ctor nh_centre ht_zeros3) "valid" false = .ok ⟨[1, 1], [1]⟩
      ∧ erode uint8Elem eye3 (strel.ctor nh_centre ht_zeros3) "valid" true ≠ .ok eye3 := by
  decide

theorem erode_valid_origin_only_witness :
    erode uint8Elem eye3 (strel.ctor nh_one ht_zero1) "valid" true = .ok eye3 :=
  (erode_valid_origin_only uint8Elem uint8Elem_lawful eye3 (by decide)
    (strel.ctor nh_one ht_zero1) (ctor_consistent nh_one ht_zero1 (by decide))
    (ctor_origin_ok nh_one ht_zero1 (by decide)) (by decide) (by decide)
    (fun h => absurd h (by decide)) true).1 (by decide)

theorem range_map_getD_reverse {α : Type} (l : List α) (n : Nat) (hn : l.length = n) (d : α) :
    (List.range n).map (fun ind => l.getD (n - ind - 1) d) = l.reverse := by
  apply List.ext_getElem
  · simp [hn]
  · intro i h1 h2
    have hi : i < n := by simpa using h1
    have hk : l.length - 1 - i < l.length := by omega
    simp only [List.getElem_map, List.getElem_range, List.getElem_reverse]
    rw [List.getD_eq_getElem?_getD, List.getElem?_eq_getElem (by omega)]
    simp only [Option.getD_some]
    congr 1
    omega

theorem ind2sub_reverse : ∀ (dv : List Nat) (ind : Nat), ind < dv.prod →
    ind2sub dv (dv.prod - 1 - ind) = rev_sub dv (ind2sub dv ind)
  | [], _, _ => rfl
  | d :: ds, ind, h => by
    simp only [List.prod_cons] at h
    have hd : 0 < d := by
      rcases Nat.eq_zero_or_pos d with h0 | h0
      · subst h0; simp at h
      · exact h0
    have hq : ind / d < ds.prod := by
      rw [Nat.div_lt_iff_lt_mul hd, Nat.mul_comm]; exact h
    have hr := Nat.mod_lt ind hd
    have hdecomp := Nat.mod_add_div ind d
    have hkey : d * ds.prod - 1 - ind = (d - 1 - ind % d) + d * (ds.prod - 1 - ind / d) := by
      have h1 : d * (ds.prod - 1 - ind / d) = d * ds.prod - d - d * (ind / d) := by
        rw [Nat.mul_sub, Nat.mul_sub, Nat.mul_one]
      have h2 : d * (ind / d) + d ≤ d * ds.prod := by
        calc d * (ind / d) + d = d * (ind / d + 1) := by ring
          _ ≤ d * ds.prod := Nat.mul_le_mul_left d hq
      omega
    have ih := ind2sub_reverse ds (ind / d) hq
    simp only [ind2sub, rev_sub, List.prod_cons, List.zipWith_cons_cons]
    rw [hkey, Nat.add_mul_mod_self_left, Nat.mod_eq_of_lt (by omega),
      Nat.add_mul_div_left _ _ hd, Nat.div_eq_of_lt (by omega), Nat.zero_add, ih]
    rfl

theorem mem_active_from_zero (l : List Bool) (i : Nat) :
    i ∈ active_from 0 l ↔ l[i]? = some true := by
  rw [mem_active_from]
  simp

theorem mem_active_from_reverse (l : List Bool) (i : Nat) :
    i ∈ active_from 0 l.reverse ↔ i < l.length ∧ (l.length - 1 - i) ∈ active_from 0 l := by
  rw [mem_active_from_zero, mem_active_from_zero]
  by_cases hi : i < l.length
  · rw [List.getElem?_reverse hi]
    simp [hi]
  · rw [List.getElem?_eq_none (by simpa using hi)]
    simp [hi]

section
variable {H : Type} [Zero H]

omit [Zero H] in
theorem validate_origin_of_ok (se : strel H) (h : se.origin_ok) : se.validate_origin = true := by
  unfold strel.validate_origin
  simp only [Bool.and_eq_true, decide_eq_true_eq, List.all_eq_true, List.mem_range]
  exact ⟨h.1.symm, fun d hd => h.2 d hd⟩

theorem reflect_eq (se : strel H) (hv : se.reflect_elem.validate_origin = true) :
    se.reflect = some (strel.end_ctor se.reflect_elem) := by
  unfold strel.reflect strel.ctor_origin
  simp only
  unfold strel.reflect_elem at hv
  rw [if_pos hv]
  rfl

theorem reflect_decomposition (se : strel H) :
    (strel.end_ctor se.reflect_elem).decomposition = [se.reflect_elem] := rfl

theorem reflect_elem_nhood_dims (se : strel H) (hse : se.consistent) :
    se.reflect_elem.nhood.dims = se.nhood.dims := by
  show se.size = se.nhood.dims
  exact hse.size_eq

theorem reflect_elem_nhood_data (se : strel H) (hse : se.consistent) :
    se.reflect_elem.nhood.data = se.nhood.data.reverse := by
  show (List.range se.nhood.numel).map
      (fun ind => se.nhood.data.getD (se.nhood.numel - ind - 1) false) = _
  exact range_map_getD_reverse _ _ hse.nhood_len false

theorem reflect_elem_consistent (se : strel H) (hse : se.consistent) :
    se.reflect_elem.consistent := by
  refine ⟨rfl, rfl, rfl, ?_⟩
  rw [reflect_elem_nhood_dims se hse, reflect_elem_nhood_data se hse, List.length_reverse]
  exact hse.nhood_len

theorem reflect_elem_origin_getD (se : strel H) (hor : se.origin_ok) (d : Nat)
    (hd : d < se.ndims) :
    se.reflect_elem.origin.getD d 0 = (se.size.getD d 0 : Int) - se.origin.getD d 0 - 1 := by
  show (se.origin.mapIdx (fun dim o =>
      if dim < se.ndims then (se.size.getD dim 0 : Int) - o - 1 else o)).getD d 0 = _
  have hdo : d < se.origin.length := by rw [hor.1]; exact hd
  have hg : se.origin.getD d 0 = se.origin[d] := by
    rw [List.getD_eq_getElem?_getD, List.getElem?_eq_getElem hdo]; rfl
  rw [hg, List.getD_eq_getElem?_getD, List.getElem?_mapIdx, List.getElem?_eq_getElem hdo]
  simp [hd]

theorem reflect_elem_origin_ok (se : strel H) (hse : se.consistent) (hor : se.origin_ok) :
    se.reflect_elem.origin_ok := by
  have hnd : se.reflect_elem.ndims = se.ndims := by
    show se.size.length = se.ndims
    rw [hse.size_eq, hse.ndims_eq]
  have hsz : se.reflect_elem.size = se.size := rfl
  refine ⟨?_, ?_⟩
  · rw [hnd]
    show (se.origin.mapIdx _).length = se.ndims
    rw [List.length_mapIdx, hor.1]
  · intro d hd
    rw [hnd] at hd
    rw [reflect_elem_origin_getD se hor d hd, hsz]
    have := hor.2 d hd
    omega

theorem mem_active_reflect_elem (se : strel H) (hse : se.consistent) (s1 : List Nat) :
    s1 ∈ se.reflect_elem.active ↔ ∃ s ∈ se.active, s1 = rev_sub se.nhood.dims s := by
  unfold strel.active
  rw [reflect_elem_nhood_dims se hse, reflect_elem_nhood_data se hse]
  simp only [List.mem_map]
  constructor
  · rintro ⟨i, hi, rfl⟩
    rw [mem_active_from_reverse] at hi
    refine ⟨_, ⟨se.nhood.data.length - 1 - i, hi.2, rfl⟩, ?_⟩
    have hlt : se.nhood.data.length - 1 - i < se.nhood.dims.prod := by
      rw [← hse.nhood_len]; omega
    rw [← ind2sub_reverse _ _ hlt]
    congr 1
    rw [← hse.nhood_len]
    omega
  · rintro ⟨s, ⟨i, hi, rfl⟩, rfl⟩
    have hil : i < se.nhood.data.length := by
      rw [mem_active_from_zero] at hi
      by_contra hcon
      rw [List.getElem?_eq_none (by omega)] at hi
      exact absurd hi (by simp)
    refine ⟨se.nhood.data.length - 1 - i, ?_, ?_⟩
    · rw [mem_active_from_reverse]
      refine ⟨by omega, ?_⟩
      have : se.nhood.data.length - 1 - (se.nhood.data.length - 1 - i) = i := by omega
      rw [this]; exact hi
    · rw [← ind2sub_reverse _ _ (by rw [← hse.nhood_len]; exact hil), ← hse.nhood_len]

theorem reflect_elem_nnz (se : strel H) (hse : se.consistent) :
    se.reflect_elem.nnz = se.nnz := by
  rw [(reflect_elem_consistent se hse).nnz_eq, reflect_elem_nhood_data se hse,
    List.count_reverse, hse.nnz_eq]
end

theorem pos_add_sub_getElem? : ∀ (p s : List Nat) (o : List Int) (d : Nat),
    (pos_add_sub p s o)[d]? = (p[d]?).map (fun (x : Nat) => (x : Int) + (s.getD d 0 : Nat) - o.getD d 0)
  | [], _, _, _ => by simp [pos_add_sub]
  | x :: p, s, o, 0 => by
    simp only [pos_add_sub, List.getElem?_cons_zero, Option.map_some']
    rw [headD_eq_getD, headD_eq_getD]
  | x :: p, s, o, d + 1 => by
    simp only [pos_add_sub, List.getElem?_cons_succ, pos_add_sub_getElem? p s.tail o.tail d,
      getD_tail]

theorem pos_sub_add_getElem? : ∀ (p s : List Nat) (o : List Int) (d : Nat),
    (pos_sub_add p s o)[d]? = (p[d]?).map (fun (x : Nat) => (x : Int) - (s.getD d 0 : Nat) + o.getD d 0)
  | [], _, _, _ => by simp [pos_sub_add]
  | x :: p, s, o, 0 => by
    simp only [pos_sub_add, List.getElem?_cons_zero, Option.map_some']
    rw [headD_eq_getD, headD_eq_getD]
  | x :: p, s, o, d + 1 => by
    simp only [pos_sub_add, List.getElem?_cons_succ, pos_sub_add_getElem? p s.tail o.tail d,
      getD_tail]

theorem inBox_getD : ∀ (dv s : List Nat) (d : Nat), inBox dv s = true → d < dv.length →
    s.getD d 0 < dv.getD d 0
  | [], [], _, _, h => by simp at h
  | [], _ :: _, _, h, _ => by simp [inBox] at h
  | _ :: _, [], _, h, _ => by simp [inBox] at h
  | a :: dv, x :: s, 0, h, _ => by
    simp only [inBox, Bool.and_eq_true, decide_eq_true_eq] at h
    simpa using h.1
  | a :: dv, x :: s, d + 1, h, hd => by
    simp only [inBox, Bool.and_eq_true, decide_eq_true_eq] at h
    simpa using inBox_getD dv s d h.2 (by simpa using hd)

theorem rev_sub_getD (dv s : List Nat) (hl : s.length = dv.length) (d : Nat) :
    (rev_sub dv s).getD d 0 = dv.getD d 0 - 1 - s.getD d 0 := by
  unfold rev_sub
  simp only [List.getD_eq_getElem?_getD, List.getElem?_zipWith]
  by_cases hd : d < dv.length
  · rw [List.getElem?_eq_getElem hd, List.getElem?_eq_getElem (by omega)]
    rfl
  · rw [List.getElem?_eq_none (by omega), List.getElem?_eq_none (by omega)]
    rfl

section
variable {H : Type} [Zero H]

theorem pos_reflect (se : strel H) (hse : se.consistent) (hor : se.origin_ok) (p s : List Nat)
    (hs : inBox se.nhood.dims s = true) :
    pos_add_sub p (rev_sub se.nhood.dims s) se.reflect_elem.origin
      = pos_sub_add p s se.origin := by
  apply List.ext_getElem?
  intro d
  rw [pos_add_sub_getElem?, pos_sub_add_getElem?]
  have hsl : s.length = se.nhood.dims.length := inBox_length _ _ hs
  have hol : se.reflect_elem.origin.length = se.origin.length := by
    show (se.origin.mapIdx _).length = _
    rw [List.length_mapIdx]
  cases hp : p[d]? with
  | none => rfl
  | some x =>
    rw [Option.map_some', Option.map_some']
    congr 1
    rw [rev_sub_getD _ _ hsl]
    by_cases hd : d < se.ndims
    · rw [reflect_elem_origin_getD se hor d hd, hse.size_eq]
      have h1 := inBox_getD _ _ d hs (by rw [← hse.ndims_eq]; exact hd)
      have h2 := hor.2 d hd
      push_cast [Nat.cast_sub (show s.getD d 0 ≤ se.nhood.dims.getD d 0 - 1 by omega),
        Nat.cast_sub (show 1 ≤ se.nhood.dims.getD d 0 by omega)]
      ring
    · have h1 : se.nhood.dims.getD d 0 = 0 := by
        rw [List.getD_eq_getElem?_getD, List.getElem?_eq_none (by rw [← hse.ndims_eq]; omega)]
        rfl
      have h2 : s.getD d 0 = 0 := by
        rw [List.getD_eq_getElem?_getD, List.getElem?_eq_none (by rw [hsl, ← hse.ndims_eq]; omega)]
        rfl
      have h3 : se.origin.getD d 0 = 0 := by
        rw [List.getD_eq_getElem?_getD, List.getElem?_eq_none (by rw [hor.1]; omega)]
        rfl
      have h4 : se.reflect_elem.origin.getD d 0 = 0 := by
        rw [List.getD_eq_getElem?_getD, List.getElem?_eq_none (by rw [hol, hor.1]; omega)]
        rfl
      rw [h1, h2, h3, h4]
      simp

theorem flat_of_all_zero [DecidableEq H] (se : strel H)
    (h : ∀ x ∈ se.height.data, x = 0) : se.flat = true := by
  unfold strel.flat
  rw [if_pos]
  rw [List.all_eq_true]
  intro x hx
  simpa using h x hx

theorem all_zero_of_flat [DecidableEq H] (se : strel H)
    (hh : se.height.data.length = se.height.dims.prod) (h : se.flat = true) :
    ∀ x ∈ se.height.data, x = 0 := by
  intro x hx
  unfold strel.flat at h
  split at h
  · rename_i hall
    rw [List.all_eq_true] at hall
    simpa using hall x hx
  · simp only [Bool.not_eq_true', List.any_eq_false, List.mem_range, decide_eq_true_eq,
      Decidable.not_not] at h
    obtain ⟨i, hi, rfl⟩ := List.getElem_of_mem hx
    have := h i (by unfold NDArray.numel; rw [← hh]; exact hi)
    rw [List.getD_eq_getElem?_getD, List.getElem?_eq_getElem hi] at this
    simpa using this

theorem reflect_elem_flat [DecidableEq H] (se : strel H)
    (hh : se.height.data.length = se.height.dims.prod) (h : se.flat = true) :
    se.reflect_elem.flat = true := by
  apply flat_of_all_zero
  intro x hx
  have hx1 : x ∈ (List.range se.nhood.numel).map
      (fun ind => se.height.data.getD (se.nhood.numel - ind - 1) 0) := hx
  rw [List.mem_map] at hx1
  obtain ⟨i, _, rfl⟩ := hx1
  rw [List.getD_eq_getElem?_getD]
  by_cases hk : se.nhood.numel - i - 1 < se.height.data.length
  · rw [List.getElem?_eq_getElem hk]
    exact all_zero_of_flat se hh h _ (List.getElem_mem hk)
  · rw [List.getElem?_eq_none (by omega)]
    rfl
end

theorem pos_add_sub_self (p : List Nat) (o : List Int) (ho : ∀ x ∈ o, (0 : Int) ≤ x) :
    pos_add_sub p (o.map Int.toNat) o = p.map (fun (x : Nat) => (x : Int)) := by
  apply List.ext_getElem?
  intro d
  rw [pos_add_sub_getElem?, List.getElem?_map]
  cases p[d]? with
  | none => rfl
  | some x =>
    rw [Option.map_some', Option.map_some']
    congr 1
    by_cases hd : d < o.length
    · have h1 : o.getD d 0 = o[d] := by
        rw [List.getD_eq_getElem?_getD, List.getElem?_eq_getElem hd]; rfl
      have h2 : (o.map Int.toNat).getD d 0 = o[d].toNat := by
        rw [List.getD_eq_getElem?_getD, List.getElem?_map, List.getElem?_eq_getElem hd]; rfl
      have := ho _ (List.getElem_mem hd)
      rw [h1, h2]
      omega
    · have h1 : o.getD d 0 = 0 := by
        rw [List.getD_eq_getElem?_getD, List.getElem?_eq_none (by omega)]; rfl
      have h2 : (o.map Int.toNat).getD d 0 = 0 := by
        rw [List.getD_eq_getElem?_getD, List.getElem?_eq_none (by simp; omega)]; rfl
      rw [h1, h2]
      simp

theorem im_ext_ofNat {P : Type} (im : NDArray P) (pv : P) (p : List Nat) :
    im_ext im pv (p.map (fun (x : Nat) => (x : Int))) = (im.get? p).getD pv := by
  unfold im_ext
  have h1 : (p.map (fun (x : Nat) => (x : Int))).all (fun x => decide (0 ≤ x)) = true := by
    rw [List.all_eq_true]
    intro x hx
    rw [List.mem_map] at hx
    obtain ⟨n, _, rfl⟩ := hx
    simp
  have h2 : (p.map (fun (x : Nat) => (x : Int))).map Int.toNat = p := by
    rw [List.map_map]
    conv_rhs => rw [← List.map_id p]
    apply List.map_congr_left
    intro a _
    simp
  rw [if_pos h1, h2]

theorem dims_pos_of_not_empty {α : Type} (a : NDArray α) (h : a.is_empty = false) :
    ∀ b ∈ a.dims, 1 ≤ b := by
  intro b hb
  by_contra hcon
  have hb0 : b = 0 := by omega
  subst hb0
  have : a.dims.prod = 0 := List.prod_eq_zero hb
  unfold NDArray.is_empty NDArray.numel at h
  rw [this] at h
  simp at h

section
variable {P H : Type} [LinearOrder P] [Zero H] [DecidableEq H]

theorem erode_length_of_nnz_one (E : ElemType P H) (im : NDArray P) (se : strel H)
    (shape : String) (erosion : Bool) (hne : im.is_empty = false)
    (hnh : se.get_nhood.is_empty = false) (hnnz : se.nnz = 1) (out : NDArray P)
    (ho : erode E im se shape erosion = .ok out) : out.data.length = out.dims.prod := by
  unfold erode at ho
  simp only [hne, hnh, Bool.or_self, Bool.false_eq_true, if_false] at ho
  split at ho
  · exact absurd ho (by simp)
  · exact erode_padded_shift_length E _ se erosion hnnz out ho

/-- Shape "same" with an SE whose only active cell is its origin: the image itself. -/
theorem erode_same_origin_only (E : ElemType P H) (hE : E.lawful) (im : NDArray P)
    (him : im.wf) (hne : im.is_empty = false) (se : strel H) (hse : se.consistent)
    (hor : se.origin_ok) (hact : se.active = [se.origin.map Int.toNat])
    (hdim : se.nhood.dims.length ≤ im.dims.length)
    (hbool : E.isBool = true → se.flat = true) (erosion : Bool) :
    erode E im se "same" erosion = .ok im := by
  have hnd : 1 ≤ im.dims.length := by have := him.1; omega
  have hnnz : se.nnz = 1 := by rw [← active_length se hse, hact]; rfl
  obtain ⟨out, ho, hd, hv⟩ := erode_mode E hE im hnd hne se hse hor hdim erosion hbool
    "same" 1 (Or.inl ⟨rfl, rfl⟩)
  rw [Nat.sub_self, pad_dims_zero] at hd
  have hl := erode_length_of_nnz_one E im se "same" erosion hne (nhood_not_empty se hse hor)
    hnnz out ho
  rw [ho]
  congr 1
  apply NDArray.ext_get? out im hd hl him.2
  intro p hp
  have hplen : p.length = im.dims.length := by rw [inBox_length _ _ hp, hd]
  have hpre : ∀ d, d < p.length →
      ((List.range im.dims.length).map (fun d => se.origin.getD d 0 * ((1 : Nat) : Int))).getD d 0
        = se.origin.getD d 0 := by
    intro d hdlt
    rw [getD_map_range _ _ _ _ (by omega)]
    simp
  have hon : ∀ x ∈ se.origin, (0 : Int) ≤ x := by
    intro x hx
    obtain ⟨d, hdo, rfl⟩ := List.getElem_of_mem hx
    have := (hor.2 d (by rw [← hor.1]; exact hdo)).1
    rw [List.getD_eq_getElem?_getD, List.getElem?_eq_getElem hdo] at this
    exact this
  rw [hv p hp, if_pos hnnz, ext_values_flat E true im _ se _ p hpre, hact]
  simp only [List.map_cons, List.map_nil, List.headD_cons]
  rw [pos_add_sub_self p _ hon, im_ext_ofNat]
  obtain ⟨y, hy⟩ := get?_some_of_inBox im him.2 p (by rw [← hd]; exact hp)
  rw [hy]; rfl

theorem imdilate_eq (E : ElemType P H) (im : NDArray P) (se : strel H) (hse : se.consistent)
    (hor : se.origin_ok) (shape : String) :
    imdilate E im se shape = some (erode E im se.reflect_elem shape false) := by
  unfold imdilate base_action
  simp only [Bool.false_eq_true, if_false,
    reflect_eq se (validate_origin_of_ok _ (reflect_elem_origin_ok se hse hor)),
    reflect_decomposition, base_action_loop_single]

omit [LinearOrder P] [DecidableEq H] in
theorem reflect_elem_active_origin (se : strel H) (hse : se.consistent) (hor : se.origin_ok)
    (hact : se.active = [se.origin.map Int.toNat]) :
    se.reflect_elem.active = [se.reflect_elem.origin.map Int.toNat] := by
  have hlen : se.reflect_elem.active.length = 1 := by
    rw [active_length _ (reflect_elem_consistent se hse), reflect_elem_nnz se hse,
      ← active_length se hse, hact]
    rfl
  obtain ⟨x, hx⟩ := List.length_eq_one.mp hlen
  have hmem : x ∈ se.reflect_elem.active := by rw [hx]; simp
  rw [mem_active_reflect_elem se hse, hact] at hmem
  obtain ⟨s, hs, rfl⟩ := hmem
  rw [List.mem_singleton] at hs
  subst hs
  rw [hx]
  congr 1
  have hor1 := reflect_elem_origin_ok se hse hor
  have hnd : se.reflect_elem.ndims = se.ndims := by
    show se.size.length = se.ndims
    rw [hse.size_eq, hse.ndims_eq]
  apply List.ext_getElem
  · unfold rev_sub
    rw [List.length_zipWith, List.length_map, List.length_map, hor1.1, hnd, hor.1, hse.ndims_eq]
    simp
  · intro d h1 h2
    have hd : d < se.ndims := by
      rw [List.length_map, hor1.1, hnd] at h2; exact h2
    have hdo : d < se.origin.length := by rw [hor.1]; exact hd
    have hg1 := rev_sub_getD se.nhood.dims (se.origin.map Int.toNat)
      (by rw [List.length_map, hor.1, hse.ndims_eq]) d
    rw [List.getD_eq_getElem?_getD, List.getElem?_eq_getElem h1, Option.getD_some] at hg1
    have hg2 := reflect_elem_origin_getD se hor d hd
    have hdo1 : d < se.reflect_elem.origin.length := by rw [hor1.1, hnd]; exact hd
    rw [List.getD_eq_getElem?_getD, List.getElem?_eq_getElem hdo1, Option.getD_some] at hg2
    have hg3 : (se.origin.map Int.toNat).getD d 0 = (se.origin.getD d 0).toNat := by
      simp [List.getD_eq_getElem?_getD, List.getElem?_eq_getElem hdo]
    have hb := hor.2 d hd
    rw [hg1, List.getElem_map, hg2, hg3, ← hse.size_eq]
    omega
end

/-- The loop of `base_action` returns the image when every pass does. -/
theorem base_action_loop_identity {P H : Type} [LinearOrder P] [Zero H] [DecidableEq H]
    (E : ElemType P H) (shape : String) (erosion : Bool) (im : NDArray P) :
    ∀ (l : List (strel H)), (∀ e ∈ l, erode E im e shape erosion = .ok im) →
      base_action_loop E shape erosion l im = .ok im
  | [], _ => rfl
  | e :: l, h => by
    unfold base_action_loop
    rw [h e (by simp)]
    exact base_action_loop_identity E shape erosion im l (fun x hx => h x (by simp [hx]))

/-- **C7** (as amended) Identity with shape "same": for a non-empty image and an SE whose
only active cell is its origin, that has no more dimensions than the image and is flat
when the image is boolean, every element of whose decomposition meets these same
conditions (for an SE built from a matrix the only element is the SE itself), `imerode`,
which runs one pass for every element, and `imdilate`, which runs one pass with the
reflected SE, both return the image unchanged. -/
theorem same_origin_only_identity {P H : Type} [LinearOrder P] [Zero H] [DecidableEq H]
    (E : ElemType P H) (hE : E.lawful) (im : NDArray P) (him : im.wf)
    (hne : im.is_empty = false) (se : strel H) (hse : se.consistent) (hor : se.origin_ok)
    (hact : se.active = [se.get_origin.map Int.toNat])
    (hdim : se.get_nhood.ndims ≤ im.ndims)
    (hh : se.height.data.length = se.height.dims.prod)
    (hbool : E.isBool = true → se.flat = true)
    (hdec : ∀ e ∈ se.decomposition, e.consistent ∧ e.origin_ok
      ∧ e.active = [e.get_origin.map Int.toNat] ∧ e.get_nhood.ndims ≤ im.ndims
      ∧ (E.isBool = true → e.flat = true)) :
    imerode E im se "same" = some (.ok im)
      ∧ imdilate E im se "same" = some (.ok im) := by
  constructor
  · unfold imerode base_action
    simp only [if_true]
    apply congrArg some
    apply base_action_loop_identity
    intro e he
    obtain ⟨h1, h2, h3, h4, h5⟩ := hdec e he
    exact erode_same_origin_only E hE im him hne e h1 h2 h3 h4 h5 true
  · rw [imdilate_eq E im se hse hor]
    have hse1 := reflect_elem_consistent se hse
    have hor1 := reflect_elem_origin_ok se hse hor
    have hact1 := reflect_elem_active_origin se hse hor hact
    have hd1 : se.reflect_elem.nhood.dims.length ≤ im.dims.length := by
      rw [reflect_elem_nhood_dims _ hse]; exact hdim
    have hb1 : E.isBool = true → se.reflect_elem.flat = true :=
      fun hb => reflect_elem_flat _ hh (hbool hb)
    exact congrArg some (erode_same_origin_only E hE im him hne
      se.reflect_elem hse1 hor1 hact1 hd1 hb1 false)

/-- **C7** (as stated) fails.  The 1x1x2 SE `cat (3, 1, 0)` has its default origin as only
active cell, yet on the 3x3 image `eye (3)` both `imerode` and `imdilate` with shape "same"
return a 3x2 array; and on a boolean image an SE whose only active cell, the origin, has
height 1 gives the error for non-flat SEs. -/
theorem same_origin_only_identity_counterexample :
    ((strel.ctor nh112 ht112).active = [(strel.ctor nh112 ht112).get_origin.map Int.toNat]
      ∧ imerode uint8Elem eye3 (strel.ctor nh112 ht112) "same"
          = some (.ok ⟨[3, 2], [1, 0, 0, 0, 1, 0]⟩)
      ∧ imdilate uint8Elem eye3 (strel.ctor nh112 ht112) "same"
          = some (.ok ⟨[3, 2], [0, 1, 0, 0, 0, 1]⟩)
      ∧ imerode uint8Elem eye3 (strel.ctor nh112 ht112) "same" ≠ some (.ok eye3)
      ∧ imdilate uint8Elem eye3 (strel.ctor nh112 ht112) "same" ≠ some (.ok eye3))
    ∧ ((strel.ctor nh_one ht_one1).active
          = [(strel.ctor nh_one ht_one1).get_origin.map Int.toNat]
      ∧ imerode boolElem im_true (strel.ctor nh_one ht_one1) "same"
          = some (.error "only non flat structuring elements for binary images")
      ∧ imerode boolElem im_true (strel.ctor nh_one ht_one1) "same" ≠ some (.ok im_true)) := by
  decide

theorem same_origin_only_identity_witness :
    (imerode uint8Elem eye3 (strel.ctor nh_one ht_zero1) "same" = some (.ok eye3)
      ∧ imdilate uint8Elem eye3 (strel.ctor nh_one ht_zero1) "same" = some (.ok eye3))
    ∧ se_one_seq.numel = 2
    ∧ (imerode uint8Elem im567 se_one_seq "same" = some (.ok im567)
      ∧ imdilate uint8Elem im567 se_one_seq "same" = some (.ok im567)) :=
  ⟨same_origin_only_identity uint8Elem uint8Elem_lawful eye3 (by decide) (by decide)
      (strel.ctor nh_one ht_zero1) (ctor_consistent _ _ (by decide))
      (ctor_origin_ok _ _ (by decide)) (by decide) (by decide) (by decide)
      (fun h => absurd h (by decide))
      (by
        intro e he
        rw [ctor_decomposition, List.mem_singleton] at he
        subst he
        exact ⟨ctor_elem_consistent _ _ (by decide), ctor_elem_origin_ok _ _ (by decide),
          by decide, by decide, fun h => absurd h (by decide)⟩),
    by decide,
    same_origin_only_identity uint8Elem uint8Elem_lawful im567 (by decide) (by decide)
      se_one_seq ⟨rfl, rfl, rfl, by decide⟩
      (default_origin_ok (strel.ini_ctor nh010 ht_zeros13 []) rfl (by decide) _ rfl)
      (by decide) (by decide) (by decide) (fun h => absurd h (by decide))
      (by
        intro e he
        have he1 : e = strel.ctor nh010 ht_zeros13 ∨ e = strel.ctor nh_one ht_zero1 := by
          simpa [se_one_seq, strel.ctor_value, strel.end_ctor] using he
        rcases he1 with rfl | rfl
        · exact ⟨ctor_consistent _ _ (by decide), ctor_origin_ok _ _ (by decide),
            by decide, by decide, fun h => absurd h (by decide)⟩
        · exact ⟨ctor_consistent _ _ (by decide), ctor_origin_ok _ _ (by decide),
            by decide, by decide, fun h => absurd h (by decide)⟩)⟩

/-- **C2** (as amended) Flat dilation with shape "same": for a non-empty image and a flat SE
`S` built without an explicit origin, with a non-empty neighbourhood and no more dimensions
than the image, `imdilate` succeeds, its result has the extents of the image and is what
`erode` returns for the only element of the decomposition of `reflect (S)` with the max
operation; the element at every position `p` is the least upper bound, and when `S` has an
active cell the greatest, of the values `im_ext[p - s + origin]` over the active cells `s`
of `S`, where `im_ext` is the image extended with the smallest value of the element
type. -/
theorem imdilate_same_flat_max {P H : Type} [LinearOrder P] [Zero H] [DecidableEq H]
    (E : ElemType P H) (hE : E.lawful) (im : NDArray P) (him : im.wf)
    (hne : im.is_empty = false) (nhood : NDArray Bool) (height : NDArray H) (hn : nhood.wf)
    (hh : height.wf) (hnne : nhood.is_empty = false)
    (hflat : (strel.ctor nhood height).flat = true) (hdim : nhood.ndims ≤ im.ndims) :
    ∃ out r r0, imdilate E im (strel.ctor nhood height) "same" = some (.ok out)
      ∧ (strel.ctor nhood height).reflect = some r ∧ r.decomposition = [r0]
      ∧ erode E im r0 "same" false = .ok out
      ∧ out.dims = im.dims
      ∧ ∀ p, inBox im.dims p = true → ∃ v, out.get? p = some v
        ∧ IsLUB {x | ∃ s ∈ (strel.ctor nhood height).active,
            x = im_ext im (E.padval false)
              (pos_sub_add p s (strel.ctor nhood height).get_origin)} v
        ∧ (1 ≤ (strel.ctor nhood height).get_nnz →
            IsGreatest {x | ∃ s ∈ (strel.ctor nhood height).active,
              x = im_ext im (E.padval false)
                (pos_sub_add p s (strel.ctor nhood height).get_origin)} v) := by
  have hpos := dims_pos_of_not_empty nhood hnne
  have hse := ctor_consistent nhood height hn.2
  have hor := ctor_origin_ok nhood height hpos
  have hse1 := reflect_elem_consistent (strel.ctor nhood height) hse
  have hor1 := reflect_elem_origin_ok (strel.ctor nhood height) hse hor
  have hd1 : (strel.ctor nhood height).reflect_elem.nhood.dims.length ≤ im.dims.length := by
    rw [reflect_elem_nhood_dims _ hse]; exact hdim
  obtain ⟨out, ho, hd, hv⟩ := erode_flat_same E hE im (by have := him.1; omega) hne
    (strel.ctor nhood height).reflect_elem hse1 hor1 hd1
    (reflect_elem_flat _ hh.2 hflat) false
  refine ⟨out, _, _, by rw [imdilate_eq E im _ hse hor, ho],
    reflect_eq _ (validate_origin_of_ok _ hor1), reflect_decomposition _, ho, hd, ?_⟩
  intro p hp
  obtain ⟨v, h1, _, h3, _, h5⟩ := hv p hp
  have hset : {x | ∃ s ∈ (strel.ctor nhood height).reflect_elem.active,
        x = im_ext im (E.padval false)
          (pos_add_sub p s (strel.ctor nhood height).reflect_elem.origin)}
      = {x | ∃ s ∈ (strel.ctor nhood height).active,
        x = im_ext im (E.padval false)
          (pos_sub_add p s (strel.ctor nhood height).get_origin)} := by
    ext x
    simp only [Set.mem_setOf_eq]
    constructor
    · rintro ⟨s1, hs1, rfl⟩
      rw [mem_active_reflect_elem _ hse] at hs1
      obtain ⟨s, hs, rfl⟩ := hs1
      exact ⟨s, hs, by rw [pos_reflect _ hse hor p s (mem_active_inBox _ hse s hs)]; rfl⟩
    · rintro ⟨s, hs, rfl⟩
      refine ⟨rev_sub (strel.ctor nhood height).nhood.dims s, ?_, ?_⟩
      · rw [mem_active_reflect_elem _ hse]; exact ⟨s, hs, rfl⟩
      · rw [pos_reflect _ hse hor p s (mem_active_inBox _ hse s hs)]; rfl
  rw [hset] at h3 h5
  refine ⟨v, h1, h5 rfl, ?_⟩
  intro hnnz
  exact h3 (by rw [reflect_elem_nnz _ hse]; exact hnnz) rfl

/-- **C2** (as stated) fails.  For the image `[1 2]` and the flat 1x1x2 SE `cat (3, 1, 0)`,
whose only active cell is its default origin, the maximum of the claim at the position
`(0, 0)` is `im_ext[(0, 0)] = 1` and the result should be the image, but `imdilate` returns
the 1x1 array `[2]`.  For the empty SE `[]` the assertion of `validate_origin` fails in
`reflect` and `imdilate` returns nothing. -/
theorem imdilate_same_flat_max_counterexample :
    (im12.is_empty = false ∧ (strel.ctor nh112 ht112).flat = true
      ∧ (strel.ctor nh112 ht112).active = [[0, 0, 0]]
      ∧ (strel.ctor nh112 ht112).get_origin = [0, 0, 0]
      ∧ im_ext im12 (uint8Elem.padval false) (pos_sub_add [0, 0] [0, 0, 0] [0, 0, 0]) = 1
      ∧ imdilate uint8Elem im12 (strel.ctor nh112 ht112) "same" = some (.ok ⟨[1, 1], [2]⟩)
      ∧ (⟨[1, 1], [2]⟩ : NDArray (Fin 256)).dims ≠ im12.dims
      ∧ (⟨[1, 1], [2]⟩ : NDArray (Fin 256)).get? [0, 0] = some 2
      ∧ (2 : Fin 256)
          ≠ im_ext im12 (uint8Elem.padval false) (pos_sub_add [0, 0] [0, 0, 0] [0, 0, 0]))
    ∧ ((strel.ctor nh_empty ht_empty).flat = true
      ∧ imdilate uint8Elem im12 (strel.ctor nh_empty ht_empty) "same" = none) := by
  decide

set_option maxRecDepth 100000 in
theorem imdilate_same_flat_max_witness :
    imdilate uint8Elem im57 (strel.ctor nh34 ht34) "same"
        = some (.ok ⟨[5, 7], [0, 0, 0, 0, 0, 0, 0, 0, 0, 0, 0, 1, 1, 1, 1, 0, 0, 1, 1, 1,
            1, 1, 1, 1, 1, 0, 1, 1, 1, 1, 1, 0, 1, 1, 1]⟩)
      ∧ ∃ out r r0, imdilate uint8Elem im57 (strel.ctor nh34 ht34) "same" = some (.ok out)
        ∧ (strel.ctor nh34 ht34).reflect = some r ∧ r.decomposition = [r0]
        ∧ erode uint8Elem im57 r0 "same" false = .ok out
        ∧ out.dims = im57.dims
        ∧ ∀ p, inBox im57.dims p = true → ∃ v, out.get? p = some v
          ∧ IsLUB {x | ∃ s ∈ (strel.ctor nh34 ht34).active,
              x = im_ext im57 (uint8Elem.padval false)
                (pos_sub_add p s (strel.ctor nh34 ht34).get_origin)} v
          ∧ (1 ≤ (strel.ctor nh34 ht34).get_nnz →
              IsGreatest {x | ∃ s ∈ (strel.ctor nh34 ht34).active,
                x = im_ext im57 (uint8Elem.padval false)
                  (pos_sub_add p s (strel.ctor nh34 ht34).get_origin)} v) :=
  ⟨by decide, imdilate_same_flat_max uint8Elem uint8Elem_lawful im57 (by decide) (by decide)
    nh34 ht34 (by decide) (by decide) (by decide) (by decide) (by decide)⟩

set_option maxRecDepth 1000000 in
theorem erode_padded_nonflat_witness :
    (erode uint8Elem a10 (strel.ctor nh_ones3 ht_ones3) "valid" true
        = erode_padded uint8Elem a10 (strel.ctor nh_ones3 ht_ones3) true
      ∧ erode_padded uint8Elem a10 (strel.ctor nh_ones3 ht_ones3) true = .ok ⟨[8, 8], [
        1, 20, 1, 1, 1, 8, 8, 8, 0, 0, 0, 1, 1, 3, 3, 3, 0, 0, 0, 1, 1, 2, 3, 3, 0, 0, 0, 0,
        2, 2, 3, 3, 15, 0, 0, 0, 2, 2, 13, 13, 35, 0, 0, 0, 24, 35, 35, 22, 35, 17, 17, 9, 3,
        3, 3, 6, 10, 17, 17, 9, 3, 3, 3, 2]⟩
      ∧ erode_padded uint8Elem a10 (strel.ctor nh_ones3 ht_ones3) false = .ok ⟨[8, 8], [
        98, 91, 91, 91, 99, 99, 99, 97, 98, 91, 91, 91, 99, 99, 99, 97, 98, 95, 83, 91, 91,
        91, 83, 85, 95, 95, 76, 93, 93, 99, 99, 99, 95, 95, 88, 93, 93, 99, 99, 99, 91, 91,
        91, 93, 93, 99, 100, 100, 91, 91, 91, 88, 89, 89, 100, 100, 91, 91, 100, 100, 100, 80,
        100, 100]⟩)
    ∧ ((∃ out, erode_padded uint8Elem a10 (strel.ctor nh_ones3 ht_ones3) true = .ok out
        ∧ out.dims = out_dims a10.dims (strel.ctor nh_ones3 ht_ones3).get_nhood.dims
        ∧ ∀ p, inBox out.dims p = true → ∃ v, out.get? p = some v
          ∧ IsLeast {x | ∃ s ∈ (strel.ctor nh_ones3 ht_ones3).active,
              ∃ y, a10.get? (sub_add p s) = some y
              ∧ x = uint8Elem.sub y
                  (uint8Elem.ofHeight ((strel.ctor nh_ones3 ht_ones3).height_at s))} v)
      ∧ (∃ out, erode_padded uint8Elem a10 (strel.ctor nh_ones3 ht_ones3) false = .ok out
        ∧ out.dims = out_dims a10.dims (strel.ctor nh_ones3 ht_ones3).get_nhood.dims
        ∧ ∀ p, inBox out.dims p = true → ∃ v, out.get? p = some v
          ∧ IsGreatest {x | ∃ s ∈ (strel.ctor nh_ones3 ht_ones3).active,
              ∃ y, a10.get? (sub_add p s) = some y
              ∧ x = uint8Elem.add y
                  (uint8Elem.ofHeight ((strel.ctor nh_ones3 ht_ones3).height_at s))} v)) :=
  ⟨by decide, erode_padded_nonflat uint8Elem uint8Elem_lawful rfl a10 (by decide)
    (strel.ctor nh_ones3 ht_ones3) (ctor_consistent nh_ones3 ht_ones3 (by decide)) (by decide)
    (by decide) (by decide) (by decide)⟩

/-- **C4** The single-neighbour branch of `erode` ignores the heights.  For the 1x1 image
`[5]` and the non-flat 1x1 SE whose only cell has height 1, shape "same" pads nothing;
`erode` takes the single-neighbour branch and returns `[5]` for erosion and for dilation,
whereas the sweep of `erode_nd` over the same padded array, offsets and heights gives
`[4]` for erosion and `[6]` for dilation. -/
theorem erode_single_neighbour_ignores_height :
    (strel.ctor nh_one ht_one1).get_nnz = 1 ∧ (strel.ctor nh_one ht_one1).flat = false
      ∧ pad_matrix im5 (strel.ctor nh_one ht_one1) (uint8Elem.padval true) "same" = .ok im5
      ∧ pad_matrix im5 (strel.ctor nh_one ht_one1) (uint8Elem.padval false) "same" = .ok im5
      ∧ erode uint8Elem im5 (strel.ctor nh_one ht_one1) "same" true = .ok ⟨[1, 1], [5]⟩
      ∧ erode_sweep uint8Elem im5 true [1, 1] (cumulative im5.dims)
          ((strel.ctor nh_one ht_one1).offsets (cumulative im5.dims))
          ((strel.ctor nh_one ht_one1).true_heights uint8Elem.ofHeight)
          (strel.ctor nh_one ht_one1).flat = .ok ⟨[1, 1], [4]⟩
      ∧ erode uint8Elem im5 (strel.ctor nh_one ht_one1) "same" false = .ok ⟨[1, 1], [5]⟩
      ∧ erode_sweep uint8Elem im5 false [1, 1] (cumulative im5.dims)
          ((strel.ctor nh_one ht_one1).offsets (cumulative im5.dims))
          ((strel.ctor nh_one ht_one1).true_heights uint8Elem.ofHeight)
          (strel.ctor nh_one ht_one1).flat = .ok ⟨[1, 1], [6]⟩ := by
  decide

/-- **C5** (as stated) fails.  With the empty SE `[]` and shape "valid" `erode` returns the
1x1 image, whose extent 1 is not `1 - 0 + 1`; with shape "full" the extent 1 is not
`1 + 0 - 1`.  With the 3x3 SE `ones (3)` and shape "valid" the extent `1 - 3 + 1` is
negative and `erode` returns no array. -/
theorem erode_output_shape_counterexample :
    (im5.is_empty = false ∧ (strel.ctor nh_empty ht_empty).get_nhood.ndims ≤ im5.ndims
      ∧ erode uint8Elem im5 (strel.ctor nh_empty ht_empty) "valid" true = .ok im5
      ∧ (im5.dims.getD 0 0 : Int)
          ≠ (im5.dims.getD 0 0 : Int)
            - ((strel.ctor nh_empty ht_empty).get_nhood.dims.getD 0 1 : Int) + 1
      ∧ erode uint8Elem im5 (strel.ctor nh_empty ht_empty) "full" true = .ok im5
      ∧ (im5.dims.getD 0 0 : Int)
          ≠ (im5.dims.getD 0 0 : Int)
            + ((strel.ctor nh_empty ht_empty).get_nhood.dims.getD 0 1 : Int) - 1)
    ∧ ((strel.ctor nh_ones3 ht_zeros3).get_nhood.ndims ≤ im5.ndims
      ∧ (im5.dims.getD 0 0 : Int)
          - ((strel.ctor nh_ones3 ht_zeros3).get_nhood.dims.getD 0 1 : Int) + 1 < 0
      ∧ erode uint8Elem im5 (strel.ctor nh_ones3 ht_zeros3) "valid" true
          = .error "out of memory or dimension too large") := by
  decide

theorem erode_output_shape_witness :
    (∃ out, erode uint8Elem eye3 (strel.ctor nh1 ht1) "same" true = .ok out
        ∧ out.dims = eye3.dims)
    ∧ (∃ out, erode uint8Elem eye3 (strel.ctor nh1 ht1) "full" true = .ok out
        ∧ out.dims.length = eye3.dims.length
        ∧ ∀ d, d < eye3.ndims → (out.dims.getD d 0 : Int)
            = (eye3.dims.getD d 0 : Int)
              + ((strel.ctor nh1 ht1).get_nhood.dims.getD d 1 : Int) - 1)
    ∧ (fits eye3.dims (strel.ctor nh1 ht1).get_nhood.dims = true →
        ∃ out, erode uint8Elem eye3 (strel.ctor nh1 ht1) "valid" true = .ok out
        ∧ out.dims.length = eye3.dims.length
        ∧ ∀ d, d < eye3.ndims → (out.dims.getD d 0 : Int)
            = (eye3.dims.getD d 0 : Int)
              - ((strel.ctor nh1 ht1).get_nhood.dims.getD d 1 : Int) + 1)
    ∧ (∀ padded : NDArray (Fin 256), padded.wf →
        (strel.ctor nh1 ht1).get_nhood.ndims ≤ padded.ndims →
        fits padded.dims (strel.ctor nh1 ht1).get_nhood.dims = true →
        ∃ out, erode_padded uint8Elem padded (strel.ctor nh1 ht1) true = .ok out
          ∧ out.dims.length = padded.dims.length
          ∧ ∀ d, d < padded.ndims → (out.dims.getD d 0 : Int)
              = (padded.dims.getD d 0 : Int)
                - ((redim (strel.ctor nh1 ht1).get_nhood.dims padded.ndims).getD d 0 : Int)
                + 1) :=
  erode_output_shape uint8Elem uint8Elem_lawful eye3 (by decide) (by decide)
    (strel.ctor nh1 ht1) (ctor_consistent nh1 ht1 (by decide))
    (ctor_origin_ok nh1 ht1 (by decide)) (by decide) (fun h => absurd h (by decide)) true

theorem erode_empty_noop_witness :
    erode uint8Elem eye3 (strel.ctor nh_empty ht_empty) "same" true = .ok eye3 :=
  erode_empty_noop uint8Elem eye3 (strel.ctor nh_empty ht_empty) "same" true
    (Or.inr (by decide))

theorem erode_bool_nonflat_error_witness :
    erode boolElem im_false10 (strel.ctor nh_ones3 ht_ones3) "same" true
      = .error "only non flat structuring elements for binary images" :=
  erode_bool_nonflat_error boolElem rfl im_false10 (by decide)
    (strel.ctor nh_ones3 ht_ones3) (by decide) (by decide) "same" (Or.inr (Or.inl rfl)) true

theorem pre_post_pad_amounts_witness :
    ∃ pre post, (strel.ctor nh34 ht34).pre_pad 2 "full" = .ok pre
      ∧ (strel.ctor nh34 ht34).post_pad 2 "full" = .ok post
      ∧ pre.length = 2 ∧ post.length = 2
      ∧ ∀ d, d < (strel.ctor nh34 ht34).ndims →
          pre.getD d 0 = 2 * (strel.ctor nh34 ht34).origin.getD d 0
          ∧ post.getD d 0 = 2 * (((strel.ctor nh34 ht34).size.getD d 0 : Int)
              - (strel.ctor nh34 ht34).origin.getD d 0 - 1) :=
  pre_post_pad_amounts (strel.ctor nh34 ht34) (by decide) (by decide) 2 (by decide) "full" 2
    (Or.inr (Or.inr ⟨rfl, rfl⟩))

section
variable {P H : Type} [LinearOrder P] [Zero H]

/-- For a flat SE with a single active cell the single-neighbour branch of `erode` and the
sweep of `erode_nd` agree at every position of the output. -/
theorem erode_shift_eq_sweep_of_flat (E : ElemType P H) (hE : E.lawful) (padded : NDArray P)
    (hnd : 1 ≤ padded.dims.length) (se : strel H) (hse : se.consistent) (hnnz : se.nnz = 1)
    (hdim : se.nhood.dims.length ≤ padded.dims.length) (erosion : Bool)
    (out_size : List Int) (hos : out_size.map Int.toNat = out_dims padded.dims se.nhood.dims)
    (hnn : ∀ n ∈ out_size, (0 : Int) ≤ n) (hol : out_size.length = padded.dims.length) :
    ∃ out, erode_sweep E padded erosion out_size (cumulative padded.dims)
        (se.offsets (cumulative padded.dims)) (se.true_heights E.ofHeight) true = .ok out
      ∧ out.dims = (erode_shift E padded se (redim se.nhood.dims padded.ndims) out_size).dims
      ∧ ∀ p, inBox out.dims p = true → out.get? p
          = (erode_shift E padded se (redim se.nhood.dims padded.ndims) out_size).get? p := by
  obtain ⟨out, ho, hd, hv⟩ := erode_sweep_get? E hE padded hnd se hse hdim erosion true
    out_size hos hnn
  obtain ⟨hsd, hsv⟩ := erode_shift_get? E padded se hse hnnz hdim out_size hos hol
  refine ⟨out, ho, by rw [hd, hsd], ?_⟩
  intro p hp
  rw [hv p hp, hsv p (by rw [← hd]; exact hp)]
  congr 1
  have hcv : cell_values E erosion true padded se p = cell_values E true true padded se p := by
    unfold cell_values
    apply List.map_congr_left
    intro s _
    simp
  have hlen : (cell_values E true true padded se p).length = 1 := by
    unfold cell_values
    rw [List.length_map, active_length se hse, hnnz]
  obtain ⟨x, hx⟩ := List.length_eq_one.mp hlen
  unfold sweep_value
  rw [hcv, hx]
  cases erosion with
  | true =>
    simp only [if_true, List.foldl_cons, List.foldl_nil, List.headD_cons]
    exact min_eq_right (le_padval E hE x)
  | false =>
    simp only [Bool.false_eq_true, if_false, List.foldl_cons, List.foldl_nil, List.headD_cons]
    exact max_eq_right (padval_le E hE x)
end

theorem pre_pad_valid {H : Type} (se : strel H) (n : Nat) :
    se.pre_pad n "valid" = .ok (List.replicate n 0) := by
  unfold strel.pre_pad
  rw [if_pos rfl]

theorem post_pad_valid {H : Type} (se : strel H) (n : Nat) :
    se.post_pad n "valid" = .ok (List.replicate n 0) := by
  unfold strel.post_pad
  rw [if_pos rfl]

theorem pre_pad_ok_length {H : Type} (se : strel H) (n : Nat) (shape : String) (l : List Int)
    (h : se.pre_pad n shape = .ok l) : l.length = n := by
  unfold strel.pre_pad at h
  simp only at h
  split_ifs at h <;> (cases h; simp)

theorem post_pad_ok_length {H : Type} (se : strel H) (n : Nat) (shape : String) (l : List Int)
    (h : se.post_pad n shape = .ok l) : l.length = n := by
  unfold strel.post_pad at h
  simp only at h
  split_ifs at h <;> (cases h; simp)

theorem pre_pad_error_iff {H : Type} (se : strel H) (n : Nat) (shape : String) :
    (∃ msg, se.pre_pad n shape = .error msg)
      ↔ ¬ (shape = "valid" ∨ shape = "same" ∨ shape = "full") := by
  unfold strel.pre_pad
  by_cases h1 : shape = "valid"
  · simp [h1]
  · by_cases h2 : shape = "same"
    · simp [h2]
    · by_cases h3 : shape = "full"
      · simp [h3]
      · simp [h1, h2, h3]

theorem post_pad_error_iff {H : Type} (se : strel H) (n : Nat) (shape : String) :
    (∃ msg, se.post_pad n shape = .error msg)
      ↔ ¬ (shape = "valid" ∨ shape = "same" ∨ shape = "full") := by
  unfold strel.post_pad
  by_cases h1 : shape = "valid"
  · simp [h1]
  · by_cases h2 : shape = "same"
    · simp [h2]
    · by_cases h3 : shape = "full"
      · simp [h3]
      · simp [h1, h2, h3]

/-- **C11** `pre_pad (mt_ndims, shape)` and `post_pad (mt_ndims, shape)` fail with an error
if and only if `shape` is none of the strings `valid`, `same`, `full`; for each of these
three strings both succeed and return an array of `mt_ndims` elements. -/
theorem pad_fails_iff_invalid_shape {H : Type} (se : strel H) (mt_ndims : Nat) (shape : String) :
    ((∃ msg, se.pre_pad mt_ndims shape = .error msg)
        ↔ ¬ (shape = "valid" ∨ shape = "same" ∨ shape = "full"))
    ∧ ((∃ msg, se.post_pad mt_ndims shape = .error msg)
        ↔ ¬ (shape = "valid" ∨ shape = "same" ∨ shape = "full"))
    ∧ ((shape = "valid" ∨ shape = "same" ∨ shape = "full") →
        ∃ pre post, se.pre_pad mt_ndims shape = .ok pre ∧ se.post_pad mt_ndims shape = .ok post
          ∧ pre.length = mt_ndims ∧ post.length = mt_ndims) := by
  refine ⟨pre_pad_error_iff se mt_ndims shape, post_pad_error_iff se mt_ndims shape, ?_⟩
  intro hs
  have h1 : ¬ ∃ msg, se.pre_pad mt_ndims shape = .error msg := by
    rw [pre_pad_error_iff]; exact not_not.mpr hs
  have h2 : ¬ ∃ msg, se.post_pad mt_ndims shape = .error msg := by
    rw [post_pad_error_iff]; exact not_not.mpr hs
  cases hpre : se.pre_pad mt_ndims shape with
  | error e => exact absurd ⟨e, hpre⟩ h1
  | ok pre =>
    cases hpost : se.post_pad mt_ndims shape with
    | error e => exact absurd ⟨e, hpost⟩ h2
    | ok post =>
      exact ⟨pre, post, rfl, rfl, pre_pad_ok_length se _ _ _ hpre,
        post_pad_ok_length se _ _ _ hpost⟩

/-- The 3x3 SE of the tests with shape `same`: both paddings are `[1, 1]`; the shape
`Same` is refused. -/
theorem pad_fails_iff_invalid_shape_witness :
    (∃ pre post, (strel.ctor nh1 ht1).pre_pad 2 "same" = .ok pre
        ∧ (strel.ctor nh1 ht1).post_pad 2 "same" = .ok post ∧ pre.length = 2 ∧ post.length = 2)
    ∧ ∃ msg, (strel.ctor nh1 ht1).pre_pad 2 "Same" = .error msg :=
  ⟨(pad_fails_iff_invalid_shape (strel.ctor nh1 ht1) 2 "same").2.2 (Or.inr (Or.inl rfl)),
   (pad_fails_iff_invalid_shape (strel.ctor nh1 ht1) 2 "Same").1.mpr (by decide)⟩

theorem getElem?_map_range {α : Type} (f : Nat → α) (n d : Nat) (hd : d < n) :
    ((List.range n).map f)[d]? = some (f d) := by
  rw [List.getElem?_map, List.getElem?_range hd]
  rfl

/-- **C12** Broadcasting: for an SE with `ndims` dimensions and `mt_ndims > ndims`, in each of
the three shapes `pre_pad` and `post_pad` return arrays of `mt_ndims` elements whose entries
for the extra dimensions `d >= ndims` are 0, and whose entries for `d < ndims` are those
returned for `mt_ndims = ndims`. -/
theorem pad_broadcast {H : Type} (se : strel H) (hlen : se.origin.length = se.ndims)
    (hnd : se.ndims = se.size.length) (mt_ndims : Nat) (hn : se.ndims < mt_ndims)
    (shape : String) (hs : shape = "valid" ∨ shape = "same" ∨ shape = "full") :
    ∃ pre post pre0 post0,
      se.pre_pad mt_ndims shape = .ok pre ∧ se.post_pad mt_ndims shape = .ok post
      ∧ se.pre_pad se.ndims shape = .ok pre0 ∧ se.post_pad se.ndims shape = .ok post0
      ∧ pre.length = mt_ndims ∧ post.length = mt_ndims
      ∧ (∀ d, se.ndims ≤ d → d < mt_ndims → pre[d]? = some 0 ∧ post[d]? = some 0)
      ∧ (∀ d, d < se.ndims → pre[d]? = pre0[d]? ∧ post[d]? = post0[d]?) := by
  rcases hs with hs | hs
  · subst hs
    refine ⟨_, _, _, _, pre_pad_valid se _, post_pad_valid se _, pre_pad_valid se _,
      post_pad_valid se _, by simp, by simp, ?_, ?_⟩
    · intro d _ hd
      simp [List.getElem?_replicate, hd]
    · intro d hd
      have hd2 : d < mt_ndims := by omega
      simp [List.getElem?_replicate, hd, hd2]
  · have hk : ∃ k : Int, (shape = "same" ∧ k = 1) ∨ (shape = "full" ∧ k = 2) := by
      rcases hs with hs | hs
      · exact ⟨1, Or.inl ⟨hs, rfl⟩⟩
      · exact ⟨2, Or.inr ⟨hs, rfl⟩⟩
    obtain ⟨k, hk⟩ := hk
    refine ⟨_, _, _, _, pre_pad_eq se mt_ndims hlen shape k hk,
      post_pad_eq se mt_ndims hlen hnd (by omega) shape k hk,
      pre_pad_eq se se.ndims hlen shape k hk,
      post_pad_eq se se.ndims hlen hnd (le_refl _) shape k hk, by simp, by simp, ?_, ?_⟩
    · intro d hd1 hd2
      rw [getElem?_map_range _ _ _ hd2, getElem?_map_range _ _ _ hd2]
      have ho : se.origin.getD d 0 = 0 := by
        rw [List.getD_eq_default]; omega
      have hz : se.size.getD d 1 = 1 := by
        rw [List.getD_eq_default]; omega
      rw [ho, hz]
      simp
    · intro d hd
      have hd2 : d < mt_ndims := by omega
      rw [getElem?_map_range _ _ _ hd2, getElem?_map_range _ _ _ hd2,
        getElem?_map_range _ _ _ hd, getElem?_map_range _ _ _ hd]
      exact ⟨rfl, rfl⟩

/-- The 3x3 SE of the tests against a 4-dimensional array in shape `full`. -/
theorem pad_broadcast_witness :
    (strel.ctor nh1 ht1).origin.length = (strel.ctor nh1 ht1).ndims
    ∧ (strel.ctor nh1 ht1).ndims < 4
    ∧ ∃ pre post pre0 post0,
      (strel.ctor nh1 ht1).pre_pad 4 "full" = .ok pre
      ∧ (strel.ctor nh1 ht1).post_pad 4 "full" = .ok post
      ∧ (strel.ctor nh1 ht1).pre_pad (strel.ctor nh1 ht1).ndims "full" = .ok pre0
      ∧ (strel.ctor nh1 ht1).post_pad (strel.ctor nh1 ht1).ndims "full" = .ok post0
      ∧ pre.length = 4 ∧ post.length = 4
      ∧ (∀ d, (strel.ctor nh1 ht1).ndims ≤ d → d < 4 → pre[d]? = some 0 ∧ post[d]? = some 0)
      ∧ (∀ d, d < (strel.ctor nh1 ht1).ndims → pre[d]? = pre0[d]? ∧ post[d]? = post0[d]?) :=
  ⟨by decide, by decide,
    pad_broadcast (strel.ctor nh1 ht1) (by decide) (by decide) 4 (by decide) "full"
      (Or.inr (Or.inr rfl))⟩

theorem sub2ind_rev_sub (dv sub : List Nat) (h : inBox dv sub = true) :
    inBox dv (rev_sub dv sub) = true
      ∧ sub2ind dv (rev_sub dv sub) = dv.prod - 1 - sub2ind dv sub := by
  have hlt := sub2ind_lt dv sub h
  have hrev := ind2sub_reverse dv (sub2ind dv sub) hlt
  rw [ind2sub_sub2ind dv sub h] at hrev
  have hlt2 : dv.prod - 1 - sub2ind dv sub < dv.prod := by omega
  rw [← hrev]
  exact ⟨inBox_ind2sub dv _ hlt2, sub2ind_ind2sub dv _ hlt2⟩

theorem get?_reverse {α : Type} (dv : List Nat) (data : List α) (hlen : data.length = dv.prod)
    (sub : List Nat) (h : inBox dv sub = true) :
    ∃ b, (NDArray.mk dv data.reverse).get? sub = some b
      ∧ (NDArray.mk dv data).get? (rev_sub dv sub) = some b := by
  obtain ⟨h1, h2⟩ := sub2ind_rev_sub dv sub h
  have hlt := sub2ind_lt dv sub h
  have hk : dv.prod - 1 - sub2ind dv sub < data.length := by omega
  refine ⟨data[dv.prod - 1 - sub2ind dv sub], ?_, ?_⟩
  · unfold NDArray.get?
    simp only [h, if_true]
    rw [List.getElem?_reverse (by omega), List.getElem?_eq_getElem (by omega)]
    congr 2
    omega
  · unfold NDArray.get?
    simp only [h1, if_true]
    rw [h2, List.getElem?_eq_getElem hk]

theorem inBox_of_getD : ∀ (dv s : List Nat), s.length = dv.length →
    (∀ d, d < dv.length → s.getD d 0 < dv.getD d 0) → inBox dv s = true
  | [], [], _, _ => rfl
  | [], x :: xs, hlen, _ => absurd hlen (by simp)
  | d :: ds, [], hlen, _ => absurd hlen (by simp)
  | d :: ds, x :: xs, hlen, hb => by
    simp only [inBox, Bool.and_eq_true, decide_eq_true_eq]
    refine ⟨by simpa using hb 0 (by simp), inBox_of_getD ds xs (by simpa using hlen) ?_⟩
    intro k hk
    simpa using hb (k + 1) (by simpa using hk)

theorem rev_sub_rev_sub : ∀ (dv s : List Nat), inBox dv s = true →
    rev_sub dv (rev_sub dv s) = s
  | [], [], _ => rfl
  | [], _ :: _, h => by simp [inBox] at h
  | _ :: _, [], h => by simp [inBox] at h
  | d :: ds, x :: xs, h => by
    simp only [inBox, Bool.and_eq_true, decide_eq_true_eq] at h
    have ih := rev_sub_rev_sub ds xs h.2
    unfold rev_sub at ih ⊢
    simp only [List.zipWith_cons_cons, ih, List.cons.injEq, and_true]
    omega

theorem origin_ok_of_validate {H : Type} (se : strel H) (h : se.validate_origin = true) :
    se.origin_ok := by
  unfold strel.validate_origin at h
  simp only [Bool.and_eq_true, decide_eq_true_eq, List.all_eq_true, List.mem_range] at h
  exact ⟨h.1.symm, fun d hd => h.2 d hd⟩

section
variable {H : Type} [Zero H]

theorem reflect_elem_height (se : strel H) (hse : se.consistent)
    (hh : se.height.dims = se.nhood.dims) (hhl : se.height.data.length = se.height.dims.prod) :
    se.reflect_elem.height = ⟨se.nhood.dims, se.height.data.reverse⟩ := by
  show NDArray.mk se.size ((List.range se.nhood.numel).map
      (fun ind => se.height.data.getD (se.nhood.numel - ind - 1) 0)) = _
  rw [range_map_getD_reverse _ _ (by rw [hhl, hh]; rfl) 0, hse.size_eq]

theorem reflect_elem_nhood (se : strel H) (hse : se.consistent) :
    se.reflect_elem.nhood = ⟨se.nhood.dims, se.nhood.data.reverse⟩ := by
  have h1 := reflect_elem_nhood_dims se hse
  have h2 := reflect_elem_nhood_data se hse
  cases hn : se.reflect_elem.nhood with
  | mk d x =>
    rw [hn] at h1 h2
    simp only at h1 h2
    rw [h1, h2]


theorem reflect_elem_origin_rev (se : strel H) (hse : se.consistent) (hor : se.origin_ok) :
    se.reflect_elem.origin.map Int.toNat = rev_sub se.size (se.origin.map Int.toNat) := by
  have hor1 := reflect_elem_origin_ok se hse hor
  have hnd : se.reflect_elem.ndims = se.ndims := by
    show se.size.length = se.ndims
    rw [hse.size_eq, hse.ndims_eq]
  have hsl : se.size.length = se.ndims := by rw [hse.size_eq, hse.ndims_eq]
  apply List.ext_getElem
  · unfold rev_sub
    rw [List.length_zipWith, List.length_map, List.length_map, hor1.1, hnd, hor.1, hsl]
    simp
  · intro d h1 h2
    have hd : d < se.ndims := by
      rw [List.length_map, hor1.1, hnd] at h1; exact h1
    have hdo : d < se.origin.length := by rw [hor.1]; exact hd
    have hg1 := rev_sub_getD se.size (se.origin.map Int.toNat)
      (by rw [List.length_map, hor.1, hsl]) d
    rw [List.getD_eq_getElem?_getD, List.getElem?_eq_getElem h2, Option.getD_some] at hg1
    have hg2 := reflect_elem_origin_getD se hor d hd
    have hdo1 : d < se.reflect_elem.origin.length := by rw [hor1.1, hnd]; exact hd
    rw [List.getD_eq_getElem?_getD, List.getElem?_eq_getElem hdo1, Option.getD_some] at hg2
    have hg3 : (se.origin.map Int.toNat).getD d 0 = (se.origin.getD d 0).toNat := by
      simp [List.getD_eq_getElem?_getD, List.getElem?_eq_getElem hdo]
    have hb := hor.2 d hd
    rw [hg1, List.getElem_map, hg2, hg3]
    omega

omit [Zero H] in
theorem origin_inBox (se : strel H) (hse : se.consistent) (hor : se.origin_ok) :
    inBox se.size (se.origin.map Int.toNat) = true := by
  have hsl : se.size.length = se.ndims := by rw [hse.size_eq, hse.ndims_eq]
  apply inBox_of_getD
  · rw [List.length_map, hor.1, hsl]
  · intro d hd
    rw [hsl] at hd
    have hdo : d < se.origin.length := by rw [hor.1]; exact hd
    have hg3 : (se.origin.map Int.toNat).getD d 0 = (se.origin.getD d 0).toNat := by
      simp [List.getD_eq_getElem?_getD, List.getElem?_eq_getElem hdo]
    have hb := hor.2 d hd
    rw [hg3]
    omega


/-- **C14** Reflection is a rotation by 180 degrees in every dimension: for an SE whose
origin lies inside its shape and whose heights have the shape of the neighbourhood,
`reflect` returns an SE of the same shape whose neighbourhood and height at every
multi-index `sub` inside the shape are those of the original at `size - 1 - sub`, whose
origin is `size (d) - origin (d) - 1` in every dimension, and whose cell at the reflected
origin is the image of the cell at the original origin. -/
theorem reflect_rotates (se : strel H) (hse : se.consistent) (hor : se.origin_ok)
    (hh : se.height.dims = se.nhood.dims) (hhl : se.height.data.length = se.height.dims.prod) :
    ∃ r, se.reflect = some r
      ∧ r.get_nhood.dims = se.size ∧ r.height.dims = se.size
      ∧ (∀ sub, inBox se.size sub = true →
          (∃ b, r.get_nhood.get? sub = some b ∧ se.get_nhood.get? (rev_sub se.size sub) = some b)
          ∧ (∃ h, r.height.get? sub = some h ∧ se.height.get? (rev_sub se.size sub) = some h))
      ∧ r.get_origin.length = se.ndims
      ∧ (∀ d, d < se.ndims →
          r.get_origin.getD d 0 = (se.size.getD d 0 : Int) - se.get_origin.getD d 0 - 1)
      ∧ r.get_origin.map Int.toNat = rev_sub se.size (se.get_origin.map Int.toNat)
      ∧ (∃ b, r.get_nhood.get? (r.get_origin.map Int.toNat) = some b
          ∧ se.get_nhood.get? (se.get_origin.map Int.toNat) = some b) := by
  have hor1 := reflect_elem_origin_ok se hse hor
  have hse1 := reflect_elem_consistent se hse
  have hnd : se.reflect_elem.ndims = se.ndims := by
    show se.size.length = se.ndims
    rw [hse.size_eq, hse.ndims_eq]
  have hr1 : (strel.end_ctor se.reflect_elem).nhood = ⟨se.nhood.dims, se.nhood.data.reverse⟩ :=
    reflect_elem_nhood se hse
  have hr2 : (strel.end_ctor se.reflect_elem).height = ⟨se.nhood.dims, se.height.data.reverse⟩ :=
    reflect_elem_height se hse hh hhl
  have hr3 : (strel.end_ctor se.reflect_elem).origin = se.reflect_elem.origin := rfl
  have hrot : ∀ sub, inBox se.nhood.dims sub = true →
      ∃ b, (strel.end_ctor se.reflect_elem).nhood.get? sub = some b
        ∧ se.nhood.get? (rev_sub se.nhood.dims sub) = some b := by
    intro sub hsub
    rw [hr1]
    exact get?_reverse se.nhood.dims se.nhood.data hse.nhood_len sub hsub
  refine ⟨_, reflect_eq se (validate_origin_of_ok _ hor1), ?_, ?_, ?_, ?_, ?_, ?_, ?_⟩
  · show (strel.end_ctor se.reflect_elem).nhood.dims = se.size
    rw [hr1, hse.size_eq]
  · rw [hr2, hse.size_eq]
  · intro sub hsub
    rw [hse.size_eq] at hsub ⊢
    constructor
    · exact hrot sub hsub
    · rw [hr2]
      have := get?_reverse se.nhood.dims se.height.data (by rw [hhl, hh]) sub hsub
      obtain ⟨h, h1, h2⟩ := this
      refine ⟨h, h1, ?_⟩
      rw [← h2]
      unfold NDArray.get?
      rw [hh]
  · show (strel.end_ctor se.reflect_elem).origin.length = se.ndims
    rw [hr3, hor1.1, hnd]
  · intro d hd
    show (strel.end_ctor se.reflect_elem).origin.getD d 0 = _
    rw [hr3]
    exact reflect_elem_origin_getD se hor d hd
  · show (strel.end_ctor se.reflect_elem).origin.map Int.toNat = _
    rw [hr3]
    exact reflect_elem_origin_rev se hse hor
  · show ∃ b, (strel.end_ctor se.reflect_elem).nhood.get?
        ((strel.end_ctor se.reflect_elem).origin.map Int.toNat) = some b
      ∧ se.nhood.get? (se.origin.map Int.toNat) = some b
    have hbox : inBox se.nhood.dims (se.reflect_elem.origin.map Int.toNat) = true := by
      have := origin_inBox se.reflect_elem hse1 hor1
      rw [← hse.size_eq]; exact this
    have h0 := hrot _ hbox
    rw [reflect_elem_origin_rev se hse hor, hse.size_eq,
      rev_sub_rev_sub _ _ (by rw [← hse.size_eq]; exact origin_inBox se hse hor)] at h0
    rw [hr3, reflect_elem_origin_rev se hse hor, hse.size_eq]
    exact h0


theorem se14_consistent : se14.consistent := ⟨rfl, rfl, rfl, by decide⟩

theorem se14_origin_ok : se14.origin_ok := origin_ok_of_validate se14 (by decide)

theorem reflect_rotates_witness :
    strel.ctor_origin nh14 ht14 [0, 2] = some se14
    ∧ se14.reflect.map strel.get_origin = some [0, 1]
    ∧ se14.reflect.map strel.get_nhood = some ⟨[1, 4], [true, false, true, true]⟩
    ∧ se14.reflect.map (fun r => r.height) = some ⟨[1, 4], [3, 2, 1, 0]⟩
    ∧ ∃ r, se14.reflect = some r
      ∧ r.get_nhood.dims = se14.size ∧ r.height.dims = se14.size
      ∧ (∀ sub, inBox se14.size sub = true →
          (∃ b, r.get_nhood.get? sub = some b
            ∧ se14.get_nhood.get? (rev_sub se14.size sub) = some b)
          ∧ (∃ h, r.height.get? sub = some h
            ∧ se14.height.get? (rev_sub se14.size sub) = some h))
      ∧ r.get_origin.length = se14.ndims
      ∧ (∀ d, d < se14.ndims →
          r.get_origin.getD d 0 = (se14.size.getD d 0 : Int) - se14.get_origin.getD d 0 - 1)
      ∧ r.get_origin.map Int.toNat = rev_sub se14.size (se14.get_origin.map Int.toNat)
      ∧ (∃ b, r.get_nhood.get? (r.get_origin.map Int.toNat) = some b
          ∧ se14.get_nhood.get? (se14.get_origin.map Int.toNat) = some b) :=
  ⟨rfl, by decide, by decide, by decide,
    reflect_rotates se14 se14_consistent se14_origin_ok (by decide) (by decide)⟩

theorem mapIdx_mapIdx_origin (size : List Nat) (n : Nat) (o : List Int) :
    (o.mapIdx (fun dim x => if dim < n then (size.getD dim 0 : Int) - x - 1 else x)).mapIdx
      (fun dim x => if dim < n then (size.getD dim 0 : Int) - x - 1 else x) = o := by
  apply List.ext_getElem?
  intro d
  rw [List.getElem?_mapIdx, List.getElem?_mapIdx]
  cases o[d]? with
  | none => rfl
  | some x =>
    simp only [Option.map_some']
    split_ifs
    · congr 1; omega
    · rfl

/-- **C13** Reflection is an involution: for an SE (of any number of dimensions) whose
heights have the shape of the neighbourhood and whose origin lies inside the shape,
`reflect` succeeds twice in a row and the result has the neighbourhood, the heights and
the origin of the SE. -/
theorem reflect_involution (se : strel H) (hse : se.consistent) (hor : se.origin_ok)
    (hh : se.height.dims = se.nhood.dims) (hhl : se.height.data.length = se.height.dims.prod) :
    ∃ r1 r2, se.reflect = some r1 ∧ r1.reflect = some r2
      ∧ r2.get_nhood = se.get_nhood ∧ r2.height = se.height ∧ r2.get_origin = se.get_origin := by
  have hor1 := reflect_elem_origin_ok se hse hor
  have hse1 := reflect_elem_consistent se hse
  have hor2 := reflect_elem_origin_ok _ hse1 hor1
  have hnd : se.reflect_elem.ndims = se.ndims := by
    show se.size.length = se.ndims
    rw [hse.size_eq, hse.ndims_eq]
  have hrr : (strel.end_ctor se.reflect_elem).reflect = se.reflect_elem.reflect := rfl
  have hn1 := reflect_elem_nhood se hse
  have hh1 := reflect_elem_height se hse hh hhl
  have hn2 := reflect_elem_nhood se.reflect_elem hse1
  have hh2 := reflect_elem_height se.reflect_elem hse1 (by rw [hn1, hh1])
    (by rw [hh1]; simp only [List.length_reverse]; rw [hhl, hh])
  refine ⟨_, _, reflect_eq se (validate_origin_of_ok _ hor1),
    hrr.trans (reflect_eq _ (validate_origin_of_ok _ hor2)), ?_, ?_, ?_⟩
  · show (strel.end_ctor se.reflect_elem.reflect_elem).nhood = se.nhood
    show se.reflect_elem.reflect_elem.nhood = se.nhood
    rw [hn2, hn1]
    simp only [List.reverse_reverse]
  · show se.reflect_elem.reflect_elem.height = se.height
    rw [hh2, hn1, hh1]
    simp only [List.reverse_reverse]
    rw [← hh]
  · show se.reflect_elem.reflect_elem.origin = se.origin
    have hsz : se.reflect_elem.size = se.size := rfl
    show (se.reflect_elem.origin.mapIdx (fun dim o =>
      if dim < se.reflect_elem.ndims then (se.reflect_elem.size.getD dim 0 : Int) - o - 1
      else o)) = se.origin
    rw [hnd, hsz]
    exact mapIdx_mapIdx_origin se.size se.ndims se.origin

theorem reflect_involution_witness :
    (se14.reflect.bind strel.reflect).map strel.get_origin = some [0, 2]
    ∧ ∃ r1 r2, se14.reflect = some r1 ∧ r1.reflect = some r2
      ∧ r2.get_nhood = se14.get_nhood ∧ r2.height = se14.height
      ∧ r2.get_origin = se14.get_origin :=
  ⟨by decide, reflect_involution se14 se14_consistent se14_origin_ok (by decide) (by decide)⟩

end

theorem floor_half (s : Nat) : ⌊((s : ℚ) + 1) / 2⌋ = (((s + 1) / 2 : Nat) : Int) := by
  have h := Rat.floor_intCast_div_natCast ((s : Int) + 1) 2
  push_cast at h
  rw [h]
  norm_cast

theorem ctor_origin_eq {H : Type} (nhood : NDArray Bool) (height : NDArray H) :
    (strel.ctor nhood height).origin
      = nhood.dims.map (fun (s : Nat) => (((s + 1) / 2 : Nat) : Int) - 1) := by
  show (List.range nhood.dims.length).map
      (fun dim => (((nhood.dims.getD dim 0 + 1) / 2 : Nat) : Int) - 1) = _
  apply List.ext_getElem
  · simp
  · intro d h1 h2
    have hd : d < nhood.dims.length := by simpa using h2
    simp only [List.getElem_map, List.getElem_range]
    rw [List.getD_eq_getElem?_getD, List.getElem?_eq_getElem hd]
    rfl

/-- **C15** Default origin: an SE built without an explicit origin has, in every
dimension, the origin `floor ((size (d) + 1) / 2) - 1` (counted from 0), and wherever
`size (d) >= 1` this lies in `[0, size (d))`. -/
theorem default_origin_formula {H : Type} (nhood : NDArray Bool) (height : NDArray H) :
    (strel.ctor nhood height).get_origin
        = nhood.dims.map (fun (s : Nat) => ⌊((s : ℚ) + 1) / 2⌋ - 1)
    ∧ ∀ d, 1 ≤ nhood.dims.getD d 0 →
        0 ≤ (strel.ctor nhood height).get_origin.getD d 0
        ∧ (strel.ctor nhood height).get_origin.getD d 0 < (nhood.dims.getD d 0 : Int) := by
  have ho : (strel.ctor nhood height).get_origin
      = nhood.dims.map (fun (s : Nat) => (((s + 1) / 2 : Nat) : Int) - 1) := ctor_origin_eq nhood height
  constructor
  · rw [ho]
    apply List.map_congr_left
    intro s _
    rw [floor_half]
  · intro d hd
    rw [ho]
    by_cases hlt : d < nhood.dims.length
    · have hg : nhood.dims.getD d 0 = nhood.dims[d] := by
        rw [List.getD_eq_getElem?_getD, List.getElem?_eq_getElem hlt]; rfl
      rw [hg] at hd ⊢
      rw [List.getD_eq_getElem?_getD, List.getElem?_map, List.getElem?_eq_getElem hlt]
      simp only [Option.map_some', Option.getD_some]
      omega
    · rw [List.getD_eq_default _ _ (by omega)] at hd
      omega

theorem default_origin_formula_witness :
    (strel.ctor nh34 ht34).get_origin = [1, 1]
    ∧ (strel.ctor nh34 ht34).get_origin
        = nh34.dims.map (fun (s : Nat) => ⌊((s : ℚ) + 1) / 2⌋ - 1)
    ∧ 0 ≤ (strel.ctor nh34 ht34).get_origin.getD 1 0
    ∧ (strel.ctor nh34 ht34).get_origin.getD 1 0 < (nh34.dims.getD 1 0 : Int) :=
  ⟨by decide, (default_origin_formula nh34 ht34).1,
    (default_origin_formula nh34 ht34).2 1 (by decide)⟩

/-- **C16** (as stated) fails.  The SE `[1 0 0 0]` has the even width 4.  The SE that
`imerode` hands to the engine has its origin at the index 1 in that dimension (the second
cell), not at 4/2 = 2: the result at every position `p` is the image at `p - 1`, that is at
`p + 0 - 1` for the only active cell 0. -/
theorem even_centre_counterexample :
    nh1000.dims.getD 1 0 = 4
    ∧ (strel.ctor nh1000 ht_zeros14).decomposition.map strel.get_origin = [[0, 1]]
    ∧ (strel.ctor nh1000 ht_zeros14).get_origin.getD 1 0 ≠ ((4 / 2 : Nat) : Int)
    ∧ imerode uint8Elem im15 (strel.ctor nh1000 ht_zeros14) "same"
        = some (.ok ⟨[1, 5], [255, 1, 2, 3, 4]⟩) := by
  refine ⟨by decide, by decide, by decide, by decide⟩

section
variable {P H : Type} [LinearOrder P] [Zero H] [DecidableEq H]

/-- **C16** (as amended) Centre of an even-length SE: for an SE built without an explicit
origin, without an empty dimension, `imerode` runs the engine with the SE itself, whose
origin in every dimension of even length `n` is the index `n/2 - 1` (counted from 0; the
second cell of a width-4 SE), and `imdilate` runs it with the reflected SE, whose origin
in such a dimension is the index `n/2` (its third cell). -/
theorem even_centre_origin (E : ElemType P H) (im : NDArray P) (nhood : NDArray Bool)
    (height : NDArray H) (shape : String) (hn : nhood.data.length = nhood.dims.prod)
    (hpos : ∀ b ∈ nhood.dims, 1 ≤ b) :
    imerode E im (strel.ctor nhood height) shape
        = some (erode E im (strel.ctor_elem nhood height) shape true)
    ∧ imdilate E im (strel.ctor nhood height) shape
        = some (erode E im (strel.ctor nhood height).reflect_elem shape false)
    ∧ ∀ d, d < nhood.ndims → nhood.dims.getD d 0 % 2 = 0 →
        (strel.ctor_elem nhood height).get_origin.getD d 0
            = ((nhood.dims.getD d 0 / 2 : Nat) : Int) - 1
        ∧ (strel.ctor nhood height).reflect_elem.get_origin.getD d 0
            = ((nhood.dims.getD d 0 / 2 : Nat) : Int) := by
  have hse := ctor_consistent nhood height hn
  have hor := ctor_origin_ok nhood height hpos
  refine ⟨imerode_ctor E im nhood height shape, imdilate_eq E im _ hse hor shape, ?_⟩
  intro d hd heven
  have ho : (strel.ctor_elem nhood height).get_origin.getD d 0
      = ((nhood.dims.getD d 0 / 2 : Nat) : Int) - 1 := by
    show (strel.ctor nhood height).origin.getD d 0 = _
    rw [ctor_origin_eq, List.getD_eq_getElem?_getD, List.getElem?_map]
    have hd1 : d < nhood.dims.length := hd
    have hg : nhood.dims.getD d 0 = nhood.dims[d] := by
      rw [List.getD_eq_getElem?_getD, List.getElem?_eq_getElem hd1]; rfl
    rw [hg] at heven ⊢
    rw [List.getElem?_eq_getElem hd1]
    simp only [Option.map_some', Option.getD_some]
    omega
  refine ⟨ho, ?_⟩
  show (strel.ctor nhood height).reflect_elem.origin.getD d 0 = _
  rw [reflect_elem_origin_getD _ hor d hd]
  have ho2 : (strel.ctor nhood height).origin.getD d 0
      = ((nhood.dims.getD d 0 / 2 : Nat) : Int) - 1 := ho
  rw [ho2]
  show ((nhood.dims.getD d 0 : Nat) : Int) - _ - 1 = _
  omega

end

theorem even_centre_origin_witness :
    (strel.ctor_elem nh34 ht34).get_origin = [1, 1]
    ∧ (strel.ctor nh34 ht34).reflect_elem.get_origin = [1, 2]
    ∧ imerode uint8Elem im57 (strel.ctor nh34 ht34) "same"
        = some (erode uint8Elem im57 (strel.ctor_elem nh34 ht34) "same" true)
    ∧ imdilate uint8Elem im57 (strel.ctor nh34 ht34) "same"
        = some (erode uint8Elem im57 (strel.ctor nh34 ht34).reflect_elem "same" false)
    ∧ ∀ d, d < nh34.ndims → nh34.dims.getD d 0 % 2 = 0 →
        (strel.ctor_elem nh34 ht34).get_origin.getD d 0
            = ((nh34.dims.getD d 0 / 2 : Nat) : Int) - 1
        ∧ (strel.ctor nh34 ht34).reflect_elem.get_origin.getD d 0
            = ((nh34.dims.getD d 0 / 2 : Nat) : Int) :=
  ⟨by decide, by decide,
    even_centre_origin uint8Elem im57 nh34 ht34 "same" (by decide) (by decide)⟩

/-- **C17** Origin validation: the constructor with an explicit origin, and `set_origin`
on an existing SE, succeed if and only if the coordinates have exactly one entry per
dimension of the SE and `0 <= coords (d) < size (d)` in every dimension; on success the
origin of the SE is the coordinates given, and its neighbourhood, heights and number of
true cells are unchanged. -/
theorem origin_validation {H : Type} (nhood : NDArray Bool) (height : NDArray H)
    (se : strel H) (coords : List Int) :
    ((∃ r, strel.ctor_origin nhood height coords = some r) ↔
        (coords.length = nhood.ndims ∧ ∀ d, d < nhood.ndims →
          0 ≤ coords.getD d 0 ∧ coords.getD d 0 < (nhood.dims.getD d 0 : Int)))
    ∧ (∀ r, strel.ctor_origin nhood height coords = some r →
        r.get_origin = coords ∧ r.get_nhood = nhood ∧ r.height = height
        ∧ r.get_nnz = nhood.data.count true)
    ∧ ((∃ r, se.set_origin coords = some r) ↔
        (coords.length = se.ndims ∧ ∀ d, d < se.ndims →
          0 ≤ coords.getD d 0 ∧ coords.getD d 0 < (se.size.getD d 0 : Int)))
    ∧ (∀ r, se.set_origin coords = some r →
        r.get_origin = coords ∧ r.get_nhood = se.get_nhood ∧ r.height = se.height
        ∧ r.get_nnz = se.get_nnz) := by
  refine ⟨?_, ?_, ?_, ?_⟩
  · unfold strel.ctor_origin
    simp only
    constructor
    · rintro ⟨r, hr⟩
      by_cases hv : (strel.ini_ctor nhood height coords).validate_origin = true
      · exact origin_ok_of_validate _ hv
      · rw [if_neg hv] at hr
        cases hr
    · intro h
      have hv : (strel.ini_ctor nhood height coords).validate_origin = true :=
        validate_origin_of_ok _ h
      rw [if_pos hv]
      exact ⟨_, rfl⟩
  · intro r hr
    unfold strel.ctor_origin at hr
    simp only at hr
    split_ifs at hr
    cases hr
    exact ⟨rfl, rfl, rfl, rfl⟩
  · unfold strel.set_origin
    simp only
    constructor
    · rintro ⟨r, hr⟩
      by_cases hv : ({ se with origin := coords } : strel H).validate_origin = true
      · exact origin_ok_of_validate _ hv
      · rw [if_neg hv] at hr
        cases hr
    · intro h
      have hv : ({ se with origin := coords } : strel H).validate_origin = true :=
        validate_origin_of_ok _ h
      rw [if_pos hv]
      exact ⟨_, rfl⟩
  · intro r hr
    unfold strel.set_origin at hr
    simp only at hr
    split_ifs at hr
    cases hr
    exact ⟨rfl, rfl, rfl, rfl⟩

theorem origin_validation_witness :
    (∃ r, strel.ctor_origin nh14 ht14 [0, 2] = some r)
    ∧ strel.ctor_origin nh14 ht14 [0, 4] = none
    ∧ strel.ctor_origin nh14 ht14 [2] = none
    ∧ (∃ r, se14.set_origin [0, 3] = some r)
    ∧ se14.set_origin [0, -1] = none
    ∧ (se14.set_origin [0, 3]).map strel.get_origin = some [0, 3]
    ∧ (strel.ctor_origin nh14 ht14 [0, 2]).map strel.get_origin = some [0, 2] :=
  ⟨(origin_validation nh14 ht14 se14 [0, 2]).1.mpr (by decide), rfl, rfl,
    (origin_validation nh14 ht14 se14 [0, 3]).2.2.1.mpr (by decide), rfl,
    by decide, by decide⟩

/-- **C18** (as stated) fails.  A 1x1 neighbourhood and 3x3 heights have different shapes,
and both constructors yield an SE that holds them. -/
theorem ctor_shape_check_counterexample :
    nh_one.dims ≠ ht_zeros3.dims
    ∧ (strel.ctor nh_one ht_zeros3).get_nhood = nh_one
    ∧ (strel.ctor nh_one ht_zeros3).height = ht_zeros3
    ∧ ∃ se, strel.ctor_origin nh_one ht_zeros3 [0, 0] = some se
        ∧ se.get_nhood = nh_one ∧ se.height = ht_zeros3 :=
  ⟨by decide, rfl, rfl, _, rfl, rfl, rfl⟩

/-- **C18** (as amended) No shape check at construction: for every neighbourhood mask and
heights array, of the same shape or not, the constructor without an origin yields an SE
that holds both as given, and the constructor with an origin succeeds or fails as it does
with any other heights array, holding both as given when it succeeds. -/
theorem ctor_ignores_height_shape {H : Type} (nhood : NDArray Bool) (height height2 : NDArray H)
    (origin : List Int) :
    (strel.ctor nhood height).get_nhood = nhood
    ∧ (strel.ctor nhood height).height = height
    ∧ ((∃ se, strel.ctor_origin nhood height origin = some se)
        ↔ ∃ se, strel.ctor_origin nhood height2 origin = some se)
    ∧ ∀ se, strel.ctor_origin nhood height origin = some se →
        se.get_nhood = nhood ∧ se.height = height := by
  refine ⟨rfl, rfl, ?_, ?_⟩
  · unfold strel.ctor_origin
    simp only
    have hv : (strel.ini_ctor nhood height origin).validate_origin
        = (strel.ini_ctor nhood height2 origin).validate_origin := rfl
    rw [hv]
    by_cases h : (strel.ini_ctor nhood height2 origin).validate_origin = true
    · simp [h]
    · simp [h]
  · intro se hse
    unfold strel.ctor_origin at hse
    simp only at hse
    split_ifs at hse
    cases hse
    exact ⟨rfl, rfl⟩

theorem ctor_ignores_height_shape_witness :
    (strel.ctor nh_one ht_zeros3).get_nhood = nh_one
    ∧ (strel.ctor nh_one ht_zeros3).height = ht_zeros3
    ∧ ((∃ se, strel.ctor_origin nh_one ht_zeros3 [0, 0] = some se)
        ↔ ∃ se, strel.ctor_origin nh_one ht_zero1 [0, 0] = some se)
    ∧ ∀ se, strel.ctor_origin nh_one ht_zeros3 [0, 0] = some se →
        se.get_nhood = nh_one ∧ se.height = ht_zeros3 :=
  ctor_ignores_height_shape nh_one ht_zeros3 ht_zero1 [0, 0]

/-- **C19** (as stated) fails.  In the SE with neighbourhood `[1 0]` and heights `[0 5]`
every active cell has the height 0, and `flat` returns false; with the heights `[0 0]`,
which differ at the inactive cell only, it returns true, and `imerode` of a boolean image
fails with the first SE and succeeds with the second. -/
theorem flat_active_only_counterexample :
    (∀ s ∈ (strel.ctor nh10 ht05).active, (strel.ctor nh10 ht05).height_at s = 0)
    ∧ (strel.ctor nh10 ht05).flat = false
    ∧ (∀ s ∈ (strel.ctor nh10 ht05).active,
        (strel.ctor nh10 ht05).height_at s = (strel.ctor nh10 ht00).height_at s)
    ∧ (strel.ctor nh10 ht00).flat = true
    ∧ imerode boolElem im_tf (strel.ctor nh10 ht05) "same"
        = some (.error "only non flat structuring elements for binary images")
    ∧ imerode boolElem im_tf (strel.ctor nh10 ht00) "same" = some (.ok im_tf) := by
  refine ⟨by decide, by decide, by decide, by decide, by decide, by decide⟩

/-- **C19** (as amended) Flatness: `flat` returns true if and only if the height stored at
every cell, active or not, is 0. -/
theorem flat_iff_all_heights_zero {H : Type} [Zero H] [DecidableEq H] (se : strel H) :
    se.flat = true ↔ ∀ ind, ind < se.height.numel → se.height.data.getD ind 0 = 0 := by
  unfold strel.flat
  constructor
  · intro h ind hind
    split_ifs at h with hall
    · rw [List.all_eq_true] at hall
      by_cases hlt : ind < se.height.data.length
      · rw [List.getD_eq_getElem?_getD, List.getElem?_eq_getElem hlt, Option.getD_some]
        simpa using hall _ (List.getElem_mem hlt)
      · rw [List.getD_eq_default _ _ (by omega)]
    · by_contra hne
      have : (List.range se.height.numel).any
          (fun ind => decide (se.height.data.getD ind 0 ≠ 0)) = true := by
        rw [List.any_eq_true]
        exact ⟨ind, List.mem_range.mpr hind, by simpa using hne⟩
      rw [this] at h
      simp at h
  · intro h
    split_ifs with hall
    · rfl
    · have : (List.range se.height.numel).any
          (fun ind => decide (se.height.data.getD ind 0 ≠ 0)) = false := by
        rw [List.any_eq_false]
        intro ind hind
        simpa using h ind (List.mem_range.mp hind)
      rw [this]
      rfl

theorem flat_iff_all_heights_zero_witness :
    (strel.ctor nh10 ht00).flat = true
    ∧ ((strel.ctor nh10 ht05).flat = true ↔
        ∀ ind, ind < (strel.ctor nh10 ht05).height.numel →
          (strel.ctor nh10 ht05).height.data.getD ind 0 = 0) :=
  ⟨by decide, flat_iff_all_heights_zero (strel.ctor nh10 ht05)⟩

theorem zipWith_mul_sum : ∀ (c r : List Nat),
    (List.zipWith (fun c s => c * s) c r).sum
      = ∑ i ∈ Finset.range r.length, c.getD i 0 * r.getD i 0
  | [], r => by
    simp
  | _ :: _, [] => by simp
  | c0 :: c, r0 :: r => by
    simp only [List.zipWith_cons_cons, List.sum_cons, List.length_cons]
    rw [Finset.sum_range_succ', zipWith_mul_sum c r]
    simp only [List.getD_cons_succ, List.getD_cons_zero]
    ring

theorem offset_of_eq_sum (cum_size sub : List Nat) :
    strel.offset_of cum_size sub
      = sub.getD 0 0 + ∑ d ∈ Finset.Ico 1 sub.length, cum_size.getD (d - 1) 0 * sub.getD d 0 := by
  cases sub with
  | nil => simp [strel.offset_of]
  | cons s0 rest =>
    simp only [strel.offset_of, List.getD_cons_zero, List.length_cons]
    rw [zipWith_mul_sum, Finset.sum_Ico_eq_sum_range]
    congr 1
    apply Finset.sum_congr (by simp)
    intro i _
    rw [show 1 + i = i + 1 from Nat.add_comm 1 i]
    simp

theorem offset_of_cumulative : ∀ (dv s : List Nat), s.length ≤ dv.length →
    strel.offset_of (cumulative dv) s = sub2ind dv s
  | [], [], _ => by simp [strel.offset_of, sub2ind]
  | [], _ :: _, h => by simp at h
  | _ :: _, [], _ => by simp [strel.offset_of, sub2ind]
  | d :: ds, s0 :: ss, h => by
    rw [offset_of_cumulative_cons, offset_of_cumulative ds ss (by simpa using h)]
    rfl

theorem active_from_pairwise : ∀ (l : List Bool) (ind : Nat),
    (active_from ind l).Pairwise (fun a b => a < b)
  | [], _ => by simp [active_from]
  | b :: bs, ind => by
    have ih := active_from_pairwise bs (ind + 1)
    cases b
    · simpa [active_from] using ih
    · simp only [active_from, if_true, List.pairwise_cons]
      refine ⟨?_, ih⟩
      intro a ha
      rw [mem_active_from] at ha
      omega

section
variable {H : Type}

theorem mem_active_iff (se : strel H) (hse : se.consistent) (s : List Nat) :
    s ∈ se.active ↔ se.nhood.get? s = some true := by
  unfold strel.active NDArray.get?
  rw [List.mem_map]
  constructor
  · rintro ⟨i, hi, rfl⟩
    rw [mem_active_from_zero] at hi
    have hlt : i < se.nhood.dims.prod := by
      rw [← hse.nhood_len]
      by_contra hcon
      rw [List.getElem?_eq_none (by omega)] at hi
      cases hi
    rw [inBox_ind2sub _ _ hlt, if_pos rfl, sub2ind_ind2sub _ _ hlt]
    exact hi
  · intro h
    split_ifs at h with hbox
    refine ⟨sub2ind se.nhood.dims s, ?_, ind2sub_sub2ind _ _ hbox⟩
    rw [mem_active_from_zero]
    exact h

theorem active_pairwise (se : strel H) (hse : se.consistent) :
    se.active.Pairwise (fun a b => sub2ind se.nhood.dims a < sub2ind se.nhood.dims b) := by
  unfold strel.active
  rw [List.pairwise_map]
  apply List.Pairwise.imp_of_mem _ (active_from_pairwise se.nhood.data 0)
  intro i j hi hj hij
  have hlt : ∀ k, k ∈ active_from 0 se.nhood.data → k < se.nhood.dims.prod := by
    intro k hk
    rw [mem_active_from_zero] at hk
    rw [← hse.nhood_len]
    by_contra hcon
    rw [List.getElem?_eq_none (by omega)] at hk
    cases hk
  rw [sub2ind_ind2sub _ _ (hlt i hi), sub2ind_ind2sub _ _ (hlt j hj)]
  exact hij

theorem active_elem_length (se : strel H) (s : List Nat) (hs : s ∈ se.active) :
    s.length = se.nhood.dims.length := by
  unfold strel.active at hs
  rw [List.mem_map] at hs
  obtain ⟨i, _, rfl⟩ := hs
  exact ind2sub_length _ _

/-- **C20** Offset table: for every cumulative-size vector `cum_size`, `offsets (cum_size)`
lists, for the active (true) cells of the neighbourhood taken in column-major order of
their multi-index `sub`, the value `sub (0) + sum over d >= 1 of cum_size (d-1) * sub (d)`;
when `cum_size` is the cumulative size of an array with at least as many dimensions as
the SE, this is the linear index in that array of the cell `sub`, its distance from the
first element of the neighbourhood. -/
theorem offsets_table (se : strel H) (hse : se.consistent) (cum_size : List Nat) :
    se.offsets cum_size = se.active.map (fun sub =>
        sub.getD 0 0 + ∑ d ∈ Finset.Ico 1 se.ndims, cum_size.getD (d - 1) 0 * sub.getD d 0)
    ∧ (∀ sub, sub ∈ se.active ↔ se.get_nhood.get? sub = some true)
    ∧ se.active.Pairwise (fun a b => sub2ind se.size a < sub2ind se.size b)
    ∧ ∀ dv, se.ndims ≤ dv.length → cum_size = cumulative dv →
        se.offsets cum_size = se.active.map (sub2ind dv) := by
  have hoff : se.offsets cum_size = se.active.map (strel.offset_of cum_size) := by
    rw [offsets_eq se hse]
    unfold strel.active
    rw [List.map_map]
    rfl
  refine ⟨?_, mem_active_iff se hse, ?_, ?_⟩
  · rw [hoff]
    apply List.map_congr_left
    intro sub hsub
    rw [offset_of_eq_sum, active_elem_length se sub hsub, hse.ndims_eq]
  · rw [hse.size_eq]
    exact active_pairwise se hse
  · intro dv hdv hcum
    rw [hoff, hcum]
    apply List.map_congr_left
    intro sub hsub
    apply offset_of_cumulative
    rw [active_elem_length se sub hsub, ← hse.ndims_eq]
    exact hdv

end

/-- The example of the comment on `offsets`: cumulative size `[10 100]` and the SE
`[1 0 0; 1 1 1; 0 0 1]` give `[0 1 11 21 22]`. -/
theorem offsets_table_witness :
    (strel.ctor nh_doc ht_zeros3).offsets [10, 100] = [0, 1, 11, 21, 22]
    ∧ (strel.ctor nh_doc ht_zeros3).active = [[0, 0], [1, 0], [1, 1], [1, 2], [2, 2]]
    ∧ (strel.ctor nh_doc ht_zeros3).offsets [10, 100]
        = (strel.ctor nh_doc ht_zeros3).active.map (fun sub =>
            sub.getD 0 0 + ∑ d ∈ Finset.Ico 1 (strel.ctor nh_doc ht_zeros3).ndims,
              [10, 100].getD (d - 1) 0 * sub.getD d 0) :=
  ⟨by decide, by decide,
    (offsets_table (strel.ctor nh_doc ht_zeros3) (ctor_consistent _ _ (by decide)) [10, 100]).1⟩

theorem lin_disp_sub_add : ∀ (stride sub : List Nat) (origin : List Int),
    sub.length = origin.length →
    origin_relative stride origin sub + lin_disp stride origin
      = lin_disp stride (sub.map (fun (s : Nat) => (s : Int)))
  | [], _, _, _ => by simp [origin_relative, lin_disp]
  | _ :: _, [], [], _ => by simp [origin_relative, lin_disp]
  | _ :: _, [], _ :: _, h => by simp at h
  | _ :: _, _ :: _, [], h => by simp at h
  | t :: ts, s :: ss, o :: os, h => by
    have ih := lin_disp_sub_add ts ss os (by simpa using h)
    unfold origin_relative lin_disp at ih ⊢
    simp only [List.zipWith_cons_cons, List.sum_cons, List.map_cons]
    linarith

theorem lin_disp_offset_of (cum_size sub : List Nat) :
    lin_disp (strides_of cum_size) (sub.map (fun (s : Nat) => (s : Int)))
      = (strel.offset_of cum_size sub : Int) := by
  cases sub with
  | nil => simp [lin_disp, strides_of, strel.offset_of]
  | cons s0 rest =>
    unfold lin_disp strides_of strel.offset_of
    simp only [List.map_cons, List.zipWith_cons_cons, List.sum_cons, Nat.cast_one, one_mul,
      Nat.cast_add]
    congr 1
    generalize cum_size = c
    induction c generalizing rest with
    | nil => simp
    | cons c0 cs ih =>
      cases rest with
      | nil => simp
      | cons r0 rs =>
        simp only [List.map_cons, List.zipWith_cons_cons, List.sum_cons, Nat.cast_add,
          Nat.cast_mul]
        rw [ih rs]

theorem origin_relative_self : ∀ (stride : List Nat) (origin : List Int),
    (∀ o ∈ origin, 0 ≤ o) → origin_relative stride origin (origin.map Int.toNat) = 0
  | [], _, _ => by simp [origin_relative, lin_disp]
  | _ :: _, [], _ => by simp [origin_relative, lin_disp]
  | t :: ts, o :: os, h => by
    have ih := origin_relative_self ts os (fun x hx => h x (List.mem_cons_of_mem _ hx))
    have ho : 0 ≤ o := h o (List.mem_cons_self _ _)
    unfold origin_relative lin_disp at ih ⊢
    simp only [List.map_cons, List.zipWith_cons_cons, List.sum_cons, ih, add_zero,
      Int.toNat_of_nonneg ho, sub_self, mul_zero]

/-- **C21** (as stated) fails.  The SE `ones (3)` has its origin at the cell (1, 1), which is
active and the fifth active cell; for the cumulative size `[10 100]` its offset is 11, not
0, and the offset of the first cell is 0, not the displacement -11 from the origin. -/
theorem offsets_origin_relative_counterexample :
    (strel.ctor nh_ones3 ht_zeros3).get_origin = [1, 1]
    ∧ (strel.ctor nh_ones3 ht_zeros3).active[4]? = some [1, 1]
    ∧ (strel.ctor nh_ones3 ht_zeros3).offsets [10, 100] = [0, 1, 2, 10, 11, 12, 20, 21, 22]
    ∧ ((strel.ctor nh_ones3 ht_zeros3).offsets [10, 100])[4]? ≠ some 0
    ∧ (strel.ctor nh_ones3 ht_zeros3).active.map
        (origin_relative (strides_of [10, 100]) (strel.ctor nh_ones3 ht_zeros3).get_origin)
        = [-11, -10, -9, -1, 0, 1, 9, 10, 11] := by
  refine ⟨by decide, by decide, by decide, by decide, by decide⟩

/-- **C21** (as amended) Offsets are relative to the first cell: every entry of the offset
table is the linear displacement `sum over d of sub (d) * stride (d)` of its active cell
from the first cell of the neighbourhood, that is its displacement from the origin cell
plus the displacement `sum over d of origin (d) * stride (d)` of the origin cell; the table
does not change when the origin is set to other coordinates, and when the origin cell is
active its entry is the displacement of the origin cell from the first cell. -/
theorem offsets_first_cell_relative {H : Type} (se : strel H) (hse : se.consistent)
    (hor : se.origin_ok) (cum_size : List Nat) :
    (se.offsets cum_size).map (fun (x : Nat) => (x : Int))
        = se.active.map (fun sub => lin_disp (strides_of cum_size)
            (sub.map (fun (s : Nat) => (s : Int))))
    ∧ (se.offsets cum_size).map (fun (x : Nat) => (x : Int))
        = se.active.map (fun sub => origin_relative (strides_of cum_size) se.get_origin sub
            + lin_disp (strides_of cum_size) se.get_origin)
    ∧ (∀ coords r, se.set_origin coords = some r → r.offsets cum_size = se.offsets cum_size)
    ∧ (∀ i : Nat, se.active[i]? = some (se.get_origin.map Int.toNat) →
        Option.map (fun (x : Nat) => (x : Int)) ((se.offsets cum_size)[i]?)
          = some (lin_disp (strides_of cum_size) se.get_origin)) := by
  have hoff : se.offsets cum_size = se.active.map (strel.offset_of cum_size) := by
    rw [offsets_eq se hse]
    unfold strel.active
    rw [List.map_map]
    rfl
  have h1 : (se.offsets cum_size).map (fun (x : Nat) => (x : Int))
      = se.active.map (fun sub => lin_disp (strides_of cum_size)
          (sub.map (fun (s : Nat) => (s : Int)))) := by
    rw [hoff, List.map_map]
    apply List.map_congr_left
    intro sub _
    simp only [Function.comp_apply]
    rw [lin_disp_offset_of]
  have h2 : (se.offsets cum_size).map (fun (x : Nat) => (x : Int))
      = se.active.map (fun sub => origin_relative (strides_of cum_size) se.get_origin sub
          + lin_disp (strides_of cum_size) se.get_origin) := by
    rw [h1]
    apply List.map_congr_left
    intro sub hsub
    rw [lin_disp_sub_add]
    show sub.length = se.origin.length
    rw [active_elem_length se sub hsub, hor.1, hse.ndims_eq]
  refine ⟨h1, h2, ?_, ?_⟩
  · intro coords r hr
    unfold strel.set_origin at hr
    simp only at hr
    split_ifs at hr
    cases hr
    have hse1 : ({ se with origin := coords } : strel H).consistent :=
      ⟨hse.size_eq, hse.ndims_eq, hse.nnz_eq, hse.nhood_len⟩
    exact (offsets_eq ({ se with origin := coords } : strel H) hse1 cum_size).trans
      (offsets_eq se hse cum_size).symm
  · intro i hi
    have h3 := congrArg (fun l => l[i]?) h2
    simp only [List.getElem?_map, hi, Option.map_some'] at h3
    rw [h3, origin_relative_self, zero_add]
    intro o ho
    obtain ⟨d, hd, rfl⟩ := List.getElem_of_mem ho
    have hd1 : d < se.origin.length := hd
    have := (hor.2 d (by rw [← hor.1]; exact hd)).1
    rw [List.getD_eq_getElem?_getD, List.getElem?_eq_getElem hd1] at this
    exact this

theorem offsets_first_cell_relative_witness :
    (strel.ctor nh_ones3 ht_zeros3).active[4]?
        = some ((strel.ctor nh_ones3 ht_zeros3).get_origin.map Int.toNat)
    ∧ lin_disp (strides_of [10, 100]) (strel.ctor nh_ones3 ht_zeros3).get_origin = 11
    ∧ Option.map (fun (x : Nat) => (x : Int))
          (((strel.ctor nh_ones3 ht_zeros3).offsets [10, 100])[4]?)
        = some (lin_disp (strides_of [10, 100]) (strel.ctor nh_ones3 ht_zeros3).get_origin) :=
  ⟨by decide, by decide,
    (offsets_first_cell_relative (strel.ctor nh_ones3 ht_zeros3)
      (ctor_consistent _ _ (by decide)) (ctor_origin_ok _ _ (by decide)) [10, 100]).2.2.2 4
      (by decide)⟩

section
variable {H : Type}

theorem active_from_lt (l : List Bool) (i : Nat) (hi : i ∈ active_from 0 l) : i < l.length := by
  rw [mem_active_from_zero] at hi
  by_contra hcon
  rw [List.getElem?_eq_none (by omega)] at hi
  cases hi

theorem offsets_eq_active (se : strel H) (hse : se.consistent) (cum_size : List Nat) :
    se.offsets cum_size = se.active.map (strel.offset_of cum_size) := by
  rw [offsets_eq se hse]
  unfold strel.active
  rw [List.map_map]
  rfl

theorem true_heights_eq_active {P : Type} [Zero H] (se : strel H) (hse : se.consistent)
    (conv : H → P) :
    se.true_heights conv = se.active.map (fun sub => conv (se.height_at sub)) := by
  rw [true_heights_eq se hse]
  unfold strel.active strel.height_at
  rw [List.map_map]
  apply List.map_congr_left
  intro i hi
  have hlt : i < se.nhood.dims.prod := by
    rw [← hse.nhood_len]; exact active_from_lt _ _ hi
  simp only [Function.comp_apply]
  rw [sub2ind_ind2sub _ _ hlt]

/-- **C22** Parallel tables: for an SE whose heights have the shape of its neighbourhood,
`offsets (cum_size)` and `true_heights` both have as many entries as the neighbourhood has
true cells, which is `get_nnz`, and for every `i` below that number there is a true cell
`sub` of the neighbourhood, the `i`-th in column-major order, such that the `i`-th offset is
the displacement of `sub` and the `i`-th height is the height stored at `sub`. -/
theorem offsets_heights_parallel {P : Type} [Zero H] (se : strel H) (hse : se.consistent)
    (hh : se.height.dims = se.nhood.dims) (hhl : se.height.data.length = se.height.dims.prod)
    (cum_size : List Nat) (conv : H → P) :
    (se.offsets cum_size).length = se.get_nhood.data.count true
    ∧ (se.true_heights conv).length = se.get_nhood.data.count true
    ∧ se.get_nnz = se.get_nhood.data.count true
    ∧ ∀ i : Nat, i < se.get_nnz → ∃ sub h, se.active[i]? = some sub
        ∧ se.get_nhood.get? sub = some true ∧ se.height.get? sub = some h
        ∧ (se.offsets cum_size)[i]? = some (strel.offset_of cum_size sub)
        ∧ (se.true_heights conv)[i]? = some (conv h) := by
  have hoff := offsets_eq_active se hse cum_size
  have hht := true_heights_eq_active se hse conv
  have hlen := active_length se hse
  refine ⟨?_, ?_, hse.nnz_eq, ?_⟩
  · rw [hoff, List.length_map, hlen]; exact hse.nnz_eq
  · rw [hht, List.length_map, hlen]; exact hse.nnz_eq
  · intro i hi
    have hi' : i < se.active.length := by rw [hlen]; exact hi
    have hmem : se.active[i] ∈ se.active := List.getElem_mem hi'
    have hbox := mem_active_inBox se hse _ hmem
    have hlt := sub2ind_lt _ _ hbox
    have hlt2 : sub2ind se.nhood.dims se.active[i] < se.height.data.length := by
      rw [hhl, hh]; exact hlt
    refine ⟨se.active[i], se.height.data[sub2ind se.nhood.dims se.active[i]],
      List.getElem?_eq_getElem hi', (mem_active_iff se hse _).mp hmem, ?_, ?_, ?_⟩
    · unfold NDArray.get?
      rw [hh, hbox, if_pos rfl, List.getElem?_eq_getElem]
    · rw [hoff, List.getElem?_map, List.getElem?_eq_getElem hi']
      rfl
    · rw [hht, List.getElem?_map, List.getElem?_eq_getElem hi']
      simp only [Option.map_some', strel.height_at]
      rw [List.getD_eq_getElem?_getD, List.getElem?_eq_getElem hlt2]
      rfl

end

/-- The SE with the heights `[0 1 2 3]` on the neighbourhood `[1 1 0 1]`. -/
theorem offsets_heights_parallel_witness :
    (strel.ctor nh14 ht14).offsets [1, 4] = [0, 1, 3]
    ∧ (strel.ctor nh14 ht14).true_heights uint8Elem.ofHeight = [0, 1, 3]
    ∧ ((strel.ctor nh14 ht14).offsets [1, 4]).length = (strel.ctor nh14 ht14).get_nhood.data.count true
    ∧ ((strel.ctor nh14 ht14).true_heights uint8Elem.ofHeight).length
        = (strel.ctor nh14 ht14).get_nhood.data.count true
    ∧ (strel.ctor nh14 ht14).get_nnz = (strel.ctor nh14 ht14).get_nhood.data.count true
    ∧ ∀ i : Nat, i < (strel.ctor nh14 ht14).get_nnz → ∃ sub h, (strel.ctor nh14 ht14).active[i]? = some sub
        ∧ (strel.ctor nh14 ht14).get_nhood.get? sub = some true
        ∧ (strel.ctor nh14 ht14).height.get? sub = some h
        ∧ ((strel.ctor nh14 ht14).offsets [1, 4])[i]? = some (strel.offset_of [1, 4] sub)
        ∧ ((strel.ctor nh14 ht14).true_heights uint8Elem.ofHeight)[i]?
            = some (uint8Elem.ofHeight h) :=
  ⟨by decide, by decide,
    offsets_heights_parallel (strel.ctor nh14 ht14) (ctor_consistent _ _ (by decide))
      (by decide) (by decide) [1, 4] uint8Elem.ofHeight⟩

section
variable {P H : Type} [LinearOrder P] [Zero H] [DecidableEq H]

end

namespace union_find

theorem par_lt (uf : union_find) (x p : Nat) (h : uf.par x = some p) : x < uf.voxels.length := by
  unfold par at h
  by_contra hcon
  rw [List.getElem?_eq_none (by omega)] at h
  cases h

theorem par_eq_some (uf : union_find) (x p : Nat) :
    uf.par x = some p ↔ ∃ v, uf.voxels[x]? = some (some v) ∧ v.parent = p := by
  unfold par
  cases h : uf.voxels[x]? with
  | none => simp
  | some o =>
    cases o with
    | none => simp
    | some v => simp

theorem par_eq_none (uf : union_find) (x : Nat) :
    uf.par x = none ↔ uf.voxels[x]? = none ∨ uf.voxels[x]? = some none := by
  unfold par
  cases h : uf.voxels[x]? with
  | none => simp
  | some o =>
    cases o with
    | none => simp
    | some v => simp

theorem set_parent_length (uf : union_find) (i p : Nat) :
    (uf.set_parent i p).voxels.length = uf.voxels.length := by
  unfold set_parent
  split <;> simp

theorem incr_rank_length (uf : union_find) (i : Nat) :
    (uf.incr_rank i).voxels.length = uf.voxels.length := by
  unfold incr_rank
  split <;> simp

theorem par_set_parent (uf : union_find) (i p y : Nat) :
    (uf.set_parent i p).par y
      = if y = i then (uf.par y).map (fun _ => p) else uf.par y := by
  unfold set_parent
  split
  · next v hv =>
    have hi : i < uf.voxels.length := by
      by_contra hcon
      rw [List.getElem?_eq_none (by omega)] at hv
      cases hv
    unfold par
    simp only [List.getElem?_set']
    by_cases hy : y = i
    · subst hy
      simp [hv, hi]
    · simp [hy, Ne.symm hy]
  · next hn =>
    by_cases hy : y = i
    · subst hy
      have : uf.par y = none := by
        rw [par_eq_none]
        cases h : uf.voxels[y]? with
        | none => exact Or.inl rfl
        | some o =>
          cases o with
          | none => exact Or.inr rfl
          | some v => exact absurd h (hn v)
      simp [this]
    · simp [hy]

theorem rnk_set_parent (uf : union_find) (i p y : Nat) :
    (uf.set_parent i p).rnk y = uf.rnk y := by
  unfold set_parent
  split
  · next v hv =>
    unfold rnk
    simp only [List.getElem?_set']
    by_cases hy : i = y
    · subst hy
      simp [hv]
    · simp [hy]
  · rfl

theorem par_incr_rank (uf : union_find) (i y : Nat) :
    (uf.incr_rank i).par y = uf.par y := by
  unfold incr_rank
  split
  · next v hv =>
    unfold par
    simp only [List.getElem?_set']
    by_cases hy : i = y
    · subst hy
      simp [hv]
    · simp [hy]
  · rfl

theorem rnk_incr_rank (uf : union_find) (i y : Nat) :
    (uf.incr_rank i).rnk y
      = if y = i then (uf.rnk y).map (fun k => k + 1) else uf.rnk y := by
  unfold incr_rank
  split
  · next v hv =>
    have hi : i < uf.voxels.length := by
      by_contra hcon
      rw [List.getElem?_eq_none (by omega)] at hv
      cases hv
    unfold rnk
    simp only [List.getElem?_set']
    by_cases hy : y = i
    · subst hy
      simp [hv, hi]
    · simp [hy, Ne.symm hy]
  · next hn =>
    by_cases hy : y = i
    · subst hy
      have : uf.rnk y = none := by
        unfold rnk
        cases h : uf.voxels[y]? with
        | none => rfl
        | some o =>
          cases o with
          | none => rfl
          | some v => exact absurd h (hn v)
      simp [this]
    · simp [hy]

theorem compress_cons (uf : union_find) (y : Nat) (l : List Nat) (r : Nat) :
    uf.compress (y :: l) r = (uf.compress l r).set_parent y r := rfl

theorem par_compress (uf : union_find) (l : List Nat) (r y : Nat) :
    (uf.compress l r).par y = if y ∈ l then (uf.par y).map (fun _ => r) else uf.par y := by
  induction l with
  | nil => simp [compress]
  | cons a l ih =>
    rw [compress_cons, par_set_parent, ih]
    by_cases hya : y = a
    · subst hya
      by_cases hyl : y ∈ l
      · simp only [hyl, if_true, List.mem_cons, true_or, Option.map_map]
        rfl
      · simp [hyl]
    · by_cases hyl : y ∈ l
      · simp [hya, hyl]
      · simp [hya, hyl]

theorem rnk_compress (uf : union_find) (l : List Nat) (r y : Nat) :
    (uf.compress l r).rnk y = uf.rnk y := by
  induction l with
  | nil => rfl
  | cons a l ih => rw [compress_cons, rnk_set_parent, ih]

theorem compress_length (uf : union_find) (l : List Nat) (r : Nat) :
    (uf.compress l r).voxels.length = uf.voxels.length := by
  induction l with
  | nil => rfl
  | cons a l ih => rw [compress_cons, set_parent_length, ih]

theorem path_head (uf : union_find) (x : Nat) (l : List Nat) (r : Nat) (h : uf.path x l r) :
    ∃ l1, l = x :: l1 := by
  cases h with
  | root _ _ => exact ⟨[], rfl⟩
  | step _ _ l1 _ _ _ _ => exact ⟨l1, rfl⟩

theorem path_entry (uf : union_find) (x : Nat) (l : List Nat) (r : Nat) (h : uf.path x l r) :
    uf.entry x := by
  cases h with
  | root _ h1 => exact ⟨_, h1⟩
  | step _ p _ _ h1 _ _ => exact ⟨p, h1⟩

theorem path_root (uf : union_find) (x : Nat) (l : List Nat) (r : Nat) (h : uf.path x l r) :
    uf.par r = some r := by
  induction h with
  | root _ h1 => exact h1
  | step _ _ _ _ _ _ _ ih => exact ih

theorem path_det (uf : union_find) (x : Nat) (l : List Nat) (r : Nat) (h : uf.path x l r) :
    ∀ l2 r2, uf.path x l2 r2 → l = l2 ∧ r = r2 := by
  induction h with
  | root r h1 =>
    intro l2 r2 h2
    cases h2 with
    | root _ _ => exact ⟨rfl, rfl⟩
    | step _ p _ _ h3 h4 _ =>
      rw [h1] at h3
      cases h3
      exact absurd rfl h4
  | step x p l1 r h1 hne _ ih =>
    intro l2 r2 h2
    cases h2 with
    | root _ h3 =>
      rw [h1] at h3
      cases h3
      exact absurd rfl hne
    | step _ q l3 _ h3 _ h5 =>
      rw [h1] at h3
      cases h3
      obtain ⟨e1, e2⟩ := ih _ _ h5
      exact ⟨by rw [e1], e2⟩

theorem path_suffix (uf : union_find) (x : Nat) (l : List Nat) (r : Nat) (h : uf.path x l r) :
    ∀ y, y ∈ l → ∃ l2, uf.path y l2 r ∧ l2.length ≤ l.length := by
  induction h with
  | root r h1 =>
    intro y hy
    rw [List.mem_singleton] at hy
    subst hy
    exact ⟨[y], path.root y h1, le_refl _⟩
  | step x p l1 r h1 hne hp ih =>
    intro y hy
    rcases List.mem_cons.mp hy with hyx | hyl
    · subst hyx
      exact ⟨y :: l1, path.step y p l1 r h1 hne hp, le_refl _⟩
    · obtain ⟨l2, h2, h3⟩ := ih y hyl
      exact ⟨l2, h2, by simp only [List.length_cons]; omega⟩

theorem path_nodup (uf : union_find) (x : Nat) (l : List Nat) (r : Nat) (h : uf.path x l r) :
    l.Nodup := by
  induction h with
  | root r _ => simp
  | step x p l1 r h1 hne hp ih =>
    rw [List.nodup_cons]
    refine ⟨?_, ih⟩
    intro hx
    obtain ⟨l2, h2, h3⟩ := path_suffix uf p l1 r hp x hx
    have := (path_det uf x _ r (path.step x p l1 r h1 hne hp) l2 r h2).1
    rw [← this] at h3
    simp only [List.length_cons] at h3
    omega

theorem path_all_lt (uf : union_find) (x : Nat) (l : List Nat) (r : Nat) (h : uf.path x l r) :
    ∀ y ∈ l, y < uf.voxels.length := by
  intro y hy
  obtain ⟨l2, h2, _⟩ := path_suffix uf x l r h y hy
  obtain ⟨p, hp⟩ := path_entry uf y l2 r h2
  exact par_lt uf y p hp

theorem path_length_le (uf : union_find) (x : Nat) (l : List Nat) (r : Nat) (h : uf.path x l r) :
    l.length ≤ uf.voxels.length := by
  have hsub : l ⊆ List.range uf.voxels.length := by
    intro y hy
    exact List.mem_range.mpr (path_all_lt uf x l r h y hy)
  have := (List.subperm_of_subset (path_nodup uf x l r h) hsub).length_le
  simpa using this

theorem path_mem_root (uf : union_find) (x : Nat) (l : List Nat) (r : Nat) (h : uf.path x l r)
    (y : Nat) (hy : y ∈ l) (hroot : uf.par y = some y) : y = r := by
  obtain ⟨l2, h2, _⟩ := path_suffix uf x l r h y hy
  exact (path_det uf y _ _ (path.root y hroot) l2 r h2).2

theorem path_last_mem (uf : union_find) (x : Nat) (l : List Nat) (r : Nat) (h : uf.path x l r) :
    r ∈ l := by
  induction h with
  | root r _ => simp
  | step _ _ _ _ _ _ _ ih => exact List.mem_cons_of_mem _ ih

theorem set_parent_self (uf : union_find) (r : Nat) (h : uf.par r = some r) :
    uf.set_parent r r = uf := by
  obtain ⟨v, hv, hp⟩ := (par_eq_some uf r r).mp h
  unfold set_parent
  rw [hv]
  simp only
  have hv2 : ({ v with parent := r } : voxel) = v := by
    cases v
    simp only at hp
    simp [hp]
  rw [hv2]
  cases uf with
  | mk vs =>
    simp only at hv ⊢
    congr 1
    apply List.ext_getElem?
    intro i
    rw [List.getElem?_set']
    split_ifs with h1
    · subst h1
      rw [hv]
      have : r < vs.length := by
        by_contra hcon
        rw [List.getElem?_eq_none (by omega)] at hv
        cases hv
      simp
    · rfl

theorem find_loop_path (uf : union_find) (x : Nat) (l : List Nat) (r : Nat)
    (h : uf.path x l r) :
    ∀ fuel, l.length ≤ fuel → find_loop fuel uf x = some (uf.compress l r, r) := by
  induction h with
  | root r h1 =>
    intro fuel hf
    obtain ⟨v, hv, hp⟩ := (par_eq_some uf r r).mp h1
    cases fuel with
    | zero => simp at hf
    | succ f =>
      unfold find_loop
      rw [hv]
      simp only [hp, ne_eq, not_true_eq_false, if_false]
      rw [compress_cons, show uf.compress [] r = uf from rfl, set_parent_self uf r h1]
  | step x p l1 r h1 hne _ ih =>
    intro fuel hf
    obtain ⟨v, hv, hp⟩ := (par_eq_some uf x p).mp h1
    cases fuel with
    | zero => simp at hf
    | succ f =>
      unfold find_loop
      rw [hv]
      simp only [hp, ne_eq, hne, not_false_eq_true, if_true]
      rw [ih f (by simp only [List.length_cons] at hf; omega)]
      rfl

theorem find_of_path (uf : union_find) (x : Nat) (l : List Nat) (r : Nat)
    (h : uf.path x l r) : uf.find x = some (uf.compress l r, r) :=
  find_loop_path uf x l r h _ (path_length_le uf x l r h)

theorem find_of_null (uf : union_find) (x : Nat) (h : uf.voxels[x]? = some none) :
    uf.find x = some (⟨uf.voxels.set x (some ⟨0, x⟩)⟩, x) := by
  have hx : x < uf.voxels.length := by
    by_contra hcon
    rw [List.getElem?_eq_none (by omega)] at h
    cases h
  unfold find
  cases hl : uf.voxels.length with
  | zero => omega
  | succ f =>
    unfold find_loop
    rw [h]

theorem path_congr (uf uf1 : union_find) (hpar : ∀ y, uf1.par y = uf.par y) (x : Nat)
    (l : List Nat) (r : Nat) (h : uf.path x l r) : uf1.path x l r := by
  induction h with
  | root r h1 => exact path.root r (by rw [hpar]; exact h1)
  | step x p l1 r h1 hne _ ih => exact path.step x p l1 r (by rw [hpar]; exact h1) hne ih

theorem compress_path (uf : union_find) (x : Nat) (l : List Nat) (r : Nat)
    (h : uf.path x l r) (y : Nat) (ly : List Nat) (ry : Nat) (hy : uf.path y ly ry) :
    ∃ ly1, (uf.compress l r).path y ly1 ry := by
  have hr := path_root uf x l r h
  have hrl := path_last_mem uf x l r h
  have hroot : (uf.compress l r).par r = some r := by
    rw [par_compress, if_pos hrl, hr]
    rfl
  induction hy with
  | root y h1 =>
    refine ⟨[y], path.root y ?_⟩
    rw [par_compress]
    split_ifs with hyl
    · rw [h1, path_mem_root uf x l r h y hyl h1]
      rfl
    · exact h1
  | step y p ly1 ry h1 hne hp ih =>
    obtain ⟨lp, hlp⟩ := ih
    by_cases hyl : y ∈ l
    · obtain ⟨l2, h2, _⟩ := path_suffix uf x l r h y hyl
      have hrr := (path_det uf y _ _ h2 _ _ (path.step y p ly1 ry h1 hne hp)).2
      subst hrr
      have hyr : r ≠ y := by
        intro e
        rw [e, h1] at hr
        cases hr
        exact hne rfl
      refine ⟨[y, r], path.step y r [r] r ?_ hyr (path.root r hroot)⟩
      rw [par_compress, if_pos hyl, h1]
      rfl
    · refine ⟨y :: lp, path.step y p lp ry ?_ hne hlp⟩
      rw [par_compress, if_neg hyl]
      exact h1

end union_find

namespace union_find

theorem not_entry_iff (uf : union_find) (x : Nat) : ¬ uf.entry x ↔ uf.par x = none := by
  unfold entry
  cases uf.par x with
  | none => simp
  | some p => simp

theorem inv_rt_idem (uf : union_find) (rt : Nat → Nat) (h : uf.inv rt) (x : Nat) :
    rt (rt x) = rt x := by
  by_cases hx : uf.entry x
  · obtain ⟨l, hl⟩ := h.1 x hx
    have hr := path_root uf x l _ hl
    obtain ⟨l2, hl2⟩ := h.1 (rt x) ⟨_, hr⟩
    exact ((path_det uf _ _ _ (path.root _ hr) _ _ hl2).2).symm
  · rw [h.2 x hx, h.2 x hx]

theorem inv_root_par (uf : union_find) (rt : Nat → Nat) (h : uf.inv rt) (x : Nat)
    (hx : uf.entry x) : uf.par (rt x) = some (rt x) := by
  obtain ⟨l, hl⟩ := h.1 x hx
  exact path_root uf x l _ hl

theorem wf_of_inv (uf : union_find) (rt : Nat → Nat) (h : uf.inv rt) : uf.wf :=
  fun x hx => let ⟨l, hl⟩ := h.1 x hx; ⟨l, rt x, hl⟩

theorem inv_of_wf (uf : union_find) (h : uf.wf) : ∃ rt, uf.inv rt := by
  classical
  refine ⟨fun x => if hx : uf.entry x then Classical.choose (Classical.choose_spec (h x hx))
    else x, ?_, ?_⟩
  · intro x hx
    simp only [hx, dif_pos]
    exact ⟨_, Classical.choose_spec (Classical.choose_spec (h x hx))⟩
  · intro x hx
    simp only [hx, dif_neg, not_false_eq_true]

theorem inv_ctor (s : Nat) : (ctor s).inv id := by
  refine ⟨?_, fun _ _ => rfl⟩
  rintro x ⟨p, hp⟩
  rw [par_eq_some] at hp
  obtain ⟨v, hv, _⟩ := hp
  unfold ctor at hv
  simp only [List.getElem?_replicate] at hv
  split_ifs at hv
  cases hv

/-- What `find` does in a well-formed state, in terms of the root map. -/
theorem find_spec (uf : union_find) (rt : Nat → Nat) (h : uf.inv rt) (x : Nat)
    (hx : x < uf.voxels.length) :
    ∃ uf1, uf.find x = some (uf1, rt x) ∧ uf1.inv rt
      ∧ uf1.voxels.length = uf.voxels.length
      ∧ (∀ y, uf1.entry y ↔ uf.entry y ∨ y = x)
      ∧ (∀ y, uf.entry y → uf1.rnk y = uf.rnk y)
      ∧ (¬ uf.entry x → uf1.rnk x = some 0) := by
  by_cases he : uf.entry x
  · obtain ⟨l, hl⟩ := h.1 x he
    have hpar := par_compress uf l (rt x)
    refine ⟨_, find_of_path uf x l _ hl, ⟨?_, ?_⟩, compress_length uf l _, ?_, ?_, ?_⟩
    · rintro y ⟨p, hp⟩
      have hy : uf.entry y := by
        rw [hpar] at hp
        split_ifs at hp
        · cases hq : uf.par y with
          | none => rw [hq] at hp; cases hp
          | some q => exact ⟨q, hq⟩
        · exact ⟨p, hp⟩
      obtain ⟨ly, hly⟩ := h.1 y hy
      exact compress_path uf x l _ hl y ly _ hly
    · intro y hy
      apply h.2
      intro hy2
      apply hy
      obtain ⟨p, hp⟩ := hy2
      rw [entry, hpar]
      split_ifs
      · exact ⟨_, by rw [hp]; rfl⟩
      · exact ⟨p, hp⟩
    · intro y
      constructor
      · rintro ⟨p, hp⟩
        left
        rw [hpar] at hp
        split_ifs at hp
        · cases hq : uf.par y with
          | none => rw [hq] at hp; cases hp
          | some q => exact ⟨q, hq⟩
        · exact ⟨p, hp⟩
      · rintro (⟨p, hp⟩ | rfl)
        · rw [entry, hpar]
          split_ifs
          · exact ⟨_, by rw [hp]; rfl⟩
          · exact ⟨p, hp⟩
        · obtain ⟨p, hp⟩ := he
          rw [entry, hpar]
          split_ifs
          · exact ⟨_, by rw [hp]; rfl⟩
          · exact ⟨p, hp⟩
    · intro y _
      exact rnk_compress uf l _ y
    · intro hne
      exact absurd he hne
  · have hnull : uf.voxels[x]? = some none := by
      have := (not_entry_iff uf x).mp he
      rw [par_eq_none] at this
      rcases this with h1 | h1
      · rw [List.getElem?_eq_none_iff] at h1
        omega
      · exact h1
    have hrt : rt x = x := h.2 x he
    have hpar : ∀ y, (⟨uf.voxels.set x (some ⟨0, x⟩)⟩ : union_find).par y
        = if y = x then some x else uf.par y := by
      intro y
      unfold par
      simp only [List.getElem?_set']
      by_cases hy : y = x
      · subst hy
        simp [hx]
      · simp [hy, Ne.symm hy]
    have hkeep : ∀ y ly ry, uf.path y ly ry →
        (⟨uf.voxels.set x (some ⟨0, x⟩)⟩ : union_find).path y ly ry := by
      intro y ly ry hp
      induction hp with
      | root r h1 =>
        refine path.root r ?_
        rw [hpar]
        split_ifs with e
        · subst e; exact absurd ⟨_, h1⟩ he
        · exact h1
      | step y p l1 r h1 hne _ ih =>
        refine path.step y p l1 r ?_ hne ih
        rw [hpar]
        split_ifs with e
        · subst e; exact absurd ⟨_, h1⟩ he
        · exact h1
    rw [hrt]
    refine ⟨_, find_of_null uf x hnull, ⟨?_, ?_⟩, by simp, ?_, ?_, ?_⟩
    · rintro y ⟨p, hp⟩
      rw [hpar] at hp
      split_ifs at hp with e
      · subst e
        rw [hrt]
        exact ⟨[y], path.root y (by rw [hpar, if_pos rfl])⟩
      · obtain ⟨ly, hly⟩ := h.1 y ⟨p, hp⟩
        exact ⟨ly, hkeep y ly _ hly⟩
    · intro y hy
      apply h.2
      rintro ⟨p, hp⟩
      apply hy
      rw [entry, hpar]
      split_ifs
      · exact ⟨_, rfl⟩
      · exact ⟨p, hp⟩
    · intro y
      rw [entry, hpar]
      by_cases e : y = x
      · simp [e]
      · simp [e, entry]
    · intro y hy
      have e : x ≠ y := by
        rintro rfl
        exact he hy
      unfold rnk
      simp only [List.getElem?_set', e, if_false]
    · intro _
      unfold rnk
      simp only [List.getElem?_set', if_true, hnull]
      rfl

theorem inv_rt_of_root (uf : union_find) (rt : Nat → Nat) (h : uf.inv rt) (a : Nat)
    (ha : uf.par a = some a) : rt a = a := by
  obtain ⟨l, hl⟩ := h.1 a ⟨a, ha⟩
  exact ((path_det uf a _ _ (path.root a ha) _ _ hl).2).symm

theorem link_path (uf : union_find) (a b : Nat) (ha : uf.par a = some a)
    (hb : uf.par b = some b) (hab : a ≠ b) (y : Nat) (ly : List Nat) (ry : Nat)
    (hy : uf.path y ly ry) :
    ∃ ly1, (uf.set_parent a b).path y ly1 (if ry = a then b else ry) := by
  have hpar := par_set_parent uf a b
  have hb1 : (uf.set_parent a b).par b = some b := by
    rw [hpar, if_neg (Ne.symm hab)]; exact hb
  have ha1 : (uf.set_parent a b).par a = some b := by
    rw [hpar, if_pos rfl, ha]; rfl
  induction hy with
  | root y h1 =>
    by_cases e : y = a
    · subst e
      rw [if_pos rfl]
      exact ⟨[y, b], path.step y b [b] b ha1 (Ne.symm hab) (path.root b hb1)⟩
    · rw [if_neg e]
      exact ⟨[y], path.root y (by rw [hpar, if_neg e]; exact h1)⟩
  | step y p l1 r h1 hne _ ih =>
    obtain ⟨lp, hlp⟩ := ih
    have e : y ≠ a := by
      rintro rfl
      rw [ha] at h1
      cases h1
      exact hne rfl
    exact ⟨y :: lp, path.step y p lp _ (by rw [hpar, if_neg e]; exact h1) hne hlp⟩

theorem link_inv (uf : union_find) (rt : Nat → Nat) (h : uf.inv rt) (a b : Nat)
    (ha : uf.par a = some a) (hb : uf.par b = some b) (hab : a ≠ b) :
    (uf.set_parent a b).inv (fun x => if rt x = a then b else rt x) := by
  have hpar := par_set_parent uf a b
  have hent : ∀ y, (uf.set_parent a b).entry y ↔ uf.entry y := by
    intro y
    unfold entry
    rw [hpar]
    split_ifs with e
    · subst e
      rw [ha]
      simp
    · rfl
  refine ⟨?_, ?_⟩
  · intro x hx
    obtain ⟨l, hl⟩ := h.1 x ((hent x).mp hx)
    exact link_path uf a b ha hb hab x l _ hl
  · intro x hx
    have hx1 : ¬ uf.entry x := fun e => hx ((hent x).mpr e)
    have := h.2 x hx1
    simp only [this]
    rw [if_neg]
    rintro rfl
    exact hx1 ⟨_, ha⟩

theorem inv_congr (uf uf1 : union_find) (rt : Nat → Nat) (h : uf.inv rt)
    (hpar : ∀ y, uf1.par y = uf.par y) : uf1.inv rt := by
  have hent : ∀ y, uf1.entry y ↔ uf.entry y := by
    intro y
    unfold entry
    rw [hpar]
  refine ⟨?_, ?_⟩
  · intro x hx
    obtain ⟨l, hl⟩ := h.1 x ((hent x).mp hx)
    exact ⟨l, path_congr uf uf1 hpar x l _ hl⟩
  · intro x hx
    exact h.2 x (fun e => hx ((hent x).mpr e))

theorem rnk_eq_some (uf : union_find) (x k : Nat) :
    uf.rnk x = some k ↔ ∃ v, uf.voxels[x]? = some (some v) ∧ v.rank = k := by
  unfold rnk
  cases h : uf.voxels[x]? with
  | none => simp
  | some o =>
    cases o with
    | none => simp
    | some v => simp

/-- The two calls of `find` at the start of `unite`, and what `unite` then does. -/
theorem unite_unfold (uf : union_find) (rt : Nat → Nat) (h : uf.inv rt) (a b : Nat)
    (ha : a < uf.voxels.length) (hb : b < uf.voxels.length) :
    ∃ uf2 k1 k2, uf2.inv rt ∧ uf2.voxels.length = uf.voxels.length
      ∧ (∀ y, uf2.entry y ↔ uf.entry y ∨ y = a ∨ y = b)
      ∧ (∀ y, uf.entry y → uf2.rnk y = uf.rnk y)
      ∧ (∀ y, ¬ uf.entry y → uf2.entry y → uf2.rnk y = some 0)
      ∧ uf2.rnk (rt a) = some k1 ∧ uf2.rnk (rt b) = some k2
      ∧ uf2.par (rt a) = some (rt a) ∧ uf2.par (rt b) = some (rt b)
      ∧ uf.unite a b =
          if rt a ≠ rt b then
            if k1 > k2 then some (uf2.set_parent (rt a) (rt b))
            else if k1 < k2 then some (uf2.set_parent (rt b) (rt a))
            else some ((uf2.set_parent (rt b) (rt a)).incr_rank (rt a))
          else some uf2 := by
  obtain ⟨uf1, hf1, hinv1, hlen1, hent1, hrnk1, hnew1⟩ := find_spec uf rt h a ha
  obtain ⟨uf2, hf2, hinv2, hlen2, hent2, hrnk2, hnew2⟩ :=
    find_spec uf1 rt hinv1 b (by rw [hlen1]; exact hb)
  have hea : uf2.entry a := (hent2 a).mpr (Or.inl ((hent1 a).mpr (Or.inr rfl)))
  have heb : uf2.entry b := (hent2 b).mpr (Or.inr rfl)
  have hpa := inv_root_par uf2 rt hinv2 a hea
  have hpb := inv_root_par uf2 rt hinv2 b heb
  obtain ⟨v1, hv1, _⟩ := (par_eq_some uf2 _ _).mp hpa
  obtain ⟨v2, hv2, _⟩ := (par_eq_some uf2 _ _).mp hpb
  refine ⟨uf2, v1.rank, v2.rank, hinv2, by rw [hlen2, hlen1], ?_, ?_, ?_,
    (rnk_eq_some uf2 _ _).mpr ⟨v1, hv1, rfl⟩, (rnk_eq_some uf2 _ _).mpr ⟨v2, hv2, rfl⟩,
    hpa, hpb, ?_⟩
  · intro y
    rw [hent2, hent1]
    tauto
  · intro y hy
    rw [hrnk2 y ((hent1 y).mpr (Or.inl hy)), hrnk1 y hy]
  · intro y hy hy2
    by_cases hy1 : uf1.entry y
    · rw [hrnk2 y hy1]
      rcases (hent1 y).mp hy1 with e | e
      · exact absurd e hy
      · subst e
        exact hnew1 hy
    · rcases (hent2 y).mp hy2 with e | e
      · exact absurd e hy1
      · subst e
        exact hnew2 hy1
  · unfold unite
    rw [hf1]
    simp only
    rw [hf2]
    simp only [hv1, hv2]

theorem merge_kernel (f : Nat → Nat) (A B : Nat) (x y : Nat) :
    (if f x = A then B else f x) = (if f y = A then B else f y)
      ↔ f x = f y ∨ (f x = A ∧ f y = B) ∨ (f x = B ∧ f y = A) := by
  split_ifs <;> omega

/-- What `unite` does in a well-formed state, in terms of the root map. -/
theorem unite_spec (uf : union_find) (rt : Nat → Nat) (h : uf.inv rt) (a b : Nat)
    (ha : a < uf.voxels.length) (hb : b < uf.voxels.length) :
    ∃ uf1 rt1, uf.unite a b = some uf1 ∧ uf1.inv rt1
      ∧ uf1.voxels.length = uf.voxels.length
      ∧ (∀ y, uf1.entry y ↔ uf.entry y ∨ y = a ∨ y = b)
      ∧ (∀ x y, rt1 x = rt1 y
          ↔ rt x = rt y ∨ (rt x = rt a ∧ rt y = rt b) ∨ (rt x = rt b ∧ rt y = rt a)) := by
  obtain ⟨uf2, k1, k2, hinv, hlen, hent, _, _, _, _, hpa, hpb, hun⟩ :=
    unite_unfold uf rt h a b ha hb
  by_cases hab : rt a = rt b
  · refine ⟨uf2, rt, ?_, hinv, hlen, hent, ?_⟩
    · rw [hun, if_neg (by simpa using hab)]
    · intro x y
      constructor
      · exact Or.inl
      · rintro (e | ⟨e1, e2⟩ | ⟨e1, e2⟩)
        · exact e
        · rw [e1, e2, hab]
        · rw [e1, e2, hab]
  · have hentp : ∀ (c p : Nat), uf2.par c = some c → ∀ y,
        (uf2.set_parent c p).entry y ↔ uf2.entry y := by
      intro c p hc y
      unfold entry
      rw [par_set_parent]
      split_ifs with e
      · subst e
        rw [hc]
        simp
      · rfl
    rw [if_pos hab] at hun
    by_cases h12 : k1 > k2
    · rw [if_pos h12] at hun
      refine ⟨_, _, hun, link_inv uf2 rt hinv _ _ hpa hpb hab, ?_, ?_, ?_⟩
      · rw [set_parent_length, hlen]
      · intro y
        rw [hentp _ _ hpa, hent]
      · intro x y
        exact merge_kernel rt _ _ x y
    · rw [if_neg h12] at hun
      have hba : rt b ≠ rt a := fun e => hab e.symm
      have hk : ∀ x y, (if rt x = rt b then rt a else rt x) = (if rt y = rt b then rt a else rt y)
          ↔ rt x = rt y ∨ (rt x = rt a ∧ rt y = rt b) ∨ (rt x = rt b ∧ rt y = rt a) := by
        intro x y
        rw [merge_kernel rt _ _ x y]
        tauto
      by_cases h21 : k1 < k2
      · rw [if_pos h21] at hun
        refine ⟨_, _, hun, link_inv uf2 rt hinv _ _ hpb hpa hba, ?_, ?_, hk⟩
        · rw [set_parent_length, hlen]
        · intro y
          rw [hentp _ _ hpb, hent]
      · rw [if_neg h21] at hun
        refine ⟨_, _, hun, inv_congr _ _ _ (link_inv uf2 rt hinv _ _ hpb hpa hba)
          (par_incr_rank _ _), ?_, ?_, hk⟩
        · rw [incr_rank_length, set_parent_length, hlen]
        · intro y
          unfold entry
          rw [par_incr_rank]
          exact (hentp _ _ hpb y).trans (hent y)

end union_find

namespace union_find

theorem eqvGen_congr {α : Type} (r s : α → α → Prop) (h : ∀ a b, r a b ↔ s a b) (x y : α) :
    Relation.EqvGen r x y ↔ Relation.EqvGen s x y :=
  ⟨Relation.EqvGen.mono (fun a b => (h a b).mp), Relation.EqvGen.mono (fun a b => (h a b).mpr)⟩

theorem eqvGen_empty {α : Type} (x y : α) :
    Relation.EqvGen (fun _ _ : α => False) x y ↔ x = y := by
  constructor
  · intro h
    induction h with
    | rel _ _ h => exact absurd h id
    | refl _ => rfl
    | symm _ _ _ ih => exact ih.symm
    | trans _ _ _ _ _ ih1 ih2 => exact ih1.trans ih2
  · rintro rfl
    exact Relation.EqvGen.refl _

theorem kernel_add_pair (R : Nat → Nat → Prop) (rt rt1 : Nat → Nat) (a b : Nat)
    (hker : ∀ x y, rt x = rt y ↔ Relation.EqvGen R x y)
    (hnew : ∀ x y, rt1 x = rt1 y
      ↔ rt x = rt y ∨ (rt x = rt a ∧ rt y = rt b) ∨ (rt x = rt b ∧ rt y = rt a)) :
    ∀ x y, rt1 x = rt1 y ↔ Relation.EqvGen (fun u v => R u v ∨ (u = a ∧ v = b)) x y := by
  have hmono : ∀ x y, Relation.EqvGen R x y →
      Relation.EqvGen (fun u v => R u v ∨ (u = a ∧ v = b)) x y :=
    fun x y h => Relation.EqvGen.mono (fun _ _ hr => Or.inl hr) h
  have hab : Relation.EqvGen (fun u v => R u v ∨ (u = a ∧ v = b)) a b :=
    Relation.EqvGen.rel _ _ (Or.inr ⟨rfl, rfl⟩)
  intro x y
  constructor
  · intro h
    rcases (hnew x y).mp h with e | ⟨e1, e2⟩ | ⟨e1, e2⟩
    · exact hmono _ _ ((hker x y).mp e)
    · exact Relation.EqvGen.trans _ _ _ (hmono _ _ ((hker x a).mp e1))
        (Relation.EqvGen.trans _ _ _ hab (hmono _ _ ((hker b y).mp e2.symm)))
    · exact Relation.EqvGen.trans _ _ _ (hmono _ _ ((hker x b).mp e1))
        (Relation.EqvGen.trans _ _ _ (Relation.EqvGen.symm _ _ hab)
          (hmono _ _ ((hker a y).mp e2.symm)))
  · intro h
    induction h with
    | rel u v h =>
      rcases h with h | ⟨rfl, rfl⟩
      · exact (hnew u v).mpr (Or.inl ((hker u v).mpr (Relation.EqvGen.rel _ _ h)))
      · exact (hnew _ _).mpr (Or.inr (Or.inl ⟨rfl, rfl⟩))
    | refl _ => rfl
    | symm _ _ _ ih => exact ih.symm
    | trans _ _ _ _ _ ih1 ih2 => exact ih1.trans ih2

/-- The state after a sequence of calls, in terms of the root map: the entries are those
there were and the indices passed, and two indices have the same root exactly when the
equivalence generated by the pairs united so far relates them. -/
theorem run_spec : ∀ (cs : List uf_call) (uf : union_find) (rt : Nat → Nat)
    (R : Nat → Nat → Prop), uf.inv rt →
    (∀ x y, rt x = rt y ↔ Relation.EqvGen R x y) →
    (∀ c ∈ cs, ∀ i ∈ c.args, i < uf.voxels.length) →
    ∃ uf1 rt1, uf.run cs = some uf1 ∧ uf1.inv rt1
      ∧ uf1.voxels.length = uf.voxels.length
      ∧ (∀ y, uf1.entry y ↔ uf.entry y ∨ ∃ c ∈ cs, y ∈ c.args)
      ∧ (∀ x y, rt1 x = rt1 y
          ↔ Relation.EqvGen (fun u v => R u v ∨ ∃ c ∈ cs, (u, v) ∈ c.pairs) x y)
  | [], uf, rt, R, hinv, hker, _ => by
    refine ⟨uf, rt, rfl, hinv, rfl, by simp, ?_⟩
    intro x y
    rw [hker]
    apply eqvGen_congr
    intro a b
    simp
  | .find idx :: cs, uf, rt, R, hinv, hker, hlt => by
    have hidx : idx < uf.voxels.length :=
      hlt _ (List.mem_cons_self _ _) idx (by simp [uf_call.args])
    obtain ⟨uf1, hf, hinv1, hlen1, hent1, _, _⟩ := find_spec uf rt hinv idx hidx
    obtain ⟨uf2, rt2, hrun, hinv2, hlen2, hent2, hker2⟩ := run_spec cs uf1 rt R hinv1 hker
      (fun c hc i hi => by rw [hlen1]; exact hlt c (List.mem_cons_of_mem _ hc) i hi)
    refine ⟨uf2, rt2, ?_, hinv2, by rw [hlen2, hlen1], ?_, ?_⟩
    · show (match uf.find idx with
        | none => none
        | some (uf1, _) => union_find.run uf1 cs) = some uf2
      rw [hf]
      exact hrun
    · intro y
      rw [hent2, hent1]
      simp only [List.mem_cons, exists_eq_or_imp, uf_call.args, List.mem_singleton]
      tauto
    · intro x y
      rw [hker2]
      apply eqvGen_congr
      intro a b
      simp [uf_call.pairs]
  | .unite i j :: cs, uf, rt, R, hinv, hker, hlt => by
    have hi : i < uf.voxels.length :=
      hlt _ (List.mem_cons_self _ _) i (by simp [uf_call.args])
    have hj : j < uf.voxels.length :=
      hlt _ (List.mem_cons_self _ _) j (by simp [uf_call.args])
    obtain ⟨uf1, rt1, hu, hinv1, hlen1, hent1, hk1⟩ := unite_spec uf rt hinv i j hi hj
    have hker1 := kernel_add_pair R rt rt1 i j hker hk1
    obtain ⟨uf2, rt2, hrun, hinv2, hlen2, hent2, hker2⟩ := run_spec cs uf1 rt1 _ hinv1 hker1
      (fun c hc k hk => by rw [hlen1]; exact hlt c (List.mem_cons_of_mem _ hc) k hk)
    refine ⟨uf2, rt2, ?_, hinv2, by rw [hlen2, hlen1], ?_, ?_⟩
    · show (match uf.unite i j with
        | none => none
        | some uf1 => union_find.run uf1 cs) = some uf2
      rw [hu]
      exact hrun
    · intro y
      rw [hent2, hent1]
      simp only [List.mem_cons, exists_eq_or_imp, uf_call.args, List.mem_singleton]
      tauto
    · intro x y
      rw [hker2]
      apply eqvGen_congr
      intro a b
      simp only [List.mem_cons, exists_eq_or_imp, uf_call.pairs, List.mem_singleton,
        Prod.mk.injEq, List.not_mem_nil]
      tauto

end union_find

namespace union_find

theorem inv_ctor_kernel (x y : Nat) :
    (id x : Nat) = id y ↔ Relation.EqvGen (fun _ _ : Nat => False) x y := by
  rw [eqvGen_empty]
  rfl

theorem not_entry_ctor (s y : Nat) : ¬ (ctor s).entry y := by
  rintro ⟨p, hp⟩
  rw [par_eq_some] at hp
  obtain ⟨v, hv, _⟩ := hp
  unfold ctor at hv
  simp only [List.getElem?_replicate] at hv
  split_ifs at hv
  cases hv

theorem ctor_length (s : Nat) : (ctor s).voxels.length = s := by
  simp [ctor]

theorem mem_get_ids (uf : union_find) (i : Nat) : i ∈ uf.get_ids ↔ uf.entry i := by
  unfold get_ids entry
  rw [List.mem_filter, List.mem_range]
  constructor
  · rintro ⟨hi, hs⟩
    rw [List.getD_eq_getElem?_getD, List.getElem?_eq_getElem hi] at hs
    simp only [Option.getD_some] at hs
    cases hv : uf.voxels[i] with
    | none => rw [hv] at hs; cases hs
    | some v =>
      exact ⟨v.parent, (par_eq_some uf i _).mpr ⟨v, by rw [List.getElem?_eq_getElem hi, hv], rfl⟩⟩
  · rintro ⟨p, hp⟩
    have hi := par_lt uf i p hp
    obtain ⟨v, hv, _⟩ := (par_eq_some uf i p).mp hp
    refine ⟨hi, ?_⟩
    rw [List.getD_eq_getElem?_getD, hv]
    rfl

theorem get_ids_pairwise (uf : union_find) : uf.get_ids.Pairwise (fun a b => a < b) := by
  unfold get_ids
  exact List.Pairwise.filter _ (List.pairwise_lt_range _)

end union_find

/-- **C24** Partition correctness: after any sequence of calls `unite (a, b)` with indices
below the capacity on a freshly constructed structure, for all indices `x` and `y` below
the capacity (those occurring in the sequence among them) the calls `find (x)` and
`find (y)` succeed, one after the other or each on the state the sequence left, and
return the same value if and only if the equivalence generated by the united pairs
relates `x` and `y`. -/
theorem unite_partition (s : Nat) (pairs : List (Nat × Nat))
    (hlt : ∀ p ∈ pairs, p.1 < s ∧ p.2 < s) :
    ∃ uf, (union_find.ctor s).run (pairs.map (fun p => uf_call.unite p.1 p.2)) = some uf
      ∧ ∀ x y, x < s → y < s →
        ∃ uf1 uf2 uf3 rx ry, uf.find x = some (uf1, rx) ∧ uf1.find y = some (uf2, ry)
          ∧ uf.find y = some (uf3, ry)
          ∧ (rx = ry ↔ Relation.EqvGen (fun u v => (u, v) ∈ pairs) x y) := by
  obtain ⟨uf, rt, hrun, hinv, hlen, _, hker⟩ :=
    union_find.run_spec (pairs.map (fun p => uf_call.unite p.1 p.2)) (union_find.ctor s) id
      (fun _ _ => False) (union_find.inv_ctor s) union_find.inv_ctor_kernel
      (by
        intro c hc i hi
        rw [List.mem_map] at hc
        obtain ⟨p, hp, rfl⟩ := hc
        rw [union_find.ctor_length]
        simp only [uf_call.args, List.mem_cons, List.mem_singleton, List.not_mem_nil,
          or_false] at hi
        rcases hi with rfl | rfl
        · exact (hlt p hp).1
        · exact (hlt p hp).2)
  rw [union_find.ctor_length] at hlen
  refine ⟨uf, hrun, ?_⟩
  intro x y hx hy
  obtain ⟨uf1, hf1, hinv1, hlen1, _⟩ := union_find.find_spec uf rt hinv x (by rw [hlen]; exact hx)
  obtain ⟨uf2, hf2, _⟩ := union_find.find_spec uf1 rt hinv1 y (by rw [hlen1, hlen]; exact hy)
  obtain ⟨uf3, hf3, _⟩ := union_find.find_spec uf rt hinv y (by rw [hlen]; exact hy)
  refine ⟨uf1, uf2, uf3, rt x, rt y, hf1, hf2, hf3, ?_⟩
  rw [hker]
  apply union_find.eqvGen_congr
  intro a b
  simp only [false_or, List.mem_map, exists_exists_and_eq_and, uf_call.pairs,
    List.mem_singleton]
  constructor
  · rintro ⟨p, hp, e⟩
    rw [e]
    exact hp
  · intro h
    exact ⟨(a, b), h, rfl⟩

theorem unite_partition_witness :
    ((union_find.ctor 5).run [uf_call.unite 0 1, uf_call.unite 3 4, uf_call.unite 1 4]).bind
        (fun uf => (uf.find 0).map Prod.snd) = some 0
    ∧ ((union_find.ctor 5).run [uf_call.unite 0 1, uf_call.unite 3 4, uf_call.unite 1 4]).bind
        (fun uf => (uf.find 4).map Prod.snd) = some 0
    ∧ ((union_find.ctor 5).run [uf_call.unite 0 1, uf_call.unite 3 4, uf_call.unite 1 4]).bind
        (fun uf => (uf.find 2).map Prod.snd) = some 2
    ∧ ∃ uf, (union_find.ctor 5).run
          ([(0, 1), (3, 4), (1, 4)].map (fun p => uf_call.unite p.1 p.2)) = some uf
      ∧ ∀ x y, x < 5 → y < 5 →
        ∃ uf1 uf2 uf3 rx ry, uf.find x = some (uf1, rx) ∧ uf1.find y = some (uf2, ry)
          ∧ uf.find y = some (uf3, ry)
          ∧ (rx = ry ↔ Relation.EqvGen (fun u v => (u, v) ∈ [(0, 1), (3, 4), (1, 4)]) x y) :=
  ⟨by decide, by decide, by decide, unite_partition 5 [(0, 1), (3, 4), (1, 4)] (by decide)⟩

/-- **C25** `find` with path compression: for an index inside the vector without an entry,
`find` returns the index and creates the entry with itself as parent and rank 0, leaving
the other entries as they are; in a well-formed state, for an index with an entry, `find`
returns the root `r` at the end of the parent path `l` from the index, and afterwards every
index on `l` has the parent `r`, while all other parents and all ranks are unchanged. -/
theorem find_path_compression (uf : union_find) (hwf : uf.wf) (idx : Nat)
    (hidx : idx < uf.voxels.length) :
    (¬ uf.entry idx →
        uf.find idx = some (⟨uf.voxels.set idx (some ⟨0, idx⟩)⟩, idx))
    ∧ (uf.entry idx → ∃ l r uf1, uf.path idx l r ∧ uf.par r = some r
        ∧ uf.find idx = some (uf1, r)
        ∧ uf1.voxels.length = uf.voxels.length
        ∧ (∀ y ∈ l, uf1.par y = some r)
        ∧ (∀ y, y ∉ l → uf1.par y = uf.par y)
        ∧ (∀ y, uf1.rnk y = uf.rnk y)) := by
  constructor
  · intro he
    apply union_find.find_of_null
    have := (union_find.not_entry_iff uf idx).mp he
    rw [union_find.par_eq_none] at this
    rcases this with h1 | h1
    · rw [List.getElem?_eq_none_iff] at h1
      omega
    · exact h1
  · intro he
    obtain ⟨l, r, hl⟩ := hwf idx he
    refine ⟨l, r, _, hl, union_find.path_root uf idx l r hl, union_find.find_of_path uf idx l r hl,
      union_find.compress_length uf l r, ?_, ?_, union_find.rnk_compress uf l r⟩
    · intro y hy
      obtain ⟨l2, h2, _⟩ := union_find.path_suffix uf idx l r hl y hy
      obtain ⟨p, hp⟩ := union_find.path_entry uf y l2 r h2
      rw [union_find.par_compress, if_pos hy, hp]
      rfl
    · intro y hy
      rw [union_find.par_compress, if_neg hy]

theorem uf_chain_wf : uf_chain.wf := by
  intro x hx
  have hx3 : x < 3 := by
    obtain ⟨p, hp⟩ := hx
    have := union_find.par_lt uf_chain x p hp
    have h4 : x < 4 := this
    rcases Nat.lt_or_ge x 3 with h | h
    · exact h
    · have : x = 3 := by omega
      subst this
      cases hp
  have h2 : uf_chain.path 2 [2] 2 := union_find.path.root 2 rfl
  have h0 : uf_chain.path 0 [0, 2] 2 := union_find.path.step 0 2 [2] 2 rfl (by decide) h2
  have h1 : uf_chain.path 1 [1, 0, 2] 2 := union_find.path.step 1 0 [0, 2] 2 rfl (by decide) h0
  interval_cases x
  · exact ⟨_, _, h0⟩
  · exact ⟨_, _, h1⟩
  · exact ⟨_, _, h2⟩

theorem find_path_compression_witness :
    uf_chain.find 1 = some (⟨[some ⟨1, 2⟩, some ⟨0, 2⟩, some ⟨0, 2⟩, none]⟩, 2)
    ∧ uf_chain.find 3 = some (⟨[some ⟨1, 2⟩, some ⟨0, 0⟩, some ⟨0, 2⟩, some ⟨0, 3⟩]⟩, 3)
    ∧ (¬ uf_chain.entry 3 →
        uf_chain.find 3 = some (⟨uf_chain.voxels.set 3 (some ⟨0, 3⟩)⟩, 3))
    ∧ (uf_chain.entry 1 → ∃ l r uf1, uf_chain.path 1 l r ∧ uf_chain.par r = some r
        ∧ uf_chain.find 1 = some (uf1, r)
        ∧ uf1.voxels.length = uf_chain.voxels.length
        ∧ (∀ y ∈ l, uf1.par y = some r)
        ∧ (∀ y, y ∉ l → uf1.par y = uf_chain.par y)
        ∧ (∀ y, uf1.rnk y = uf_chain.rnk y)) :=
  ⟨by decide, by decide, (find_path_compression uf_chain uf_chain_wf 3 (by decide)).1,
    (find_path_compression uf_chain uf_chain_wf 1 (by decide)).2⟩

/-- **C26** What `unite` does with roots of different ranks.  After `unite (0, 1)` on a fresh
structure the root 0 has rank 1; in `unite (0, 2)` the roots are 0, of rank 1, and the new
entry 2, of rank 0: the root 0 of higher rank becomes a child of the root 2 of lower rank,
which remains a root, and the ranks are unchanged. -/
theorem unite_links_higher_rank_under_lower :
    (union_find.ctor 3).unite 0 1 = some ⟨[some ⟨1, 0⟩, some ⟨0, 0⟩, none]⟩
    ∧ (⟨[some ⟨1, 0⟩, some ⟨0, 0⟩, none]⟩ : union_find).find 0
        = some (⟨[some ⟨1, 0⟩, some ⟨0, 0⟩, none]⟩, 0)
    ∧ (⟨[some ⟨1, 0⟩, some ⟨0, 0⟩, none]⟩ : union_find).find 2
        = some (⟨[some ⟨1, 0⟩, some ⟨0, 0⟩, some ⟨0, 2⟩]⟩, 2)
    ∧ (⟨[some ⟨1, 0⟩, some ⟨0, 0⟩, none]⟩ : union_find).unite 0 2
        = some ⟨[some ⟨1, 2⟩, some ⟨0, 0⟩, some ⟨0, 2⟩]⟩ := by
  refine ⟨by decide, by decide, by decide, by decide⟩

/-- **C27** `unite` on a common set: in a well-formed state, when `idx1` and `idx2` have
entries with the same root `r`, `unite (idx1, idx2)` succeeds, every index has the entry and
the root it had, every rank is unchanged, and a parent that changed is now `r` (the path
compression of the two calls of `find`). -/
theorem unite_same_set_noop (uf : union_find) (hwf : uf.wf) (idx1 idx2 r : Nat)
    (l1 l2 : List Nat) (h1 : uf.path idx1 l1 r) (h2 : uf.path idx2 l2 r) :
    ∃ uf1, uf.unite idx1 idx2 = some uf1
      ∧ uf1.voxels.length = uf.voxels.length
      ∧ (∀ x, uf1.entry x ↔ uf.entry x)
      ∧ (∀ x rx, (∃ l, uf1.path x l rx) ↔ (∃ l, uf.path x l rx))
      ∧ (∀ x, uf1.rnk x = uf.rnk x)
      ∧ (∀ x, uf1.par x = uf.par x ∨ (uf.entry x ∧ uf1.par x = some r)) := by
  obtain ⟨rt, hinv⟩ := union_find.inv_of_wf uf hwf
  have he1 := union_find.path_entry uf idx1 l1 r h1
  have he2 := union_find.path_entry uf idx2 l2 r h2
  have hr1 : rt idx1 = r := by
    obtain ⟨l, hl⟩ := hinv.1 idx1 he1
    exact (union_find.path_det uf idx1 _ _ hl _ _ h1).2
  have hr2 : rt idx2 = r := by
    obtain ⟨l, hl⟩ := hinv.1 idx2 he2
    exact (union_find.path_det uf idx2 _ _ hl _ _ h2).2
  have hlt1 : idx1 < uf.voxels.length := by
    obtain ⟨p, hp⟩ := he1
    exact union_find.par_lt uf idx1 p hp
  have hlt2 : idx2 < uf.voxels.length := by
    obtain ⟨p, hp⟩ := he2
    exact union_find.par_lt uf idx2 p hp
  -- the two calls of `find`
  have hf1 := union_find.find_of_path uf idx1 l1 r h1
  obtain ⟨ufa, hfa, hinva, hlena, henta, hrnka, _⟩ := union_find.find_spec uf rt hinv idx1 hlt1
  rw [hf1, hr1] at hfa
  have hea : ufa = uf.compress l1 r := by
    have := Option.some.inj hfa
    exact (congrArg Prod.fst this).symm
  have he2a : ufa.entry idx2 := (henta idx2).mpr (Or.inl he2)
  obtain ⟨l3, hl3⟩ := hinva.1 idx2 he2a
  rw [hr2] at hl3
  have hf2 := union_find.find_of_path ufa idx2 l3 r hl3
  obtain ⟨ufb, hfb, hinvb, hlenb, hentb, hrnkb, _⟩ :=
    union_find.find_spec ufa rt hinva idx2 (by rw [hlena]; exact hlt2)
  rw [hf2, hr2] at hfb
  have heb : ufb = ufa.compress l3 r := by
    have := Option.some.inj hfb
    exact (congrArg Prod.fst this).symm
  have hun : uf.unite idx1 idx2 = some ufb := by
    unfold union_find.unite
    rw [hf1]
    simp only
    rw [← hea, hf2]
    simp only [ne_eq, not_true_eq_false, if_false, ← heb]
  have hent : ∀ x, ufb.entry x ↔ uf.entry x := by
    intro x
    rw [hentb, henta]
    constructor
    · rintro ((e | rfl) | rfl)
      · exact e
      · exact he1
      · exact he2
    · exact fun e => Or.inl (Or.inl e)
  refine ⟨ufb, hun, by rw [hlenb, hlena], hent, ?_, ?_, ?_⟩
  · intro x rx
    constructor
    · rintro ⟨l, hl⟩
      have hx : uf.entry x := (hent x).mp (union_find.path_entry ufb x l rx hl)
      obtain ⟨l4, hl4⟩ := hinvb.1 x ((hent x).mpr hx)
      have e := (union_find.path_det ufb x _ _ hl _ _ hl4).2
      obtain ⟨l5, hl5⟩ := hinv.1 x hx
      rw [e]
      exact ⟨l5, hl5⟩
    · rintro ⟨l, hl⟩
      have hx : uf.entry x := union_find.path_entry uf x l rx hl
      obtain ⟨l4, hl4⟩ := hinv.1 x hx
      have e := (union_find.path_det uf x _ _ hl _ _ hl4).2
      obtain ⟨l5, hl5⟩ := hinvb.1 x ((hent x).mpr hx)
      rw [e]
      exact ⟨l5, hl5⟩
  · intro x
    rw [heb, union_find.rnk_compress, hea, union_find.rnk_compress]
  · intro x
    rw [heb, union_find.par_compress, hea, union_find.par_compress]
    cases hp : uf.par x with
    | none =>
      left
      split_ifs <;> rfl
    | some p =>
      by_cases hx3 : x ∈ l3
      · right
        refine ⟨⟨p, hp⟩, ?_⟩
        rw [if_pos hx3]
        split_ifs <;> rfl
      · rw [if_neg hx3]
        by_cases hx1 : x ∈ l1
        · right
          refine ⟨⟨p, hp⟩, ?_⟩
          rw [if_pos hx1]
          rfl
        · left
          rw [if_neg hx1]

theorem unite_same_set_noop_witness :
    uf_chain.unite 1 0 = some ⟨[some ⟨1, 2⟩, some ⟨0, 2⟩, some ⟨0, 2⟩, none]⟩
    ∧ ∃ uf1, uf_chain.unite 1 0 = some uf1
      ∧ uf1.voxels.length = uf_chain.voxels.length
      ∧ (∀ x, uf1.entry x ↔ uf_chain.entry x)
      ∧ (∀ x rx, (∃ l, uf1.path x l rx) ↔ (∃ l, uf_chain.path x l rx))
      ∧ (∀ x, uf1.rnk x = uf_chain.rnk x)
      ∧ (∀ x, uf1.par x = uf_chain.par x ∨ (uf_chain.entry x ∧ uf1.par x = some 2)) :=
  ⟨by decide, unite_same_set_noop uf_chain uf_chain_wf 1 0 2 [1, 0, 2] [0, 2]
    (union_find.path.step 1 0 [0, 2] 2 rfl (by decide)
      (union_find.path.step 0 2 [2] 2 rfl (by decide) (union_find.path.root 2 rfl)))
    (union_find.path.step 0 2 [2] 2 rfl (by decide) (union_find.path.root 2 rfl))⟩

/-- **C28** `get_ids`: after any sequence of calls of `find` and `unite` with indices below
the capacity on a freshly constructed structure, `get_ids` returns in strictly increasing
order, hence each once, exactly the indices passed to one of the calls, whether they are
still roots or not. -/
theorem get_ids_lists_created (s : Nat) (cs : List uf_call)
    (hlt : ∀ c ∈ cs, ∀ i ∈ c.args, i < s) :
    ∃ uf, (union_find.ctor s).run cs = some uf
      ∧ uf.get_ids.Pairwise (fun a b => a < b)
      ∧ ∀ i, i ∈ uf.get_ids ↔ ∃ c ∈ cs, i ∈ c.args := by
  obtain ⟨uf, rt, hrun, _, _, hent, _⟩ :=
    union_find.run_spec cs (union_find.ctor s) id (fun _ _ => False) (union_find.inv_ctor s)
      union_find.inv_ctor_kernel (by rw [union_find.ctor_length]; exact hlt)
  refine ⟨uf, hrun, union_find.get_ids_pairwise uf, ?_⟩
  intro i
  rw [union_find.mem_get_ids, hent]
  constructor
  · rintro (e | e)
    · exact absurd e (union_find.not_entry_ctor s i)
    · exact e
  · exact Or.inr

theorem get_ids_lists_created_witness :
    ((union_find.ctor 6).run [uf_call.unite 4 1, uf_call.find 3, uf_call.unite 1 3]).map
        union_find.get_ids = some [1, 3, 4]
    ∧ ((union_find.ctor 6).run [uf_call.unite 4 1, uf_call.find 3, uf_call.unite 1 3]).map
        (fun uf => uf.par 1) = some (some 4)
    ∧ ∃ uf, (union_find.ctor 6).run [uf_call.unite 4 1, uf_call.find 3, uf_call.unite 1 3]
          = some uf
      ∧ uf.get_ids.Pairwise (fun a b => a < b)
      ∧ ∀ i, i ∈ uf.get_ids
          ↔ ∃ c ∈ [uf_call.unite 4 1, uf_call.find 3, uf_call.unite 1 3], i ∈ c.args :=
  ⟨by decide, by decide,
    get_ids_lists_created 6 [uf_call.unite 4 1, uf_call.find 3, uf_call.unite 1 3] (by decide)⟩

/-! ## The labelling -/

theorem get_padded_index_loop_eq : ∀ (dv : List Nat) (r mult : Nat),
    get_padded_index_loop dv r mult = mult * pad_index dv (ind2sub dv r)
  | [], _, _ => by simp [get_padded_index_loop, pad_index, sub2ind]
  | d :: ds, r, mult => by
    unfold get_padded_index_loop
    rw [get_padded_index_loop_eq ds (r / d) (mult * (d + 2))]
    simp only [pad_index, ind2sub, List.map_cons, sub2ind]
    ring

theorem get_padded_index_eq (dv : List Nat) (r : Nat) :
    get_padded_index r dv = pad_index dv (ind2sub dv r) := by
  unfold get_padded_index
  rw [get_padded_index_loop_eq, Nat.one_mul]

theorem coord_to_pad_idx_loop_add : ∀ (dv q q1 : List Nat) (a : List Int) (mul : Int),
    q.length = dv.length → a.length = dv.length →
    q1.map (fun (x : Nat) => (x : Int)) = coord_add q a →
    mul * (sub2ind (dv.map (fun d => d + 2)) q1 : Int)
      = mul * (sub2ind (dv.map (fun d => d + 2)) q : Int) + coord_to_pad_idx_loop dv a mul
  | [], _, _, _, _, _, _, _ => by simp [sub2ind, coord_to_pad_idx_loop]
  | _ :: _, [], _, _, _, h, _, _ => by simp at h
  | _ :: _, _ :: _, _, [], _, _, h, _ => by simp at h
  | _ :: _, _ :: _, [], _ :: _, _, _, _, h => by simp [coord_add] at h
  | d :: ds, x :: xs, y :: ys, c :: cs, mul, hq, ha, hsum => by
    simp only [coord_add, List.map_cons, List.zipWith_cons_cons, List.cons.injEq] at hsum
    have ih := coord_to_pad_idx_loop_add ds xs ys cs (mul * ((d : Int) + 2))
      (by simpa using hq) (by simpa using ha) hsum.2
    simp only [List.map_cons, sub2ind, coord_to_pad_idx_loop, List.headD_cons, List.tail_cons,
      Nat.cast_add, Nat.cast_mul, Nat.cast_ofNat]
    rw [hsum.1]
    linear_combination ih

theorem coord_to_pad_idx_add (dv q q1 : List Nat) (a : List Int)
    (hq : q.length = dv.length) (ha : a.length = dv.length)
    (hsum : q1.map (fun (x : Nat) => (x : Int)) = coord_add q a) :
    (sub2ind (dv.map (fun d => d + 2)) q1 : Int)
      = sub2ind (dv.map (fun d => d + 2)) q + coord_to_pad_idx dv a := by
  have := coord_to_pad_idx_loop_add dv q q1 a 1 hq ha hsum
  simpa [coord_to_pad_idx] using this

theorem inBox_pad : ∀ (dv p : List Nat), inBox dv p = true →
    inBox (dv.map (fun d => d + 2)) (p.map (fun x => x + 1)) = true
  | [], [], _ => rfl
  | [], _ :: _, h => by simp [inBox] at h
  | _ :: _, [], h => by simp [inBox] at h
  | d :: ds, x :: xs, h => by
    simp only [inBox, Bool.and_eq_true, decide_eq_true_eq] at h
    simp only [List.map_cons, inBox, Bool.and_eq_true, decide_eq_true_eq]
    exact ⟨by omega, inBox_pad ds xs h.2⟩

theorem pad_index_lt (dv p : List Nat) (h : inBox dv p = true) :
    pad_index dv p < (dv.map (fun d => d + 2)).prod :=
  sub2ind_lt _ _ (inBox_pad dv p h)

theorem pad_index_inj (dv p q : List Nat) (hp : inBox dv p = true) (hq : inBox dv q = true)
    (h : pad_index dv p = pad_index dv q) : p = q := by
  have h1 := congrArg (ind2sub (dv.map (fun d => d + 2))) h
  unfold pad_index at h1
  rw [ind2sub_sub2ind _ _ (inBox_pad dv p hp), ind2sub_sub2ind _ _ (inBox_pad dv q hq)] at h1
  exact List.map_injective_iff.mpr (fun a b hab => by simpa using hab) h1

theorem pad_index_mono : ∀ (dv : List Nat) (r1 r2 : Nat), r1 < r2 → r2 < dv.prod →
    pad_index dv (ind2sub dv r1) < pad_index dv (ind2sub dv r2)
  | [], r1, r2, h12, h2 => by simp at h2; omega
  | d :: ds, r1, r2, h12, h2 => by
    simp only [List.prod_cons] at h2
    have hd : 0 < d := by
      rcases Nat.eq_zero_or_pos d with h0 | h0
      · subst h0; simp at h2
      · exact h0
    simp only [pad_index, ind2sub, List.map_cons, sub2ind]
    have hm1 := Nat.mod_lt r1 hd
    have hm2 := Nat.mod_lt r2 hd
    have e1 := Nat.mod_add_div r1 d
    have e2 := Nat.mod_add_div r2 d
    rcases Nat.lt_or_ge (r1 / d) (r2 / d) with hlt | hge
    · have hq2 : r2 / d < ds.prod := by
        rw [Nat.div_lt_iff_lt_mul hd, Nat.mul_comm]; exact h2
      have ih := pad_index_mono ds (r1 / d) (r2 / d) hlt hq2
      unfold pad_index at ih
      have : (d + 2) * (sub2ind (ds.map (fun d => d + 2)) ((ind2sub ds (r1 / d)).map (fun x => x + 1)) + 1)
          ≤ (d + 2) * sub2ind (ds.map (fun d => d + 2)) ((ind2sub ds (r2 / d)).map (fun x => x + 1)) :=
        Nat.mul_le_mul_left _ ih
      rw [Nat.mul_add, Nat.mul_one] at this
      omega
    · have hle : r1 / d ≤ r2 / d := Nat.div_le_div_right (le_of_lt h12)
      have heq : r1 / d = r2 / d := le_antisymm hle hge
      rw [heq] at e1 ⊢
      have : r1 % d < r2 % d := by omega
      omega

theorem bwlabel_padded_dims (BW : NDArray Bool) :
    (bwlabel_padded BW).dims = BW.dims.map (fun d => d + 2) := rfl

theorem bwlabel_padded_length (BW : NDArray Bool) :
    (bwlabel_padded BW).data.length = (BW.dims.map (fun d => d + 2)).prod := by
  unfold bwlabel_padded NDArray.insert NDArray.filled
  simp

theorem bwlabel_padded_numel (BW : NDArray Bool) :
    (bwlabel_padded BW).numel = (BW.dims.map (fun d => d + 2)).prod := rfl

theorem bw_fg_inBox (BW : NDArray Bool) (p : List Nat) (h : bw_fg BW p) :
    inBox BW.dims p = true := by
  unfold bw_fg NDArray.get? at h
  by_contra hcon
  rw [if_neg hcon] at h
  cases h

theorem get?_map_nat (BW : NDArray Bool) (p : List Nat) :
    ((⟨BW.dims, BW.data.map (fun b => if b then 1 else 0)⟩ : NDArray Nat).get? p).getD 0 ≠ 0
      ↔ bw_fg BW p := by
  unfold bw_fg NDArray.get?
  simp only
  split_ifs with hbox
  · rw [List.getElem?_map]
    cases h : BW.data[sub2ind BW.dims p]? with
    | none => simp
    | some b => cases b <;> simp
  · simp

/-- The element of `L` at the padded position `q1 = q + 1 + a`, read through its linear
index, is not zero exactly when `q + a` is a true element of the image. -/
theorem bwlabel_padded_getD (BW : NDArray Bool) (q1 : List Nat) (z : List Int)
    (hq1 : inBox (BW.dims.map (fun d => d + 2)) q1 = true)
    (hz : z = List.zipWith (fun (x : Nat) (r : Int) => (x : Int) - r) q1
      (List.replicate BW.dims.length 1)) :
    (bwlabel_padded BW).data.getD (sub2ind (BW.dims.map (fun d => d + 2)) q1) 0 ≠ 0
      ↔ (z.all (fun x => decide (0 ≤ x)) = true ∧ bw_fg BW (z.map Int.toNat)) := by
  have h1 := insert_get? (BW.dims.map (fun d => d + 2)) (0 : Nat)
    ⟨BW.dims, BW.data.map (fun b => if b then 1 else 0)⟩ (List.replicate BW.dims.length 1) q1 hq1
  have h2 : (bwlabel_padded BW).get? q1
      = some (im_ext ⟨BW.dims, BW.data.map (fun b => if b then 1 else 0)⟩ (0 : Nat) z) := by
    rw [hz]; exact h1
  have h3 : (bwlabel_padded BW).data.getD (sub2ind (BW.dims.map (fun d => d + 2)) q1) 0
      = im_ext ⟨BW.dims, BW.data.map (fun b => if b then 1 else 0)⟩ (0 : Nat) z := by
    unfold NDArray.get? at h2
    rw [bwlabel_padded_dims, if_pos hq1] at h2
    rw [List.getD_eq_getElem?_getD, h2]
    rfl
  rw [h3]
  unfold im_ext
  split_ifs with hall
  · rw [get?_map_nat]
    simp [hall]
  · simp [hall]

theorem shift_box : ∀ (dv p : List Nat) (a : List Int), inBox dv p = true →
    a.length = dv.length → (∀ c ∈ a, -1 ≤ c ∧ c ≤ 1) →
    inBox (dv.map (fun d => d + 2))
        (List.zipWith (fun (x : Nat) (c : Int) => ((x : Int) + 1 + c).toNat) p a) = true
      ∧ (List.zipWith (fun (x : Nat) (c : Int) => ((x : Int) + 1 + c).toNat) p a).map
          (fun (x : Nat) => (x : Int)) = coord_add (p.map (fun x => x + 1)) a
      ∧ List.zipWith (fun (x : Nat) (r : Int) => (x : Int) - r)
          (List.zipWith (fun (x : Nat) (c : Int) => ((x : Int) + 1 + c).toNat) p a)
          (List.replicate dv.length 1) = coord_add p a
  | [], [], [], _, _, _ => by simp [inBox, coord_add]
  | [], [], _ :: _, _, h, _ => by simp at h
  | [], _ :: _, _, h, _, _ => by simp [inBox] at h
  | _ :: _, [], _, h, _, _ => by simp [inBox] at h
  | _ :: _, _ :: _, [], _, h, _ => by simp at h
  | d :: ds, x :: xs, c :: cs, hbox, hlen, hc => by
    simp only [inBox, Bool.and_eq_true, decide_eq_true_eq] at hbox
    obtain ⟨i1, i2, i3⟩ := shift_box ds xs cs hbox.2 (by simpa using hlen)
      (fun y hy => hc y (List.mem_cons_of_mem _ hy))
    have hc0 := hc c (List.mem_cons_self _ _)
    have hnn : (0 : Int) ≤ (x : Int) + 1 + c := by omega
    refine ⟨?_, ?_, ?_⟩
    · simp only [List.map_cons, List.zipWith_cons_cons, inBox, Bool.and_eq_true,
        decide_eq_true_eq]
      exact ⟨by omega, i1⟩
    · simp only [List.zipWith_cons_cons, List.map_cons, coord_add, List.cons.injEq]
      refine ⟨?_, i2⟩
      rw [Int.toNat_of_nonneg hnn]
      push_cast
      ring
    · simp only [List.zipWith_cons_cons, List.length_cons, List.replicate_succ, coord_add,
        List.cons.injEq]
      refine ⟨?_, i3⟩
      rw [Int.toNat_of_nonneg hnn]
      ring

theorem map_toNat_ofNat (q : List Nat) :
    (q.map (fun (x : Nat) => (x : Int))).map Int.toNat = q := by
  rw [List.map_map]
  conv_rhs => rw [← List.map_id q]
  apply List.map_congr_left
  intro x _
  simp

theorem map_ofNat_toNat : ∀ (z : List Int), z.all (fun x => decide (0 ≤ x)) = true →
    (z.map Int.toNat).map (fun (x : Nat) => (x : Int)) = z
  | [], _ => rfl
  | c :: cs, h => by
    simp only [List.all_cons, Bool.and_eq_true, decide_eq_true_eq] at h
    simp only [List.map_cons, List.cons.injEq]
    exact ⟨Int.toNat_of_nonneg h.1, map_ofNat_toNat cs h.2⟩

theorem all_nonneg_ofNat (q : List Nat) :
    (q.map (fun (x : Nat) => (x : Int))).all (fun x => decide (0 ≤ x)) = true := by
  rw [List.all_eq_true]
  intro x hx
  rw [List.mem_map] at hx
  obtain ⟨n, _, rfl⟩ := hx
  simp

/-- What the first loop of `bwlabel_nd` reads for the neighbour at the offset `a` of the
position `p`: the index lies inside `L`, and the element is not zero exactly when `p + a`
is a true element of the image. -/
theorem bwlabel_neighbour_read (BW : NDArray Bool) (p : List Nat) (a : List Int)
    (hp : inBox BW.dims p = true) (hlen : a.length = BW.dims.length)
    (hc : ∀ c ∈ a, -1 ≤ c ∧ c ≤ 1) :
    0 ≤ coord_to_pad_idx BW.dims a + (pad_index BW.dims p : Int)
    ∧ (coord_to_pad_idx BW.dims a + (pad_index BW.dims p : Int)).toNat
        < (bwlabel_padded BW).data.length
    ∧ ((bwlabel_padded BW).data.getD
          (coord_to_pad_idx BW.dims a + (pad_index BW.dims p : Int)).toNat 0 ≠ 0
        ↔ ∃ q, q.map (fun (x : Nat) => (x : Int)) = coord_add p a ∧ bw_fg BW q)
    ∧ ∀ q, q.map (fun (x : Nat) => (x : Int)) = coord_add p a → inBox BW.dims q = true →
        (coord_to_pad_idx BW.dims a + (pad_index BW.dims p : Int)).toNat = pad_index BW.dims q := by
  obtain ⟨i1, i2, i3⟩ := shift_box BW.dims p a hp hlen hc
  have hadd := coord_to_pad_idx_add BW.dims (p.map (fun x => x + 1)) _ a
    (by rw [List.length_map]; exact inBox_length _ _ hp) hlen i2
  have hlt := sub2ind_lt _ _ i1
  have hidx : coord_to_pad_idx BW.dims a + (pad_index BW.dims p : Int)
      = (sub2ind (BW.dims.map (fun d => d + 2))
          (List.zipWith (fun (x : Nat) (c : Int) => ((x : Int) + 1 + c).toNat) p a) : Nat) := by
    rw [hadd]
    unfold pad_index
    ring
  rw [hidx, Int.toNat_ofNat]
  refine ⟨Int.ofNat_nonneg _, by rw [bwlabel_padded_length]; exact hlt, ?_, ?_⟩
  · rw [bwlabel_padded_getD BW _ (coord_add p a) i1 i3.symm]
    constructor
    · rintro ⟨hall, hfg⟩
      exact ⟨_, map_ofNat_toNat _ hall, hfg⟩
    · rintro ⟨q, hq, hfg⟩
      rw [← hq]
      exact ⟨all_nonneg_ofNat q, by rw [map_toNat_ofNat]; exact hfg⟩
  · intro q hq _
    unfold pad_index
    congr 1
    have h5 : (List.zipWith (fun (x : Nat) (c : Int) => ((x : Int) + 1 + c).toNat) p a).map
        (fun (x : Nat) => (x : Int)) = (q.map (fun x => x + 1)).map (fun (x : Nat) => (x : Int)) := by
      rw [i2]
      have : ∀ (p q : List Nat) (a : List Int), q.map (fun (x : Nat) => (x : Int)) = coord_add p a →
          coord_add (p.map (fun x => x + 1)) a
            = (q.map (fun x => x + 1)).map (fun (x : Nat) => (x : Int)) := by
        intro p
        induction p with
        | nil =>
          intro q a h
          simp only [coord_add, List.zipWith_nil_left, List.map_eq_nil_iff] at h
          subst h
          simp [coord_add]
        | cons x xs ih =>
          intro q a h
          cases a with
          | nil =>
            simp only [coord_add, List.zipWith_nil_right, List.map_eq_nil_iff] at h
            subst h
            simp [coord_add]
          | cons c cs =>
            cases q with
            | nil => simp [coord_add] at h
            | cons y ys =>
              simp only [coord_add, List.map_cons, List.zipWith_cons_cons, List.cons.injEq] at h
              simp only [coord_add, List.map_cons, List.zipWith_cons_cons, List.cons.injEq]
              refine ⟨by push_cast; omega, ih ys cs h.2⟩
      exact this p q a hq
    exact List.map_injective_iff.mpr (fun a b hab => by simpa using hab) h5

theorem bwlabel_centre_read (BW : NDArray Bool) (p : List Nat) (hp : inBox BW.dims p = true) :
    (bwlabel_padded BW).data.getD (pad_index BW.dims p) 0 ≠ 0 ↔ bw_fg BW p := by
  have hz : p.map (fun (x : Nat) => (x : Int))
      = List.zipWith (fun (x : Nat) (r : Int) => (x : Int) - r) (p.map (fun x => x + 1))
          (List.replicate BW.dims.length 1) := by
    rw [← inBox_length _ _ hp]
    clear hp
    induction p with
    | nil => rfl
    | cons x xs ih =>
      simp only [List.map_cons, List.length_cons, List.replicate_succ, List.zipWith_cons_cons,
        List.cons.injEq]
      exact ⟨by push_cast; ring, ih⟩
  unfold pad_index
  rw [bwlabel_padded_getD BW _ _ (inBox_pad _ _ hp) hz, map_toNat_ofNat]
  simp [all_nonneg_ofNat]

theorem mem_set_insert (x y : Int) : ∀ (l : List Int), y ∈ set_insert x l ↔ y = x ∨ y ∈ l
  | [] => by simp [set_insert]
  | z :: zs => by
    unfold set_insert
    split_ifs with h1 h2
    · simp
    · subst h2
      simp
    · rw [List.mem_cons, mem_set_insert x y zs, List.mem_cons]
      tauto

theorem mask_offset_spec : ∀ (n idx : Nat), idx < (List.replicate n 3).prod →
    (mask_offset (List.replicate n 3) idx).length = n
    ∧ (∀ c ∈ mask_offset (List.replicate n 3) idx, -1 ≤ c ∧ c ≤ 1)
    ∧ (mask_offset (List.replicate n 3) idx).map (fun c => (c + 1).toNat)
        = ind2sub (List.replicate n 3) idx
  | 0, _, _ => by simp [mask_offset, to_coord, ind2sub, coord_sub]
  | n + 1, idx, h => by
    have hq : idx / 3 < (List.replicate n 3).prod := by
      simp only [List.replicate_succ, List.prod_cons] at h
      omega
    obtain ⟨i1, i2, i3⟩ := mask_offset_spec n (idx / 3) hq
    unfold mask_offset to_coord coord_sub at i1 i2 i3 ⊢
    simp only [List.replicate_succ, ind2sub, List.map_cons, List.length_cons,
      List.zipWith_cons_cons, List.mem_cons, forall_eq_or_imp, List.cons.injEq]
    simp only [List.length_replicate] at i1 i2 i3 ⊢
    refine ⟨by omega, ⟨by omega, i2⟩, by omega, i3⟩

theorem offset_index : ∀ (n : Nat) (a : List Int), a.length = n → (∀ c ∈ a, -1 ≤ c ∧ c ≤ 1) →
    inBox (List.replicate n 3) (a.map (fun c => (c + 1).toNat)) = true
    ∧ mask_offset (List.replicate n 3)
        (sub2ind (List.replicate n 3) (a.map (fun c => (c + 1).toNat))) = a
  | 0, [], _, _ => by simp [inBox, mask_offset, to_coord, ind2sub, coord_sub]
  | 0, _ :: _, h, _ => by simp at h
  | _ + 1, [], h, _ => by simp at h
  | n + 1, c :: cs, h, hc => by
    obtain ⟨i1, i2⟩ := offset_index n cs (by simpa using h)
      (fun y hy => hc y (List.mem_cons_of_mem _ hy))
    have hc0 := hc c (List.mem_cons_self _ _)
    have hlt : (c + 1).toNat < 3 := by omega
    refine ⟨?_, ?_⟩
    · simp only [List.replicate_succ, List.map_cons, inBox, Bool.and_eq_true,
        decide_eq_true_eq]
      exact ⟨hlt, i1⟩
    · unfold mask_offset to_coord coord_sub at i2 ⊢
      simp only [List.replicate_succ, List.map_cons, sub2ind, ind2sub, List.length_cons,
        List.zipWith_cons_cons, List.cons.injEq]
      simp only [List.length_replicate] at i2 ⊢
      rw [Nat.add_mul_mod_self_left, Nat.mod_eq_of_lt hlt, Nat.add_mul_div_left _ _ (by norm_num),
        Nat.div_eq_of_lt hlt, Nat.zero_add]
      refine ⟨by omega, i2⟩

theorem populate_inv (conn_mask : NDArray Bool) (size_vec : List Nat) (k : Nat) :
    (∀ a ∈ ((List.range k).foldl (populate_step conn_mask size_vec) ([], [])).1,
        ∃ idx, idx < k ∧ conn_mask.data.getD idx false = true
          ∧ a = mask_offset conn_mask.dims idx
          ∧ a ≠ List.replicate conn_mask.dims.length 0)
    ∧ (∀ idx, idx < k → conn_mask.data.getD idx false = true →
        mask_offset conn_mask.dims idx ≠ List.replicate conn_mask.dims.length 0 →
        mask_offset conn_mask.dims idx
            ∈ ((List.range k).foldl (populate_step conn_mask size_vec) ([], [])).1
          ∨ coord_neg (mask_offset conn_mask.dims idx)
            ∈ ((List.range k).foldl (populate_step conn_mask size_vec) ([], [])).1)
    ∧ (∀ off, off ∈ ((List.range k).foldl (populate_step conn_mask size_vec) ([], [])).2
        ↔ ∃ a ∈ ((List.range k).foldl (populate_step conn_mask size_vec) ([], [])).1,
            coord_to_pad_idx size_vec a = off) := by
  induction k with
  | zero => simp
  | succ k ih =>
    obtain ⟨h1, h2, h3⟩ := ih
    rw [List.range_succ, List.foldl_append, List.foldl_cons, List.foldl_nil]
    generalize (List.range k).foldl (populate_step conn_mask size_vec) ([], []) = st at h1 h2 h3
    unfold populate_step
    by_cases hm : conn_mask.data.getD k false = true
    · rw [if_pos hm]
      simp only
      by_cases hskip : coord_sub (to_coord conn_mask.dims k)
            (List.replicate conn_mask.dims.length 1) = List.replicate conn_mask.dims.length 0
          ∨ coord_neg (coord_sub (to_coord conn_mask.dims k)
            (List.replicate conn_mask.dims.length 1)) ∈ st.1
      · rw [if_pos hskip]
        refine ⟨?_, ?_, h3⟩
        · intro a ha
          obtain ⟨idx, hidx, r⟩ := h1 a ha
          exact ⟨idx, by omega, r⟩
        · intro idx hidx hmi hne
          rcases Nat.lt_succ_iff_lt_or_eq.mp hidx with hlt | rfl
          · exact h2 idx hlt hmi hne
          · rcases hskip with e | e
            · exact absurd e hne
            · exact Or.inr e
      · rw [if_neg hskip]
        push_neg at hskip
        refine ⟨?_, ?_, ?_⟩
        · intro a ha
          rcases List.mem_cons.mp ha with e | e
          · exact ⟨k, by omega, hm, e, by rw [e]; exact hskip.1⟩
          · obtain ⟨idx, hidx, r⟩ := h1 a e
            exact ⟨idx, by omega, r⟩
        · intro idx hidx hmi hne
          rcases Nat.lt_succ_iff_lt_or_eq.mp hidx with hlt | rfl
          · rcases h2 idx hlt hmi hne with e | e
            · exact Or.inl (List.mem_cons_of_mem _ e)
            · exact Or.inr (List.mem_cons_of_mem _ e)
          · exact Or.inl (List.mem_cons_self _ _)
        · intro off
          simp only [mem_set_insert, List.mem_cons, exists_eq_or_imp, h3]
          constructor
          · rintro (e | e)
            · exact Or.inl e.symm
            · exact Or.inr e
          · rintro (e | e)
            · exact Or.inl e.symm
            · exact Or.inr e
    · rw [if_neg hm]
      refine ⟨?_, ?_, h3⟩
      · intro a ha
        obtain ⟨idx, hidx, r⟩ := h1 a ha
        exact ⟨idx, by omega, r⟩
      · intro idx hidx hmi hne
        rcases Nat.lt_succ_iff_lt_or_eq.mp hidx with hlt | rfl
        · exact h2 idx hlt hmi hne
        · exact absurd hmi hm

theorem mask_at_offset (conn_mask : NDArray Bool) (n : Nat)
    (hd : conn_mask.dims = List.replicate n 3)
    (hl : conn_mask.data.length = conn_mask.dims.prod) (idx : Nat)
    (hidx : idx < conn_mask.dims.prod) :
    mask_at conn_mask (mask_offset conn_mask.dims idx)
      ↔ conn_mask.data.getD idx false = true := by
  unfold mask_at NDArray.get?
  rw [hd] at hidx ⊢
  obtain ⟨_, _, i3⟩ := mask_offset_spec n idx hidx
  rw [i3, inBox_ind2sub _ _ hidx, if_pos rfl, sub2ind_ind2sub _ _ hidx,
    List.getD_eq_getElem?_getD]
  have : idx < conn_mask.data.length := by rw [hl, hd]; exact hidx
  rw [List.getElem?_eq_getElem this]
  simp

/-- The offsets kept by `populate_neighbours` for a mask of extent 3 in every dimension: each
is an offset at which the mask is true, of every such offset the set holds it or its
opposite, and the linear offsets returned are those of the offsets kept. -/
theorem populate_neighbours_spec (conn_mask : NDArray Bool) (size_vec : List Nat) (n : Nat)
    (hd : conn_mask.dims = List.replicate n 3)
    (hl : conn_mask.data.length = conn_mask.dims.prod) :
    (∀ a ∈ populate_coords conn_mask size_vec, is_offset n a ∧ mask_at conn_mask a)
    ∧ (∀ a, is_offset n a → mask_at conn_mask a →
        a ∈ populate_coords conn_mask size_vec
          ∨ coord_neg a ∈ populate_coords conn_mask size_vec)
    ∧ (∀ off, off ∈ populate_neighbours conn_mask size_vec
        ↔ ∃ a ∈ populate_coords conn_mask size_vec, coord_to_pad_idx size_vec a = off) := by
  obtain ⟨h1, h2, h3⟩ := populate_inv conn_mask size_vec conn_mask.numel
  have hlen : conn_mask.dims.length = n := by rw [hd]; simp
  refine ⟨?_, ?_, h3⟩
  · intro a ha
    obtain ⟨idx, hidx, hm, rfl, hne⟩ := h1 a ha
    have hidx2 : idx < (List.replicate n 3).prod := by rw [← hd]; exact hidx
    obtain ⟨i1, i2, _⟩ := mask_offset_spec n idx hidx2
    rw [hlen] at hne
    rw [hd] at hne ⊢
    refine ⟨⟨i1, i2, hne⟩, ?_⟩
    rw [← hd]
    exact (mask_at_offset conn_mask n hd hl idx hidx).mpr hm
  · intro a ⟨ha1, ha2, ha3⟩ hm
    obtain ⟨i1, i2⟩ := offset_index n a ha1 ha2
    have hidx := sub2ind_lt _ _ i1
    have hidx2 : sub2ind (List.replicate n 3) (a.map (fun c => (c + 1).toNat))
        < conn_mask.dims.prod := by rw [hd]; exact hidx
    have hm2 := (mask_at_offset conn_mask n hd hl _ hidx2).mp (by rw [hd, i2]; exact hm)
    have := h2 _ hidx2 hm2 (by rw [hd, i2]; simpa using ha3)
    rw [hd, i2] at this
    exact this

theorem union_find.run_append : ∀ (cs1 cs2 : List uf_call) (uf : union_find),
    uf.run (cs1 ++ cs2) = (uf.run cs1).bind (fun u => u.run cs2)
  | [], cs2, uf => rfl
  | .find idx :: cs1, cs2, uf => by
    simp only [List.cons_append, union_find.run]
    cases uf.find idx with
    | none => rfl
    | some r => exact union_find.run_append cs1 cs2 r.1
  | .unite i j :: cs1, cs2, uf => by
    simp only [List.cons_append, union_find.run]
    cases uf.unite i j with
    | none => rfl
    | some r => exact union_find.run_append cs1 cs2 r

theorem mem_bwlabel_nbr_calls (L_vec : List Nat) (Lidx : Nat) (c : uf_call) :
    ∀ nbrs : List Int, c ∈ bwlabel_nbr_calls L_vec Lidx nbrs
      ↔ ∃ nbr ∈ nbrs, L_vec.getD (nbr + (Lidx : Int)).toNat 0 ≠ 0
          ∧ c = uf_call.unite (nbr + (Lidx : Int)).toNat Lidx
  | [] => by simp [bwlabel_nbr_calls]
  | nbr :: rest => by
    have ih := mem_bwlabel_nbr_calls L_vec Lidx c rest
    unfold bwlabel_nbr_calls
    by_cases h : L_vec.getD (nbr + (Lidx : Int)).toNat 0 ≠ 0
    · rw [if_pos h, List.mem_cons, ih]
      simp only [List.mem_cons, exists_eq_or_imp]
      constructor
      · rintro (e | e)
        · exact Or.inl ⟨h, e⟩
        · exact Or.inr e
      · rintro (e | e)
        · exact Or.inl e.2
        · exact Or.inr e
    · rw [if_neg h, ih]
      simp only [List.mem_cons, exists_eq_or_imp]
      constructor
      · exact Or.inr
      · rintro (e | e)
        · exact absurd e.1 h
        · exact e

theorem mem_bwlabel_scan_calls (L_vec : List Nat) (size_vec : List Nat) (neighbours : List Int)
    (c : uf_call) :
    ∀ idxs : List Nat, c ∈ bwlabel_scan_calls L_vec size_vec neighbours idxs
      ↔ ∃ r ∈ idxs, L_vec.getD (get_padded_index r size_vec) 0 ≠ 0
          ∧ (c = uf_call.find (get_padded_index r size_vec)
            ∨ c ∈ bwlabel_nbr_calls L_vec (get_padded_index r size_vec) neighbours)
  | [] => by simp [bwlabel_scan_calls]
  | r :: rest => by
    have ih := mem_bwlabel_scan_calls L_vec size_vec neighbours c rest
    unfold bwlabel_scan_calls
    by_cases h : L_vec.getD (get_padded_index r size_vec) 0 ≠ 0
    · rw [if_pos h, List.mem_cons, List.mem_append, ih]
      simp only [List.mem_cons, exists_eq_or_imp]
      constructor
      · rintro (e | e | e)
        · exact Or.inl ⟨h, Or.inl e⟩
        · exact Or.inl ⟨h, Or.inr e⟩
        · exact Or.inr e
      · rintro (⟨_, e | e⟩ | e)
        · exact Or.inl e
        · exact Or.inr (Or.inl e)
        · exact Or.inr (Or.inr e)
    · rw [if_neg h, ih]
      simp only [List.mem_cons, exists_eq_or_imp]
      constructor
      · exact Or.inr
      · rintro (e | e)
        · exact absurd e.1 h
        · exact e

theorem bwlabel_nbrs_eq_run (L_vec : List Nat) (Lidx : Nat) :
    ∀ (nbrs : List Int) (u_f : union_find),
      (∀ nbr ∈ nbrs, 0 ≤ nbr + (Lidx : Int) ∧ (nbr + (Lidx : Int)).toNat < L_vec.length) →
      bwlabel_nbrs L_vec Lidx nbrs u_f = u_f.run (bwlabel_nbr_calls L_vec Lidx nbrs)
  | [], u_f, _ => rfl
  | nbr :: rest, u_f, hb => by
    have h1 := hb nbr (List.mem_cons_self _ _)
    have ih := fun u => bwlabel_nbrs_eq_run L_vec Lidx rest u
      (fun n hn => hb n (List.mem_cons_of_mem _ hn))
    unfold bwlabel_nbrs bwlabel_nbr_calls
    rw [if_pos h1]
    by_cases h : L_vec.getD (nbr + (Lidx : Int)).toNat 0 ≠ 0
    · rw [if_pos h, if_pos h]
      simp only [union_find.run]
      cases u_f.unite (nbr + (Lidx : Int)).toNat Lidx with
      | none => rfl
      | some u => exact ih u
    · rw [if_neg h, if_neg h]
      exact ih u_f

theorem bwlabel_scan_eq_run (L_vec : List Nat) (size_vec : List Nat) (neighbours : List Int) :
    ∀ (idxs : List Nat) (u_f : union_find),
      (∀ r ∈ idxs, get_padded_index r size_vec < L_vec.length
        ∧ ∀ nbr ∈ neighbours, 0 ≤ nbr + (get_padded_index r size_vec : Int)
            ∧ (nbr + (get_padded_index r size_vec : Int)).toNat < L_vec.length) →
      bwlabel_scan L_vec size_vec neighbours idxs u_f
        = u_f.run (bwlabel_scan_calls L_vec size_vec neighbours idxs)
  | [], u_f, _ => rfl
  | r :: rest, u_f, hb => by
    have h1 := hb r (List.mem_cons_self _ _)
    have ih := fun u => bwlabel_scan_eq_run L_vec size_vec neighbours rest u
      (fun n hn => hb n (List.mem_cons_of_mem _ hn))
    unfold bwlabel_scan bwlabel_scan_calls
    rw [if_pos h1.1]
    by_cases h : L_vec.getD (get_padded_index r size_vec) 0 ≠ 0
    · rw [if_pos h, if_pos h]
      simp only [union_find.run]
      cases u_f.find (get_padded_index r size_vec) with
      | none => rfl
      | some u =>
        simp only
        rw [union_find.run_append, bwlabel_nbrs_eq_run _ _ _ _ h1.2]
        cases u.1.run (bwlabel_nbr_calls L_vec (get_padded_index r size_vec) neighbours) with
        | none => rfl
        | some u2 => exact ih u2
    · rw [if_neg h, if_neg h]
      exact ih u_f

theorem coord_neg_neg (a : List Int) : coord_neg (coord_neg a) = a := by
  unfold coord_neg
  rw [List.map_map]
  conv_rhs => rw [← List.map_id a]
  apply List.map_congr_left
  intro x _
  simp

theorem coord_neg_zero (n : Nat) : coord_neg (List.replicate n 0) = List.replicate n 0 := by
  simp [coord_neg]

theorem is_offset_neg (n : Nat) (a : List Int) (h : is_offset n a) :
    is_offset n (coord_neg a) := by
  obtain ⟨h1, h2, h3⟩ := h
  refine ⟨by simp [coord_neg, h1], ?_, ?_⟩
  · intro c hc
    simp only [coord_neg, List.mem_map] at hc
    obtain ⟨x, hx, rfl⟩ := hc
    have := h2 x hx
    omega
  · intro hcon
    apply h3
    rw [← coord_neg_neg a, hcon, coord_neg_zero]

theorem coord_add_neg : ∀ (p q : List Nat) (a : List Int), p.length = a.length →
    q.map (fun (x : Nat) => (x : Int)) = coord_add p a →
    p.map (fun (x : Nat) => (x : Int)) = coord_add q (coord_neg a)
  | [], q, a, _, h => by
    simp only [coord_add, List.zipWith_nil_left, List.map_eq_nil_iff] at h
    subst h
    rfl
  | x :: p, q, [], hl, _ => by simp at hl
  | x :: p, [], c :: a, _, h => by simp [coord_add] at h
  | x :: p, y :: q, c :: a, hl, h => by
    simp only [coord_add, List.zipWith_cons_cons, List.map_cons, List.cons.injEq] at h
    simp only [coord_add, coord_neg, List.zipWith_cons_cons, List.map_cons, List.cons.injEq]
    refine ⟨by omega, ?_⟩
    exact coord_add_neg p q a (by simpa using hl) h.2

theorem bw_step_symm (BW conn_mask : NDArray Bool) (p q : List Nat)
    (h : bw_step BW conn_mask p q) : bw_step BW conn_mask q p := by
  obtain ⟨hp, hq, a, ha, hpq, hm⟩ := h
  refine ⟨hq, hp, coord_neg a, is_offset_neg _ _ ha, ?_, ?_⟩
  · apply coord_add_neg p q a _ hpq
    rw [inBox_length _ _ (bw_fg_inBox BW p hp), ha.1]
  · rw [coord_neg_neg]
    exact hm.symm

theorem bw_connected_symm (BW conn_mask : NDArray Bool) (p q : List Nat)
    (h : bw_connected BW conn_mask p q) : bw_connected BW conn_mask q p :=
  Relation.ReflTransGen.symmetric (fun x y hxy => bw_step_symm BW conn_mask x y hxy) h

theorem bw_fg_numel (BW : NDArray Bool) (p : List Nat) (h : bw_fg BW p) :
    sub2ind BW.dims p < BW.numel := sub2ind_lt _ _ (bw_fg_inBox BW p h)

/-- The padded index of the element with linear index `r`, and the test the first loop of
`bwlabel_nd` makes there. -/
theorem bwlabel_scan_centre (BW : NDArray Bool) (r : Nat) (hr : r < BW.numel) :
    get_padded_index r BW.dims = pad_index BW.dims (ind2sub BW.dims r)
    ∧ get_padded_index r BW.dims < (bwlabel_padded BW).data.length
    ∧ ((bwlabel_padded BW).data.getD (get_padded_index r BW.dims) 0 ≠ 0
        ↔ bw_fg BW (ind2sub BW.dims r)) := by
  have hin := inBox_ind2sub BW.dims r hr
  rw [get_padded_index_eq, bwlabel_padded_length]
  exact ⟨rfl, pad_index_lt _ _ hin, bwlabel_centre_read BW _ hin⟩

/-- The pairs united by the first loop of `bwlabel_nd`: a true element `p` and the true
element `q = p + a` for an offset `a` kept by `populate_neighbours`. -/
theorem bwlabel_scan_pairs (BW conn_mask : NDArray Bool)
    (hd : conn_mask.dims = List.replicate BW.dims.length 3)
    (hl : conn_mask.data.length = conn_mask.dims.prod) (u v : Nat) :
    (∃ c ∈ bwlabel_scan_calls (bwlabel_padded BW).data BW.dims
        (populate_neighbours conn_mask BW.dims) (List.range BW.numel), (u, v) ∈ c.pairs)
      ↔ ∃ p q a, bw_fg BW p ∧ bw_fg BW q ∧ a ∈ populate_coords conn_mask BW.dims
          ∧ q.map (fun (x : Nat) => (x : Int)) = coord_add p a
          ∧ u = pad_index BW.dims q ∧ v = pad_index BW.dims p := by
  obtain ⟨hN1, _, hN3⟩ := populate_neighbours_spec conn_mask BW.dims BW.dims.length hd hl
  constructor
  · rintro ⟨c, hc, huv⟩
    rw [mem_bwlabel_scan_calls] at hc
    obtain ⟨r, hr, hne, hc | hc⟩ := hc
    · subst hc
      simp [uf_call.pairs] at huv
    · rw [List.mem_range] at hr
      obtain ⟨e1, _, e3⟩ := bwlabel_scan_centre BW r hr
      rw [mem_bwlabel_nbr_calls] at hc
      obtain ⟨nbr, hnbr, hne2, rfl⟩ := hc
      simp only [uf_call.pairs, List.mem_singleton, Prod.mk.injEq] at huv
      obtain ⟨a, ha, rfl⟩ := (hN3 nbr).mp hnbr
      have hoff := (hN1 a ha).1
      have hin := inBox_ind2sub BW.dims r hr
      obtain ⟨_, _, k3, k4⟩ := bwlabel_neighbour_read BW (ind2sub BW.dims r) a hin hoff.1 hoff.2.1
      rw [e1] at hne2 huv
      obtain ⟨q, hq1, hq2⟩ := k3.mp hne2
      refine ⟨ind2sub BW.dims r, q, a, e3.mp hne, hq2, ha, hq1, ?_, huv.2⟩
      rw [huv.1]
      exact k4 q hq1 (bw_fg_inBox BW q hq2)
  · rintro ⟨p, q, a, hp, hq, ha, hpq, rfl, rfl⟩
    have hin := bw_fg_inBox BW p hp
    have hr := bw_fg_numel BW p hp
    obtain ⟨e1, _, e3⟩ := bwlabel_scan_centre BW (sub2ind BW.dims p) hr
    rw [ind2sub_sub2ind _ _ hin] at e1 e3
    have hoff := (hN1 a ha).1
    obtain ⟨_, _, k3, k4⟩ := bwlabel_neighbour_read BW p a hin hoff.1 hoff.2.1
    refine ⟨uf_call.unite (pad_index BW.dims q) (pad_index BW.dims p), ?_, by simp [uf_call.pairs]⟩
    rw [mem_bwlabel_scan_calls]
    refine ⟨sub2ind BW.dims p, List.mem_range.mpr hr, e3.mpr hp, Or.inr ?_⟩
    rw [mem_bwlabel_nbr_calls, e1]
    refine ⟨coord_to_pad_idx BW.dims a, (hN3 _).mpr ⟨a, ha, rfl⟩, k3.mpr ⟨q, hpq, hq⟩, ?_⟩
    rw [k4 q hpq (bw_fg_inBox BW q hq)]

/-- The indices passed by the first loop of `bwlabel_nd` to `find` and `unite` are the
padded indices of the true elements. -/
theorem bwlabel_scan_args (BW conn_mask : NDArray Bool)
    (hd : conn_mask.dims = List.replicate BW.dims.length 3)
    (hl : conn_mask.data.length = conn_mask.dims.prod) (y : Nat) :
    (∃ c ∈ bwlabel_scan_calls (bwlabel_padded BW).data BW.dims
        (populate_neighbours conn_mask BW.dims) (List.range BW.numel), y ∈ c.args)
      ↔ ∃ p, bw_fg BW p ∧ y = pad_index BW.dims p := by
  obtain ⟨hN1, _, hN3⟩ := populate_neighbours_spec conn_mask BW.dims BW.dims.length hd hl
  constructor
  · rintro ⟨c, hc, hy⟩
    rw [mem_bwlabel_scan_calls] at hc
    obtain ⟨r, hr, hne, hc⟩ := hc
    rw [List.mem_range] at hr
    obtain ⟨e1, _, e3⟩ := bwlabel_scan_centre BW r hr
    have hp := e3.mp hne
    rcases hc with hc | hc
    · subst hc
      simp only [uf_call.args, List.mem_singleton] at hy
      exact ⟨_, hp, hy.trans e1⟩
    · have hc0 := hc
      rw [mem_bwlabel_nbr_calls] at hc
      obtain ⟨nbr, _, _, rfl⟩ := hc
      obtain ⟨p1, q1, _, hp1, hq1, _, _, eu, ev⟩ :=
        (bwlabel_scan_pairs BW conn_mask hd hl _ _).mp ⟨_,
          (mem_bwlabel_scan_calls _ _ _ _ _).mpr ⟨r, List.mem_range.mpr hr, hne, Or.inr hc0⟩,
          List.mem_singleton.mpr rfl⟩
      simp only [uf_call.args, List.mem_cons, List.mem_singleton, List.not_mem_nil,
        or_false] at hy
      rcases hy with hy | hy
      · exact ⟨q1, hq1, hy.trans eu⟩
      · exact ⟨p1, hp1, hy.trans ev⟩
  · rintro ⟨p, hp, rfl⟩
    have hin := bw_fg_inBox BW p hp
    have hr := bw_fg_numel BW p hp
    obtain ⟨e1, _, e3⟩ := bwlabel_scan_centre BW (sub2ind BW.dims p) hr
    rw [ind2sub_sub2ind _ _ hin] at e1 e3
    refine ⟨uf_call.find (pad_index BW.dims p), ?_, by simp [uf_call.args]⟩
    rw [mem_bwlabel_scan_calls]
    exact ⟨sub2ind BW.dims p, List.mem_range.mpr hr, e3.mpr hp, Or.inl (by rw [e1])⟩

/-- The equivalence generated by the pairs united relates the padded indices of two true
elements exactly when a chain of neighbouring true elements joins them. -/
theorem bwlabel_scan_kernel (BW conn_mask : NDArray Bool)
    (hd : conn_mask.dims = List.replicate BW.dims.length 3)
    (hl : conn_mask.data.length = conn_mask.dims.prod) (p q : List Nat)
    (hp : bw_fg BW p) (hq : bw_fg BW q) :
    Relation.EqvGen (fun u v => False ∨ ∃ c ∈ bwlabel_scan_calls (bwlabel_padded BW).data
        BW.dims (populate_neighbours conn_mask BW.dims) (List.range BW.numel), (u, v) ∈ c.pairs)
        (pad_index BW.dims p) (pad_index BW.dims q)
      ↔ bw_connected BW conn_mask p q := by
  obtain ⟨hN1, hN2, _⟩ := populate_neighbours_spec conn_mask BW.dims BW.dims.length hd hl
  constructor
  · intro h
    have key : ∀ u v, Relation.EqvGen (fun u v => False ∨ ∃ c ∈ bwlabel_scan_calls
        (bwlabel_padded BW).data BW.dims (populate_neighbours conn_mask BW.dims)
        (List.range BW.numel), (u, v) ∈ c.pairs) u v →
        u = v ∨ ∃ p1 q1, bw_fg BW p1 ∧ bw_fg BW q1 ∧ u = pad_index BW.dims p1
          ∧ v = pad_index BW.dims q1 ∧ bw_connected BW conn_mask p1 q1 := by
      intro u v huv
      induction huv with
      | rel u v h =>
        rcases h with h | h
        · exact absurd h id
        · obtain ⟨p1, q1, a, hp1, hq1, ha, hpq, rfl, rfl⟩ :=
            (bwlabel_scan_pairs BW conn_mask hd hl u v).mp h
          refine Or.inr ⟨q1, p1, hq1, hp1, rfl, rfl, ?_⟩
          apply bw_connected_symm
          exact Relation.ReflTransGen.single
            ⟨hp1, hq1, a, (hN1 a ha).1, hpq, Or.inl (hN1 a ha).2⟩
      | refl _ => exact Or.inl rfl
      | symm _ _ _ ih =>
        rcases ih with e | ⟨p1, q1, h1, h2, e1, e2, hc⟩
        · exact Or.inl e.symm
        · exact Or.inr ⟨q1, p1, h2, h1, e2, e1, bw_connected_symm _ _ _ _ hc⟩
      | trans _ _ _ _ _ ih1 ih2 =>
        rcases ih1 with e | ⟨p1, q1, h1, h2, e1, e2, hc⟩
        · rw [e]; exact ih2
        · rcases ih2 with e | ⟨p2, q2, h3, h4, e3, e4, hc2⟩
          · rw [← e]; exact Or.inr ⟨p1, q1, h1, h2, e1, e2, hc⟩
          · have : q1 = p2 := pad_index_inj BW.dims q1 p2 (bw_fg_inBox _ _ h2)
              (bw_fg_inBox _ _ h3) (e2.symm.trans e3)
            subst this
            exact Or.inr ⟨p1, q2, h1, h4, e1, e4, Relation.ReflTransGen.trans hc hc2⟩
    rcases key _ _ h with e | ⟨p1, q1, h1, h2, e1, e2, hc⟩
    · have : p = q := pad_index_inj BW.dims p q (bw_fg_inBox _ _ hp) (bw_fg_inBox _ _ hq) e
      subst this
      exact Relation.ReflTransGen.refl
    · have i1 : p = p1 := pad_index_inj BW.dims p p1 (bw_fg_inBox _ _ hp) (bw_fg_inBox _ _ h1) e1
      have i2 : q = q1 := pad_index_inj BW.dims q q1 (bw_fg_inBox _ _ hq) (bw_fg_inBox _ _ h2) e2
      rw [i1, i2]
      exact hc
  · intro h
    clear hq
    induction h with
    | refl => exact Relation.EqvGen.refl _
    | tail _ hstep ih =>
      refine Relation.EqvGen.trans _ _ _ ih ?_
      obtain ⟨hb, hc, a, ha, hbc, hm⟩ := hstep
      have hmem : a ∈ populate_coords conn_mask BW.dims
          ∨ coord_neg a ∈ populate_coords conn_mask BW.dims := by
        rcases hm with hm | hm
        · exact hN2 a ha hm
        · have := hN2 (coord_neg a) (is_offset_neg _ _ ha) hm
          rw [coord_neg_neg] at this
          exact this.symm
      rcases hmem with hmem | hmem
      · apply Relation.EqvGen.symm
        apply Relation.EqvGen.rel
        exact Or.inr ((bwlabel_scan_pairs BW conn_mask hd hl _ _).mpr
          ⟨_, _, a, hb, hc, hmem, hbc, rfl, rfl⟩)
      · apply Relation.EqvGen.rel
        refine Or.inr ((bwlabel_scan_pairs BW conn_mask hd hl _ _).mpr
          ⟨_, _, coord_neg a, hc, hb, hmem, ?_, rfl, rfl⟩)
        apply coord_add_neg _ _ a _ hbc
        rw [inBox_length _ _ (bw_fg_inBox BW _ hb), ha.1]

/-- The first loop of `bwlabel_nd` returns a state whose entries are the padded indices of
the true elements, two of them having the same root exactly when a chain of neighbouring
true elements joins them. -/
theorem bwlabel_scan_spec (BW conn_mask : NDArray Bool)
    (hd : conn_mask.dims = List.replicate BW.dims.length 3)
    (hl : conn_mask.data.length = conn_mask.dims.prod) :
    ∃ u_f rt, bwlabel_scan (bwlabel_padded BW).data BW.dims
        (populate_neighbours conn_mask BW.dims) (List.range BW.numel)
        (union_find.ctor (bwlabel_padded BW).numel) = some u_f
      ∧ u_f.inv rt
      ∧ u_f.voxels.length = (bwlabel_padded BW).data.length
      ∧ (∀ y, u_f.entry y ↔ ∃ p, bw_fg BW p ∧ y = pad_index BW.dims p)
      ∧ (∀ p q, bw_fg BW p → bw_fg BW q →
          (rt (pad_index BW.dims p) = rt (pad_index BW.dims q) ↔ bw_connected BW conn_mask p q)) := by
  obtain ⟨hN1, _, hN3⟩ := populate_neighbours_spec conn_mask BW.dims BW.dims.length hd hl
  have hrun := bwlabel_scan_eq_run (bwlabel_padded BW).data BW.dims
    (populate_neighbours conn_mask BW.dims) (List.range BW.numel)
    (union_find.ctor (bwlabel_padded BW).numel) (by
      intro r hr
      rw [List.mem_range] at hr
      obtain ⟨e1, e2, _⟩ := bwlabel_scan_centre BW r hr
      refine ⟨e2, ?_⟩
      intro nbr hnbr
      obtain ⟨a, ha, rfl⟩ := (hN3 nbr).mp hnbr
      have hoff := (hN1 a ha).1
      obtain ⟨k1, k2, _, _⟩ := bwlabel_neighbour_read BW (ind2sub BW.dims r) a
        (inBox_ind2sub BW.dims r hr) hoff.1 hoff.2.1
      rw [e1]
      exact ⟨k1, k2⟩)
  obtain ⟨u_f, rt, h1, h2, h3, h4, h5⟩ := union_find.run_spec
    (bwlabel_scan_calls (bwlabel_padded BW).data BW.dims
      (populate_neighbours conn_mask BW.dims) (List.range BW.numel))
    (union_find.ctor (bwlabel_padded BW).numel) id (fun _ _ => False)
    (union_find.inv_ctor _) union_find.inv_ctor_kernel (by
      intro c hc i hi
      obtain ⟨p, hp, rfl⟩ := (bwlabel_scan_args BW conn_mask hd hl i).mp ⟨c, hc, hi⟩
      rw [union_find.ctor_length, bwlabel_padded_numel]
      exact pad_index_lt _ _ (bw_fg_inBox BW p hp))
  refine ⟨u_f, rt, hrun.trans h1, h2, ?_, ?_, ?_⟩
  · rw [h3, union_find.ctor_length, bwlabel_padded_numel, bwlabel_padded_length]
  · intro y
    rw [h4, bwlabel_scan_args BW conn_mask hd hl y]
    constructor
    · rintro (e | e)
      · exact absurd e (union_find.not_entry_ctor _ _)
      · exact e
    · exact Or.inr
  · intro p q hp hq
    rw [h5]
    exact bwlabel_scan_kernel BW conn_mask hd hl p q hp hq

theorem getD_set_ne (L : List Nat) (idx v x : Nat) (h : x ≠ idx) :
    (L.set idx v).getD x 0 = L.getD x 0 := by
  rw [List.getD_eq_getElem?_getD, List.getD_eq_getElem?_getD, List.getElem?_set_ne (Ne.symm h)]

theorem getD_set_eq (L : List Nat) (idx v : Nat) (h : idx < L.length) :
    (L.set idx v).getD idx 0 = v := by
  rw [List.getD_eq_getElem?_getD, List.getElem?_set_self h]
  rfl

theorem getElem?_snoc_cases (fs : List Nat) (idx k f : Nat) (h : (fs ++ [idx])[k]? = some f) :
    fs[k]? = some f ∨ (k = fs.length ∧ f = idx) := by
  by_cases hk : k < fs.length
  · rw [List.getElem?_append_left hk] at h
    exact Or.inl h
  · rw [List.getElem?_append_right (by omega)] at h
    right
    have : k - fs.length = 0 := by
      by_contra hne
      rw [List.getElem?_eq_none (by simp; omega)] at h
      cases h
    rw [this] at h
    simp only [List.getElem?_cons_zero, Option.some.injEq] at h
    exact ⟨by omega, h.symm⟩

theorem getElem?_snoc_left (fs : List Nat) (idx k f : Nat) (h : fs[k]? = some f) :
    (fs ++ [idx])[k]? = some f := by
  have hk : k < fs.length := by
    by_contra hcon
    rw [List.getElem?_eq_none (by omega)] at h
    cases h
  rw [List.getElem?_append_left hk]
  exact h

theorem getElem?_snoc_last (fs : List Nat) (idx : Nat) :
    (fs ++ [idx])[fs.length]? = some idx := by
  rw [List.getElem?_append_right (le_refl _)]
  simp

/-- One turn of the second loop of `bwlabel_nd` keeps the invariant. -/
theorem bwlabel_assign_step (rt : Nat → Nat) (L0 done : List Nat) (st : label_state)
    (fs : List Nat) (h : bwlabel_assign_inv rt L0 done st fs) (idx : Nat)
    (he : st.u_f.entry idx) (hgt : ∀ x ∈ done, x < idx) :
    ∃ u_f1, st.u_f.find idx = some (u_f1, rt idx)
      ∧ (∀ y, u_f1.entry y ↔ st.u_f.entry y)
      ∧ (st.ids_to_label.lookup (rt idx) = none →
          bwlabel_assign_inv rt L0 (done ++ [idx])
            ⟨u_f1, (rt idx, st.next_label) :: st.ids_to_label, st.next_label + 1,
              st.L_vec.set idx st.next_label⟩ (fs ++ [idx]))
      ∧ (∀ label, st.ids_to_label.lookup (rt idx) = some label →
          bwlabel_assign_inv rt L0 (done ++ [idx])
            ⟨u_f1, st.ids_to_label, st.next_label, st.L_vec.set idx label⟩ fs) := by
  obtain ⟨p, hp⟩ := he
  have hidx : idx < st.u_f.voxels.length := union_find.par_lt _ _ _ hp
  have hidxL : idx < st.L_vec.length := by rw [h.len_L, ← h.len_uf]; exact hidx
  have hnd : idx ∉ done := fun hcon => lt_irrefl _ (hgt idx hcon)
  obtain ⟨u_f1, hf, hinv1, hlen1, hent1, _, _⟩ := union_find.find_spec st.u_f rt h.inv idx hidx
  refine ⟨u_f1, hf, ?_, ?_, ?_⟩
  · intro y
    rw [hent1]
    constructor
    · rintro (e | rfl)
      · exact e
      · exact ⟨p, hp⟩
    · exact Or.inl
  · intro hnone
    have hfresh : ∀ (k f : Nat), fs[k]? = some f → rt f ≠ rt idx := by
      intro k f hk hcon
      have := h.lookup_first k f hk
      rw [hcon, hnone] at this
      cases this
    refine ⟨hinv1, by rw [hlen1]; exact h.len_uf, by simp [h.len_L], ?_, ?_, ?_, ?_, ?_, ?_,
      ?_, ?_⟩
    · simp [h.next]
    · simp [h.len_ids]
    · intro id l hl
      simp only [List.lookup_cons] at hl
      by_cases hid : id = rt idx
      · rw [hid] at hl
        simp only [beq_self_eq_true] at hl
        cases hl
        exact ⟨fs.length, idx, getElem?_snoc_last fs idx, hid.symm, h.next⟩
      · have hb : (id == rt idx) = false := by simpa using hid
        rw [hb] at hl
        obtain ⟨k, f, e1, e2, e3⟩ := h.lookup_some id l hl
        exact ⟨k, f, getElem?_snoc_left fs idx k f e1, e2, e3⟩
    · intro k f hk
      simp only [List.lookup_cons]
      rcases getElem?_snoc_cases fs idx k f hk with e | ⟨rfl, rfl⟩
      · have hb : (rt f == rt idx) = false := by simpa using hfresh k f e
        rw [hb]
        exact h.lookup_first k f e
      · simp only [beq_self_eq_true]
        rw [h.next]
    · intro k f hk
      rcases getElem?_snoc_cases fs idx k f hk with e | ⟨rfl, rfl⟩
      · obtain ⟨m1, m2⟩ := h.first_mem k f e
        refine ⟨List.mem_append_left _ m1, ?_⟩
        intro x hx hrx
        rcases List.mem_append.mp hx with hx | hx
        · exact m2 x hx hrx
        · rw [List.mem_singleton] at hx
          rw [hx]
          exact le_of_lt (hgt f m1)
      · refine ⟨List.mem_append_right _ (List.mem_singleton.mpr rfl), ?_⟩
        intro x hx hrx
        rcases List.mem_append.mp hx with hx | hx
        · obtain ⟨k, g, e1, e2, _⟩ := h.labelled x hx
          exact absurd (e2.trans hrx) (hfresh k g e1)
        · rw [List.mem_singleton] at hx
          rw [hx]
    · rw [List.pairwise_append]
      refine ⟨h.sorted, List.pairwise_singleton _ _, ?_⟩
      intro a ha b hb
      rw [List.mem_singleton] at hb
      obtain ⟨k, hk⟩ := List.getElem?_of_mem ha
      rw [hb]
      exact hgt a (h.first_mem k a hk).1
    · intro x hx
      rcases List.mem_append.mp hx with hx | hx
      · obtain ⟨k, f, e1, e2, e3⟩ := h.labelled x hx
        refine ⟨k, f, getElem?_snoc_left fs idx k f e1, e2, ?_⟩
        show (st.L_vec.set idx st.next_label).getD x 0 = k + 1
        rw [getD_set_ne _ _ _ _ (fun (e : x = idx) => hnd (e ▸ hx))]
        exact e3
      · rw [List.mem_singleton] at hx
        subst hx
        refine ⟨fs.length, x, getElem?_snoc_last fs x, rfl, ?_⟩
        show (st.L_vec.set x st.next_label).getD x 0 = fs.length + 1
        rw [getD_set_eq _ _ _ hidxL, h.next]
    · intro x hx
      rw [List.mem_append, List.mem_singleton] at hx
      push_neg at hx
      show (st.L_vec.set idx st.next_label).getD x 0 = L0.getD x 0
      rw [getD_set_ne _ _ _ _ hx.2]
      exact h.others x hx.1
  · intro label hsome
    obtain ⟨k0, f0, c1, c2, c3⟩ := h.lookup_some _ _ hsome
    refine ⟨hinv1, by rw [hlen1]; exact h.len_uf, by simp [h.len_L], h.next, h.len_ids,
      h.lookup_some, h.lookup_first, ?_, h.sorted, ?_, ?_⟩
    · intro k f hk
      obtain ⟨m1, m2⟩ := h.first_mem k f hk
      refine ⟨List.mem_append_left _ m1, ?_⟩
      intro x hx hrx
      rcases List.mem_append.mp hx with hx | hx
      · exact m2 x hx hrx
      · rw [List.mem_singleton] at hx
        rw [hx]
        exact le_of_lt (hgt f m1)
    · intro x hx
      rcases List.mem_append.mp hx with hx | hx
      · obtain ⟨k, f, e1, e2, e3⟩ := h.labelled x hx
        refine ⟨k, f, e1, e2, ?_⟩
        show (st.L_vec.set idx label).getD x 0 = k + 1
        rw [getD_set_ne _ _ _ _ (fun (e : x = idx) => hnd (e ▸ hx))]
        exact e3
      · rw [List.mem_singleton] at hx
        subst hx
        refine ⟨k0, f0, c1, c2, ?_⟩
        show (st.L_vec.set x label).getD x 0 = k0 + 1
        rw [getD_set_eq _ _ _ hidxL, c3]
    · intro x hx
      rw [List.mem_append, List.mem_singleton] at hx
      push_neg at hx
      show (st.L_vec.set idx label).getD x 0 = L0.getD x 0
      rw [getD_set_ne _ _ _ _ hx.2]
      exact h.others x hx.1

/-- The second loop of `bwlabel_nd` returns, and its result satisfies the invariant for all
the indices it was given. -/
theorem bwlabel_assign_spec (rt : Nat → Nat) (L0 : List Nat) :
    ∀ (rest done : List Nat) (st : label_state) (fs : List Nat),
      bwlabel_assign_inv rt L0 done st fs → (∀ x ∈ rest, st.u_f.entry x) →
      (done ++ rest).Pairwise (fun a b => a < b) →
      ∃ st1 fs1, bwlabel_assign rest st = some st1
        ∧ bwlabel_assign_inv rt L0 (done ++ rest) st1 fs1
  | [], done, st, fs, h, _, _ => ⟨st, fs, rfl, by rw [List.append_nil]; exact h⟩
  | idx :: rest, done, st, fs, h, he, hs => by
    have hgt : ∀ x ∈ done, x < idx := by
      intro x hx
      exact (List.pairwise_append.mp hs).2.2 x hx idx (List.mem_cons_self _ _)
    obtain ⟨u_f1, hf, hent, hnone, hsome⟩ :=
      bwlabel_assign_step rt L0 done st fs h idx (he idx (List.mem_cons_self _ _)) hgt
    have hs1 : ((done ++ [idx]) ++ rest).Pairwise (fun a b => a < b) := by
      rw [List.append_assoc]
      exact hs
    have he1 : ∀ x ∈ rest, u_f1.entry x :=
      fun x hx => (hent x).mpr (he x (List.mem_cons_of_mem _ hx))
    unfold bwlabel_assign
    rw [hf]
    simp only
    cases hl : st.ids_to_label.lookup (rt idx) with
    | none =>
      obtain ⟨st1, fs1, e1, e2⟩ := bwlabel_assign_spec rt L0 rest (done ++ [idx]) _ _
        (hnone hl) he1 hs1
      refine ⟨st1, fs1, e1, ?_⟩
      rw [List.append_assoc] at e2
      exact e2
    | some label =>
      obtain ⟨st1, fs1, e1, e2⟩ := bwlabel_assign_spec rt L0 rest (done ++ [idx]) _ _
        (hsome label hl) he1 hs1
      refine ⟨st1, fs1, e1, ?_⟩
      rw [List.append_assoc] at e2
      exact e2

theorem pad_position_index (dv p : List Nat) (h : inBox dv p = true) :
    pad_position dv (pad_index dv p) = p := by
  unfold pad_position pad_index
  rw [ind2sub_sub2ind _ _ (inBox_pad dv p h), List.map_map]
  conv_rhs => rw [← List.map_id p]
  apply List.map_congr_left
  intro x _
  simp

theorem sub2ind_inj (dv p q : List Nat) (hp : inBox dv p = true) (hq : inBox dv q = true)
    (h : sub2ind dv p = sub2ind dv q) : p = q := by
  rw [← ind2sub_sub2ind dv p hp, ← ind2sub_sub2ind dv q hq, h]

/-- The padded index grows with the column-major linear index. -/
theorem pad_index_le (dv p q : List Nat) (hp : inBox dv p = true) (hq : inBox dv q = true)
    (h : pad_index dv p ≤ pad_index dv q) : sub2ind dv p ≤ sub2ind dv q := by
  by_contra hcon
  push_neg at hcon
  have := pad_index_mono dv _ _ hcon (sub2ind_lt dv p hp)
  rw [ind2sub_sub2ind _ _ hp, ind2sub_sub2ind _ _ hq] at this
  omega

theorem pad_index_lt_lt (dv p q : List Nat) (hp : inBox dv p = true) (hq : inBox dv q = true)
    (h : pad_index dv p < pad_index dv q) : sub2ind dv p < sub2ind dv q := by
  rcases Nat.lt_or_ge (sub2ind dv p) (sub2ind dv q) with h1 | h1
  · exact h1
  · have h2 := pad_index_le dv p q hp hq (le_of_lt h)
    have : p = q := sub2ind_inj dv p q hp hq (le_antisymm h2 h1)
    subst this
    exact absurd h (lt_irrefl _)

theorem zipWith_crop : ∀ (p dv : List Nat), p.length = dv.length →
    List.zipWith (fun (x : Nat) (r : Nat × Nat) => r.1 + x) p (dv.map (fun d => (1, d)))
      = p.map (fun x => x + 1)
  | [], _, _ => by simp
  | x :: p, [], h => by simp at h
  | x :: p, d :: dv, h => by
    simp only [List.map_cons, List.zipWith_cons_cons, List.cons.injEq]
    exact ⟨by omega, zipWith_crop p dv (by simpa using h)⟩

theorem crop_dims (dv : List Nat) : (dv.map (fun d => ((1 : Nat), d))).map Prod.snd = dv := by
  rw [List.map_map]
  conv_rhs => rw [← List.map_id dv]
  apply List.map_congr_left
  intro x _
  rfl

/-- The block that `bwlabel_nd` returns: the padded array without its border. -/
theorem bwlabel_crop (dv : List Nat) (Lv : List Nat) :
    ((⟨dv.map (fun d => d + 2), Lv⟩ : NDArray Nat).index (dv.map (fun d => (1, d))) 0).dims = dv
    ∧ ∀ p, inBox dv p = true →
      ((⟨dv.map (fun d => d + 2), Lv⟩ : NDArray Nat).index (dv.map (fun d => (1, d))) 0).get? p
        = some (Lv.getD (pad_index dv p) 0) := by
  unfold NDArray.index
  simp only [crop_dims]
  refine ⟨trivial, ?_⟩
  intro p hp
  unfold NDArray.get?
  simp only
  rw [if_pos hp, List.getElem?_map, List.getElem?_range (sub2ind_lt dv p hp), Option.map_some',
    ind2sub_sub2ind dv p hp, zipWith_crop p dv (inBox_length dv p hp)]
  rfl

/-- What `bwlabel_nd` returns, for a mask with one dimension of size 3 per dimension of the
image: the labels `L`, the count `num` and, as a ghost, the list `fs` of the first elements
of the objects in the order of their labels. -/
theorem bwlabel_nd_spec (BW conn_mask : NDArray Bool)
    (hd : conn_mask.dims = List.replicate BW.dims.length 3)
    (hl : conn_mask.data.length = conn_mask.dims.prod) :
    ∃ (L : NDArray Nat) (num : Nat) (fs : List (List Nat)),
      bwlabel_nd BW conn_mask = some (L, num) ∧ L.dims = BW.dims ∧ fs.length = num
      ∧ (∀ p, inBox BW.dims p = true → ¬ bw_fg BW p → L.get? p = some 0)
      ∧ (∀ p, bw_fg BW p → ∃ (k : Nat) (f : List Nat), fs[k]? = some f
          ∧ bw_connected BW conn_mask f p ∧ L.get? p = some (k + 1))
      ∧ (∀ (k : Nat) (f : List Nat), fs[k]? = some f → bw_fg BW f ∧ L.get? f = some (k + 1)
          ∧ ∀ p, bw_fg BW p → bw_connected BW conn_mask f p →
              sub2ind BW.dims f ≤ sub2ind BW.dims p)
      ∧ (fs.map (sub2ind BW.dims)).Pairwise (fun a b => a < b)
      ∧ (∀ (j k : Nat) (f g : List Nat), fs[j]? = some f → fs[k]? = some g →
          bw_connected BW conn_mask f g → j = k) := by
  obtain ⟨u_f, rt, hscan, hinv, hlen, hent, hker⟩ := bwlabel_scan_spec BW conn_mask hd hl
  have h0 : bwlabel_assign_inv rt (bwlabel_padded BW).data []
      ⟨u_f, [], 1, (bwlabel_padded BW).data⟩ [] :=
    ⟨hinv, hlen, rfl, rfl, rfl, fun _ _ h => (by simp at h), fun k _ h => (by simp at h),
      fun k _ h => (by simp at h), List.Pairwise.nil, fun _ hx => (by simp at hx), fun _ _ => rfl⟩
  obtain ⟨st1, fs1, hassign, hI⟩ := bwlabel_assign_spec rt (bwlabel_padded BW).data
    u_f.get_ids [] _ [] h0 (fun x hx => (union_find.mem_get_ids u_f x).mp hx)
    (by rw [List.nil_append]; exact union_find.get_ids_pairwise u_f)
  rw [List.nil_append] at hI
  obtain ⟨c1, c2⟩ := bwlabel_crop BW.dims st1.L_vec
  have hid : ∀ x, x ∈ u_f.get_ids ↔ ∃ p, bw_fg BW p ∧ x = pad_index BW.dims p :=
    fun x => (union_find.mem_get_ids u_f x).trans (hent x)
  have hfirst : ∀ (k f1 : Nat), fs1[k]? = some f1 →
      ∃ f, bw_fg BW f ∧ f1 = pad_index BW.dims f ∧ pad_position BW.dims f1 = f := by
    intro k f1 hk
    obtain ⟨f, hf, e⟩ := (hid f1).mp (hI.first_mem k f1 hk).1
    exact ⟨f, hf, e, by rw [e, pad_position_index _ _ (bw_fg_inBox BW f hf)]⟩
  have hrt : ∀ p q, bw_fg BW p → bw_fg BW q → rt (pad_index BW.dims p) = rt (pad_index BW.dims q) →
      bw_connected BW conn_mask p q := fun p q hp hq e => (hker p q hp hq).mp e
  have hlab : ∀ (k : Nat) (f : List Nat), bw_fg BW f → fs1[k]? = some (pad_index BW.dims f) →
      st1.L_vec.getD (pad_index BW.dims f) 0 = k + 1 := by
    intro k f hf hk
    obtain ⟨k1, g1, e1, e2, e3⟩ := hI.labelled _ ((hid _).mpr ⟨f, hf, rfl⟩)
    have a1 := hI.lookup_first k _ hk
    have a2 := hI.lookup_first k1 g1 e1
    rw [e2, a1] at a2
    rw [e3]
    simp only [Option.some.injEq] at a2
    omega
  refine ⟨_, st1.ids_to_label.length, fs1.map (pad_position BW.dims), ?_, c1, ?_, ?_, ?_, ?_,
    ?_, ?_⟩
  · unfold bwlabel_nd
    simp only
    rw [hscan]
    simp only
    rw [hassign]
    rfl
  · rw [List.length_map, hI.len_ids]
  · intro p hp hbg
    rw [c2 p hp]
    have hnot : pad_index BW.dims p ∉ u_f.get_ids := by
      rw [hid]
      rintro ⟨q, hq, e⟩
      have := pad_index_inj BW.dims p q hp (bw_fg_inBox BW q hq) e
      exact hbg (this ▸ hq)
    rw [hI.others _ hnot]
    have := (bwlabel_centre_read BW p hp).not.mpr hbg
    push_neg at this
    rw [this]
  · intro p hp
    obtain ⟨k, f1, e1, e2, e3⟩ := hI.labelled _ ((hid _).mpr ⟨p, hp, rfl⟩)
    obtain ⟨f, hf, ef, epos⟩ := hfirst k f1 e1
    refine ⟨k, f, ?_, ?_, ?_⟩
    · rw [List.getElem?_map, e1, Option.map_some', epos]
    · apply hrt f p hf hp
      rw [← ef]
      exact e2
    · rw [c2 p (bw_fg_inBox BW p hp), e3]
  · intro k f hk
    rw [List.getElem?_map] at hk
    cases h1 : fs1[k]? with
    | none => rw [h1] at hk; cases hk
    | some f1 =>
      rw [h1] at hk
      simp only [Option.map_some', Option.some.injEq] at hk
      obtain ⟨f0, hf, ef, epos⟩ := hfirst k f1 h1
      rw [epos] at hk
      subst hk
      subst ef
      refine ⟨hf, ?_, ?_⟩
      · rw [c2 f0 (bw_fg_inBox BW f0 hf), hlab k f0 hf h1]
      · intro p hp hc
        apply pad_index_le BW.dims f0 p (bw_fg_inBox BW f0 hf) (bw_fg_inBox BW p hp)
        exact (hI.first_mem k _ h1).2 _ ((hid _).mpr ⟨p, hp, rfl⟩)
          ((hker f0 p hf hp).mpr hc).symm
  · rw [List.map_map, List.pairwise_map]
    refine List.Pairwise.imp_of_mem ?_ hI.sorted
    intro a b ha hb hab
    obtain ⟨ka, hka⟩ := List.getElem?_of_mem ha
    obtain ⟨kb, hkb⟩ := List.getElem?_of_mem hb
    obtain ⟨fa, hfa, ea, epa⟩ := hfirst ka a hka
    obtain ⟨fb, hfb, eb, epb⟩ := hfirst kb b hkb
    simp only [Function.comp]
    rw [epa, epb]
    rw [ea, eb] at hab
    exact pad_index_lt_lt BW.dims fa fb (bw_fg_inBox BW fa hfa) (bw_fg_inBox BW fb hfb) hab
  · intro j k f g hj hk hc
    rw [List.getElem?_map] at hj hk
    cases h1 : fs1[j]? with
    | none => rw [h1] at hj; cases hj
    | some f1 =>
      cases h2 : fs1[k]? with
      | none => rw [h2] at hk; cases hk
      | some g1 =>
        rw [h1] at hj
        rw [h2] at hk
        simp only [Option.map_some', Option.some.injEq] at hj hk
        obtain ⟨f0, hf, ef, epf⟩ := hfirst j f1 h1
        obtain ⟨g0, hg, eg, epg⟩ := hfirst k g1 h2
        rw [epf] at hj
        rw [epg] at hk
        subst hj
        subst hk
        have e := (hker f0 g0 hf hg).mpr hc
        have a1 := hI.lookup_first j f1 h1
        have a2 := hI.lookup_first k g1 h2
        rw [ef, e, ← eg, a2] at a1
        simp only [Option.some.injEq] at a1
        omega

/-- **C29** N-dimensional labelling groups by connectivity: for every boolean array `BW`
and every connectivity mask with one dimension of size 3 per dimension of `BW` (what the
caller `bwlabeln` checks before the call), `bwlabel_nd` returns an array of the extents of
`BW` that holds 0 at every background element, and two foreground elements hold the same
positive label if and only if a chain of foreground elements joins them in which
consecutive elements differ by an offset `a`, each coordinate in `{-1, 0, 1}` and `a ≠ 0`,
such that the mask is true at `centre + a` or at `centre - a`. -/
theorem bwlabel_nd_groups_by_connectivity (BW conn_mask : NDArray Bool)
    (hd : conn_mask.dims = List.replicate BW.dims.length 3)
    (hl : conn_mask.data.length = conn_mask.dims.prod) :
    ∃ L num, bwlabel_nd BW conn_mask = some (L, num) ∧ L.dims = BW.dims
      ∧ (∀ p, inBox BW.dims p = true → ¬ bw_fg BW p → L.get? p = some 0)
      ∧ (∀ p q, bw_fg BW p → bw_fg BW q →
          ((∃ l, 0 < l ∧ L.get? p = some l ∧ L.get? q = some l)
            ↔ bw_connected BW conn_mask p q)) := by
  obtain ⟨L, num, fs, h1, h2, _, h4, h5, _, _, h8⟩ := bwlabel_nd_spec BW conn_mask hd hl
  refine ⟨L, num, h1, h2, h4, ?_⟩
  intro p q hp hq
  obtain ⟨j, f, e1, e2, e3⟩ := h5 p hp
  obtain ⟨k, g, d1, d2, d3⟩ := h5 q hq
  constructor
  · rintro ⟨l, _, a1, a2⟩
    rw [e3] at a1
    rw [d3] at a2
    have hjk : j = k := by
      simp only [Option.some.injEq] at a1 a2
      omega
    subst hjk
    rw [e1] at d1
    simp only [Option.some.injEq] at d1
    subst d1
    exact Relation.ReflTransGen.trans (bw_connected_symm _ _ _ _ e2) d2
  · intro hc
    have hjk : j = k := h8 j k f g e1 d1
      (Relation.ReflTransGen.trans e2 (Relation.ReflTransGen.trans hc
        (bw_connected_symm _ _ _ _ d2)))
    subst hjk
    exact ⟨j + 1, Nat.succ_pos _, e3, d3⟩

theorem bwlabel_nd_groups_by_connectivity_witness :
    bwlabel_nd bw_three mask8 = some (⟨[3, 3], [0, 0, 1, 2, 0, 0, 0, 0, 3]⟩, 3)
    ∧ bwlabel_nd bw_diag mask8 = some (⟨[3, 3], [1, 0, 0, 1, 1, 0, 0, 0, 1]⟩, 1)
    ∧ ∃ L num, bwlabel_nd bw_diag mask8 = some (L, num) ∧ L.dims = bw_diag.dims
      ∧ (∀ p, inBox bw_diag.dims p = true → ¬ bw_fg bw_diag p → L.get? p = some 0)
      ∧ (∀ p q, bw_fg bw_diag p → bw_fg bw_diag q →
          ((∃ l, 0 < l ∧ L.get? p = some l ∧ L.get? q = some l)
            ↔ bw_connected bw_diag mask8 p q)) :=
  ⟨by decide, by decide, bwlabel_nd_groups_by_connectivity bw_diag mask8 (by decide) (by decide)⟩

/-- **C30** N-dimensional label numbering: for every boolean array `BW` and every mask with
one dimension of size 3 per dimension of `BW`, the labels that `bwlabel_nd` gives to the
foreground elements are exactly the integers `1..num`, `num` being the count returned;
`num` is the number of components, the list `fs` holding one element of every component
and no two of the same one; and the element `fs[k]`, of label `k + 1` like all its
component, is the element of least column-major linear index of its component, these
indices increasing with `k`. -/
theorem bwlabel_nd_numbering (BW conn_mask : NDArray Bool)
    (hd : conn_mask.dims = List.replicate BW.dims.length 3)
    (hl : conn_mask.data.length = conn_mask.dims.prod) :
    ∃ (L : NDArray Nat) (num : Nat) (fs : List (List Nat)),
      bwlabel_nd BW conn_mask = some (L, num) ∧ fs.length = num
      ∧ (∀ l, (∃ p, bw_fg BW p ∧ L.get? p = some l) ↔ 1 ≤ l ∧ l ≤ num)
      ∧ (∀ p, bw_fg BW p → ∃ (k : Nat) (f : List Nat), fs[k]? = some f
          ∧ bw_connected BW conn_mask f p)
      ∧ (∀ (j k : Nat) (f g : List Nat), fs[j]? = some f → fs[k]? = some g →
          bw_connected BW conn_mask f g → j = k)
      ∧ (∀ (k : Nat) (f : List Nat), fs[k]? = some f → bw_fg BW f
          ∧ ∀ p, bw_fg BW p → bw_connected BW conn_mask f p →
              L.get? p = some (k + 1) ∧ sub2ind BW.dims f ≤ sub2ind BW.dims p)
      ∧ (fs.map (sub2ind BW.dims)).Pairwise (fun a b => a < b) := by
  obtain ⟨L, num, fs, h1, _, h3, _, h5, h6, h7, h8⟩ := bwlabel_nd_spec BW conn_mask hd hl
  refine ⟨L, num, fs, h1, h3, ?_, ?_, h8, ?_, h7⟩
  · intro l
    constructor
    · rintro ⟨p, hp, hl1⟩
      obtain ⟨k, f, e1, _, e3⟩ := h5 p hp
      have hk : k < fs.length := by
        by_contra hcon
        rw [List.getElem?_eq_none (by omega)] at e1
        cases e1
      rw [e3] at hl1
      simp only [Option.some.injEq] at hl1
      omega
    · rintro ⟨l1, l2⟩
      have hk : l - 1 < fs.length := by omega
      obtain ⟨hf, hlab, _⟩ := h6 (l - 1) _ (List.getElem?_eq_getElem hk)
      refine ⟨_, hf, ?_⟩
      rw [hlab]
      congr 1
      omega
  · intro p hp
    obtain ⟨k, f, e1, e2, _⟩ := h5 p hp
    exact ⟨k, f, e1, e2⟩
  · intro k f hk
    obtain ⟨hf, _, hmin⟩ := h6 k f hk
    refine ⟨hf, ?_⟩
    intro p hp hc
    refine ⟨?_, hmin p hp hc⟩
    obtain ⟨j, g, e1, e2, e3⟩ := h5 p hp
    have hjk : k = j := h8 k j f g hk e1
      (Relation.ReflTransGen.trans hc (bw_connected_symm _ _ _ _ e2))
    rw [hjk]
    exact e3

theorem bwlabel_nd_numbering_witness :
    bwlabel_nd bw_diag mask4 = some (⟨[3, 3], [1, 0, 0, 1, 1, 0, 0, 0, 2]⟩, 2)
    ∧ ∃ (L : NDArray Nat) (num : Nat) (fs : List (List Nat)),
      bwlabel_nd bw_diag mask4 = some (L, num) ∧ fs.length = num
      ∧ (∀ l, (∃ p, bw_fg bw_diag p ∧ L.get? p = some l) ↔ 1 ≤ l ∧ l ≤ num)
      ∧ (∀ p, bw_fg bw_diag p → ∃ (k : Nat) (f : List Nat), fs[k]? = some f
          ∧ bw_connected bw_diag mask4 f p)
      ∧ (∀ (j k : Nat) (f g : List Nat), fs[j]? = some f → fs[k]? = some g →
          bw_connected bw_diag mask4 f g → j = k)
      ∧ (∀ (k : Nat) (f : List Nat), fs[k]? = some f → bw_fg bw_diag f
          ∧ ∀ p, bw_fg bw_diag p → bw_connected bw_diag mask4 f p →
              L.get? p = some (k + 1) ∧ sub2ind bw_diag.dims f ≤ sub2ind bw_diag.dims p)
      ∧ (fs.map (sub2ind bw_diag.dims)).Pairwise (fun a b => a < b) :=
  ⟨by decide, bwlabel_nd_numbering bw_diag mask4 (by decide) (by decide)⟩

/-! ## Properties across the shape modes, and of the states the callers reach -/

theorem bool_scan_erosion {H : Type} (E : ElemType Bool H) (hb : E.isBool = true)
    (inp : List Bool) (pos : Nat) (offsets : List Nat) (height : List Bool) :
    ∀ (idxs : List Nat) (o : Bool),
      erode_cell E true true inp pos offsets height idxs o
          = (o && idxs.all (fun k => inp.getD (pos + offsets.getD k 0) E.ofInf))
      ∧ scan_all_offsets true inp pos offsets E.ofInf idxs o
          = (o && idxs.all (fun k => inp.getD (pos + offsets.getD k 0) E.ofInf))
  | [], o => by simp [erode_cell, scan_all_offsets]
  | k :: rest, o => by
    have ih := bool_scan_erosion E hb inp pos offsets height rest
    simp only [erode_cell, scan_all_offsets, hb, if_true, List.all_cons]
    cases hx : inp.getD (pos + offsets.getD k 0) E.ofInf <;> cases o <;>
      simp [(ih false).1, (ih true).1, (ih false).2, (ih true).2, Bool.lt_iff]

theorem bool_scan_dilation {H : Type} (E : ElemType Bool H) (hb : E.isBool = true)
    (inp : List Bool) (pos : Nat) (offsets : List Nat) (height : List Bool) :
    ∀ (idxs : List Nat) (o : Bool),
      erode_cell E false true inp pos offsets height idxs o
          = (o || idxs.any (fun k => inp.getD (pos + offsets.getD k 0) E.ofInf))
      ∧ scan_all_offsets false inp pos offsets E.ofInf idxs o
          = (o || idxs.any (fun k => inp.getD (pos + offsets.getD k 0) E.ofInf))
  | [], o => by simp [erode_cell, scan_all_offsets]
  | k :: rest, o => by
    have ih := bool_scan_dilation E hb inp pos offsets height rest
    simp only [erode_cell, scan_all_offsets, hb, if_true, List.any_cons]
    cases hx : inp.getD (pos + offsets.getD k 0) E.ofInf <;> cases o <;>
      simp [(ih false).1, (ih true).1, (ih false).2, (ih true).2, Bool.lt_iff]

/-- **C35** Boolean short-circuit is sound: for an element type that is `bool`, every
padded buffer, list of offsets, position and running result `o`, the flat scan of
`erode_line`, which leaves the loop at the first cell that changes the running result,
returns what the scan over all the offsets returns: for erosion the conjunction of `o` and
the addressed cells, for dilation their disjunction. -/
theorem bool_short_circuit_sound {H : Type} (E : ElemType Bool H) (hb : E.isBool = true)
    (erosion : Bool) (inp : List Bool) (pos : Nat) (offsets : List Nat) (height : List Bool)
    (idxs : List Nat) (o : Bool) :
    erode_cell E erosion true inp pos offsets height idxs o
        = scan_all_offsets erosion inp pos offsets E.ofInf idxs o
    ∧ (erosion = true → erode_cell E erosion true inp pos offsets height idxs o
        = (o && idxs.all (fun k => inp.getD (pos + offsets.getD k 0) E.ofInf)))
    ∧ (erosion = false → erode_cell E erosion true inp pos offsets height idxs o
        = (o || idxs.any (fun k => inp.getD (pos + offsets.getD k 0) E.ofInf))) := by
  cases erosion with
  | true =>
    obtain ⟨h1, h2⟩ := bool_scan_erosion E hb inp pos offsets height idxs o
    exact ⟨h1.trans h2.symm, fun _ => h1, fun h => absurd h (by decide)⟩
  | false =>
    obtain ⟨h1, h2⟩ := bool_scan_dilation E hb inp pos offsets height idxs o
    exact ⟨h1.trans h2.symm, fun h => absurd h (by decide), fun _ => h1⟩

theorem bool_short_circuit_sound_witness :
    erode_cell boolElem true true [true, false, true, true] 1 [0, 2, 1] [] [0, 1, 2] true
        = false
    ∧ erode_cell boolElem false true [true, false, true, false] 1 [0, 2] [] [0, 1] false
        = false
    ∧ (erode_cell boolElem true true [true, false, true, true] 1 [1, 2] [] [0, 1] true
        = scan_all_offsets true [true, false, true, true] 1 [1, 2] boolElem.ofInf [0, 1] true
      ∧ (true = true → erode_cell boolElem true true [true, false, true, true] 1 [1, 2] []
          [0, 1] true
        = (true && [0, 1].all (fun k =>
            [true, false, true, true].getD (1 + [1, 2].getD k 0) boolElem.ofInf)))
      ∧ (true = false → erode_cell boolElem true true [true, false, true, true] 1 [1, 2] []
          [0, 1] true
        = (true || [0, 1].any (fun k =>
            [true, false, true, true].getD (1 + [1, 2].getD k 0) boolElem.ofInf)))) :=
  ⟨by decide, by decide,
    bool_short_circuit_sound boolElem rfl true [true, false, true, true] 1 [1, 2] [] [0, 1] true⟩

/-- **C36** Union-find well-formedness and termination: in the state after any sequence of
calls of `find` and `unite`, with indices below the capacity, on a freshly constructed
structure, the parent of every entry has an entry, following the parents from any entry
visits finitely many entries, none of them twice, and ends at a root that is its own
parent, and `find` returns for every index below the capacity. -/
theorem union_find_reachable_wf (s : Nat) (cs : List uf_call)
    (hlt : ∀ c ∈ cs, ∀ i ∈ c.args, i < s) :
    ∃ uf, (union_find.ctor s).run cs = some uf
      ∧ (∀ x p, uf.par x = some p → uf.entry p)
      ∧ (∀ x, uf.entry x → ∃ l r, uf.path x l r ∧ l.Nodup ∧ l.length ≤ s ∧ uf.par r = some r)
      ∧ (∀ x, x < s → ∃ uf1 r, uf.find x = some (uf1, r)) := by
  obtain ⟨uf, rt, hrun, hinv, hlen, _, _⟩ :=
    union_find.run_spec cs (union_find.ctor s) id (fun _ _ => False) (union_find.inv_ctor s)
      union_find.inv_ctor_kernel (by rw [union_find.ctor_length]; exact hlt)
  rw [union_find.ctor_length] at hlen
  have hpath : ∀ x, uf.entry x → ∃ l r, uf.path x l r ∧ l.Nodup ∧ l.length ≤ s
      ∧ uf.par r = some r := by
    intro x hx
    obtain ⟨l, hl⟩ := hinv.1 x hx
    refine ⟨l, rt x, hl, union_find.path_nodup uf x l _ hl, ?_, union_find.path_root uf x l _ hl⟩
    rw [← hlen]
    exact union_find.path_length_le uf x l _ hl
  refine ⟨uf, hrun, ?_, hpath, ?_⟩
  · intro x p hp
    obtain ⟨l, r, hl, _⟩ := hpath x ⟨p, hp⟩
    cases hl with
    | root _ h1 =>
      have e : p = x := Option.some.inj (hp.symm.trans h1)
      rw [e]
      exact ⟨x, h1⟩
    | step _ q _ _ h1 _ h2 =>
      have e : p = q := Option.some.inj (hp.symm.trans h1)
      rw [e]
      exact union_find.path_entry uf _ _ _ h2
  · intro x hx
    obtain ⟨uf1, hf, _⟩ := union_find.find_spec uf rt hinv x (by rw [hlen]; exact hx)
    exact ⟨uf1, rt x, hf⟩

theorem union_find_reachable_wf_witness :
    ((union_find.ctor 6).run uf_calls_chain).map (fun uf => (uf.par 2, uf.par 3, uf.par 0))
        = some (some 0, some 2, some 0)
    ∧ ∃ uf, (union_find.ctor 6).run uf_calls_chain = some uf
      ∧ (∀ x p, uf.par x = some p → uf.entry p)
      ∧ (∀ x, uf.entry x → ∃ l r, uf.path x l r ∧ l.Nodup ∧ l.length ≤ 6 ∧ uf.par r = some r)
      ∧ (∀ x, x < 6 → ∃ uf1 r, uf.find x = some (uf1, r)) :=
  ⟨by decide, union_find_reachable_wf 6 uf_calls_chain (by decide)⟩

/-- **C37** Trivial decomposition: the SE built by the constructor from a mask and heights,
the SE built by the constructor that also takes an origin, and therefore the result of
`reflect`, whatever the decomposition of the SE it is called on, have `numel () == 1`, and
the single element of the decomposition has the neighbourhood, the heights and the origin
of the SE itself. -/
theorem trivial_decomposition {H : Type} [Zero H] (nhood : NDArray Bool) (height : NDArray H)
    (origin : List Int) (se : strel H) :
    ((strel.ctor nhood height).numel = 1
      ∧ ∃ e, (strel.ctor nhood height).decomposition = [e]
        ∧ e.nhood = (strel.ctor nhood height).nhood
        ∧ e.height = (strel.ctor nhood height).height
        ∧ e.origin = (strel.ctor nhood height).origin)
    ∧ (∀ r, strel.ctor_origin nhood height origin = some r → r.numel = 1
      ∧ ∃ e, r.decomposition = [e] ∧ e.nhood = r.nhood ∧ e.height = r.height
        ∧ e.origin = r.origin)
    ∧ (∀ r, se.reflect = some r → r.numel = 1
      ∧ ∃ e, r.decomposition = [e] ∧ e.nhood = r.nhood ∧ e.height = r.height
        ∧ e.origin = r.origin) := by
  have key : ∀ (n : NDArray Bool) (h : NDArray H) (o : List Int) (r : strel H),
      strel.ctor_origin n h o = some r → r.numel = 1
        ∧ ∃ e, r.decomposition = [e] ∧ e.nhood = r.nhood ∧ e.height = r.height
          ∧ e.origin = r.origin := by
    intro n h o r hr
    unfold strel.ctor_origin at hr
    simp only at hr
    split_ifs at hr
    cases hr
    exact ⟨rfl, _, rfl, rfl, rfl, rfl⟩
  refine ⟨⟨rfl, _, rfl, rfl, rfl, rfl⟩, key nhood height origin, ?_⟩
  intro r hr
  unfold strel.reflect at hr
  exact key _ _ _ r hr

theorem trivial_decomposition_witness :
    se_seq2.numel = 2
    ∧ (se_seq2.reflect.map strel.numel = some 1)
    ∧ (((strel.ctor nh14 ht14).numel = 1
      ∧ ∃ e, (strel.ctor nh14 ht14).decomposition = [e]
        ∧ e.nhood = (strel.ctor nh14 ht14).nhood
        ∧ e.height = (strel.ctor nh14 ht14).height
        ∧ e.origin = (strel.ctor nh14 ht14).origin)
    ∧ (∀ r, strel.ctor_origin nh14 ht14 [0, 2] = some r → r.numel = 1
      ∧ ∃ e, r.decomposition = [e] ∧ e.nhood = r.nhood ∧ e.height = r.height
        ∧ e.origin = r.origin)
    ∧ (∀ r, se_seq2.reflect = some r → r.numel = 1
      ∧ ∃ e, r.decomposition = [e] ∧ e.nhood = r.nhood ∧ e.height = r.height
        ∧ e.origin = r.origin)) :=
  ⟨by decide, by decide, trivial_decomposition nh14 ht14 [0, 2] se_seq2⟩

/-- **C38** The empty-operand no-op precedes every validation: for an image without
elements, or an SE whose neighbourhood has none, `erode` returns the image unchanged,
whatever the shape string, the element type and the heights; with operands that both have
elements, a shape string other than "valid", "same" and "full" is an error, and so is a
non-flat SE on a boolean image. -/
theorem erode_empty_precedes_validation {P H : Type} [LinearOrder P] [Zero H]
    [DecidableEq H] (E : ElemType P H) (im : NDArray P) (se : strel H) (shape : String)
    (erosion : Bool) :
    ((im.is_empty = true ∨ se.get_nhood.is_empty = true) →
        erode E im se shape erosion = .ok im)
    ∧ (im.is_empty = false → se.get_nhood.is_empty = false →
        shape ≠ "valid" → shape ≠ "same" → shape ≠ "full" →
        erode E im se shape erosion = .error "invalid SHAPE")
    ∧ (im.is_empty = false → se.get_nhood.is_empty = false →
        (shape = "valid" ∨ shape = "same" ∨ shape = "full") →
        E.isBool = true → se.flat = false →
        erode E im se shape erosion
          = .error "only non flat structuring elements for binary images") := by
  refine ⟨erode_of_empty E im se shape erosion, ?_, ?_⟩
  · intro h1 h2 s1 s2 s3
    unfold erode
    simp only [h1, h2, Bool.or_self, Bool.false_eq_true, if_false]
    unfold pad_matrix strel.pre_pad strel.post_pad
    simp [s1, s2, s3]
  · intro h1 h2 hs hb hf
    unfold erode
    simp only [h1, h2, Bool.or_self, Bool.false_eq_true, if_false]
    obtain ⟨padded, hp⟩ := pad_matrix_ok im se (E.padval erosion) shape hs
    rw [hp]
    simp only
    unfold erode_padded
    simp [hb, hf]

theorem erode_empty_precedes_validation_witness :
    erode boolElem (⟨[0, 3], []⟩ : NDArray Bool) (strel.ctor_elem nh_ones3 ht_ones3) "bogus" true
        = .ok ⟨[0, 3], []⟩
    ∧ erode boolElem im1 (strel.ctor_elem nh_empty ht_empty) "bogus" false = .ok im1
    ∧ (((⟨[0, 3], []⟩ : NDArray Bool).is_empty = true
          ∨ (strel.ctor_elem nh_ones3 ht_ones3).get_nhood.is_empty = true) →
        erode boolElem (⟨[0, 3], []⟩ : NDArray Bool) (strel.ctor_elem nh_ones3 ht_ones3)
          "bogus" true = .ok ⟨[0, 3], []⟩) :=
  ⟨by decide, by decide,
    (erode_empty_precedes_validation boolElem (⟨[0, 3], []⟩ : NDArray Bool)
      (strel.ctor_elem nh_ones3 ht_ones3) "bogus" true).1⟩

/-- **C39** All engine reads are in bounds: for every padded array, every SE with no more
dimensions than the array, every position `p` of the output (`p (d)` below
`padded_size (d) - nhood_size (d) + 1`, which leaves no position when the neighbourhood is
larger than the array) and every offset `offsets (cum_size)(k)` computed for the cumulative
size of the padded array, the linear index of `p` plus the offset is the linear index of
`p + s`, where `s` is the `k`-th active cell; `p + s` lies inside the padded array and the
element read is the one stored there. -/
theorem engine_reads_in_bounds {P H : Type} (padded : NDArray P)
    (hlen : padded.data.length = padded.dims.prod) (se : strel H) (hse : se.consistent)
    (hdim : se.get_nhood.ndims ≤ padded.ndims) (p : List Nat)
    (hp : inBox (out_dims padded.dims se.get_nhood.dims) p = true) (k off : Nat)
    (hk : (se.offsets (cumulative padded.dims))[k]? = some off) :
    ∃ s, se.active[k]? = some s
      ∧ inBox padded.dims (sub_add p s) = true
      ∧ sub2ind padded.dims p + off = sub2ind padded.dims (sub_add p s)
      ∧ sub2ind padded.dims p + off < padded.data.length
      ∧ ∃ x, padded.data[sub2ind padded.dims p + off]? = some x
        ∧ padded.get? (sub_add p s) = some x := by
  rw [offsets_eq_active se hse, List.getElem?_map] at hk
  cases hs : se.active[k]? with
  | none => rw [hs] at hk; cases hk
  | some s =>
    rw [hs] at hk
    simp only [Option.map_some', Option.some.injEq] at hk
    have hmem : s ∈ se.active := List.mem_iff_getElem?.mpr ⟨k, hs⟩
    have hsb := mem_active_inBox se hse s hmem
    have hin := inBox_sub_add padded.dims se.nhood.dims p s hsb hp hdim
    have hpl : p.length = padded.dims.length := by
      rw [inBox_length _ _ hp, out_dims_length]
    have hsl : s.length ≤ padded.dims.length := by
      rw [inBox_length _ _ hsb]
      exact hdim
    have heq := sub2ind_add_offset padded.dims p s hpl hsl
    have hlt := sub2ind_lt _ _ hin
    rw [← hk, heq]
    refine ⟨s, rfl, hin, rfl, by rw [hlen]; exact hlt, ?_⟩
    have hlt2 : sub2ind padded.dims (sub_add p s) < padded.data.length := by
      rw [hlen]; exact hlt
    refine ⟨padded.data[sub2ind padded.dims (sub_add p s)], List.getElem?_eq_getElem hlt2, ?_⟩
    unfold NDArray.get?
    rw [if_pos hin, List.getElem?_eq_getElem hlt2]

theorem engine_reads_in_bounds_witness :
    (strel.ctor_elem nh34 ht34).offsets (cumulative im57.dims) = [6, 7, 12, 15, 17]
    ∧ sub2ind im57.dims [1, 2] = 11
    ∧ ∃ s, (strel.ctor_elem nh34 ht34).active[2]? = some s
      ∧ inBox im57.dims (sub_add [1, 2] s) = true
      ∧ sub2ind im57.dims [1, 2] + 12 = sub2ind im57.dims (sub_add [1, 2] s)
      ∧ sub2ind im57.dims [1, 2] + 12 < im57.data.length
      ∧ ∃ x, im57.data[sub2ind im57.dims [1, 2] + 12]? = some x
        ∧ im57.get? (sub_add [1, 2] s) = some x :=
  ⟨by decide, by decide,
    engine_reads_in_bounds im57 (by decide) (strel.ctor_elem nh34 ht34)
      (ctor_elem_consistent nh34 ht34 (by decide)) (by decide) [1, 2] (by decide) 2 12
      (by decide)⟩

theorem im_ext_cases {P : Type} (im : NDArray P) (pv : P) (z : List Int) :
    (∃ q, q.map (fun (n : Nat) => (n : Int)) = z ∧ im.get? q = some (im_ext im pv z))
    ∨ ((∀ q x, q.map (fun (n : Nat) => (n : Int)) = z → im.get? q ≠ some x)
      ∧ im_ext im pv z = pv) := by
  unfold im_ext
  by_cases hz : z.all (fun x => decide (0 ≤ x)) = true
  · rw [if_pos hz]
    cases hg : im.get? (z.map Int.toNat) with
    | some x => exact Or.inl ⟨_, map_ofNat_toNat z hz, hg⟩
    | none =>
      refine Or.inr ⟨?_, rfl⟩
      intro q x hq hx
      rw [← hq, map_toNat_ofNat, hx] at hg
      cases hg
  · rw [if_neg hz]
    refine Or.inr ⟨?_, rfl⟩
    intro q x hq _
    apply hz
    rw [← hq]
    exact all_nonneg_ofNat q

theorem foldl_min_partial {P : Type} [LinearOrder P] (t : P) (ht : ∀ x : P, x ≤ t)
    (L : List P) (S : Set P) (h1 : ∀ x ∈ L, x ∈ S ∨ x = t) (h2 : ∀ x ∈ S, x ∈ L) :
    (S.Nonempty → IsLeast S (L.foldl min t)) ∧ (S = ∅ → L.foldl min t = t) := by
  obtain ⟨_, k2, k3⟩ := foldl_min_le L t
  have hmem : L.foldl min t ∈ S ∨ L.foldl min t = t := by
    rcases k3 with h | h
    · exact Or.inr h
    · exact h1 _ h
  constructor
  · rintro ⟨x, hx⟩
    refine ⟨?_, fun y hy => k2 y (h2 y hy)⟩
    rcases hmem with h | h
    · exact h
    · have : x = L.foldl min t := le_antisymm (by rw [h]; exact ht x) (k2 x (h2 x hx))
      rw [← this]
      exact hx
  · intro hS
    rcases hmem with h | h
    · rw [hS] at h
      exact absurd h (Set.not_mem_empty _)
    · exact h

theorem foldl_max_partial {P : Type} [LinearOrder P] (b : P) (hb : ∀ x : P, b ≤ x)
    (L : List P) (S : Set P) (h1 : ∀ x ∈ L, x ∈ S ∨ x = b) (h2 : ∀ x ∈ S, x ∈ L) :
    (S.Nonempty → IsGreatest S (L.foldl max b)) ∧ (S = ∅ → L.foldl max b = b) := by
  obtain ⟨_, k2, k3⟩ := foldl_max_ge L b
  have hmem : L.foldl max b ∈ S ∨ L.foldl max b = b := by
    rcases k3 with h | h
    · exact Or.inr h
    · exact h1 _ h
  constructor
  · rintro ⟨x, hx⟩
    refine ⟨?_, fun y hy => k2 y (h2 y hy)⟩
    rcases hmem with h | h
    · exact h
    · have : x = L.foldl max b := le_antisymm (k2 x (h2 x hx)) (by rw [h]; exact hb x)
      rw [← this]
      exact hx
  · intro hS
    rcases hmem with h | h
    · rw [hS] at h
      exact absurd h (Set.not_mem_empty _)
    · exact h

theorem getD_map_double (o : List Int) (d : Nat) :
    (o.map (fun x => 2 * x)).getD d 0 = o.getD d 0 * 2 := by
  rw [List.getD_eq_getElem?_getD, List.getD_eq_getElem?_getD, List.getElem?_map]
  cases o[d]? with
  | none => rfl
  | some x => simp [mul_comm]

/-- What `erode` returns with shape "full" for a flat SE: the min or max, started from the
padding value, of the values of the extended image at `p + s - 2 * origin`. -/
theorem erode_full_flat {P H : Type} [LinearOrder P] [Zero H] [DecidableEq H]
    (E : ElemType P H) (hE : E.lawful) (im : NDArray P)
    (hnd : 1 ≤ im.dims.length) (hne : im.is_empty = false) (se : strel H)
    (hse : se.consistent) (hor : se.origin_ok)
    (hdim : se.nhood.dims.length ≤ im.dims.length) (hflat : se.flat = true)
    (erosion : Bool) :
    ∃ out, erode E im se "full" erosion = .ok out
      ∧ out.dims = pad_dims 1 im.dims se.nhood.dims
      ∧ ∀ p, inBox out.dims p = true → out.get? p = some (
          if erosion then
            (se.active.map (fun s => im_ext im (E.padval erosion)
              (pos_add_sub p s (se.origin.map (fun o => 2 * o))))).foldl min (E.padval erosion)
          else
            (se.active.map (fun s => im_ext im (E.padval erosion)
              (pos_add_sub p s (se.origin.map (fun o => 2 * o))))).foldl max
                (E.padval erosion)) := by
  obtain ⟨out, ho, hd, hv⟩ := erode_mode E hE im hnd hne se hse hor hdim erosion
    (fun _ => hflat) "full" 2 (Or.inr ⟨rfl, rfl⟩)
  refine ⟨out, ho, hd, ?_⟩
  intro p hp
  have hplen : p.length = im.dims.length := by
    have := inBox_length _ _ hp
    rw [hd] at this
    rw [this]
    clear this hp hv hd ho
    generalize im.dims = a
    generalize se.nhood.dims = b
    induction a generalizing b with
    | nil => cases b <;> rfl
    | cons x xs ih =>
      cases b with
      | nil => rfl
      | cons y ys => simp [pad_dims, ih ys]
  have hpre : ∀ d, d < p.length →
      ((List.range im.dims.length).map (fun d => se.origin.getD d 0 * ((2 : Nat) : Int))).getD d 0
        = (se.origin.map (fun o => 2 * o)).getD d 0 := by
    intro d hdlt
    rw [getD_map_range _ _ _ _ (by omega), getD_map_double]
    rfl
  have hext : ∀ er : Bool, ext_values E er true im (E.padval erosion) se
      ((List.range im.dims.length).map (fun d => se.origin.getD d 0 * ((2 : Nat) : Int))) p
      = se.active.map (fun s => im_ext im (E.padval erosion)
          (pos_add_sub p s (se.origin.map (fun o => 2 * o)))) := by
    intro er
    unfold ext_values
    apply List.map_congr_left
    intro s _
    simp only [if_true]
    rw [pos_add_sub_congr p s _ _ hpre]
  rw [hv p hp, hflat, hext true, hext erosion]
  by_cases hnnz : se.nnz = 1
  · rw [if_pos hnnz]
    obtain ⟨x0, hx0⟩ : ∃ x0, se.active.map (fun s => im_ext im (E.padval erosion)
        (pos_add_sub p s (se.origin.map (fun o => 2 * o)))) = [x0] := by
      apply List.length_eq_one.mp
      rw [List.length_map, active_length se hse, hnnz]
    rw [hx0]
    cases erosion with
    | true =>
      simp only [List.headD_cons, if_true, List.foldl_cons, List.foldl_nil]
      rw [min_eq_right (le_padval E hE x0)]
    | false =>
      simp only [List.headD_cons, Bool.false_eq_true, if_false, List.foldl_cons, List.foldl_nil]
      rw [max_eq_right (padval_le E hE x0)]
  · rw [if_neg hnnz]

theorem full_inside_list {P H : Type} (im : NDArray P) (pv : P) (se : strel H) (p : List Nat) :
    (∀ x ∈ se.active.map (fun s => im_ext im pv
        (pos_add_sub p s (se.origin.map (fun o => 2 * o)))), x ∈ full_inside im se p ∨ x = pv)
    ∧ (∀ x ∈ full_inside im se p, x ∈ se.active.map (fun s => im_ext im pv
        (pos_add_sub p s (se.origin.map (fun o => 2 * o))))) := by
  constructor
  · intro x hx
    rw [List.mem_map] at hx
    obtain ⟨s, hs, rfl⟩ := hx
    rcases im_ext_cases im pv (pos_add_sub p s (se.origin.map (fun o => 2 * o))) with
      ⟨q, hq, hg⟩ | ⟨_, h⟩
    · exact Or.inl ⟨s, hs, q, hq, hg⟩
    · exact Or.inr h
  · rintro x ⟨s, hs, q, hq, hg⟩
    rw [List.mem_map]
    refine ⟨s, hs, ?_⟩
    rcases im_ext_cases im pv (pos_add_sub p s (se.origin.map (fun o => 2 * o))) with
      ⟨q1, hq1, hg1⟩ | ⟨h, _⟩
    · have : q1 = q := by
        rw [← map_toNat_ofNat q1, ← map_toNat_ofNat q, hq1, hq]
      rw [this, hg] at hg1
      exact (Option.some.inj hg1).symm
    · exact absurd hg (h q x hq)

/-- **C34** Padding is the identity element: with shape "full", for a non-empty image and a
flat SE (origin inside its neighbourhood, no more dimensions than the image), the erosion
output at every position `p` is the least of the image values at the positions
`p + s - 2 * origin`, `s` active, that fall inside the image, and the padding value
`P (octave_Inf)`, the largest value of the type, when none of them falls inside; dually
the dilation output is the greatest of these values and the padding value of dilation, the
smallest value of the type, when there is none. -/
theorem erode_full_padding_identity {P H : Type} [LinearOrder P] [Zero H] [DecidableEq H]
    (E : ElemType P H) (hE : E.lawful) (im : NDArray P) (him : im.wf)
    (hne : im.is_empty = false) (se : strel H) (hse : se.consistent) (hor : se.origin_ok)
    (hdim : se.get_nhood.ndims ≤ im.ndims) (hflat : se.flat = true) :
    (∃ out, erode E im se "full" true = .ok out
      ∧ out.dims = pad_dims 1 im.dims se.get_nhood.dims
      ∧ ∀ p, inBox out.dims p = true → ∃ v, out.get? p = some v
        ∧ ((full_inside im se p).Nonempty → IsLeast (full_inside im se p) v)
        ∧ (full_inside im se p = ∅ → v = E.ofInf)
        ∧ ∀ x, x ≤ E.ofInf)
    ∧ (∃ out, erode E im se "full" false = .ok out
      ∧ out.dims = pad_dims 1 im.dims se.get_nhood.dims
      ∧ ∀ p, inBox out.dims p = true → ∃ v, out.get? p = some v
        ∧ ((full_inside im se p).Nonempty → IsGreatest (full_inside im se p) v)
        ∧ (full_inside im se p = ∅ → v = E.padval false)
        ∧ ∀ x, E.padval false ≤ x) := by
  have hnd : 1 ≤ im.dims.length := le_trans (by decide) him.1
  constructor
  · obtain ⟨out, ho, hd, hv⟩ := erode_full_flat E hE im hnd hne se hse hor hdim hflat true
    refine ⟨out, ho, hd, ?_⟩
    intro p hp
    obtain ⟨l1, l2⟩ := full_inside_list im (E.padval true) se p
    obtain ⟨m1, m2⟩ := foldl_min_partial (E.padval true) (le_padval E hE) _ _ l1 l2
    exact ⟨_, hv p hp, m1, m2, hE.1⟩
  · obtain ⟨out, ho, hd, hv⟩ := erode_full_flat E hE im hnd hne se hse hor hdim hflat false
    refine ⟨out, ho, hd, ?_⟩
    intro p hp
    obtain ⟨l1, l2⟩ := full_inside_list im (E.padval false) se p
    obtain ⟨m1, m2⟩ := foldl_max_partial (E.padval false) (padval_le E hE) _ _ l1 l2
    exact ⟨_, hv p hp, m1, m2, padval_le E hE⟩

theorem erode_full_padding_identity_witness :
    erode boolElem im1 (strel.ctor_elem nh1 ht1) "full" true = .ok im1_full
    ∧ ((∃ out, erode boolElem im1 (strel.ctor_elem nh1 ht1) "full" true = .ok out
      ∧ out.dims = pad_dims 1 im1.dims (strel.ctor_elem nh1 ht1).get_nhood.dims
      ∧ ∀ p, inBox out.dims p = true → ∃ v, out.get? p = some v
        ∧ ((full_inside im1 (strel.ctor_elem nh1 ht1) p).Nonempty →
            IsLeast (full_inside im1 (strel.ctor_elem nh1 ht1) p) v)
        ∧ (full_inside im1 (strel.ctor_elem nh1 ht1) p = ∅ → v = boolElem.ofInf)
        ∧ ∀ x, x ≤ boolElem.ofInf)
    ∧ (∃ out, erode boolElem im1 (strel.ctor_elem nh1 ht1) "full" false = .ok out
      ∧ out.dims = pad_dims 1 im1.dims (strel.ctor_elem nh1 ht1).get_nhood.dims
      ∧ ∀ p, inBox out.dims p = true → ∃ v, out.get? p = some v
        ∧ ((full_inside im1 (strel.ctor_elem nh1 ht1) p).Nonempty →
            IsGreatest (full_inside im1 (strel.ctor_elem nh1 ht1) p) v)
        ∧ (full_inside im1 (strel.ctor_elem nh1 ht1) p = ∅ → v = boolElem.padval false)
        ∧ ∀ x, boolElem.padval false ≤ x)) :=
  ⟨by decide,
    erode_full_padding_identity boolElem boolElem_lawful im1 (by decide) (by decide)
      (strel.ctor_elem nh1 ht1) (ctor_elem_consistent nh1 ht1 (by decide))
      (ctor_elem_origin_ok nh1 ht1 (by decide)) (by decide) (by decide)⟩

theorem out_size_map_toNat (in_d nh : List Nat) (hdim : nh.length ≤ in_d.length) :
    ((List.range in_d.length).map (fun i =>
        (in_d.getD i 0 : Int) - (((redim nh in_d.length).getD i 0 : Nat) - 1))).map Int.toNat
      = out_dims in_d nh
    ∧ ((List.range in_d.length).map (fun i =>
        (in_d.getD i 0 : Int) - (((redim nh in_d.length).getD i 0 : Nat) - 1))).length
      = in_d.length := by
  have hr : (redim nh in_d.length).length = in_d.length := by
    rw [redim_of_le _ _ hdim]; simp; omega
  have hz := range_map_getD_eq_zipWith (fun (a b : Nat) => (a : Int) - ((b : Int) - 1)) 0 0
    in_d.length in_d (redim nh in_d.length) rfl hr
  rw [hz, redim_of_le _ _ hdim]
  refine ⟨?_, ?_⟩
  · rw [List.map_zipWith]
    exact zipWith_out_dims in_d nh hdim
  · simp; omega

/-- A position of the output exists only when the neighbourhood fits the array. -/
theorem fits_of_inBox_out_dims : ∀ (a b p : List Nat), inBox (out_dims a b) p = true →
    b.length ≤ a.length → fits a b = true
  | a, [], _, _, _ => by cases a <;> rfl
  | [], _ :: _, _, _, hl => by simp at hl
  | a :: as, b :: bs, [], hp, _ => by simp [out_dims, inBox] at hp
  | a :: as, b :: bs, p0 :: ps, hp, hl => by
    simp only [out_dims, inBox, Bool.and_eq_true, decide_eq_true_eq] at hp
    simp only [fits, Bool.and_eq_true, decide_eq_true_eq]
    exact ⟨by omega, fits_of_inBox_out_dims as bs ps hp.2 (by simpa using hl)⟩

/-- The extents of what `erode_padded` returns, when it returns. -/
theorem erode_padded_dims {P H : Type} [LinearOrder P] [Zero H] [DecidableEq H]
    (E : ElemType P H) (padded : NDArray P) (se : strel H) (hse : se.consistent)
    (hdim : se.nhood.dims.length ≤ padded.dims.length) (erosion : Bool) (out : NDArray P)
    (ho : erode_padded E padded se erosion = .ok out) :
    out.dims = out_dims padded.dims se.nhood.dims := by
  obtain ⟨h1, h3⟩ := out_size_map_toNat padded.dims se.nhood.dims hdim
  unfold erode_padded at ho
  simp only [strel.get_nnz, strel.get_nhood] at ho
  split_ifs at ho with hb hnnz
  · cases ho
    exact (erode_shift_get? E padded se hse hnnz hdim _ h1 h3).1
  · unfold erode_sweep at ho
    split_ifs at ho
    cases ho
    exact h1

/-- A non-flat SE on a boolean image is refused for every shape. -/
theorem erode_error_of_bool_nonflat {P H : Type} [LinearOrder P] [Zero H] [DecidableEq H]
    (E : ElemType P H) (im : NDArray P) (se : strel H) (shape : String) (erosion : Bool)
    (h1 : im.is_empty = false) (h2 : se.get_nhood.is_empty = false)
    (hb : E.isBool = true) (hf : se.flat = false) (out : NDArray P) :
    erode E im se shape erosion ≠ .ok out := by
  unfold erode
  simp only [h1, h2, Bool.or_self, Bool.false_eq_true, if_false]
  cases hp : pad_matrix im se (E.padval erosion) shape with
  | error e => simp
  | ok padded =>
    simp only
    unfold erode_padded
    simp [hb, hf]

theorem pos_add_sub_shift (p s o : List Nat) (pre pre1 : List Int)
    (h : ∀ d, d < p.length → pre1.getD d 0 = pre.getD d 0 - (o.getD d 0 : Nat)) :
    pos_add_sub (sub_add p o) s pre = pos_add_sub p s pre1 := by
  apply List.ext_getElem?
  intro d
  rw [pos_add_sub_getElem?, pos_add_sub_getElem?, sub_add_getElem?]
  by_cases hd : d < p.length
  · rw [List.getElem?_eq_getElem hd]
    simp only [Option.map_some', Option.some.injEq]
    rw [h d hd]
    push_cast
    ring
  · rw [List.getElem?_eq_none (by omega)]
    rfl

theorem ext_values_shift {P H : Type} [Zero H] (E : ElemType P H) (erosion flat : Bool)
    (im : NDArray P) (pv : P) (se : strel H) (p o : List Nat) (pre pre1 : List Int)
    (h : ∀ d, d < p.length → pre1.getD d 0 = pre.getD d 0 - (o.getD d 0 : Nat)) :
    ext_values E erosion flat im pv se pre (sub_add p o)
      = ext_values E erosion flat im pv se pre1 p := by
  unfold ext_values
  apply List.map_congr_left
  intro s _
  simp only
  rw [pos_add_sub_shift p s o pre pre1 h]

/-- The origin as natural numbers, and the padding `k * origin` less the origin. -/
theorem origin_shift {H : Type} (se : strel H) (hor : se.origin_ok) (n k d : Nat)
    (hd : d < n) :
    ((List.range n).map (fun d => se.origin.getD d 0 * (k : Int))).getD d 0
      = ((List.range n).map (fun d => se.origin.getD d 0 * ((k + 1 : Nat) : Int))).getD d 0
        - ((se.origin.map Int.toNat).getD d 0 : Nat) := by
  rw [getD_map_range _ _ _ _ hd, getD_map_range _ _ _ _ hd]
  have hto : (((se.origin.map Int.toNat).getD d 0 : Nat) : Int) = se.origin.getD d 0 := by
    rw [List.getD_eq_getElem?_getD, List.getD_eq_getElem?_getD, List.getElem?_map]
    by_cases hdo : d < se.origin.length
    · rw [List.getElem?_eq_getElem hdo]
      simp only [Option.map_some', Option.getD_some]
      have := (hor.2 d (by rw [← hor.1]; exact hdo)).1
      rw [List.getD_eq_getElem?_getD, List.getElem?_eq_getElem hdo] at this
      exact Int.toNat_of_nonneg this
    · rw [List.getElem?_eq_none (by omega)]
      rfl
  rw [hto]
  push_cast
  ring

theorem cell_values_eq_ext_zero {P H : Type} [Zero H] (E : ElemType P H)
    (erosion flat : Bool) (im : NDArray P) (hlen : im.data.length = im.dims.prod) (pv : P)
    (se : strel H) (hse : se.consistent) (hdim : se.nhood.dims.length ≤ im.dims.length)
    (p : List Nat) (hp : inBox (out_dims im.dims se.nhood.dims) p = true) :
    cell_values E erosion flat im se p = ext_values E erosion flat im pv se
      ((List.range im.dims.length).map (fun d => se.origin.getD d 0 * ((0 : Nat) : Int))) p := by
  apply cell_values_eq_ext_values E erosion flat im pv im se hse _ (by simp) hdim _ p hp
  intro q hq
  have hz : List.zipWith (fun (x : Nat) (r : Int) => (x : Int) - r) q
      ((List.range im.dims.length).map (fun d => se.origin.getD d 0 * ((0 : Nat) : Int)))
      = q.map (fun (x : Nat) => (x : Int)) := by
    apply List.ext_getElem?
    intro d
    rw [List.getElem?_zipWith, List.getElem?_map, List.getElem?_map]
    have hql := inBox_length _ _ hq
    by_cases hd : d < q.length
    · rw [List.getElem?_eq_getElem hd, List.getElem?_range (by omega)]
      simp
    · rw [List.getElem?_eq_none (by omega)]
      rfl
  rw [hz]
  unfold im_ext
  rw [if_pos (all_nonneg_ofNat q), map_toNat_ofNat]
  unfold NDArray.get?
  rw [if_pos hq]
  have hlt : sub2ind im.dims q < im.data.length := by
    rw [hlen]; exact sub2ind_lt _ _ hq
  rw [List.getElem?_eq_getElem hlt]
  rfl

theorem erode_valid_eq_padded {P H : Type} [LinearOrder P] [Zero H] [DecidableEq H]
    (E : ElemType P H) (im : NDArray P) (se : strel H) (erosion : Bool)
    (hne : im.is_empty = false) (hnh : se.get_nhood.is_empty = false) :
    erode E im se "valid" erosion = erode_padded E im se erosion := by
  have hpad : pad_matrix im se (E.padval erosion) "valid" = .ok im := by
    unfold pad_matrix; rw [if_pos rfl]
  unfold erode
  simp only [hne, hnh, Bool.or_self, Bool.false_eq_true, if_false, hpad]

theorem inBox_pad_dims_sub_add (a nh p o : List Nat) (hp : inBox a p = true)
    (ho : inBox nh o = true) (hl : nh.length ≤ a.length) (hpos : ∀ b ∈ nh, 1 ≤ b) :
    inBox (pad_dims 1 a nh) (sub_add p o) = true := by
  apply inBox_sub_add (pad_dims 1 a nh) nh p o ho
  · rw [out_dims_pad_dims 0 a nh hpos, pad_dims_zero]
    exact hp
  · rw [pad_dims_length]
    exact hl

/-- **C33** Shape modes are nested crops: for a non-empty image, an SE with its origin `o`
inside its neighbourhood and no more dimensions than the image, flat or not, and both
operations, whenever `erode` returns for two of the shapes, the "valid" output at `p` is
the "same" output at `p + o` for every position `p` of the "valid" output, and the "same"
output at `p` is the "full" output at `p + o` for every position `p` of the "same" output;
`erode` does return for "same" and "full", and for "valid" when the neighbourhood fits the
image, unless the image is boolean and the SE non-flat, which is an error for every
shape. -/
theorem shape_modes_nested_crops {P H : Type} [LinearOrder P] [Zero H] [DecidableEq H]
    (E : ElemType P H) (hE : E.lawful) (im : NDArray P) (him : im.wf)
    (hne : im.is_empty = false) (se : strel H) (hse : se.consistent) (hor : se.origin_ok)
    (hdim : se.get_nhood.ndims ≤ im.ndims) (erosion : Bool) :
    ((E.isBool = true → se.flat = true) →
      ∃ os ofull, erode E im se "same" erosion = .ok os ∧ os.dims = im.dims
        ∧ erode E im se "full" erosion = .ok ofull
        ∧ ofull.dims = pad_dims 1 im.dims se.get_nhood.dims)
    ∧ ((E.isBool = true → se.flat = true) → fits im.dims se.get_nhood.dims = true →
      ∃ ov, erode E im se "valid" erosion = .ok ov
        ∧ ov.dims = out_dims im.dims se.get_nhood.dims)
    ∧ (∀ ov os, erode E im se "valid" erosion = .ok ov →
        erode E im se "same" erosion = .ok os →
        ∀ p, inBox ov.dims p = true →
          ∃ v, ov.get? p = some v
            ∧ os.get? (sub_add p (se.get_origin.map Int.toNat)) = some v)
    ∧ (∀ os ofull, erode E im se "same" erosion = .ok os →
        erode E im se "full" erosion = .ok ofull →
        ∀ p, inBox os.dims p = true →
          ∃ v, os.get? p = some v
            ∧ ofull.get? (sub_add p (se.get_origin.map Int.toNat)) = some v) := by
  have hnd : 1 ≤ im.dims.length := le_trans (by decide) him.1
  have hnh := nhood_not_empty se hse hor
  have hob : inBox se.nhood.dims (se.origin.map Int.toNat) = true := by
    rw [← hse.size_eq]
    exact origin_inBox se hse hor
  have hpos := nhood_dims_pos se hse hor
  have hshift : ∀ (er fl : Bool) (p : List Nat), p.length = im.dims.length → ∀ k : Nat,
      ext_values E er fl im (E.padval erosion) se
          ((List.range im.dims.length).map (fun d => se.origin.getD d 0 * ((k + 1 : Nat) : Int)))
          (sub_add p (se.origin.map Int.toNat))
        = ext_values E er fl im (E.padval erosion) se
          ((List.range im.dims.length).map (fun d => se.origin.getD d 0 * ((k : Nat) : Int))) p := by
    intro er fl p hp k
    apply ext_values_shift
    intro d hd
    rw [hp] at hd
    exact origin_shift se hor im.dims.length k d hd
  refine ⟨?_, ?_, ?_, ?_⟩
  · intro hbool
    obtain ⟨os, h1, h2, _⟩ := erode_mode E hE im hnd hne se hse hor hdim erosion hbool
      "same" 1 (Or.inl ⟨rfl, rfl⟩)
    obtain ⟨ofull, h3, h4, _⟩ := erode_mode E hE im hnd hne se hse hor hdim erosion hbool
      "full" 2 (Or.inr ⟨rfl, rfl⟩)
    rw [Nat.sub_self, pad_dims_zero] at h2
    exact ⟨os, ofull, h1, h2, h3, h4⟩
  · intro hbool hfit
    obtain ⟨ov, h1, h2, _⟩ := erode_valid E hE im hnd hne se hse hnh hdim hfit erosion hbool
    exact ⟨ov, h1, h2⟩
  · intro ov os hov hos p hp
    by_cases hbn : E.isBool = true ∧ se.flat = false
    · exact absurd hos (erode_error_of_bool_nonflat E im se "same" erosion hne hnh hbn.1 hbn.2 os)
    · have hbool : E.isBool = true → se.flat = true := by
        intro hb
        cases hf : se.flat
        · exact absurd ⟨hb, hf⟩ hbn
        · rfl
      have hovd : ov.dims = out_dims im.dims se.nhood.dims := by
        rw [erode_valid_eq_padded E im se erosion hne hnh] at hov
        exact erode_padded_dims E im se hse hdim erosion ov hov
      rw [hovd] at hp
      have hfit := fits_of_inBox_out_dims _ _ p hp hdim
      obtain ⟨ov1, g1, g2, g3⟩ := erode_valid E hE im hnd hne se hse hnh hdim hfit erosion hbool
      obtain ⟨os1, k1, k2, k3⟩ := erode_mode E hE im hnd hne se hse hor hdim erosion hbool
        "same" 1 (Or.inl ⟨rfl, rfl⟩)
      rw [hov] at g1
      rw [hos] at k1
      cases g1
      cases k1
      rw [Nat.sub_self, pad_dims_zero] at k2
      have hq : inBox im.dims (sub_add p (se.origin.map Int.toNat)) = true :=
        inBox_sub_add im.dims se.nhood.dims p _ hob hp hdim
      have hpl : p.length = im.dims.length := by
        rw [inBox_length _ _ hp, out_dims_length]
      refine ⟨_, g3 p (by rw [g2]; exact hp), ?_⟩
      rw [strel.get_origin, k3 _ (by rw [k2]; exact hq), hshift _ _ p hpl 0,
        hshift _ _ p hpl 0,
        ← cell_values_eq_ext_zero E true true im him.2 _ se hse hdim p hp,
        ← cell_values_eq_ext_zero E erosion se.flat im him.2 _ se hse hdim p hp]
      unfold sweep_value
      rfl
  · intro os ofull hos hof p hp
    by_cases hbn : E.isBool = true ∧ se.flat = false
    · exact absurd hos (erode_error_of_bool_nonflat E im se "same" erosion hne hnh hbn.1 hbn.2 os)
    · have hbool : E.isBool = true → se.flat = true := by
        intro hb
        cases hf : se.flat
        · exact absurd ⟨hb, hf⟩ hbn
        · rfl
      obtain ⟨os1, k1, k2, k3⟩ := erode_mode E hE im hnd hne se hse hor hdim erosion hbool
        "same" 1 (Or.inl ⟨rfl, rfl⟩)
      obtain ⟨of1, f1, f2, f3⟩ := erode_mode E hE im hnd hne se hse hor hdim erosion hbool
        "full" 2 (Or.inr ⟨rfl, rfl⟩)
      rw [hos] at k1
      rw [hof] at f1
      cases k1
      cases f1
      have k2a := k2
      rw [Nat.sub_self, pad_dims_zero] at k2a
      rw [k2a] at hp
      have hq : inBox (pad_dims 1 im.dims se.nhood.dims)
          (sub_add p (se.origin.map Int.toNat)) = true :=
        inBox_pad_dims_sub_add im.dims se.nhood.dims p _ hp hob hdim hpos
      have hpl : p.length = im.dims.length := inBox_length _ _ hp
      refine ⟨_, k3 p (by rw [k2a]; exact hp), ?_⟩
      rw [strel.get_origin, f3 _ (by rw [f2]; exact hq), hshift _ _ p hpl 1,
        hshift _ _ p hpl 1]

theorem shape_modes_nested_crops_witness :
    erode uint8Elem im15 se14 "valid" true = .ok ⟨[1, 2], [1, 2]⟩
    ∧ erode uint8Elem im15 se14 "same" true = .ok ⟨[1, 5], [0, 0, 1, 2, 3]⟩
    ∧ erode uint8Elem im15 se14 "full" true = .ok ⟨[1, 8], [252, 0, 0, 0, 1, 2, 3, 4]⟩
    ∧ se14.get_origin = [0, 2]
    ∧ (((uint8Elem.isBool = true → se14.flat = true) →
      ∃ os ofull, erode uint8Elem im15 se14 "same" true = .ok os ∧ os.dims = im15.dims
        ∧ erode uint8Elem im15 se14 "full" true = .ok ofull
        ∧ ofull.dims = pad_dims 1 im15.dims se14.get_nhood.dims)
    ∧ ((uint8Elem.isBool = true → se14.flat = true) →
      fits im15.dims se14.get_nhood.dims = true →
      ∃ ov, erode uint8Elem im15 se14 "valid" true = .ok ov
        ∧ ov.dims = out_dims im15.dims se14.get_nhood.dims)
    ∧ (∀ ov os, erode uint8Elem im15 se14 "valid" true = .ok ov →
        erode uint8Elem im15 se14 "same" true = .ok os →
        ∀ p, inBox ov.dims p = true →
          ∃ v, ov.get? p = some v
            ∧ os.get? (sub_add p (se14.get_origin.map Int.toNat)) = some v)
    ∧ (∀ os ofull, erode uint8Elem im15 se14 "same" true = .ok os →
        erode uint8Elem im15 se14 "full" true = .ok ofull →
        ∀ p, inBox os.dims p = true →
          ∃ v, os.get? p = some v
            ∧ ofull.get? (sub_add p (se14.get_origin.map Int.toNat)) = some v)) :=
  ⟨by decide, by decide, by decide, by decide,
    shape_modes_nested_crops uint8Elem uint8Elem_lawful im15 (by decide) (by decide) se14
      se14_consistent se14_origin_ok (by decide) true⟩

theorem cell_sum_getD : ∀ (a b : List Nat) (d : Nat),
    (cell_sum a b).getD d 0 = a.getD d 0 + b.getD d 0
  | [], [], _ => by simp [cell_sum]
  | [], _ :: _, _ => by simp [cell_sum]
  | _ :: _, [], _ => by simp [cell_sum]
  | a :: as, b :: bs, 0 => by simp [cell_sum]
  | a :: as, b :: bs, d + 1 => by
    simp only [cell_sum, List.getD_cons_succ]
    exact cell_sum_getD as bs d

theorem dims_minkowski_getD : ∀ (a b : List Nat) (d : Nat),
    (dims_minkowski a b).getD d 1 = a.getD d 1 + b.getD d 1 - 1
  | [], [], _ => by simp [dims_minkowski]
  | [], _ :: _, _ => by
    simp only [dims_minkowski, List.getD_nil]
    omega
  | _ :: _, [], _ => by simp [dims_minkowski]
  | a :: as, b :: bs, 0 => by simp [dims_minkowski]
  | a :: as, b :: bs, d + 1 => by
    simp only [dims_minkowski, List.getD_cons_succ]
    exact dims_minkowski_getD as bs d

theorem dims_minkowski_length : ∀ (a b : List Nat),
    (dims_minkowski a b).length = max a.length b.length
  | [], [] => rfl
  | [], _ :: _ => by simp [dims_minkowski]
  | _ :: _, [] => by simp [dims_minkowski]
  | a :: as, b :: bs => by
    simp only [dims_minkowski, List.length_cons, dims_minkowski_length as bs]
    omega

theorem sub_add_sub_add (p s t : List Nat) :
    sub_add (sub_add p t) s = sub_add p (cell_sum s t) := by
  apply List.ext_getElem?
  intro d
  rw [sub_add_getElem?, sub_add_getElem?, sub_add_getElem?, cell_sum_getD]
  cases p[d]? with
  | none => rfl
  | some x =>
    simp only [Option.map_some', Option.some.injEq]
    omega

theorem length_eq_of_isSome {α : Type} (l1 l2 : List α)
    (h : ∀ j : Nat, (l1[j]?).isSome = (l2[j]?).isSome) : l1.length = l2.length := by
  rcases Nat.lt_trichotomy l1.length l2.length with h1 | h1 | h1
  · have := h l1.length
    rw [List.getElem?_eq_none (le_refl _), List.getElem?_eq_getElem h1] at this
    cases this
  · exact h1
  · have := h l2.length
    rw [List.getElem?_eq_none (le_refl _), List.getElem?_eq_getElem h1] at this
    cases this

theorem erode_nd_length {P H : Type} [LinearOrder P] (E : ElemType P H) (erosion flat : Bool)
    (inp : List P) (in_cd out_d : List Nat) (offsets : List Nat) (height : List P) (nnz : Nat)
    (dim : Nat) (hd : dim < out_d.length) (in_pos out_pos : Nat) (out : List P) :
    (erode_nd E erosion flat inp in_cd (cumulative out_d) out_d offsets height nnz dim
        in_pos out_pos out).length = out.length := by
  apply length_eq_of_isSome
  intro j
  rw [erode_nd_getElem? E erosion flat inp in_cd out_d offsets height nnz dim hd]
  split_ifs
  · cases out[j]? <;> rfl
  · rfl

/-- What `erode_padded` returns has as many elements as its extents announce. -/
theorem erode_padded_length {P H : Type} [LinearOrder P] [Zero H] [DecidableEq H]
    (E : ElemType P H) (padded : NDArray P) (hnd : 1 ≤ padded.dims.length) (se : strel H)
    (hdim : se.nhood.dims.length ≤ padded.dims.length) (erosion : Bool) (out : NDArray P)
    (ho : erode_padded E padded se erosion = .ok out) : out.data.length = out.dims.prod := by
  by_cases hnnz : se.nnz = 1
  · exact erode_padded_shift_length E padded se erosion hnnz out ho
  · obtain ⟨_, h3⟩ := out_size_map_toNat padded.dims se.nhood.dims hdim
    unfold erode_padded at ho
    simp only [strel.get_nnz, strel.get_nhood, hnnz, if_false] at ho
    split_ifs at ho
    unfold erode_sweep at ho
    split_ifs at ho
    cases ho
    simp only
    rw [erode_nd_length]
    · simp [NDArray.filled]
    · simp only [List.length_map, List.length_range]
      unfold NDArray.ndims
      omega

/-- Flat erosion with shape "valid": the min, started from `P (octave_Inf)`, of the image
under the active cells. -/
theorem erode_valid_flat {P H : Type} [LinearOrder P] [Zero H] [DecidableEq H]
    (E : ElemType P H) (hE : E.lawful) (im : NDArray P)
    (hnd : 1 ≤ im.dims.length) (hne : im.is_empty = false) (se : strel H)
    (hse : se.consistent) (hnh : se.get_nhood.is_empty = false)
    (hdim : se.nhood.dims.length ≤ im.dims.length)
    (hfit : fits im.dims se.nhood.dims = true) (hflat : se.flat = true) :
    ∃ out, erode E im se "valid" true = .ok out
      ∧ out.dims = out_dims im.dims se.nhood.dims
      ∧ out.data.length = out.dims.prod
      ∧ ∀ p, inBox out.dims p = true → out.get? p = some
          ((se.active.map (fun s => (im.get? (sub_add p s)).getD E.ofInf)).foldl min E.ofInf) := by
  obtain ⟨out, ho, hd, hv⟩ := erode_valid E hE im hnd hne se hse hnh hdim hfit true
    (fun _ => hflat)
  refine ⟨out, ho, hd, ?_, ?_⟩
  · rw [erode_valid_eq_padded E im se true hne hnh] at ho
    exact erode_padded_length E im hnd se hdim true out ho
  · intro p hp
    rw [hv p hp, hflat]
    have hcv : cell_values E true true im se p
        = se.active.map (fun s => (im.get? (sub_add p s)).getD E.ofInf) := by
      unfold cell_values
      apply List.map_congr_left
      intro s _
      simp
    unfold sweep_value
    rw [hcv]
    by_cases hnnz : se.nnz = 1
    · rw [if_pos hnnz]
      obtain ⟨x0, hx0⟩ : ∃ x0, se.active.map
          (fun s => (im.get? (sub_add p s)).getD E.ofInf) = [x0] := by
        apply List.length_eq_one.mp
        rw [List.length_map, active_length se hse, hnnz]
      rw [hx0]
      simp only [List.headD_cons, List.foldl_cons, List.foldl_nil]
      rw [min_eq_right (hE.1 x0)]
    · rw [if_neg hnnz]
      simp [ElemType.padval]

theorem foldl_min_glb {P : Type} [LinearOrder P] (t : P) (ht : ∀ x : P, x ≤ t) (l : List P)
    (u : P) (hu : ∀ x ∈ l, u ≤ x) : u ≤ l.foldl min t := by
  obtain ⟨_, _, h3⟩ := foldl_min_le l t
  rcases h3 with h | h
  · rw [h]; exact ht u
  · exact hu _ h

theorem getD_one_pos (l : List Nat) (h : ∀ b ∈ l, 1 ≤ b) (d : Nat) : 1 ≤ l.getD d 1 := by
  rw [List.getD_eq_getElem?_getD]
  by_cases hd : d < l.length
  · rw [List.getElem?_eq_getElem hd]
    exact h _ (List.getElem_mem hd)
  · rw [List.getElem?_eq_none (by omega)]
    exact le_refl 1

theorem getD_one_zero (l : List Nat) (d : Nat) (hd : d < l.length) :
    l.getD d 1 = l.getD d 0 := by
  rw [List.getD_eq_getElem?_getD, List.getD_eq_getElem?_getD, List.getElem?_eq_getElem hd]
  rfl

theorem list_ext_getD (l1 l2 : List Nat) (hl : l1.length = l2.length)
    (h : ∀ d, d < l1.length → l1.getD d 0 = l2.getD d 0) : l1 = l2 := by
  apply List.ext_getElem hl
  intro d h1 h2
  have := h d h1
  rw [List.getD_eq_getElem?_getD, List.getD_eq_getElem?_getD, List.getElem?_eq_getElem h1,
    List.getElem?_eq_getElem h2] at this
  exact this

theorem not_empty_of_pos {α : Type} (a : NDArray α) (h : ∀ b ∈ a.dims, 1 ≤ b) :
    a.is_empty = false := by
  unfold NDArray.is_empty NDArray.numel
  have : 0 < a.dims.prod := List.prod_pos (fun x hx => h x hx)
  simp only [beq_eq_false_iff_ne, ne_eq]
  omega

theorem pos_of_getD (l : List Nat) (h : ∀ d, d < l.length → 1 ≤ l.getD d 0) :
    ∀ b ∈ l, 1 ≤ b := by
  intro b hb
  obtain ⟨d, hd, rfl⟩ := List.getElem_of_mem hb
  have := h d hd
  rw [List.getD_eq_getElem?_getD, List.getElem?_eq_getElem hd] at this
  exact this

/-- **C32** Sequential erosion composes by Minkowski sum: for flat SEs `A` and `B` with at
least one active cell each and no more dimensions than the image, and the flat SE `C` of
extents `shape (A) + shape (B) - 1` whose active cells are exactly the sums `a + b` of an
active cell of `A` and an active cell of `B`, on every image at least as large as `C` in
every dimension, `erode` with shape "valid" by `A` and then by `B` returns the array that
`erode` with shape "valid" by `C` returns. -/
theorem erode_valid_composes {P H : Type} [LinearOrder P] [Zero H] [DecidableEq H]
    (E : ElemType P H) (hE : E.lawful) (im : NDArray P) (him : im.wf) (A B C : strel H)
    (hA : A.consistent) (hB : B.consistent) (hC : C.consistent)
    (fA : A.flat = true) (fB : B.flat = true) (fC : C.flat = true)
    (nA : 1 ≤ A.get_nnz) (nB : 1 ≤ B.get_nnz)
    (dA : A.get_nhood.ndims ≤ im.ndims) (dB : B.get_nhood.ndims ≤ im.ndims)
    (hCd : C.get_nhood.dims = dims_minkowski A.get_nhood.dims B.get_nhood.dims)
    (hCa : ∀ c, c ∈ C.active ↔ ∃ a ∈ A.active, ∃ b ∈ B.active, c = cell_sum a b)
    (hfit : ∀ d, d < im.ndims → C.get_nhood.dims.getD d 1 ≤ im.dims.getD d 0) :
    ∃ m out, erode E im A "valid" true = .ok m ∧ erode E m B "valid" true = .ok out
      ∧ erode E im C "valid" true = .ok out := by
  by_cases hne : im.is_empty = true
  · exact ⟨im, im, erode_of_empty E im A "valid" true (Or.inl hne),
      erode_of_empty E im B "valid" true (Or.inl hne),
      erode_of_empty E im C "valid" true (Or.inl hne)⟩
  have hne1 : im.is_empty = false := by simpa using hne
  have hnd : 1 ≤ im.dims.length := le_trans (by decide) him.1
  have posA := dims_pos_of_count A.nhood hA.nhood_len (by rw [← hA.nnz_eq]; exact nA)
  have posB := dims_pos_of_count B.nhood hB.nhood_len (by rw [← hB.nnz_eq]; exact nB)
  simp only [strel.get_nhood, NDArray.ndims] at dA dB hCd hfit
  have hCl : C.nhood.dims.length ≤ im.dims.length := by
    rw [hCd, dims_minkowski_length]
    exact max_le dA dB
  have harith : ∀ d, d < im.dims.length →
      1 ≤ A.nhood.dims.getD d 1 ∧ 1 ≤ B.nhood.dims.getD d 1
      ∧ C.nhood.dims.getD d 1 = A.nhood.dims.getD d 1 + B.nhood.dims.getD d 1 - 1
      ∧ A.nhood.dims.getD d 1 + B.nhood.dims.getD d 1 - 1 ≤ im.dims.getD d 0 := by
    intro d hd
    have h1 := hfit d hd
    rw [hCd, dims_minkowski_getD] at h1
    refine ⟨getD_one_pos _ posA d, getD_one_pos _ posB d, ?_, h1⟩
    rw [hCd, dims_minkowski_getD]
  have posC : ∀ b ∈ C.nhood.dims, 1 ≤ b := by
    apply pos_of_getD
    intro d hd
    obtain ⟨h1, h2, h3, _⟩ := harith d (by omega)
    rw [← getD_one_zero _ d hd, h3]
    omega
  have fitsA : fits im.dims A.nhood.dims = true := by
    apply fits_self_of_le _ _ dA
    intro d hd
    obtain ⟨h1, h2, _, h4⟩ := harith d (by omega)
    omega
  have fitsC : fits im.dims C.nhood.dims = true := by
    apply fits_self_of_le _ _ hCl
    intro d hd
    obtain ⟨h1, h2, h3, h4⟩ := harith d (by omega)
    omega
  obtain ⟨m, hm, hmd, _, hmv⟩ := erode_valid_flat E hE im hnd hne1 A hA
    (not_empty_of_pos A.nhood posA) dA fitsA fA
  have hml : m.dims.length = im.dims.length := by rw [hmd, out_dims_length]
  have hmg : ∀ d, d < im.dims.length →
      (m.dims.getD d 0 : Int) = (im.dims.getD d 0 : Int) - (A.nhood.dims.getD d 1 : Int) + 1 := by
    intro d hd
    rw [hmd]
    exact out_dims_getD _ _ d hd fitsA
  have posM : ∀ b ∈ m.dims, 1 ≤ b := by
    apply pos_of_getD
    intro d hd
    obtain ⟨h1, h2, _, h4⟩ := harith d (by omega)
    have := hmg d (by omega)
    omega
  have dBm : B.nhood.dims.length ≤ m.dims.length := by rw [hml]; exact dB
  have fitsB : fits m.dims B.nhood.dims = true := by
    apply fits_self_of_le _ _ dBm
    intro d hd
    obtain ⟨h1, h2, _, h4⟩ := harith d (by omega)
    have := hmg d (by omega)
    omega
  obtain ⟨out1, ho1, hd1, hl1, hv1⟩ := erode_valid_flat E hE m (by rw [hml]; exact hnd)
    (not_empty_of_pos m posM) B hB (not_empty_of_pos B.nhood posB) dBm fitsB fB
  obtain ⟨out2, ho2, hd2, hl2, hv2⟩ := erode_valid_flat E hE im hnd hne1 C hC
    (not_empty_of_pos C.nhood posC) hCl fitsC fC
  have hdeq : out1.dims = out2.dims := by
    rw [hd1, hd2]
    apply list_ext_getD
    · rw [out_dims_length, out_dims_length, hml]
    · intro d hd
      rw [out_dims_length, hml] at hd
      obtain ⟨h1, h2, h3, h4⟩ := harith d hd
      have e1 := out_dims_getD m.dims B.nhood.dims d (by omega) fitsB
      have e2 := out_dims_getD im.dims C.nhood.dims d hd fitsC
      have e3 := hmg d hd
      omega
  have hveq : ∀ p, inBox out1.dims p = true → out1.get? p = out2.get? p := by
    intro p hp
    rw [hv1 p hp, hv2 p (by rw [← hdeq]; exact hp)]
    congr 1
    have hinner : B.active.map (fun t => (m.get? (sub_add p t)).getD E.ofInf)
        = B.active.map (fun t => (A.active.map (fun s =>
            (im.get? (sub_add p (cell_sum s t))).getD E.ofInf)).foldl min E.ofInf) := by
      apply List.map_congr_left
      intro t ht
      have hq : inBox m.dims (sub_add p t) = true :=
        inBox_sub_add m.dims B.nhood.dims p t (mem_active_inBox B hB t ht)
          (by rw [← hd1]; exact hp) dBm
      rw [hmv _ hq]
      simp only [Option.getD_some, sub_add_sub_add]
    rw [hinner]
    apply le_antisymm
    · apply foldl_min_glb _ hE.1
      intro x hx
      rw [List.mem_map] at hx
      obtain ⟨c, hc, rfl⟩ := hx
      obtain ⟨a, ha, b, hb, rfl⟩ := (hCa c).mp hc
      refine le_trans ((foldl_min_le _ _).2.1 _ (List.mem_map.mpr ⟨b, hb, rfl⟩)) ?_
      exact (foldl_min_le _ _).2.1 _ (List.mem_map.mpr ⟨a, ha, rfl⟩)
    · apply foldl_min_glb _ hE.1
      intro x hx
      rw [List.mem_map] at hx
      obtain ⟨t, ht, rfl⟩ := hx
      apply foldl_min_glb _ hE.1
      intro y hy
      rw [List.mem_map] at hy
      obtain ⟨s, hs, rfl⟩ := hy
      exact (foldl_min_le _ _).2.1 _
        (List.mem_map.mpr ⟨cell_sum s t, (hCa _).mpr ⟨s, hs, t, ht, rfl⟩, rfl⟩)
  have : out1 = out2 := NDArray.ext_get? out1 out2 hdeq hl1 hl2 hveq
  rw [← this] at ho2
  exact ⟨m, out1, hm, ho1, ho2⟩

theorem mem_cell_sums (A B : List (List Nat)) (c : List Nat) :
    c ∈ cell_sums A B ↔ ∃ a ∈ A, ∃ b ∈ B, c = cell_sum a b := by
  unfold cell_sums
  rw [List.mem_flatMap]
  constructor
  · rintro ⟨a, ha, hc⟩
    rw [List.mem_map] at hc
    obtain ⟨b, hb, rfl⟩ := hc
    exact ⟨a, ha, b, hb, rfl⟩
  · rintro ⟨a, ha, b, hb, rfl⟩
    exact ⟨a, ha, List.mem_map.mpr ⟨b, hb, rfl⟩⟩

theorem erode_valid_composes_witness :
    erode uint8Elem a10 (strel.ctor_elem nh_ones5 ht_zeros5) "valid" true
        = .ok ⟨[6, 6], [1, 1, 1, 2, 2, 3, 1, 1, 1, 1, 2, 3, 1, 1, 1, 1, 2, 3, 1, 1, 1, 1, 3, 3,
          1, 1, 1, 1, 3, 3, 1, 1, 1, 1, 4, 3]⟩
    ∧ ∃ m out, erode uint8Elem a10 (strel.ctor_elem nh_ones51 ht_zeros51) "valid" true = .ok m
      ∧ erode uint8Elem m (strel.ctor_elem nh_ones15 ht_zeros15) "valid" true = .ok out
      ∧ erode uint8Elem a10 (strel.ctor_elem nh_ones5 ht_zeros5) "valid" true = .ok out :=
  ⟨by decide,
    erode_valid_composes uint8Elem uint8Elem_lawful a10 (by decide)
      (strel.ctor_elem nh_ones51 ht_zeros51) (strel.ctor_elem nh_ones15 ht_zeros15)
      (strel.ctor_elem nh_ones5 ht_zeros5)
      (ctor_elem_consistent nh_ones51 ht_zeros51 (by decide))
      (ctor_elem_consistent nh_ones15 ht_zeros15 (by decide))
      (ctor_elem_consistent nh_ones5 ht_zeros5 (by decide))
      (by decide) (by decide) (by decide) (by decide) (by decide) (by decide) (by decide)
      (by decide)
      (fun c => ⟨fun h => (mem_cell_sums _ _ c).mp
          ((by decide : ∀ c ∈ (strel.ctor_elem nh_ones5 ht_zeros5).active,
            c ∈ cell_sums (strel.ctor_elem nh_ones51 ht_zeros51).active
              (strel.ctor_elem nh_ones15 ht_zeros15).active) c h),
        fun h => (by decide : ∀ c ∈ cell_sums (strel.ctor_elem nh_ones51 ht_zeros51).active
              (strel.ctor_elem nh_ones15 ht_zeros15).active,
            c ∈ (strel.ctor_elem nh_ones5 ht_zeros5).active) c
          ((mem_cell_sums _ _ c).mpr h)⟩)
      (by decide)⟩

/-! ## Selection of the nth element -/

theorem set_set_perm {P : Type} [DecidableEq P] (vals : List P) (a b : Nat)
    (ha : a < vals.length) (hb : b < vals.length) :
    ((vals.set a vals[b]).set b vals[a]).Perm vals := by
  rw [List.perm_iff_count]
  intro c
  have hb1 : b < (vals.set a vals[b]).length := by rw [List.length_set]; exact hb
  have h1 := List.boole_getElem_le_count c vals a ha
  rw [List.count_set vals[a] c (vals.set a vals[b]) b hb1, List.count_set vals[b] c vals a ha]
  have hget : (vals.set a vals[b])[b] = vals[b] := by
    by_cases hab : a = b
    · subst hab
      simp
    · exact List.getElem_set_ne hab _
  rw [hget]
  omega

theorem rearranged_refl {P : Type} (l r : Nat) (vals : List P) : rearranged l r vals vals :=
  ⟨rfl, List.Perm.refl _, id, fun _ => rfl, fun _ h1 h2 => ⟨h1, h2⟩, fun _ _ => rfl⟩

theorem rearranged_trans {P : Type} (l r : Nat) (v0 v1 v2 : List P)
    (h1 : rearranged l r v0 v1) (h2 : rearranged l r v1 v2) : rearranged l r v0 v2 := by
  obtain ⟨a1, a2, σ1, a3, a4, a5⟩ := h1
  obtain ⟨b1, b2, σ2, b3, b4, b5⟩ := h2
  refine ⟨b1.trans a1, b2.trans a2, fun k => σ1 (σ2 k), ?_, ?_, ?_⟩
  · intro k
    rw [b3, a3]
  · intro k hk1 hk2
    obtain ⟨c1, c2⟩ := b4 k hk1 hk2
    exact a4 _ c1 c2
  · intro k hk
    show σ1 (σ2 k) = k
    rw [b5 k hk, a5 k hk]

theorem rearranged_mono {P : Type} (l r l1 r1 : Nat) (v0 v1 : List P) (hl : l ≤ l1)
    (hr : r1 ≤ r) (h : rearranged l1 r1 v0 v1) : rearranged l r v0 v1 := by
  obtain ⟨a1, a2, σ, a3, a4, a5⟩ := h
  refine ⟨a1, a2, σ, a3, ?_, ?_⟩
  · intro k hk1 hk2
    by_cases hw : l1 ≤ k ∧ k ≤ r1
    · obtain ⟨c1, c2⟩ := a4 k hw.1 hw.2
      exact ⟨by omega, by omega⟩
    · rw [a5 k (by omega)]
      exact ⟨hk1, hk2⟩
  · intro k hk
    exact a5 k (by omega)

theorem swap_vals_spec {P : Type} [DecidableEq P] (vals : List P) (l r a b : Nat)
    (hla : l ≤ a) (har : a ≤ r) (hlb : l ≤ b) (hbr : b ≤ r) (hr : r < vals.length) :
    ∃ v1, swap_vals vals a b = some v1 ∧ rearranged l r vals v1
      ∧ ∀ k, v1[k]? = vals[swap_idx a b k]? := by
  have ha : a < vals.length := by omega
  have hb : b < vals.length := by omega
  have hget : ∀ k, ((vals.set a vals[b]).set b vals[a])[k]? = vals[swap_idx a b k]? := by
    intro k
    unfold swap_idx
    rw [List.getElem?_set, List.getElem?_set]
    simp only [List.length_set]
    by_cases h1 : k = b
    · subst h1
      simp [hb, ha]
    · rw [if_neg (Ne.symm h1), if_neg h1]
      by_cases h2 : k = a
      · subst h2
        simp [hb, ha]
      · rw [if_neg (Ne.symm h2), if_neg h2]
  refine ⟨(vals.set a vals[b]).set b vals[a], ?_, ⟨?_, set_set_perm vals a b ha hb,
    swap_idx a b, hget, ?_, ?_⟩, hget⟩
  · unfold swap_vals
    rw [List.getElem?_eq_getElem ha, List.getElem?_eq_getElem hb]
  · simp
  · intro k hk1 hk2
    unfold swap_idx
    split_ifs <;> omega
  · intro k hk
    unfold swap_idx
    rw [if_neg (by omega), if_neg (by omega)]

theorem swap_if_greater_spec {P : Type} [LinearOrder P] (vals : List P) (l r a b : Nat)
    (hla : l ≤ a) (hab : a < b) (hbr : b ≤ r) (hr : r < vals.length) :
    ∃ v1, swap_if_greater vals a b = some v1 ∧ rearranged l r vals v1
      ∧ le_at v1 a b
      ∧ (∀ k, k ≠ a → k ≠ b → v1[k]? = vals[k]?)
      ∧ ((v1[a]? = vals[a]? ∧ v1[b]? = vals[b]?) ∨ (v1[a]? = vals[b]? ∧ v1[b]? = vals[a]?)) := by
  have ha : a < vals.length := by omega
  have hb : b < vals.length := by omega
  have hdef : swap_if_greater vals a b
      = if compare vals[a] vals[b] = true then some ((vals.set a vals[b]).set b vals[a])
        else some vals := by
    unfold swap_if_greater
    rw [List.getElem?_eq_getElem ha, List.getElem?_eq_getElem hb]
  rw [hdef]
  by_cases hc : compare vals[a] vals[b] = true
  · rw [if_pos hc]
    obtain ⟨v1, h1, h2, h3⟩ := swap_vals_spec vals l r a b hla (by omega) (by omega) hbr hr
    unfold swap_vals at h1
    rw [List.getElem?_eq_getElem ha, List.getElem?_eq_getElem hb] at h1
    simp only at h1
    rw [h1]
    have ea : v1[a]? = vals[b]? := by
      rw [h3]
      unfold swap_idx
      rw [if_neg (by omega), if_pos rfl]
    have eb : v1[b]? = vals[a]? := by
      rw [h3]
      unfold swap_idx
      rw [if_pos rfl]
    refine ⟨v1, rfl, h2, ?_, ?_, Or.inr ⟨ea, eb⟩⟩
    · intro x y hx hy
      rw [ea, List.getElem?_eq_getElem hb] at hx
      rw [eb, List.getElem?_eq_getElem ha] at hy
      cases hx
      cases hy
      unfold compare at hc
      simp only [gt_iff_lt, decide_eq_true_eq] at hc
      exact le_of_lt hc
    · intro k hk1 hk2
      rw [h3]
      unfold swap_idx
      rw [if_neg hk2, if_neg hk1]
  · rw [if_neg hc]
    refine ⟨vals, rfl, rearranged_refl l r vals, ?_, fun _ _ _ => rfl, Or.inl ⟨rfl, rfl⟩⟩
    intro x y hx hy
    rw [List.getElem?_eq_getElem ha] at hx
    rw [List.getElem?_eq_getElem hb] at hy
    cases hx
    cases hy
    unfold compare at hc
    simp only [gt_iff_lt, decide_eq_true_eq, not_lt] at hc
    exact hc

theorem le_at_rearranged {P : Type} [LinearOrder P] (vals v1 : List P) (σ : Nat → Nat)
    (h : ∀ k, v1[k]? = vals[σ k]?) (a b : Nat) : le_at v1 a b ↔ le_at vals (σ a) (σ b) := by
  unfold le_at
  rw [h a, h b]

/-- Moving elements inside the window keeps the invariant of the outer loop. -/
theorem selnth_inv_rearranged {P : Type} [LinearOrder P] (vals v1 : List P) (l : Nat) (r : Int)
    (nth l1 r1 : Nat) (hinv : selnth_inv vals l r nth) (hl : l ≤ l1) (hr : (r1 : Int) ≤ r)
    (h : rearranged l1 r1 vals v1) : selnth_inv v1 l r nth := by
  obtain ⟨s1, s2, s3⟩ := hinv
  obtain ⟨_, _, σ, a3, a4, a5⟩ := h
  have hin : ∀ k, l1 ≤ σ k ∧ σ k ≤ r1 ∧ l1 ≤ k ∧ k ≤ r1 ∨ σ k = k := by
    intro k
    by_cases hw : l1 ≤ k ∧ k ≤ r1
    · obtain ⟨c1, c2⟩ := a4 k hw.1 hw.2
      exact Or.inl ⟨c1, c2, hw.1, hw.2⟩
    · exact Or.inr (a5 k (by omega))
  refine ⟨?_, ?_, ?_⟩
  · intro a b ha hb
    rw [le_at_rearranged vals v1 σ a3]
    rw [a5 a (by omega)]
    apply s1 _ _ ha
    rcases hin b with h1 | h1 <;> omega
  · intro a b ha hb
    rw [le_at_rearranged vals v1 σ a3]
    rw [a5 b (by omega)]
    apply s2 _ _ _ hb
    rcases hin a with h1 | h1 <;> omega
  · by_cases hw : l ≤ nth ∧ (nth : Int) ≤ r
    · exact Or.inl hw
    · right
      have hst : settled vals nth := by
        rcases s3 with h1 | h1
        · exact absurd h1 hw
        · exact h1
      have hn : σ nth = nth := by
        rcases hin nth with h1 | h1
        · omega
        · exact h1
      constructor
      · intro a ha
        rw [le_at_rearranged vals v1 σ a3, hn]
        apply hst.1
        rcases hin a with h1 | h1 <;> omega
      · intro b hb
        rw [le_at_rearranged vals v1 σ a3, hn]
        apply hst.2
        rcases hin b with h1 | h1 <;> omega

theorem compare_iff {P : Type} [LinearOrder P] (a b : P) : compare a b = true ↔ b < a := by
  unfold compare
  simp

/-- The scan `do i++; while (hinge > vals (i))` stops at the first index after `i` whose
element is not below the hinge, provided there is one. -/
theorem selnth_scan_i_spec {P : Type} [LinearOrder P] (hinge : P) (vals : List P) :
    ∀ (fuel i k : Nat), i < k → k < vals.length → k - i ≤ fuel →
      (∀ x, vals[k]? = some x → hinge ≤ x) →
      ∃ i1, selnth_scan_i hinge vals fuel i = some i1 ∧ i < i1 ∧ i1 ≤ k
        ∧ (∀ m, i < m → m < i1 → ∀ x, vals[m]? = some x → x < hinge)
        ∧ (∀ x, vals[i1]? = some x → hinge ≤ x)
  | 0, i, k, hik, _, hf, _ => by omega
  | fuel + 1, i, k, hik, hk, hf, hs => by
    have hi1 : i + 1 < vals.length := by omega
    unfold selnth_scan_i
    rw [List.getElem?_eq_getElem hi1]
    simp only
    by_cases hc : compare hinge vals[i + 1] = true
    · rw [if_pos hc]
      rw [compare_iff] at hc
      have hne : i + 1 ≠ k := by
        intro e
        have := hs vals[i + 1] (by rw [← e, List.getElem?_eq_getElem hi1])
        exact absurd hc (not_lt.mpr this)
      obtain ⟨i1, h1, h2, h3, h4, h5⟩ :=
        selnth_scan_i_spec hinge vals fuel (i + 1) k (by omega) hk (by omega) hs
      refine ⟨i1, h1, by omega, h3, ?_, h5⟩
      intro m hm1 hm2 x hx
      by_cases hm : m = i + 1
      · subst hm
        rw [List.getElem?_eq_getElem hi1] at hx
        cases hx
        exact hc
      · exact h4 m (by omega) hm2 x hx
    · rw [if_neg hc]
      rw [compare_iff, not_lt] at hc
      refine ⟨i + 1, rfl, by omega, by omega, ?_, ?_⟩
      · intro m hm1 hm2
        omega
      · intro x hx
        rw [List.getElem?_eq_getElem hi1] at hx
        cases hx
        exact hc

/-- The scan `do j--; while (vals (j) > hinge)` stops at the first index before `j` whose
element is not above the hinge, provided there is one. -/
theorem selnth_scan_j_spec {P : Type} [LinearOrder P] (hinge : P) (vals : List P) :
    ∀ (j k : Nat), k < j → j ≤ vals.length → (∀ x, vals[k]? = some x → x ≤ hinge) →
      ∃ j1, selnth_scan_j hinge vals j = some j1 ∧ k ≤ j1 ∧ j1 < j
        ∧ (∀ m, j1 < m → m < j → ∀ x, vals[m]? = some x → hinge < x)
        ∧ (∀ x, vals[j1]? = some x → x ≤ hinge)
  | 0, k, hkj, _, _ => by omega
  | j + 1, k, hkj, hj, hs => by
    have hj1 : j < vals.length := by omega
    unfold selnth_scan_j
    rw [List.getElem?_eq_getElem hj1]
    simp only
    by_cases hc : compare vals[j] hinge = true
    · rw [if_pos hc]
      rw [compare_iff] at hc
      have hne : j ≠ k := by
        intro e
        have := hs vals[j] (by rw [← e, List.getElem?_eq_getElem hj1])
        exact absurd hc (not_lt.mpr this)
      obtain ⟨j1, h1, h2, h3, h4, h5⟩ :=
        selnth_scan_j_spec hinge vals j k (by omega) (by omega) hs
      refine ⟨j1, h1, h2, by omega, ?_, h5⟩
      intro m hm1 hm2 x hx
      by_cases hm : m = j
      · subst hm
        rw [List.getElem?_eq_getElem hj1] at hx
        cases hx
        exact hc
      · exact h4 m hm1 (by omega) x hx
    · rw [if_neg hc]
      rw [compare_iff, not_lt] at hc
      refine ⟨j, rfl, by omega, by omega, ?_, ?_⟩
      · intro m hm1 hm2
        omega
      · intro x hx
        rw [List.getElem?_eq_getElem hj1] at hx
        cases hx
        exact hc

/-- The inner loop of `selnth`: it returns, having moved elements only strictly between
`l + 1` and `r`; at the end the elements before `i` are at most the hinge and those after
`j` at least the hinge. -/
theorem selnth_partition_spec {P : Type} [LinearOrder P] (hinge : P) (l r : Nat) :
    ∀ (fuel : Nat) (vals : List P) (i j : Nat),
      r < vals.length → l + 1 ≤ i → i ≤ j → j ≤ r → i < r → l + 2 ≤ j → j ≤ fuel + l →
      vals[l + 1]? = some hinge →
      (∀ k, l ≤ k → k ≤ i → ∀ x, vals[k]? = some x → x ≤ hinge) →
      (∀ k, j ≤ k → k ≤ r → ∀ x, vals[k]? = some x → hinge ≤ x) →
      ∃ v5 i1 j1, selnth_partition hinge fuel vals i j = some (v5, i1, j1)
        ∧ rearranged (l + 2) (r - 1) vals v5
        ∧ l + 1 ≤ j1 ∧ j1 < i1 ∧ i1 ≤ r ∧ j1 < r
        ∧ (∀ k, l ≤ k → k < i1 → ∀ x, v5[k]? = some x → x ≤ hinge)
        ∧ (∀ k, j1 < k → k ≤ r → ∀ x, v5[k]? = some x → hinge ≤ x)
        ∧ (∀ x, v5[j1]? = some x → x ≤ hinge)
        ∧ v5[l + 1]? = some hinge
  | 0, _, i, j, _, _, _, _, _, h6, h7, _, _, _ => by omega
  | fuel + 1, vals, i, j, hr, h2, h3, h4, h5, h6, h7, hh, hL, hR => by
    obtain ⟨i1, e1, a1, a2, a3, a4⟩ := selnth_scan_i_spec hinge vals vals.length i
      (max j (i + 1)) (by omega) (by omega) (by omega) (hR _ (by omega) (by omega))
    obtain ⟨j1, e2, b1, b2, b3, b4⟩ := selnth_scan_j_spec hinge vals j (min i (j - 1))
      (by omega) (by omega) (hL _ (by omega) (by omega))
    have hL1 : ∀ k, l ≤ k → k < i1 → ∀ x, vals[k]? = some x → x ≤ hinge := by
      intro k hk1 hk2 x hx
      by_cases hki : k ≤ i
      · exact hL k hk1 hki x hx
      · exact le_of_lt (a3 k (by omega) hk2 x hx)
    have hR1 : ∀ k, j1 < k → k ≤ r → ∀ x, vals[k]? = some x → hinge ≤ x := by
      intro k hk1 hk2 x hx
      by_cases hkj : j ≤ k
      · exact hR k hkj hk2 x hx
      · exact le_of_lt (b3 k hk1 (by omega) x hx)
    unfold selnth_partition
    rw [e1]
    simp only
    rw [e2]
    simp only
    by_cases hx : i1 > j1
    · rw [if_pos hx]
      exact ⟨vals, i1, j1, rfl, rearranged_refl _ _ _, by omega, hx, by omega, by omega,
        hL1, hR1, b4, hh⟩
    · rw [if_neg hx]
      obtain ⟨v1, s1, s2, s3⟩ := swap_vals_spec vals (l + 2) (r - 1) i1 j1 (by omega)
        (by omega) (by omega) (by omega) (by omega)
      rw [s1]
      simp only
      have hlen : v1.length = vals.length := s2.1
      obtain ⟨v5, i2, j2, t1, t2, t3⟩ := selnth_partition_spec hinge l r fuel v1 i1 j1
        (by rw [hlen]; exact hr) (by omega) (by omega) (by omega) (by omega) (by omega)
        (by omega)
        (by
          rw [s3]
          unfold swap_idx
          rw [if_neg (by omega), if_neg (by omega)]
          exact hh)
        (by
          intro k hk1 hk2 x hxk
          rw [s3] at hxk
          unfold swap_idx at hxk
          by_cases hkj : k = j1
          · rw [if_pos hkj] at hxk
            have : i1 = j1 := by omega
            rw [this] at hxk
            exact b4 x hxk
          · rw [if_neg hkj] at hxk
            by_cases hki : k = i1
            · rw [if_pos hki] at hxk
              exact b4 x hxk
            · rw [if_neg hki] at hxk
              exact hL1 k hk1 (by omega) x hxk)
        (by
          intro k hk1 hk2 x hxk
          rw [s3] at hxk
          unfold swap_idx at hxk
          by_cases hkj : k = j1
          · rw [if_pos hkj] at hxk
            exact a4 x hxk
          · rw [if_neg hkj, if_neg (by omega)] at hxk
            exact hR1 k (by omega) hk2 x hxk)
      exact ⟨v5, i2, j2, t1, rearranged_trans _ _ _ _ _ s2 t2, t3⟩

/-- The two assignments after the inner loop of `selnth` exchange two elements. -/
theorem put_val_put_val {P : Type} (v5 : List P) (a j : Nat) (h y : P)
    (ha : v5[a]? = some h) (hj : v5[j]? = some y) :
    ∃ v6 v7, put_val v5 a y = some v6 ∧ put_val v6 j h = some v7
      ∧ swap_vals v5 a j = some v7 := by
  have hal : a < v5.length := by
    rcases Nat.lt_or_ge a v5.length with h1 | h1
    · exact h1
    · rw [List.getElem?_eq_none h1] at ha
      exact absurd ha (by simp)
  have hjl : j < v5.length := by
    rcases Nat.lt_or_ge j v5.length with h1 | h1
    · exact h1
    · rw [List.getElem?_eq_none h1] at hj
      exact absurd hj (by simp)
  refine ⟨v5.set a y, (v5.set a y).set j h, ?_, ?_, ?_⟩
  · unfold put_val
    rw [if_pos hal]
  · unfold put_val
    rw [if_pos (by rw [List.length_set]; exact hjl)]
  · unfold swap_vals
    rw [ha, hj]

/-- When the window has at most two elements and they are in order, position `nth` is
settled. -/
theorem selnth_inv_done {P : Type} [LinearOrder P] (v : List P) (l : Nat) (r : Int)
    (nth : Nat) (hinv : selnth_inv v l r nth) (h1 : r ≤ (l : Int) + 1)
    (h2 : r = (l : Int) + 1 → le_at v l (l + 1)) : settled v nth := by
  obtain ⟨s1, s2, s3⟩ := hinv
  rcases s3 with ⟨w1, w2⟩ | h
  · refine ⟨?_, ?_⟩
    · intro a ha
      by_cases hal : a < l
      · exact s1 a nth hal w1
      · have e1 : a = l := by omega
        have e2 : nth = l + 1 := by omega
        rw [e1, e2]
        exact h2 (by omega)
    · intro b hb
      by_cases hbr : r < (b : Int)
      · exact s2 nth b w2 hbr
      · have e1 : b = l + 1 := by omega
        have e2 : nth = l := by omega
        rw [e1, e2]
        exact h2 (by omega)
  · exact h

/-- One pass of the outer loop of `selnth` re-establishes the invariant for the new
window. -/
theorem selnth_inv_step {P : Type} [LinearOrder P] (v : List P) (l R nth i j : Nat)
    (hinge : P) (hinv : selnth_inv v l (R : Int) nth)
    (F2 : ∀ k, l ≤ k → k < i → ∀ x, v[k]? = some x → x ≤ hinge)
    (F3 : ∀ k, j < k → k ≤ R → ∀ x, v[k]? = some x → hinge ≤ x)
    (F4 : v[j]? = some hinge) (hlj : l + 1 ≤ j) (hji : j < i) (hiR : i ≤ R) :
    selnth_inv v (if j ≤ nth then i else l) (if j ≥ nth then (j : Int) - 1 else (R : Int))
      nth := by
  obtain ⟨s1, s2, s3⟩ := hinv
  have G1 : ∀ a b, a < i → i ≤ b → le_at v a b := by
    intro a b ha hb x y hx hy
    by_cases hal : a < l
    · exact s1 a b hal (by omega) x y hx hy
    · by_cases hbr : b ≤ R
      · exact le_trans (F2 a (by omega) ha x hx) (F3 b (by omega) hbr y hy)
      · exact s2 a b (by omega) (by omega) x y hx hy
  have G2 : ∀ a b : Nat, (a : Int) ≤ (j : Int) - 1 → (j : Int) - 1 < (b : Int)
      → le_at v a b := by
    intro a b ha hb x y hx hy
    by_cases hal : a < l
    · exact s1 a b hal (by omega) x y hx hy
    · by_cases hbr : b ≤ R
      · have h1 := F2 a (by omega) (by omega) x hx
        by_cases hbj : b = j
        · rw [hbj, F4] at hy
          cases hy
          exact h1
        · exact le_trans h1 (F3 b (by omega) hbr y hy)
      · exact s2 a b (by omega) (by omega) x y hx hy
  have G3 : j ≤ nth → nth < i → settled v nth := by
    intro h1 h2
    have hn1 : ∀ y, v[nth]? = some y → hinge ≤ y := by
      intro y hy
      by_cases hnj : nth = j
      · rw [hnj, F4] at hy
        cases hy
        exact le_rfl
      · exact F3 nth (by omega) (by omega) y hy
    have hn2 : ∀ y, v[nth]? = some y → y ≤ hinge := fun y hy => F2 nth (by omega) h2 y hy
    refine ⟨?_, ?_⟩
    · intro a ha x y hx hy
      by_cases hal : a < l
      · exact s1 a nth hal (by omega) x y hx hy
      · exact le_trans (F2 a (by omega) (by omega) x hx) (hn1 y hy)
    · intro b hb x y hx hy
      by_cases hbr : b ≤ R
      · exact le_trans (hn2 x hx) (F3 b (by omega) hbr y hy)
      · exact s2 nth b (by omega) (by omega) x y hx hy
  refine ⟨?_, ?_, ?_⟩
  · by_cases c : j ≤ nth
    · rw [if_pos c]
      exact G1
    · rw [if_neg c]
      exact s1
  · by_cases c : j ≥ nth
    · rw [if_pos c]
      exact G2
    · rw [if_neg c]
      exact s2
  · rcases s3 with ⟨w1, w2⟩ | h
    · by_cases c1 : j ≤ nth
      · by_cases c2 : nth < i
        · exact Or.inr (G3 c1 c2)
        · left
          rw [if_pos c1]
          refine ⟨by omega, ?_⟩
          by_cases c3 : j ≥ nth
          · exact absurd (show nth < i by omega) c2
          · rw [if_neg c3]
            exact w2
      · left
        rw [if_neg c1, if_pos (by omega)]
        exact ⟨w1, by omega⟩
    · exact Or.inr h

/-- The outer loop of `selnth` returns: the array is left a permutation of what it was, the
value returned is the element at position `nth`, no element before it is larger and no
element after it is smaller. -/
theorem selnth_loop_spec {P : Type} [LinearOrder P] (nth : Nat) :
    ∀ (fuel : Nat) (vals : List P) (l : Nat) (r : Int),
      selnth_inv vals l r nth → nth < vals.length → r < (vals.length : Int)
      → r - (l : Int) + 1 ≤ (fuel : Int) → 0 < fuel →
      ∃ v x, selnth_loop nth fuel vals l r = some (v, x) ∧ v.Perm vals ∧ v[nth]? = some x
        ∧ settled v nth
  | 0, _, _, _, _, _, _, _, h0 => by omega
  | fuel + 1, vals, l, r, hinv, hn, hr, hf, _ => by
    unfold selnth_loop
    by_cases h1 : r ≤ (l : Int) + 1
    · rw [if_pos h1]
      by_cases h2 : r = (l : Int) + 1
      · rw [if_pos h2]
        obtain ⟨v1, e1, e2, e3, -, -⟩ := swap_if_greater_spec vals l (l + 1) l (l + 1)
          le_rfl (by omega) le_rfl (by omega)
        have ht : r.toNat = l + 1 := by omega
        rw [ht, e1]
        simp only
        have hinv1 := selnth_inv_rearranged vals v1 l r nth l (l + 1) hinv le_rfl
          (by omega) e2
        have hx : nth < v1.length := by
          rw [e2.1]
          exact hn
        refine ⟨v1, v1[nth], ?_, e2.2.1, List.getElem?_eq_getElem hx, ?_⟩
        · rw [List.getElem?_eq_getElem hx]
          rfl
        · exact selnth_inv_done v1 l r nth hinv1 h1 (fun _ => e3)
      · rw [if_neg h2]
        simp only
        refine ⟨vals, vals[nth], ?_, List.Perm.refl _, List.getElem?_eq_getElem hn, ?_⟩
        · rw [List.getElem?_eq_getElem hn]
          rfl
        · exact selnth_inv_done vals l r nth hinv h1 (fun h => absurd h h2)
    · rw [if_neg h1]
      obtain ⟨R, rfl⟩ := Int.eq_ofNat_of_zero_le (show 0 ≤ r by omega)
      have hmid : (((l : Int) + (R : Int)) / 2).toNat = (l + R) / 2 := by omega
      have hRl : R < vals.length := by omega
      have hlR : l + 2 ≤ R := by omega
      simp only [Int.toNat_ofNat, hmid]
      obtain ⟨v1, e1, r1, -⟩ := swap_vals_spec vals l R ((l + R) / 2) (l + 1) (by omega)
        (by omega) (by omega) (by omega) hRl
      rw [e1]
      simp only
      have hl1 : v1.length = vals.length := r1.1
      obtain ⟨v2, e2, r2, a2, b2, -⟩ := swap_if_greater_spec v1 l R l R le_rfl (by omega)
        le_rfl (by omega)
      rw [e2]
      simp only
      have hl2 : v2.length = v1.length := r2.1
      obtain ⟨v3, e3, r3, a3, b3, c3⟩ := swap_if_greater_spec v2 l R (l + 1) R (by omega)
        (by omega) le_rfl (by omega)
      rw [e3]
      simp only
      have hl3 : v3.length = v2.length := r3.1
      obtain ⟨v4, e4, r4, a4, b4, c4⟩ := swap_if_greater_spec v3 l R l (l + 1) le_rfl
        (by omega) (by omega) (by omega)
      rw [e4]
      simp only
      have hl4 : v4.length = v3.length := r4.1
      have hh : v4[l + 1]? = some (v4[l + 1]) := List.getElem?_eq_getElem (by omega)
      rw [hh]
      simp only
      generalize v4[l + 1] = hinge at hh
      -- the three sentinels are in order
      have o1 : le_at v3 l R := by
        intro x y hx hy
        rw [b3 l (by omega) (by omega)] at hx
        rcases c3 with ⟨-, q2⟩ | ⟨q1, q2⟩
        · rw [q2] at hy
          exact a2 x y hx hy
        · have hz : v3[l + 1]? = some (v3[l + 1]) := List.getElem?_eq_getElem (by omega)
          have hz1 := hz
          rw [q1] at hz1
          exact le_trans (a2 x _ hx hz1) (a3 _ y hz hy)
      have o2 : ∀ x, v4[R]? = some x → hinge ≤ x := by
        intro x hx
        rw [b4 R (by omega) (by omega)] at hx
        rcases c4 with ⟨-, q2⟩ | ⟨-, q2⟩
        · rw [q2] at hh
          exact a3 hinge x hh hx
        · rw [q2] at hh
          exact o1 hinge x hh hx
      have o3 : ∀ x, v4[l]? = some x → x ≤ hinge := fun x hx => a4 x hinge hx hh
      obtain ⟨v5, i, j, e5, r5, p1, p2, p3, p4, p5, p6, p7, p8⟩ :=
        selnth_partition_spec hinge l R v4.length v4 (l + 1) R (by omega) le_rfl (by omega)
          le_rfl (by omega) (by omega) (by omega) hh
          (by
            intro k hk1 hk2 x hx
            by_cases hkl : k = l
            · rw [hkl] at hx
              exact o3 x hx
            · have : k = l + 1 := by omega
              rw [this, hh] at hx
              cases hx
              exact le_rfl)
          (by
            intro k hk1 hk2 x hx
            have : k = R := by omega
            rw [this] at hx
            exact o2 x hx)
      rw [e5]
      simp only
      have hl5 : v5.length = v4.length := r5.1
      have hy : v5[j]? = some (v5[j]) := List.getElem?_eq_getElem (by omega)
      rw [hy]
      simp only
      obtain ⟨v6, v7, e6, e7, e8⟩ := put_val_put_val v5 (l + 1) j hinge v5[j] p8 hy
      rw [e6]
      simp only
      rw [e7]
      simp only
      obtain ⟨v7b, e9, r7, g7⟩ := swap_vals_spec v5 l R (l + 1) j (by omega) (by omega)
        (by omega) (by omega) (by omega)
      rw [e8] at e9
      cases e9
      have hl7 : v7.length = v5.length := r7.1
      have rall : rearranged l R vals v7 :=
        rearranged_trans _ _ _ _ _ (rearranged_trans _ _ _ _ _ (rearranged_trans _ _ _ _ _
          (rearranged_trans _ _ _ _ _ (rearranged_trans _ _ _ _ _ r1 r2) r3) r4)
          (rearranged_mono l R (l + 2) (R - 1) v4 v5 (by omega) (by omega) r5)) r7
      have hinv7 := selnth_inv_rearranged vals v7 l (R : Int) nth l R hinv le_rfl le_rfl rall
      have F2 : ∀ k, l ≤ k → k < i → ∀ x, v7[k]? = some x → x ≤ hinge := by
        intro k hk1 hk2 x hx
        rw [g7] at hx
        unfold swap_idx at hx
        by_cases c1 : k = j
        · rw [if_pos c1, p8] at hx
          cases hx
          exact le_rfl
        · rw [if_neg c1] at hx
          by_cases c2 : k = l + 1
          · rw [if_pos c2] at hx
            exact p7 x hx
          · rw [if_neg c2] at hx
            exact p5 k hk1 hk2 x hx
      have F3 : ∀ k, j < k → k ≤ R → ∀ x, v7[k]? = some x → hinge ≤ x := by
        intro k hk1 hk2 x hx
        rw [g7] at hx
        unfold swap_idx at hx
        rw [if_neg (by omega), if_neg (by omega)] at hx
        exact p6 k hk1 hk2 x hx
      have F4 : v7[j]? = some hinge := by
        rw [g7]
        unfold swap_idx
        rw [if_pos rfl]
        exact p8
      have hstep := selnth_inv_step v7 l R nth i j hinge hinv7 F2 F3 F4 p1 p2 p3
      obtain ⟨v, x, t1, t2, t3, t4⟩ := selnth_loop_spec nth fuel v7
        (if j ≤ nth then i else l) (if j ≥ nth then (j : Int) - 1 else (R : Int)) hstep
        (by omega)
        (by
          by_cases c : j ≥ nth
          · rw [if_pos c]
            omega
          · rw [if_neg c]
            omega)
        (by
          by_cases c : j ≥ nth
          · rw [if_pos c]
            by_cases c1 : j ≤ nth
            · rw [if_pos c1]
              omega
            · rw [if_neg c1]
              omega
          · rw [if_neg c, if_pos (by omega)]
            omega)
        (by omega)
      exact ⟨v, x, t1, t2.trans rall.2.1, t3, t4⟩

/-- An element that no earlier element exceeds and no later element is below stands at its
position in the ascending sort. -/
theorem settled_sorted_position {P : Type} [LinearOrder P] (vals v : List P) (nth : Nat)
    (x : P) (hperm : v.Perm vals) (hs : settled v nth) (hx : v[nth]? = some x) :
    (vals.insertionSort (· ≤ ·))[nth]? = some x := by
  have hn : nth < v.length := by
    rcases Nat.lt_or_ge nth v.length with h1 | h1
    · exact h1
    · rw [List.getElem?_eq_none h1] at hx
      exact absurd hx (by simp)
  have hxe : v[nth] = x := by
    rw [List.getElem?_eq_getElem hn] at hx
    exact Option.some.inj hx
  have hsplit : v = v.take nth ++ x :: v.drop (nth + 1) := by
    rw [← hxe, ← List.drop_eq_getElem_cons hn, List.take_append_drop]
  have hA : ∀ a ∈ v.take nth, a ≤ x := by
    intro a ha
    obtain ⟨k, hk, e⟩ := List.getElem_of_mem ha
    rw [List.getElem_take] at e
    have hk1 : k < nth := by
      rw [List.length_take] at hk
      omega
    exact hs.1 k hk1 a x (by rw [← e]; exact List.getElem?_eq_getElem (by omega)) hx
  have hB : ∀ b ∈ v.drop (nth + 1), x ≤ b := by
    intro b hb
    obtain ⟨k, hk, e⟩ := List.getElem_of_mem hb
    rw [List.getElem_drop] at e
    rw [List.length_drop] at hk
    exact hs.2 (nth + 1 + k) (by omega) x b hx
      (by rw [← e]; exact List.getElem?_eq_getElem (by omega))
  have hsorted : List.Sorted (· ≤ ·) ((v.take nth).insertionSort (· ≤ ·)
      ++ x :: (v.drop (nth + 1)).insertionSort (· ≤ ·)) := by
    unfold List.Sorted
    rw [List.pairwise_append]
    refine ⟨List.sorted_insertionSort _ _, ?_, ?_⟩
    · rw [List.pairwise_cons]
      refine ⟨?_, List.sorted_insertionSort _ _⟩
      intro b hb
      exact hB b ((List.perm_insertionSort _ _).subset hb)
    · intro a ha b hb
      have ha1 := hA a ((List.perm_insertionSort _ _).subset ha)
      rcases List.mem_cons.mp hb with e | hb1
      · rw [e]
        exact ha1
      · exact le_trans ha1 (hB b ((List.perm_insertionSort _ _).subset hb1))
  have hp : (vals.insertionSort (· ≤ ·)).Perm ((v.take nth).insertionSort (· ≤ ·)
      ++ x :: (v.drop (nth + 1)).insertionSort (· ≤ ·)) := by
    refine (List.perm_insertionSort _ _).trans (hperm.symm.trans ?_)
    refine List.Perm.trans (List.Perm.of_eq hsplit) ?_
    exact List.Perm.append (List.perm_insertionSort _ _).symm
      (List.Perm.cons x (List.perm_insertionSort _ _).symm)
  rw [List.eq_of_perm_of_sorted hp (List.sorted_insertionSort _ _) hsorted]
  have hl : ((v.take nth).insertionSort (· ≤ ·)).length = nth := by
    rw [List.length_insertionSort, List.length_take]
    omega
  rw [List.getElem?_append_right (by omega), hl, Nat.sub_self]
  exact List.getElem?_cons_zero

/-- The loop of `min_filt` keeps the least element seen. -/
theorem min_filt_loop {P : Type} [LinearOrder P] (vals : List P) :
    ∀ (n s : Nat) (m0 : P), s + n ≤ vals.length → m0 ∈ vals
      → (∀ k, k < s → ∀ y, vals[k]? = some y → m0 ≤ y)
      → ∃ m, (List.range' s n).foldl (fun acc i =>
          match acc, vals[i]? with
          | some min_val, some x => some (if compare min_val x then x else min_val)
          | _, _ => none) (some m0) = some m ∧ m ∈ vals
          ∧ ∀ k, k < s + n → ∀ y, vals[k]? = some y → m ≤ y
  | 0, s, m0, _, hm, h => ⟨m0, rfl, hm, h⟩
  | n + 1, s, m0, hl, hm, h => by
    have hs : s < vals.length := by omega
    rw [List.range'_succ, List.foldl_cons, List.getElem?_eq_getElem hs]
    simp only
    obtain ⟨m, e, hmem, hmin⟩ := min_filt_loop vals n (s + 1)
      (if compare m0 vals[s] then vals[s] else m0) (by omega)
      (by
        by_cases c : compare m0 vals[s] = true
        · rw [if_pos c]
          exact List.getElem_mem hs
        · rw [if_neg c]
          exact hm)
      (by
        intro k hk y hy
        by_cases c : compare m0 vals[s] = true
        · rw [if_pos c]
          have hlt := (compare_iff _ _).mp c
          by_cases hks : k = s
          · subst hks
            rw [List.getElem?_eq_getElem hs] at hy
            cases hy
            exact le_rfl
          · exact le_trans (le_of_lt hlt) (h k (by omega) y hy)
        · rw [if_neg c]
          have hge : m0 ≤ vals[s] := by
            rcases le_or_lt m0 vals[s] with q | q
            · exact q
            · exact absurd ((compare_iff _ _).mpr q) c
          by_cases hks : k = s
          · subst hks
            rw [List.getElem?_eq_getElem hs] at hy
            cases hy
            exact hge
          · exact h k (by omega) y hy)
    exact ⟨m, e, hmem, fun k hk => hmin k (by omega)⟩

/-- The loop of `max_filt` keeps the greatest element seen. -/
theorem max_filt_loop {P : Type} [LinearOrder P] (vals : List P) :
    ∀ (n s : Nat) (m0 : P), s + n ≤ vals.length → m0 ∈ vals
      → (∀ k, k < s → ∀ y, vals[k]? = some y → y ≤ m0)
      → ∃ m, (List.range' s n).foldl (fun acc i =>
          match acc, vals[i]? with
          | some max_val, some x => some (if compare max_val x then max_val else x)
          | _, _ => none) (some m0) = some m ∧ m ∈ vals
          ∧ ∀ k, k < s + n → ∀ y, vals[k]? = some y → y ≤ m
  | 0, s, m0, _, hm, h => ⟨m0, rfl, hm, h⟩
  | n + 1, s, m0, hl, hm, h => by
    have hs : s < vals.length := by omega
    rw [List.range'_succ, List.foldl_cons, List.getElem?_eq_getElem hs]
    simp only
    obtain ⟨m, e, hmem, hmin⟩ := max_filt_loop vals n (s + 1)
      (if compare m0 vals[s] then m0 else vals[s]) (by omega)
      (by
        by_cases c : compare m0 vals[s] = true
        · rw [if_pos c]
          exact hm
        · rw [if_neg c]
          exact List.getElem_mem hs)
      (by
        intro k hk y hy
        by_cases c : compare m0 vals[s] = true
        · rw [if_pos c]
          have hlt := (compare_iff _ _).mp c
          by_cases hks : k = s
          · subst hks
            rw [List.getElem?_eq_getElem hs] at hy
            cases hy
            exact le_of_lt hlt
          · exact h k (by omega) y hy
        · rw [if_neg c]
          have hge : m0 ≤ vals[s] := by
            rcases le_or_lt m0 vals[s] with q | q
            · exact q
            · exact absurd ((compare_iff _ _).mpr q) c
          by_cases hks : k = s
          · subst hks
            rw [List.getElem?_eq_getElem hs] at hy
            cases hy
            exact le_rfl
          · exact le_trans (h k (by omega) y hy) hge)
    exact ⟨m, e, hmem, fun k hk => hmin k (by omega)⟩

/-- Function `min_filt` returns the least element of a non-empty array. -/
theorem min_filt_eq {P : Type} [LinearOrder P] (w : List P) (x : P) (hx : x ∈ w)
    (hmin : ∀ y ∈ w, x ≤ y) (nu : Int) : min_filt w w.length nu = some x := by
  have hpos : 0 < w.length := List.length_pos_of_mem hx
  obtain ⟨m, e, hmem, hm⟩ := min_filt_loop w (w.length - 1) 1 w[0] (by omega)
    (List.getElem_mem hpos)
    (by
      intro k hk y hy
      have : k = 0 := by omega
      subst this
      rw [List.getElem?_eq_getElem hpos] at hy
      cases hy
      exact le_rfl)
  have e1 : min_filt w w.length nu = some m := by
    unfold min_filt
    rw [List.getElem?_eq_getElem hpos]
    exact e
  rw [e1]
  obtain ⟨k, hk, ek⟩ := List.getElem_of_mem hx
  have h1 : m ≤ x := hm k (by omega) x (by rw [← ek]; exact List.getElem?_eq_getElem hk)
  exact congrArg some (le_antisymm h1 (hmin m hmem))

/-- Function `max_filt` returns the greatest element of a non-empty array. -/
theorem max_filt_eq {P : Type} [LinearOrder P] (w : List P) (x : P) (hx : x ∈ w)
    (hmax : ∀ y ∈ w, y ≤ x) (nu : Int) : max_filt w w.length nu = some x := by
  have hpos : 0 < w.length := List.length_pos_of_mem hx
  obtain ⟨m, e, hmem, hm⟩ := max_filt_loop w (w.length - 1) 1 w[0] (by omega)
    (List.getElem_mem hpos)
    (by
      intro k hk y hy
      have : k = 0 := by omega
      subst this
      rw [List.getElem?_eq_getElem hpos] at hy
      cases hy
      exact le_rfl)
  have e1 : max_filt w w.length nu = some m := by
    unfold max_filt
    rw [List.getElem?_eq_getElem hpos]
    exact e
  rw [e1]
  obtain ⟨k, hk, ek⟩ := List.getElem_of_mem hx
  have h1 : x ≤ m := hm k (by omega) x (by rw [← ek]; exact List.getElem?_eq_getElem hk)
  exact congrArg some (le_antisymm (hmax m hmem) h1)

/-- **C31** Order-statistic selection: on an array `vals` of length `len` over a totally
ordered element type and for `nth < len`, `selnth (vals, len, nth)` returns; the value
returned is the element at position `nth` (0-based) of `vals` sorted in ascending order,
and the array is left a permutation of its original contents. For `nth = 0` the value is
the one `min_filt` returns and for `nth = len - 1` the one `max_filt` returns, on the array
as it was and as it is left. -/
theorem selnth_order_statistic {P : Type} [LinearOrder P] (vals : List P) (len nth : Nat)
    (hlen : len = vals.length) (hnth : nth < len) :
    ∃ vals1 x, selnth vals len nth = some (vals1, x)
      ∧ vals1.Perm vals
      ∧ (vals.insertionSort (· ≤ ·))[nth]? = some x
      ∧ (nth = 0 → ∀ nu, min_filt vals len nu = some x ∧ min_filt vals1 len nu = some x)
      ∧ (nth = len - 1
          → ∀ nu, max_filt vals len nu = some x ∧ max_filt vals1 len nu = some x) := by
  subst hlen
  obtain ⟨v, x, e, hperm, hx, hs⟩ := selnth_loop_spec nth vals.length vals 0
    ((vals.length : Int) - 1)
    ⟨fun a b ha _ => absurd ha (Nat.not_lt_zero a),
      fun a b _ hb x y _ hy => by
        rw [List.getElem?_eq_none (by omega)] at hy
        exact absurd hy (by simp),
      Or.inl ⟨Nat.zero_le _, by omega⟩⟩
    hnth (by omega) (by omega) (by omega)
  have hvl : v.length = vals.length := hperm.length_eq
  have hn : nth < v.length := by omega
  have hxe : v[nth] = x := by
    rw [List.getElem?_eq_getElem hn] at hx
    exact Option.some.inj hx
  have hxv : x ∈ v := by
    rw [← hxe]
    exact List.getElem_mem hn
  refine ⟨v, x, e, hperm, settled_sorted_position vals v nth x hperm hs hx, ?_, ?_⟩
  · intro h0 nu
    have hmin : ∀ y ∈ v, x ≤ y := by
      intro y hy
      obtain ⟨k, hk, ek⟩ := List.getElem_of_mem hy
      by_cases hkn : k = nth
      · subst hkn
        rw [← ek, hxe]
      · exact hs.2 k (by omega) x y hx (by rw [← ek]; exact List.getElem?_eq_getElem hk)
    refine ⟨min_filt_eq vals x (hperm.subset hxv)
      (fun y hy => hmin y (hperm.symm.subset hy)) nu, ?_⟩
    rw [← hvl]
    exact min_filt_eq v x hxv hmin nu
  · intro h0 nu
    have hmax : ∀ y ∈ v, y ≤ x := by
      intro y hy
      obtain ⟨k, hk, ek⟩ := List.getElem_of_mem hy
      by_cases hkn : k = nth
      · subst hkn
        rw [← ek, hxe]
      · exact hs.1 k (by omega) y x (by rw [← ek]; exact List.getElem?_eq_getElem hk) hx
    refine ⟨max_filt_eq vals x (hperm.subset hxv)
      (fun y hy => hmax y (hperm.symm.subset hy)) nu, ?_⟩
    rw [← hvl]
    exact max_filt_eq v x hxv hmax nu

theorem selnth_order_statistic_witness :
    (6 = ([5, 3, 9, 1, 7, 3] : List Int).length ∧ 0 < 6)
      ∧ selnth ([5, 3, 9, 1, 7, 3] : List Int) 6 0 = some ([1, 3, 3, 5, 7, 9], 1)
      ∧ ∃ vals1 x, selnth ([5, 3, 9, 1, 7, 3] : List Int) 6 0 = some (vals1, x)
        ∧ vals1.Perm [5, 3, 9, 1, 7, 3]
        ∧ (([5, 3, 9, 1, 7, 3] : List Int).insertionSort (· ≤ ·))[0]? = some x
        ∧ (0 = 0 → ∀ nu, min_filt ([5, 3, 9, 1, 7, 3] : List Int) 6 nu = some x
            ∧ min_filt vals1 6 nu = some x)
        ∧ (0 = 6 - 1 → ∀ nu, max_filt ([5, 3, 9, 1, 7, 3] : List Int) 6 nu = some x
            ∧ max_filt vals1 6 nu = some x) :=
  ⟨⟨rfl, by decide⟩, by decide,
    selnth_order_statistic ([5, 3, 9, 1, 7, 3] : List Int) 6 0 rfl (by decide)⟩

/-! ## The two minimum filters -/

theorem active_from_of_count_zero : ∀ (l : List Bool) (k : Nat), l.count true = 0 →
    active_from k l = []
  | [], _, _ => rfl
  | c :: cs, k, hk => by
    cases c
    · simp only [active_from, Bool.false_eq_true, if_false]
      exact active_from_of_count_zero cs (k + 1) (by simpa using hk)
    · simp at hk

theorem zipWith_add_eq_sub_add : ∀ (p s : List Nat), s.length = p.length →
    List.zipWith (fun a b => a + b) p s = sub_add p s
  | [], [], _ => rfl
  | [], _ :: _, h => by simp at h
  | _ :: _, [], h => by simp at h
  | a :: p, b :: s, h => by
    simp only [List.zipWith_cons_cons, sub_add]
    rw [zipWith_add_eq_sub_add p s (by simpa using h)]

theorem filtering_cells_eq {P : Type} (se : NDArray Bool) (S : NDArray P) (zero : P)
    (hlen : se.data.length = se.dims.prod) (hS : S.dims = se.dims)
    (hz : ∀ i, i < se.dims.prod → S.data[i]? = some zero) (nnz : Nat) :
    ∀ (l : List Bool) (ind found : Nat) (sub : List Nat),
    l = se.data.drop ind →
    found + l.count true = nnz →
    (0 < l.length → sub = ind2sub se.dims ind) →
    filtering_cells se S se.dims nnz l.length sub found
      = some ((active_from ind l).map (fun i => (ind2sub se.dims i, zero))) := by
  intro l
  induction l with
  | nil =>
    intro ind found sub _ hc _
    simp only [List.count_nil, Nat.add_zero] at hc
    simp only [List.length_nil, filtering_cells, active_from, List.map_nil]
    rw [if_neg (by omega)]
  | cons b bs ih =>
    intro ind found sub hl hcount hsub
    have hsub1 := hsub (by simp)
    have hind : ind < se.data.length := by
      by_contra hcon
      rw [List.drop_eq_nil_of_le (by omega)] at hl
      exact absurd hl (by simp)
    have hb : se.data[ind] = b ∧ se.data.drop (ind + 1) = bs := by
      rw [List.drop_eq_getElem_cons hind] at hl
      injection hl with h1 h2
      exact ⟨h1.symm, h2.symm⟩
    have hprod : ind < se.dims.prod := by rw [← hlen]; exact hind
    have hrd : se.data[sub2ind se.dims sub]? = some b := by
      rw [hsub1, sub2ind_ind2sub _ _ hprod, List.getElem?_eq_getElem hind, hb.1]
    have hrS : S.data[sub2ind S.dims sub]? = some zero := by
      rw [hS, hsub1, sub2ind_ind2sub _ _ hprod]
      exact hz ind hprod
    have hnext : 0 < bs.length → increment_index sub se.dims = ind2sub se.dims (ind + 1) := by
      intro hpos
      have : ind + 1 < se.dims.prod := by
        rw [← hlen]
        have h3 := congrArg List.length hb.2
        rw [List.length_drop] at h3
        omega
      rw [hsub1, increment_index_ind2sub _ _ this]
    simp only [List.length_cons, filtering_cells, hrd, hrS]
    cases b with
    | false =>
      simp only [List.count_cons, Bool.false_eq_true, if_false, active_from] at hcount ⊢
      have hc : found + bs.count true = nnz := by simpa using hcount
      by_cases hf : found < nnz
      · rw [if_pos hf]
        exact ih (ind + 1) found _ hb.2.symm hc hnext
      · rw [if_neg hf]
        have h0 : bs.count true = 0 := by omega
        rw [active_from_of_count_zero bs (ind + 1) h0]
        rfl
    | true =>
      have hc : found + 1 + bs.count true = nnz := by
        simp only [List.count_cons, beq_self_eq_true, if_true] at hcount
        omega
      have hf : found < nnz := by omega
      rw [if_pos hf]
      simp only [if_true, active_from, List.map_cons]
      rw [ih (ind + 1) (found + 1) (increment_index sub se.dims) hb.2.symm hc hnext, hsub1]
      rfl

theorem filtering_values_eq {P : Type} (add : P → P → P) (zero : P)
    (hz : ∀ x, add x zero = x) (inp : NDArray P) (hlen : inp.data.length = inp.dims.prod)
    (d : P) (p : List Nat) :
    ∀ (l : List (List Nat)),
      (∀ s ∈ l, s.length = p.length ∧ inBox inp.dims (sub_add p s) = true) →
      filtering_values add inp p (l.map (fun s => (s, zero)))
        = some (l.map (fun s => (inp.get? (sub_add p s)).getD d))
  | [], _ => rfl
  | s :: l, h => by
    obtain ⟨h1, h2⟩ := h s (by simp)
    have hlt := sub2ind_lt _ _ h2
    rw [← hlen] at hlt
    simp only [List.map_cons, filtering_values]
    rw [zipWith_add_eq_sub_add p s h1, List.getElem?_eq_getElem hlt]
    simp only
    rw [filtering_values_eq add zero hz inp hlen d p l (fun s hs => h s (by simp [hs]))]
    simp only [Option.map_some', hz, NDArray.get?, h2, if_true,
      List.getElem?_eq_getElem hlt, Option.getD_some]

theorem filtering_loop_eq {P : Type} (add : P → P → P) (inp : NDArray P)
    (cells : List (List Nat × P)) (f : List P → Nat → Int → Option P) (nnz : Nat)
    (arg4 : Int) (od : List Nat) (g : List Nat → P)
    (hf : ∀ j, j < od.prod → ∃ vals,
      filtering_values add inp (ind2sub od j) cells = some vals
        ∧ f vals nnz arg4 = some (g (ind2sub od j))) :
    ∀ (n k : Nat) (out_sub : List Nat), k + n = od.prod →
      (0 < n → out_sub = ind2sub od k) →
      filtering_loop add inp cells f nnz arg4 od n out_sub
        = some ((List.range' k n).map (fun j => g (ind2sub od j)))
  | 0, _, _, _, _ => rfl
  | n + 1, k, out_sub, hk, hs => by
    have hs1 := hs (by omega)
    obtain ⟨vals, e1, e2⟩ := hf k (by omega)
    simp only [filtering_loop]
    rw [hs1, e1]
    simp only
    rw [e2]
    simp only
    rw [filtering_loop_eq add inp cells f nnz arg4 od g hf n (k + 1) _ (by omega)
      (fun hn => increment_index_ind2sub od k (by omega))]
    rfl

theorem filtering_out_size : ∀ (a b : List Nat), fits_inside a b = true →
    (List.zipWith (fun (x y : Nat) => (x : Int) - (y : Int) + 1) a b).any
        (fun n => decide (n < 0)) = false
      ∧ (List.zipWith (fun (x y : Nat) => (x : Int) - (y : Int) + 1) a b).map Int.toNat
        = out_dims a b
      ∧ b.length = a.length ∧ fits a b = true
  | [], [], _ => ⟨rfl, rfl, rfl, rfl⟩
  | [], _ :: _, h => by simp [fits_inside] at h
  | _ :: _, [], h => by simp [fits_inside] at h
  | a :: as, b :: bs, h => by
    simp only [fits_inside, Bool.and_eq_true, decide_eq_true_eq] at h
    obtain ⟨h1, h2, h3, h4⟩ := filtering_out_size as bs h.2
    refine ⟨?_, ?_, ?_, ?_⟩
    · simp only [List.zipWith_cons_cons, List.any_cons, h1, Bool.or_false,
        decide_eq_false_iff_not]
      omega
    · simp only [List.zipWith_cons_cons, List.map_cons, h2, out_dims]
      congr 2
      omega
    · simp [h3]
    · simp only [fits, Bool.and_eq_true, decide_eq_true_eq]
      exact ⟨by omega, h4⟩

/-- What `do_filtering` returns for a mask that fits inside the array and an all-zero `S`,
when the filter function returns `g p` on the values under the mask at every position `p`
of the output. -/
theorem do_filtering_spec {P : Type} (add : P → P → P) (zero : P)
    (hz : ∀ x, add x zero = x) (A : NDArray P) (hA : A.data.length = A.dims.prod)
    (mask : NDArray Bool) (hm : mask.data.length = mask.dims.prod)
    (hfit : fits_inside A.dims mask.dims = true) (d : P)
    (f : List P → Nat → Int → Option P) (arg4 : Int) (g : List Nat → P)
    (hf : ∀ p, inBox (out_dims A.dims mask.dims) p = true →
      f (((active_from 0 mask.data).map (ind2sub mask.dims)).map
          (fun s => (A.get? (sub_add p s)).getD d)) (mask.data.count true) arg4
        = some (g p)) :
    do_filtering add A mask f (NDArray.filled mask.dims zero) arg4
      = some ⟨out_dims A.dims mask.dims,
          (List.range (out_dims A.dims mask.dims).prod).map
            (fun j => g (ind2sub (out_dims A.dims mask.dims) j))⟩ := by
  obtain ⟨h1, h2, h3, h4⟩ := filtering_out_size A.dims mask.dims hfit
  have hred : redim mask.dims A.dims.length = mask.dims := by
    rw [redim_of_le _ _ (by omega), h3]
    simp
  have hos : (List.range A.dims.length).map (fun i =>
      (A.dims.getD i 0 : Int) - (mask.dims.getD i 0 : Int) + 1)
      = List.zipWith (fun (x y : Nat) => (x : Int) - (y : Int) + 1) A.dims mask.dims :=
    range_map_getD_eq_zipWith (fun (a b : Nat) => (a : Int) - (b : Int) + 1) 0 0
      A.dims.length A.dims mask.dims rfl h3
  have hcells := filtering_cells_eq mask (NDArray.filled mask.dims zero) zero hm rfl
    (by
      intro i hi
      show (List.replicate mask.dims.prod zero)[i]? = some zero
      rw [List.getElem?_replicate, if_pos hi])
    (mask.data.count true) mask.data 0 0 (List.replicate A.dims.length 0) (by simp)
    (by simp) (by intro _; rw [ind2sub_zero, h3])
  have hloop := filtering_loop_eq add A
    ((active_from 0 mask.data).map (fun i => (ind2sub mask.dims i, zero))) f
    (mask.data.count true) arg4 (out_dims A.dims mask.dims) g
    (by
      intro j hj
      have hp := inBox_ind2sub _ j hj
      refine ⟨_, ?_, hf _ hp⟩
      have hmm : (active_from 0 mask.data).map (fun i => (ind2sub mask.dims i, zero))
          = ((active_from 0 mask.data).map (ind2sub mask.dims)).map (fun s => (s, zero)) := by
        rw [List.map_map]
        rfl
      rw [hmm]
      apply filtering_values_eq add zero hz A hA d
      intro s hs
      rw [List.mem_map] at hs
      obtain ⟨i, hi, rfl⟩ := hs
      have hi1 : i < mask.dims.prod := by
        rw [← hm]
        exact active_from_lt _ _ hi
      refine ⟨?_, ?_⟩
      · rw [ind2sub_length, ind2sub_length, out_dims_length, h3]
      · exact inBox_sub_add A.dims mask.dims _ _ (inBox_ind2sub _ i hi1) hp (by omega))
    (out_dims A.dims mask.dims).prod 0 (List.replicate A.dims.length 0) (by omega)
    (by intro _; rw [ind2sub_zero, out_dims_length])
  unfold do_filtering
  simp only [NDArray.ndims, NDArray.numel, hred, hos, h1, h2, Bool.false_eq_true, if_false]
  rw [← hm, hcells]
  simp only
  rw [hloop, List.range_eq_range']
  rfl

/-- Function `min_filt` on a non-empty array returns what folding `min` from a largest
value gives. -/
theorem min_filt_foldl {P : Type} [LinearOrder P] (t : P) (ht : ∀ x : P, x ≤ t) (w : List P)
    (hw : w ≠ []) (n : Nat) (hn : n = w.length) (nu : Int) :
    min_filt w n nu = some (w.foldl min t) := by
  obtain ⟨h1, h2⟩ := foldl_min_isLeast t ht w hw
  rw [hn]
  exact min_filt_eq w _ h1 (fun y hy => h2 hy) nu

/-- Function `max_filt` on a non-empty array returns what folding `max` from a smallest
value gives. -/
theorem max_filt_foldl {P : Type} [LinearOrder P] (b : P) (hb : ∀ x : P, b ≤ x) (w : List P)
    (hw : w ≠ []) (n : Nat) (hn : n = w.length) (nu : Int) :
    max_filt w n nu = some (w.foldl max b) := by
  obtain ⟨h1, h2⟩ := foldl_max_isGreatest b hb w hw
  rw [hn]
  exact max_filt_eq w _ h1 (fun y hy => h2 hy) nu

theorem get?_range_map {P : Type} (od : List Nat) (g : List Nat → P) (p : List Nat)
    (hp : inBox od p = true) :
    (⟨od, (List.range od.prod).map (fun j => g (ind2sub od j))⟩ : NDArray P).get? p
      = some (g p) := by
  have hlt := sub2ind_lt _ _ hp
  unfold NDArray.get?
  simp only [hp, if_true]
  rw [List.getElem?_map, List.getElem?_range hlt]
  simp only [Option.map_some']
  rw [ind2sub_sub2ind _ _ hp]

theorem fits_inside_pos : ∀ (a b : List Nat), fits_inside a b = true → (∀ x ∈ b, 1 ≤ x) →
    ∀ x ∈ a, 1 ≤ x
  | [], [], _, _ => by simp
  | [], _ :: _, h, _ => by simp [fits_inside] at h
  | _ :: _, [], h, _ => by simp [fits_inside] at h
  | a :: as, b :: bs, h, hb => by
    simp only [fits_inside, Bool.and_eq_true, decide_eq_true_eq] at h
    intro x hx
    rcases List.mem_cons.mp hx with e | hx1
    · have := hb b (by simp)
      omega
    · exact fits_inside_pos as bs h.2 (fun y hy => hb y (by simp [hy])) x hx1

section
variable {P H : Type} [LinearOrder P] [Zero H] [DecidableEq H]

/-- **C40** Two implementations of the minimum filter agree: for an array `A` and a mask
with at least two true cells that fits inside `A`, `imerode` with the flat SE built from
the mask and shape "valid" returns the array that `do_filtering` returns with `min_filt` and
the all-zero array `S` of the extents of the mask; and when the mask is symmetric, `imdilate`
with that SE and shape "valid" returns the array that `do_filtering` returns with
`max_filt`. -/
theorem min_filter_implementations_agree (E : ElemType P H) (hE : E.lawful) (zero : P)
    (hz : ∀ x, E.add x zero = x) (A : NDArray P) (hA : A.wf) (mask : NDArray Bool)
    (hm : mask.data.length = mask.dims.prod) (hfit : fits_inside A.dims mask.dims = true)
    (hnnz : 2 ≤ mask.data.count true) (ht : NDArray H)
    (hht : ht.data.length = ht.dims.prod) (hflat : (strel.ctor mask ht).flat = true)
    (arg4 : Int) :
    (∃ out, imerode E A (strel.ctor mask ht) "valid" = some (.ok out)
        ∧ do_filtering E.add A mask min_filt (NDArray.filled mask.dims zero) arg4 = some out)
      ∧ (mask.data.reverse = mask.data →
        ∃ out, imdilate E A (strel.ctor mask ht) "valid" = some (.ok out)
          ∧ do_filtering E.add A mask max_filt (NDArray.filled mask.dims zero) arg4
            = some out) := by
  obtain ⟨-, -, h3, h4⟩ := filtering_out_size A.dims mask.dims hfit
  have hpos := dims_pos_of_count mask hm (by omega)
  have hne : A.is_empty = false := not_empty_of_pos A (fits_inside_pos _ _ hfit hpos)
  have hnd : 1 ≤ A.dims.length := by
    have := hA.1
    omega
  have hlenw : ∀ (p : List Nat) (x : P),
      mask.data.count true = (((active_from 0 mask.data).map (ind2sub mask.dims)).map
        (fun s => (A.get? (sub_add p s)).getD x)).length := by
    intro p x
    rw [List.length_map, List.length_map, active_from_length]
  have hnew : ∀ (p : List Nat) (x : P),
      ((active_from 0 mask.data).map (ind2sub mask.dims)).map
        (fun s => (A.get? (sub_add p s)).getD x) ≠ [] := by
    intro p x hcon
    have := hlenw p x
    rw [hcon] at this
    simp only [List.length_nil] at this
    omega
  refine ⟨?_, ?_⟩
  · obtain ⟨out, ho, hd, hl, hv⟩ := erode_valid_flat E hE A hnd hne
      (strel.ctor_elem mask ht) (ctor_elem_consistent mask ht hm)
      (not_empty_of_pos mask hpos) (by show mask.dims.length ≤ A.dims.length; omega) h4 hflat
    refine ⟨out, by rw [imerode_ctor, ho], ?_⟩
    rw [do_filtering_spec E.add zero hz A hA.2 mask hm hfit E.ofInf min_filt arg4
      (fun p => (((active_from 0 mask.data).map (ind2sub mask.dims)).map
        (fun s => (A.get? (sub_add p s)).getD E.ofInf)).foldl min E.ofInf)
      (fun p _ => min_filt_foldl E.ofInf hE.1 _ (hnew p _) _ (hlenw p _) arg4)]
    congr 1
    symm
    apply NDArray.ext_get? out _ hd hl
    · simp only [List.length_map, List.length_range]
    · intro p hp
      have hg := get?_range_map (out_dims A.dims mask.dims)
        (fun p => (((active_from 0 mask.data).map (ind2sub mask.dims)).map
          (fun s => (A.get? (sub_add p s)).getD E.ofInf)).foldl min E.ofInf) p
        (hd ▸ hp)
      rw [hv p hp]
      exact hg.symm
  · intro hsym
    have hse0 := ctor_consistent mask ht hm
    have hse1 := reflect_elem_consistent (strel.ctor mask ht) hse0
    have hdims : (strel.ctor mask ht).reflect_elem.nhood.dims = mask.dims :=
      reflect_elem_nhood_dims (strel.ctor mask ht) hse0
    have hdata : (strel.ctor mask ht).reflect_elem.nhood.data = mask.data := by
      rw [reflect_elem_nhood_data (strel.ctor mask ht) hse0]
      exact hsym
    have hflat1 : (strel.ctor mask ht).reflect_elem.flat = true :=
      reflect_elem_flat (strel.ctor mask ht) hht hflat
    have hnnz1 : (strel.ctor mask ht).reflect_elem.nnz ≠ 1 := by
      rw [hse1.nnz_eq, hdata]
      omega
    have hact : (strel.ctor mask ht).reflect_elem.active
        = (active_from 0 mask.data).map (ind2sub mask.dims) := by
      unfold strel.active
      rw [hdata, hdims]
    have hdim1 : (strel.ctor mask ht).reflect_elem.nhood.dims.length ≤ A.dims.length := by
      rw [hdims]
      omega
    have hnh1 : (strel.ctor mask ht).reflect_elem.get_nhood.is_empty = false :=
      not_empty_of_pos _ (by
        show ∀ b ∈ (strel.ctor mask ht).reflect_elem.nhood.dims, 1 ≤ b
        rw [hdims]
        exact hpos)
    obtain ⟨out, ho, hd, hv⟩ := erode_valid E hE A hnd hne (strel.ctor mask ht).reflect_elem
      hse1 hnh1 hdim1 (by rw [hdims]; exact h4) false (fun _ => hflat1)
    have hl : out.data.length = out.dims.prod :=
      erode_padded_length E A hnd (strel.ctor mask ht).reflect_elem hdim1 false out
        (by rw [← erode_valid_eq_padded E A _ false hne hnh1]; exact ho)
    rw [hdims] at hd
    refine ⟨out, by rw [imdilate_eq E A _ hse0 (ctor_origin_ok mask ht hpos), ho], ?_⟩
    rw [do_filtering_spec E.add zero hz A hA.2 mask hm hfit E.ofInf max_filt arg4
      (fun p => (((active_from 0 mask.data).map (ind2sub mask.dims)).map
        (fun s => (A.get? (sub_add p s)).getD E.ofInf)).foldl max (E.padval false))
      (fun p _ => max_filt_foldl (E.padval false) (padval_le E hE) _ (hnew p _) _
        (hlenw p _) arg4)]
    congr 1
    symm
    apply NDArray.ext_get? out _ hd hl
    · simp only [List.length_map, List.length_range]
    · intro p hp
      have hg := get?_range_map (out_dims A.dims mask.dims)
        (fun p => (((active_from 0 mask.data).map (ind2sub mask.dims)).map
          (fun s => (A.get? (sub_add p s)).getD E.ofInf)).foldl max (E.padval false)) p
        (by rw [← hd]; exact hp)
      rw [hv p hp, if_neg hnnz1, hg, hflat1]
      unfold sweep_value cell_values
      rw [hact]
      simp

set_option maxRecDepth 1000000 in
theorem min_filter_implementations_agree_witness :
    (imerode uint8Elem a10 (strel.ctor nh_ones3 ht_zeros3) "valid" = some (.ok a10_min3)
      ∧ do_filtering uint8Elem.add a10 nh_ones3 min_filt (NDArray.filled nh_ones3.dims 0) 0
        = some a10_min3
      ∧ imdilate uint8Elem a10 (strel.ctor nh_ones3 ht_zeros3) "valid" = some (.ok a10_max3)
      ∧ do_filtering uint8Elem.add a10 nh_ones3 max_filt (NDArray.filled nh_ones3.dims 0) 0
        = some a10_max3)
    ∧ (∃ out, imerode uint8Elem a10 (strel.ctor nh_ones3 ht_zeros3) "valid" = some (.ok out)
        ∧ do_filtering uint8Elem.add a10 nh_ones3 min_filt (NDArray.filled nh_ones3.dims 0) 0
          = some out)
    ∧ (nh_ones3.data.reverse = nh_ones3.data →
        ∃ out, imdilate uint8Elem a10 (strel.ctor nh_ones3 ht_zeros3) "valid" = some (.ok out)
          ∧ do_filtering uint8Elem.add a10 nh_ones3 max_filt (NDArray.filled nh_ones3.dims 0) 0
            = some out) :=
  ⟨⟨by decide, by decide, by decide, by decide⟩,
    min_filter_implementations_agree uint8Elem uint8Elem_lawful 0
      (by
        intro x
        show (if h : x.val + 0 < 256 then (⟨x.val + 0, h⟩ : Fin 256) else 255) = x
        rw [dif_pos (by omega)]
        rfl)
      a10 (by decide) nh_ones3 (by decide) (by decide) (by decide) ht_zeros3 (by decide)
      (by decide) 0⟩

end

end Machinel
